import Mathlib

/-!
# The compiled-translation (QM) codec of Qt Linguist

A shallow embedding of `src/linguist/shared/qm.cpp`: the reader `loadQM`, the
writer `Releaser` (`insert`, `squeeze`, `save`) and the driver `saveQM`,
followed by theorems about them.

Conventions of the embedding.

* A byte is a `Fin 256`, a UTF-16 code unit a `Fin 65536`; 32-bit unsigned
  values are natural numbers reduced modulo `2 ^ 32` where the source
  truncates them.
* A pointer into the input buffer is the natural-number offset from the start
  of the buffer; the null pointer is `none`.
* Functions that read memory return an `Option`; `none` stands for an
  execution that leaves the embedding: a read outside the `len` bytes of the
  input (this includes a dereference of the null pointer), or a string
  constructed with a negative element count.  Nothing is claimed about what
  the C++ program does afterwards.
* Loops are iterations of a loop-body function, bounded by a fuel that is
  large enough for every execution that stays inside the buffer.
* Services of the Qt library that the translation unit calls but does not
  define (the UTF-8 codec, `QDataStream >> QString`, the plural-rule table)
  are the fields of a parameter `Env`.
-/

namespace QM

/-! ## Basic types -/

abbrev Byte := Fin 256

abbrev QChar := Fin 65536

abbrev QByteArray := List Byte

/-- A `QString`: either the null string or a sequence of UTF-16 code units.
`QDataStream` serialises the two kinds of empty string differently. -/
inductive QString where
  | null
  | str (units : List QChar)
  deriving DecidableEq, Repr

/-- The code units of a string; the null string has none. -/
def QString.units : QString → List QChar
  | .null => []
  | .str us => us

/-- `QString::isEmpty`: true for the null string and for the empty string. -/
def QString.isEmpty (s : QString) : Bool := s.units.isEmpty

/-- `QString::operator+`: the sum of two null strings is null. -/
def QString.append : QString → QString → QString
  | .null, .null => .null
  | a, b => .str (a.units ++ b.units)

/-- `QString::contains(const QString &)`, on code units. -/
def containsUnits (needle : List QChar) : List QChar → Bool
  | [] => needle.isEmpty
  | c :: cs => needle.isPrefixOf (c :: cs) || containsUnits needle cs

/-- Services of the Qt library used by `qm.cpp` and not defined by it. -/
structure Env where
  /-- `QString::toUtf8` on the code units of a non-empty string. -/
  toUtf8 : List QChar → QByteArray
  /-- `QStringDecoder(Utf8, Stateless)` applied to a byte range: the decoded
  string and `hasError()`. -/
  fromUtf8 : QByteArray → QString × Bool
  /-- The loop `while (!stream.atEnd()) { stream >> dep; ... }` over a
  `QDataStream` on the given bytes: the strings extracted. -/
  readStrings : QByteArray → List QString
  /-- The functions `Translator::languageAndCountry` and `getNumerusInfo`
  combined: for a language code, `none` when `getNumerusInfo` returns false,
  else the numerus rules and the number of numerus forms. -/
  numerusInfo : QString → Option (QByteArray × Nat)

/-! ## Messages, translator, conversion data -/

/-- Modelled from the spec: `TranslatorMessage::Type` of `translatormessage.h`,
the lifecycle state of an entry. -/
inductive MessageType where
  | Unfinished
  | Finished
  | Vanished
  | Obsolete
  deriving DecidableEq, Repr

/-- Modelled from the spec: the class `TranslatorMessage` of
`translatormessage.h` (the spec's TranslationEntry), with the fields that
`qm.cpp` reads or sets. -/
structure TranslatorMessage where
  id : QString
  context : QString
  sourceText : QString
  comment : QString
  translations : List QString
  type : MessageType
  plural : Bool
  deriving DecidableEq, Repr

/-- `TranslatorMessage::translation()`: the first translation, or a null
string. -/
def TranslatorMessage.translation (m : TranslatorMessage) : QString :=
  m.translations.headD .null

/-- Modelled from the spec: the class `Translator` of `translator.h` (the
spec's Catalog), with the members that `qm.cpp` reads or sets. -/
structure Translator where
  messages : List TranslatorMessage
  languageCode : QString
  dependencies : List QString
  deriving DecidableEq, Repr

def Translator.append (t : Translator) (m : TranslatorMessage) : Translator :=
  { t with messages := t.messages ++ [m] }

def Translator.setLanguageCode (t : Translator) (l : QString) : Translator :=
  { t with languageCode := l }

def Translator.setDependencies (t : Translator) (d : List QString) : Translator :=
  { t with dependencies := d }

/-- The save modes of `TranslatorSaveMode`. -/
inductive TranslatorSaveMode where
  | SaveEverything
  | SaveStripped
  deriving DecidableEq, Repr

/-- The messages that `qm.cpp` hands to `ConversionData::appendError`. -/
inductive ErrorMessage where
  /-- "QM-Format error: magic marker missing" -/
  | magicMissing
  /-- "QM-Format error" -/
  | formatError
  /-- "Error: File contains invalid UTF-8 sequences." -/
  | invalidUtf8
  /-- "Dropped %n message(s) which had no ID." -/
  | missingIds (n : Nat)
  /-- "Excess context/disambiguation dropped from %n message(s)." -/
  | droppedData (n : Nat)
  /-- "Generated %n translation(s) (%1 finished and %2 unfinished)" -/
  | generated (n finished unfinished : Nat)
  /-- "Ignored %n untranslated source text(s)" -/
  | ignoredUntranslated (n : Nat)
  deriving DecidableEq, Repr

/-- Modelled from the spec: the class `ConversionData` of `translator.h`, with
the members that `qm.cpp` reads, and the list of error messages appended so
far. -/
structure ConversionData where
  m_idBased : Bool
  m_unTrPrefix : QString
  m_saveMode : TranslatorSaveMode
  m_ignoreUnfinished : Bool
  m_verbose : Bool
  m_errors : List ErrorMessage
  deriving DecidableEq, Repr

def ConversionData.appendError (cd : ConversionData) (e : ErrorMessage) : ConversionData :=
  { cd with m_errors := cd.m_errors ++ [e] }

/-! ## Format constants -/

abbrev MagicLength : Nat := 16

def magic : QByteArray :=
  [0x3c, 0xb8, 0x64, 0x18, 0xca, 0xef, 0x9c, 0x95,
   0xcd, 0x21, 0x1c, 0xbf, 0x60, 0xa1, 0xbd, 0xdd]

abbrev Tag_End : Byte := 1
abbrev Tag_SourceText16 : Byte := 2
abbrev Tag_Translation : Byte := 3
abbrev Tag_Context16 : Byte := 4
abbrev Tag_Obsolete1 : Byte := 5
abbrev Tag_SourceText : Byte := 6
abbrev Tag_Context : Byte := 7
abbrev Tag_Comment : Byte := 8
abbrev Tag_Obsolete2 : Byte := 9

abbrev NoPrefix : Nat := 0
abbrev Hash : Nat := 1
abbrev HashContext : Nat := 2
abbrev HashContextSourceText : Nat := 3
abbrev HashContextSourceTextComment : Nat := 4

abbrev Contexts : Byte := 0x2f
abbrev Hashes : Byte := 0x42
abbrev Messages : Byte := 0x69
abbrev NumerusRules : Byte := 0x88
abbrev Dependencies : Byte := 0x96
abbrev Language : Byte := 0xa7

/-! ## Reading primitives -/

/-- `read8`: the byte at offset `p`, `none` outside the buffer. -/
def read8 (ba : QByteArray) (p : Nat) : Option Byte := ba[p]?

/-- `read32`: the big-endian 32-bit value at offset `p`, `none` when one of
the four bytes is outside the buffer. -/
def read32 (ba : QByteArray) (p : Nat) : Option Nat :=
  match ba[p]?, ba[p + 1]?, ba[p + 2]?, ba[p + 3]? with
  | some b0, some b1, some b2, some b3 =>
    some (b0.val * 16777216 + b1.val * 65536 + b2.val * 256 + b3.val)
  | _, _, _, _ => none

/-- The `n` bytes at offset `p`, `none` when they do not all lie inside the
buffer. -/
def bytesAt (ba : QByteArray) (p n : Nat) : Option QByteArray :=
  if p + n ≤ ba.length then some ((ba.drop p).take n) else none

/-- The code units of a big-endian UTF-16 byte sequence of even length (the
constructor `QString(const QChar *, len / 2)` followed by the byte swap of a
little-endian host). -/
def utf16be : List Byte → List QChar
  | hi :: lo :: rest =>
    ⟨hi.val * 256 + lo.val, by have := hi.isLt; have := lo.isLt; omega⟩ :: utf16be rest
  | _ => []

/-- `fromBytes`: decodes `len` bytes at `m`; the second component is the value
stored into `*utf8Fail`. -/
def fromBytes (env : Env) (ba : QByteArray) (m len : Nat) : Option (QString × Bool) :=
  if len < 2147483648 then (bytesAt ba m len).map env.fromUtf8 else none

/-! ## The reader: `loadQM` -/

/-- The locals of `loadQM` that the top-level block scan sets. -/
structure ScanState where
  messageArray : Option Nat
  offsetArray : Option Nat
  offsetLength : Nat
  ok : Bool
  utf8Fail : Bool
  translator : Translator
  deriving DecidableEq, Repr

/-- The outcome of one iteration of the block scan: the loop is left by
`break`, or goes on at a new value of `data`. -/
inductive ScanStep where
  | stop (st : ScanState)
  | next (data : Nat) (st : ScanState)
  deriving DecidableEq, Repr

/-- The body of `while (data < end - 4)` (lines 459-492), entered at `data`.
A block that passes the bound check lies inside the buffer, so the string
stream of `Dependencies` and the `fromBytes` of `Language` get exactly the
bytes `payload`. -/
def scanBlock (env : Env) (ba : QByteArray) (data : Nat) (st : ScanState) : Option ScanStep := do
  let tag ← read8 ba data
  let blockLen ← read32 ba (data + 1)
  let data := data + 5
  if tag = 0 ∨ blockLen = 0 then
    return .stop st
  if data + blockLen > ba.length then
    return .stop { st with ok := false }
  let payload := (ba.drop data).take blockLen
  let st :=
    if tag = Hashes then
      { st with offsetArray := some data, offsetLength := blockLen }
    else if tag = Messages then
      { st with messageArray := some data }
    else if tag = Dependencies then
      { st with translator := st.translator.setDependencies (env.readStrings payload) }
    else if tag = Language then
      let r := env.fromUtf8 payload
      { st with utf8Fail := r.2, translator := st.translator.setLanguageCode r.1 }
    else st
  return .next (data + blockLen) st

/-- The loop `while (data < end - 4)`; `end - 4` does not underflow because the
buffer holds the magic. -/
def scanLoop (env : Env) (ba : QByteArray) : Nat → Nat → ScanState → Option ScanState
  | 0, _, _ => none
  | fuel + 1, data, st =>
    if data + 4 < ba.length then
      match scanBlock env ba data st with
      | none => none
      | some (.stop st) => some st
      | some (.next data st) => scanLoop env ba fuel data st
    else some st

/-- The locals of `loadQM` that persist from one message record to the next. -/
structure DecodeState where
  context : QString
  sourcetext : QString
  comment : QString
  translations : List QString
  utf8Fail : Bool
  deriving DecidableEq, Repr

/-- The outcome of one iteration of the field loop `for (;;)`: `goto end`, the
`return false` of an odd Translation length, or the next iteration at a new
value of `m`. -/
inductive FieldStep where
  | endTag (st : DecodeState)
  | formatError
  | next (m : Nat) (st : DecodeState)
  deriving DecidableEq, Repr

/-- The body of the field loop (lines 518-579), entered at `m`. -/
def decodeField (env : Env) (ba : QByteArray) (m : Nat) (st : DecodeState) : Option FieldStep := do
  let tag ← read8 ba m
  let m := m + 1
  if tag = Tag_End then
    return .endTag st
  else if tag = Tag_Translation then
    let len ← read32 ba m
    let m := m + 4
    if len ≠ 0xFFFFFFFF ∧ len % 2 = 1 then
      return .formatError
    if len = 0xFFFFFFFF then
      -- `str` stays null and `m += len` steps back by one byte
      return .next (m - 1) { st with translations := st.translations ++ [.null] }
    if len ≥ 2147483648 then
      none
    else
      let bytes ← bytesAt ba m len
      return .next (m + len) { st with translations := st.translations ++ [.str (utf16be bytes)] }
  else if tag = Tag_Obsolete1 then
    return .next (m + 4) st
  else if tag = Tag_SourceText then
    let len ← read32 ba m
    let m := m + 4
    let r ← fromBytes env ba m len
    return .next (m + len) { st with sourcetext := r.1, utf8Fail := r.2 }
  else if tag = Tag_Context then
    let len ← read32 ba m
    let m := m + 4
    let r ← fromBytes env ba m len
    return .next (m + len) { st with context := r.1, utf8Fail := r.2 }
  else if tag = Tag_Comment then
    let len ← read32 ba m
    let m := m + 4
    let r ← fromBytes env ba m len
    return .next (m + len) { st with comment := r.1, utf8Fail := r.2 }
  else
    return .next m st

/-- How the field loop is left. -/
inductive RecordResult where
  | ended (st : DecodeState)
  | formatError
  deriving DecidableEq, Repr

/-- The field loop `for (;;)` of one record. Every iteration reads the byte at
`m` and leaves `m` larger, so a fuel of at least `ba.length - m` is never
used up before a read outside the buffer. -/
def decodeRecord (env : Env) (ba : QByteArray) : Nat → Nat → DecodeState → Option RecordResult
  | 0, _, _ => none
  | fuel + 1, m, st =>
    match decodeField env ba m st with
    | none => none
    | some (.endTag st) => some (.ended st)
    | some .formatError => some .formatError
    | some (.next m st) => decodeRecord env ba fuel m st

/-- The code unit sequence of `QLatin1String("%n")`. -/
def strProN : List QChar := [0x25, 0x6e]

/-- Lines 582-598: the message built from the locals after `end:`. -/
def makeMessage (guessPlurals : Bool) (st : DecodeState) : TranslatorMessage :=
  { id := .null
    context := st.context
    sourceText := st.sourcetext
    comment := st.comment
    translations := st.translations
    type := .Finished
    plural :=
      if st.translations.length > 1 then true
      else if guessPlurals then containsUnits strProN st.sourcetext.units
      else false }

/-- How the loop over the (hash, offset) pairs is left. -/
inductive MessagesResult where
  | completed (st : DecodeState) (translator : Translator)
  | formatError (translator : Translator)
  deriving DecidableEq, Repr

/-- The loop `for (start = offsetArray; ...; start += 8)` with `n` pairs left
to visit. -/
def messageLoop (env : Env) (ba : QByteArray) (guessPlurals : Bool) (messageArray : Option Nat) :
    Nat → Nat → DecodeState → Translator → Option MessagesResult
  | 0, _, st, translator => some (.completed st translator)
  | n + 1, start, st, translator => do
    let ro ← read32 ba (start + 4)
    let base ← messageArray
    match ← decodeRecord env ba ba.length (base + ro) st with
    | .formatError => some (.formatError translator)
    | .ended st =>
      messageLoop env ba guessPlurals messageArray n (start + 8)
        { st with translations := [] } (translator.append (makeMessage guessPlurals st))

/-- What `loadQM` leaves behind when it returns. -/
structure LoadResult where
  ok : Bool
  translator : Translator
  cd : ConversionData
  deriving DecidableEq, Repr

/-- Lines 499-506: whether plural forms are guessed from "%n". -/
def guessPlurals (env : Env) (translator : Translator) : Bool :=
  match env.numerusInfo translator.languageCode with
  | some (_, forms) => forms == 1
  | none => true

/-- The locals of `loadQM` when the block scan starts (lines 448-453). -/
def ScanState.init (translator : Translator) : ScanState :=
  { messageArray := none, offsetArray := none, offsetLength := 0,
    ok := true, utf8Fail := false, translator := translator }

/-- The string locals of `loadQM` when the message loop starts (lines 508-509),
with the value `utf8Fail` has at that point. -/
def DecodeState.init (utf8Fail : Bool) : DecodeState :=
  { context := .null, sourcetext := .null, comment := .null, translations := [],
    utf8Fail := utf8Fail }

/-- Lines 496-604 of `loadQM`: the message loop and the return, from the state
`s` left by the block scan. -/
def loadMessages (env : Env) (ba : QByteArray) (cd : ConversionData) (s : ScanState) :
    Option LoadResult := do
  let numItems := s.offsetLength / 8
  let r ← messageLoop env ba (guessPlurals env s.translator) s.messageArray numItems
    (s.offsetArray.getD 0) (DecodeState.init s.utf8Fail) s.translator
  match r with
  | .formatError translator =>
    some { ok := false, translator := translator, cd := cd.appendError .formatError }
  | .completed st translator =>
    if st.utf8Fail then
      some { ok := false, translator := translator, cd := cd.appendError .invalidUtf8 }
    else
      some { ok := s.ok, translator := translator, cd := cd }

/-- `loadQM` on the bytes `ba` returned by `dev.readAll()`. -/
def loadQM (env : Env) (translator : Translator) (ba : QByteArray) (cd : ConversionData) :
    Option LoadResult :=
  if ba.length < MagicLength ∨ ba.take MagicLength ≠ magic then
    some { ok := false, translator := translator, cd := cd.appendError .magicMissing }
  else do
    let s ← scanLoop env ba ba.length MagicLength (ScanState.init translator)
    loadMessages env ba cd s

/-- The block scan entered at `data` in state `st` comes to the loop test at
`data'` in state `st'`. -/
inductive ScanReach (env : Env) (ba : QByteArray) : Nat → ScanState → Nat → ScanState → Prop where
  | refl (data : Nat) (st : ScanState) : ScanReach env ba data st data st
  | step {data d1 d2 : Nat} {st s1 s2 : ScanState} :
      data + 4 < ba.length → scanBlock env ba data st = some (.next d1 s1) →
      ScanReach env ba d1 s1 d2 s2 → ScanReach env ba data st d2 s2

/-- The field loop entered at `m` in state `st` comes to the top of an
iteration at `m'` in state `st'`. -/
inductive FieldReach (env : Env) (ba : QByteArray) : Nat → DecodeState → Nat → DecodeState → Prop where
  | refl (m : Nat) (st : DecodeState) : FieldReach env ba m st m st
  | step {m m1 m2 : Nat} {st st1 st2 : DecodeState} :
      decodeField env ba m st = some (.next m1 st1) →
      FieldReach env ba m1 st1 m2 st2 → FieldReach env ba m st m2 st2

/-- The locals of the message loop at the top of an iteration. -/
structure LoopState where
  /-- The number of pairs not yet visited. -/
  left : Nat
  start : Nat
  st : DecodeState
  translator : Translator
  deriving DecidableEq, Repr

/-- The message loop entered in state `a` comes to the top of an iteration in
state `b`. -/
inductive LoopReach (env : Env) (ba : QByteArray) (guess : Bool) (messageArray : Option Nat) :
    LoopState → LoopState → Prop where
  | refl (a : LoopState) : LoopReach env ba guess messageArray a a
  | step {n start ro base : Nat} {st st1 : DecodeState} {translator : Translator} {b : LoopState} :
      read32 ba (start + 4) = some ro → messageArray = some base →
      decodeRecord env ba ba.length (base + ro) st = some (.ended st1) →
      LoopReach env ba guess messageArray
        ⟨n, start + 8, { st1 with translations := [] }, translator.append (makeMessage guess st1)⟩ b →
      LoopReach env ba guess messageArray ⟨n + 1, start, st, translator⟩ b

/-! ## Hashing and the writer's records -/

/-- One iteration of the loop of `elfHash`, on 32-bit unsigned values. -/
def elfHashStep (h : Nat) (k : Byte) : Nat :=
  let h := (h * 16 + k.val) % 4294967296
  let g := h &&& 0xf0000000
  let h := if g ≠ 0 then h ^^^ (g >>> 24) else h
  h &&& (4294967295 - g)

/-- The loop `while (*k)` of `elfHash`: it stops at the first zero byte, or at
the terminator that follows the last byte of a `QByteArray`. -/
def elfHashLoop : Nat → List Byte → Nat
  | h, [] => h
  | h, k :: ks => if k = 0 then h else elfHashLoop (elfHashStep h k) ks

def elfHash (ba : QByteArray) : Nat :=
  let h := elfHashLoop 0 ba
  if h = 0 then 1 else h

/-- `operator<` of `QByteArray`: the order of `memcmp` on unsigned bytes, a
proper prefix coming first. -/
def qbaLt : QByteArray → QByteArray → Bool
  | [], [] => false
  | [], _ :: _ => true
  | _ :: _, [] => false
  | a :: as, b :: bs => if a < b then true else if b < a then false else qbaLt as bs

structure ByteTranslatorMessage where
  m_context : QByteArray
  m_sourcetext : QByteArray
  m_comment : QByteArray
  m_translations : List QString
  deriving DecidableEq, Repr

/-- `ByteTranslatorMessage::operator<`. -/
def ByteTranslatorMessage.lt (a m : ByteTranslatorMessage) : Bool :=
  if a.m_context ≠ m.m_context then qbaLt a.m_context m.m_context
  else if a.m_sourcetext ≠ m.m_sourcetext then qbaLt a.m_sourcetext m.m_sourcetext
  else qbaLt a.m_comment m.m_comment

/-- `Releaser::Offset`. -/
structure Offset where
  h : Nat
  o : Nat
  deriving DecidableEq, Repr

/-- `Offset::operator<`. -/
def Offset.lt (a other : Offset) : Bool :=
  if a.h ≠ other.h then a.h < other.h else a.o < other.o

/-- `QMap::insert` on the keys of a map, kept in ascending order of `lt`: a
key equivalent to a stored key leaves the stored key in place (only the mapped
value, which `qm.cpp` never reads, is replaced). -/
def qmapInsert {α : Type} (lt : α → α → Bool) (k : α) : List α → List α
  | [] => [k]
  | x :: xs =>
    if lt k x then k :: x :: xs
    else if lt x k then x :: qmapInsert lt k xs
    else x :: xs

/-- `QMap::contains` on the keys of a map. -/
def qmapContains {α : Type} (lt : α → α → Bool) (k : α) (keys : List α) : Bool :=
  keys.any (fun x => !lt x k && !lt k x)

/-- `QMultiMap::insert` on the items of a multi-map, kept in ascending order of
the key: an item is placed before the stored items with the same key. -/
def qmultimapInsert {β : Type} (k : Nat) (v : β) : List (Nat × β) → List (Nat × β)
  | [] => [(k, v)]
  | x :: xs => if x.1 < k then x :: qmultimapInsert k v xs else (k, v) :: x :: xs

/-! ## Writing primitives (`QDataStream`, big-endian) -/

def toByte (n : Nat) : Byte := ⟨n % 256, Nat.mod_lt _ (by decide)⟩

/-- `stream << quint16`. -/
def write16 (n : Nat) : QByteArray := [toByte (n / 256), toByte n]

/-- `stream << quint32`. -/
def write32 (n : Nat) : QByteArray :=
  [toByte (n / 16777216), toByte (n / 65536), toByte (n / 256), toByte n]

/-- The two bytes of a code unit in big-endian order. -/
def unitBytes (u : QChar) : List Byte := [toByte (u.val / 256), toByte u.val]

/-- `stream << QString`: the marker 0xFFFFFFFF for a null string, else the
length in bytes followed by the code units in big-endian order. -/
def writeQString : QString → QByteArray
  | .null => [0xff, 0xff, 0xff, 0xff]
  | .str us => write32 (2 * us.length) ++ us.flatMap unitBytes

/-- `stream << QByteArray` for a byte array that is not null (no byte array of
the `Releaser` is): the length followed by the bytes. -/
def writeQByteArray (b : QByteArray) : QByteArray := write32 b.length ++ b

/-! ## The writer: `Releaser` -/

structure Releaser where
  m_language : QString
  m_messageArray : QByteArray
  m_offsetArray : QByteArray
  m_contextArray : QByteArray
  /-- The keys of the map `m_messages`, in ascending order. -/
  m_messages : List ByteTranslatorMessage
  m_numerusRules : QByteArray
  m_dependencies : List QString
  m_dependencyArray : QByteArray
  deriving DecidableEq, Repr

/-- The constructor `Releaser(const QString &language)`. -/
def Releaser.new (language : QString) : Releaser :=
  { m_language := language, m_messageArray := [], m_offsetArray := [], m_contextArray := [],
    m_messages := [], m_numerusRules := [], m_dependencies := [], m_dependencyArray := [] }

/-- `Releaser::originalBytes`. -/
def originalBytes (env : Env) (s : QString) : QByteArray :=
  if s.isEmpty then [] else env.toUtf8 s.units

/-- `Releaser::msgHash`. -/
def msgHash (msg : ByteTranslatorMessage) : Nat :=
  elfHash (msg.m_sourcetext ++ msg.m_comment)

/-- `Releaser::commonPrefix`. -/
def commonPrefix (m1 m2 : ByteTranslatorMessage) : Nat :=
  if msgHash m1 ≠ msgHash m2 then NoPrefix
  else if m1.m_context ≠ m2.m_context then Hash
  else if m1.m_sourcetext ≠ m2.m_sourcetext then HashContext
  else if m1.m_comment ≠ m2.m_comment then HashContextSourceText
  else HashContextSourceTextComment

/-- The fields written by the `switch (prefix)` of `writeMessage`, whose cases
fall through. -/
def writeFields (msg : ByteTranslatorMessage) (pfx : Nat) : QByteArray :=
  if pfx = HashContext then
    Tag_Context :: writeQByteArray msg.m_context
  else if pfx = HashContextSourceText then
    (Tag_SourceText :: writeQByteArray msg.m_sourcetext)
      ++ (Tag_Context :: writeQByteArray msg.m_context)
  else
    (Tag_Comment :: writeQByteArray msg.m_comment)
      ++ (Tag_SourceText :: writeQByteArray msg.m_sourcetext)
      ++ (Tag_Context :: writeQByteArray msg.m_context)

/-- `Releaser::writeMessage`: the bytes appended to the stream. -/
def writeMessage (msg : ByteTranslatorMessage) (mode : TranslatorSaveMode) (pfx : Nat) :
    QByteArray :=
  msg.m_translations.flatMap (fun t => Tag_Translation :: writeQString t)
    ++ writeFields msg (if mode = .SaveEverything then HashContextSourceTextComment else pfx)
    ++ [Tag_End]

/-- `Releaser::insert`, on the strings of the message. -/
def Releaser.insert (env : Env) (r : Releaser) (message : TranslatorMessage)
    (tlns : List QString) (forceComment : Bool) : Releaser :=
  let bmsg : ByteTranslatorMessage :=
    { m_context := originalBytes env message.context
      m_sourcetext := originalBytes env message.sourceText
      m_comment := originalBytes env message.comment
      m_translations := tlns }
  let bmsg2 : ByteTranslatorMessage := { bmsg with m_comment := [] }
  if !forceComment && !qmapContains ByteTranslatorMessage.lt bmsg2 r.m_messages then
    { r with m_messages := qmapInsert ByteTranslatorMessage.lt bmsg2 r.m_messages }
  else
    { r with m_messages := qmapInsert ByteTranslatorMessage.lt bmsg r.m_messages }

/-- `Releaser::insertIdBased`. -/
def Releaser.insertIdBased (env : Env) (r : Releaser) (message : TranslatorMessage)
    (tlns : List QString) : Releaser :=
  let bmsg : ByteTranslatorMessage :=
    { m_context := [], m_sourcetext := originalBytes env message.id, m_comment := [],
      m_translations := tlns }
  { r with m_messages := qmapInsert ByteTranslatorMessage.lt bmsg r.m_messages }

def Releaser.setNumerusRules (r : Releaser) (rules : QByteArray) : Releaser :=
  { r with m_numerusRules := rules }

def Releaser.setDependencies (r : Releaser) (dependencies : List QString) : Releaser :=
  { r with m_dependencies := dependencies }

/-- One top-level block: the tag, the 32-bit length, the payload. -/
def writeBlock (tag : Byte) (payload : QByteArray) : QByteArray :=
  tag :: write32 payload.length ++ payload

/-- A block of `Releaser::save`, written when its payload is not empty. -/
def saveBlock (tag : Byte) (payload : QByteArray) : QByteArray :=
  if payload.isEmpty then [] else writeBlock tag payload

/-- `Releaser::save`: the bytes written to the device (the function returns
true on every path). -/
def Releaser.save (env : Env) (r : Releaser) : QByteArray :=
  magic
    ++ (if r.m_language.isEmpty then [] else writeBlock Language (originalBytes env r.m_language))
    ++ saveBlock Dependencies r.m_dependencyArray
    ++ saveBlock Hashes r.m_offsetArray
    ++ saveBlock Messages r.m_messageArray
    ++ saveBlock Contexts r.m_contextArray
    ++ saveBlock NumerusRules r.m_numerusRules

/-- The message loop of `Releaser::squeeze` (lines 283-293): `cpNext` is the
value left by the previous iteration, `offsets` the keys of the map `offsets`,
`ms` the bytes written to `m_messageArray` so far. The device position is
narrowed to the 32 bits of `Offset::o`. -/
def squeezeMessages (mode : TranslatorSaveMode) :
    List ByteTranslatorMessage → Nat → List Offset → QByteArray → List Offset × QByteArray
  | [], _, offsets, ms => (offsets, ms)
  | it :: rest, cpNext, offsets, ms =>
    let cpPrev := cpNext
    let cpNext :=
      match rest with
      | [] => 0
      | next :: _ => commonPrefix it next
    let offsets := qmapInsert Offset.lt ⟨msgHash it, ms.length % 4294967296⟩ offsets
    let ms := ms ++ writeMessage it mode (max cpPrev (cpNext + 1))
    squeezeMessages mode rest cpNext offsets ms

/-- Lines 295-301: the offset array. -/
def writeOffsets (offsets : List Offset) : QByteArray :=
  offsets.flatMap (fun k => write32 k.h ++ write32 k.o)

/-- Lines 308-314: the size of the context hash table, stored in a `quint16`. -/
def hTableSizeFor (n : Nat) : Nat :=
  (if n < 200 then (if n < 60 then 151 else 503)
   else if n < 2500 then (if n < 750 then 1511 else 5003)
   else (if n < 10000 then 15013 else 3 * n / 2)) % 65536

/-- The Pascal string written for one context: the length clipped to 255 and
as many bytes. -/
def poolEntry (c : QByteArray) : QByteArray :=
  toByte (min c.length 255) :: c.take (min c.length 255)

/-- The iterations of `do { ... } while (entry != end && entry.key() == i)`
that follow the first: the entries left, `upto`, the pool. -/
def bucketRest (i : Nat) :
    List (Nat × QByteArray) → Nat → QByteArray → List (Nat × QByteArray) × Nat × QByteArray
  | [], upto, pool => ([], upto, pool)
  | (k, c) :: rest, upto, pool =>
    if k = i then bucketRest i rest (upto + 1 + min c.length 255) (pool ++ poolEntry c)
    else ((k, c) :: rest, upto, pool)

/-- The loop `while (entry != hashMap.constEnd())` (lines 354-372): the table
`hTable`, `upto` and the pool bytes written after the reserved entry. Each
iteration consumes at least one entry, so a fuel of the number of entries
suffices. -/
def poolLoop : Nat → List (Nat × QByteArray) → List Nat → Nat → QByteArray →
    List Nat × Nat × QByteArray
  | 0, _, hTable, upto, pool => (hTable, upto, pool)
  | _, [], hTable, upto, pool => (hTable, upto, pool)
  | fuel + 1, (i, c) :: rest, hTable, upto, pool =>
    let hTable := hTable.set i ((upto / 2) % 65536)
    let r := bucketRest i rest (upto + 1 + min c.length 255) (pool ++ poolEntry c)
    if r.2.1 % 2 = 1 then
      poolLoop fuel r.1 hTable (r.2.1 + 1) (r.2.2 ++ [0])
    else
      poolLoop fuel r.1 hTable r.2.1 r.2.2

/-- Lines 304-382: the context array built in `SaveStripped` mode from the
messages; `none` when the table size is zero, where the source divides by
zero. -/
def buildContextArray (messages : List ByteTranslatorMessage) : Option QByteArray :=
  let contextSet := messages.foldl (fun set m => qmapInsert qbaLt m.m_context set) []
  let hTableSize := hTableSizeFor contextSet.length
  if hTableSize = 0 then none
  else
    let hashMap := contextSet.foldl
      (fun hm c => qmultimapInsert (elfHash c % hTableSize) c hm) []
    let r := poolLoop hashMap.length hashMap (List.replicate hTableSize 0) 2 []
    if r.2.1 > 131072 then some []
    else some (write16 hTableSize ++ r.1.flatMap write16 ++ [0, 0] ++ r.2.2)

/-- `Releaser::squeeze`; `none` when the source divides by zero. -/
def Releaser.squeeze (r : Releaser) (mode : TranslatorSaveMode) : Option Releaser :=
  let r := { r with m_dependencyArray := r.m_dependencies.flatMap writeQString }
  if r.m_messages.isEmpty ∧ mode = .SaveEverything then some r
  else
    let messages := r.m_messages
    let p := squeezeMessages mode messages 0 [] []
    let r := { r with m_messageArray := p.2, m_offsetArray := writeOffsets p.1,
                      m_contextArray := [], m_messages := [] }
    if mode = .SaveStripped then
      (buildContextArray messages).map (fun c => { r with m_contextArray := c })
    else some r

/-! ## The driver: `saveQM` -/

/-- `containsStripped`. -/
def containsStripped (translator : Translator) (msg : TranslatorMessage) : Bool :=
  translator.messages.any (fun tmsg =>
    tmsg.sourceText.units = msg.sourceText.units
      && tmsg.context.units = msg.context.units
      && tmsg.comment.isEmpty)

/-- The locals of `saveQM` that its message loop updates. -/
structure SaveState where
  releaser : Releaser
  finished : Nat
  unfinished : Nat
  untranslated : Nat
  missingIds : Nat
  droppedData : Nat
  deriving DecidableEq, Repr

/-- Lines 655-660: the translations handed to the releaser. -/
def saveTranslations (cd : ConversionData) (msg : TranslatorMessage) : List QString :=
  if msg.type = .Unfinished ∧ (cd.m_idBased ∨ !cd.m_unTrPrefix.isEmpty) then
    msg.translations.map (fun t => if t.isEmpty then cd.m_unTrPrefix.append msg.sourceText else t)
  else msg.translations

/-- Lines 661-676: the insertion of a message that is kept. -/
def saveInsert (env : Env) (translator : Translator) (cd : ConversionData)
    (msg : TranslatorMessage) (st : SaveState) : SaveState :=
  let tlns := saveTranslations cd msg
  if cd.m_idBased then
    { st with
      droppedData :=
        if !msg.context.isEmpty || !msg.comment.isEmpty then st.droppedData + 1
        else st.droppedData
      releaser := st.releaser.insertIdBased env msg tlns }
  else
    let forceComment :=
      msg.comment.isEmpty || msg.context.isEmpty || containsStripped translator msg
    { st with releaser := st.releaser.insert env msg tlns forceComment }

/-- The body of the message loop of `saveQM` (lines 636-677). -/
def saveMessage (env : Env) (translator : Translator) (cd : ConversionData)
    (st : SaveState) (msg : TranslatorMessage) : SaveState :=
  if msg.type ≠ .Obsolete ∧ msg.type ≠ .Vanished then
    if cd.m_idBased ∧ msg.id.isEmpty then
      { st with missingIds := st.missingIds + 1 }
    else if msg.type = .Unfinished then
      if msg.translation.isEmpty ∧ !cd.m_idBased ∧ cd.m_unTrPrefix.isEmpty then
        { st with untranslated := st.untranslated + 1 }
      else if cd.m_ignoreUnfinished then st
      else saveInsert env translator cd msg { st with unfinished := st.unfinished + 1 }
    else saveInsert env translator cd msg { st with finished := st.finished + 1 }
  else st

/-- What `saveQM` leaves behind when it returns. -/
structure SaveResult where
  saved : Bool
  /-- The bytes written to the device. -/
  bytes : QByteArray
  cd : ConversionData
  deriving DecidableEq, Repr

/-- The releaser of `saveQM` after the message loop, with its counters. -/
def saveLoop (env : Env) (translator : Translator) (cd : ConversionData) : SaveState :=
  let releaser := Releaser.new translator.languageCode
  let releaser :=
    match env.numerusInfo translator.languageCode with
    | some (rules, _) => releaser.setNumerusRules rules
    | none => releaser
  translator.messages.foldl (saveMessage env translator cd)
    { releaser := releaser, finished := 0, unfinished := 0, untranslated := 0,
      missingIds := 0, droppedData := 0 }

/-- `saveQM`; `none` when `squeeze` divides by zero. -/
def saveQM (env : Env) (translator : Translator) (cd : ConversionData) : Option SaveResult := do
  let st := saveLoop env translator cd
  let cd := if st.missingIds ≠ 0 then cd.appendError (.missingIds st.missingIds) else cd
  let cd := if st.droppedData ≠ 0 then cd.appendError (.droppedData st.droppedData) else cd
  let releaser ← (st.releaser.setDependencies translator.dependencies).squeeze cd.m_saveMode
  let cd :=
    if cd.m_verbose then
      let cd := cd.appendError (.generated (st.finished + st.unfinished) st.finished st.unfinished)
      if st.untranslated ≠ 0 then cd.appendError (.ignoredUntranslated st.untranslated) else cd
    else cd
  return { saved := true, bytes := releaser.save env, cd := cd }

/-! ## A concrete environment

An instance of `Env` on which the definitions can be evaluated: a strict UTF-8
codec, a reader of well-formed string streams, and a plural-rule table with
two entries in the style of `numerus.cpp`. -/

def mkUnit (n : Nat) : QChar := ⟨n % 65536, Nat.mod_lt _ (by decide)⟩

/-- The replacement character U+FFFD. -/
def replacementUnit : QChar := 0xfffd

def isContinuation (b : Byte) : Bool := 0x80 ≤ b.val && b.val < 0xc0

/-- The code units of a code point. -/
def unitsOfCodePoint (cp : Nat) : List QChar :=
  if cp < 0x10000 then [mkUnit cp]
  else [mkUnit (0xd800 + (cp - 0x10000) / 1024), mkUnit (0xdc00 + (cp - 0x10000) % 1024)]

/-- Strict UTF-8 decoding: an invalid byte yields U+FFFD and sets the error
flag. -/
def utf8Decode : List Byte → List QChar × Bool
  | [] => ([], false)
  | b0 :: rest =>
    let bad := (replacementUnit :: (utf8Decode rest).1, true)
    if b0.val < 0x80 then (mkUnit b0.val :: (utf8Decode rest).1, (utf8Decode rest).2)
    else
      match rest with
      | [] => bad
      | b1 :: rest1 =>
        let cp2 := (b0.val - 0xc0) * 64 + (b1.val - 0x80)
        if 0xc2 ≤ b0.val && b0.val < 0xe0 && isContinuation b1 then
          (mkUnit cp2 :: (utf8Decode rest1).1, (utf8Decode rest1).2)
        else
          match rest1 with
          | [] => bad
          | b2 :: rest2 =>
            let cp3 := (b0.val - 0xe0) * 4096 + (b1.val - 0x80) * 64 + (b2.val - 0x80)
            if 0xe0 ≤ b0.val && b0.val < 0xf0 && isContinuation b1 && isContinuation b2
                && 0x800 ≤ cp3 && !(0xd800 ≤ cp3 && cp3 < 0xe000) then
              (mkUnit cp3 :: (utf8Decode rest2).1, (utf8Decode rest2).2)
            else
              match rest2 with
              | [] => bad
              | b3 :: rest3 =>
                let cp4 := (b0.val - 0xf0) * 262144 + (b1.val - 0x80) * 4096
                  + (b2.val - 0x80) * 64 + (b3.val - 0x80)
                if 0xf0 ≤ b0.val && b0.val < 0xf5 && isContinuation b1 && isContinuation b2
                    && isContinuation b3 && 0x10000 ≤ cp4 && cp4 < 0x110000 then
                  (unitsOfCodePoint cp4 ++ (utf8Decode rest3).1, (utf8Decode rest3).2)
                else bad

/-- The UTF-8 bytes of a code point. -/
def utf8OfCodePoint (cp : Nat) : List Byte :=
  if cp < 0x80 then [toByte cp]
  else if cp < 0x800 then [toByte (0xc0 + cp / 64), toByte (0x80 + cp % 64)]
  else if cp < 0x10000 then
    [toByte (0xe0 + cp / 4096), toByte (0x80 + cp / 64 % 64), toByte (0x80 + cp % 64)]
  else
    [toByte (0xf0 + cp / 262144), toByte (0x80 + cp / 4096 % 64),
     toByte (0x80 + cp / 64 % 64), toByte (0x80 + cp % 64)]

/-- The UTF-8 bytes of a code unit that is not part of a surrogate pair: a
surrogate is written as a question mark. -/
def utf8OfUnit (u : QChar) : List Byte :=
  if 0xd800 ≤ u.val && u.val < 0xe000 then [0x3f] else utf8OfCodePoint u.val

/-- UTF-8 encoding of UTF-16 code units. -/
def utf8Encode : List QChar → List Byte
  | [] => []
  | [u] => utf8OfUnit u
  | u :: v :: rest =>
    if 0xd800 ≤ u.val && u.val < 0xdc00 && 0xdc00 ≤ v.val && v.val < 0xe000 then
      utf8OfCodePoint (0x10000 + (u.val - 0xd800) * 1024 + (v.val - 0xdc00)) ++ utf8Encode rest
    else utf8OfUnit u ++ utf8Encode (v :: rest)

/-- The strings of a stream of well-formed items (the marker 0xFFFFFFFF, or an
even length followed by that many bytes); reading stops at the first item that
is not well-formed. -/
def readStringStream : Nat → List Byte → List QString
  | 0, _ => []
  | fuel + 1, ba =>
    match read32 ba 0 with
    | none => []
    | some len =>
      if len = 0xFFFFFFFF then .null :: readStringStream fuel (ba.drop 4)
      else if len % 2 = 0 ∧ 4 + len ≤ ba.length then
        .str (utf16be ((ba.drop 4).take len)) :: readStringStream fuel (ba.drop (4 + len))
      else []

/-- The code units of "en" and "ja". -/
def langEn : List QChar := [0x65, 0x6e]

def langJa : List QChar := [0x6a, 0x61]

def sampleEnv : Env where
  toUtf8 := utf8Encode
  fromUtf8 := fun bytes => (.str (utf8Decode bytes).1, (utf8Decode bytes).2)
  readStrings := fun bytes => readStringStream bytes.length bytes
  numerusInfo := fun code =>
    if code.units = langEn then some ([0x01, 0x01], 2)
    else if code.units = langJa then some ([], 1)
    else none

/-- An empty catalog. -/
def Translator.empty : Translator := { messages := [], languageCode := .null, dependencies := [] }

/-- Conversion data with the default settings and no message. -/
def ConversionData.default : ConversionData :=
  { m_idBased := false, m_unTrPrefix := .null, m_saveMode := .SaveEverything,
    m_ignoreUnfinished := false, m_verbose := false, m_errors := [] }

/-! ## Concrete files -/

/-- A Hashes block holding the single pair (hash 1, offset 0). -/
def onePair : QByteArray := [0x42, 0, 0, 0, 8, 0, 0, 0, 1, 0, 0, 0, 0]

/-- A file cut off inside its Messages block: the header declares 9 bytes and
one byte follows. -/
def truncatedFile : QByteArray := magic ++ onePair ++ [0x69, 0, 0, 0, 9, 3]

/-- A file that holds only the start of a Messages block: the header declares
9 bytes and one byte follows. -/
def overrunFile : QByteArray := magic ++ [0x69, 0, 0, 0, 9, 3]

/-- A file with one record: the translation "T", a Comment field holding the
byte 0xFF (not valid UTF-8), the source text "S" and the context "C". -/
def lostUtf8File : QByteArray :=
  magic ++ onePair
    ++ [0x69, 0, 0, 0, 26,
        3, 0, 0, 0, 2, 0, 0x54,
        8, 0, 0, 0, 1, 0xff,
        6, 0, 0, 0, 1, 0x53,
        7, 0, 0, 0, 1, 0x43,
        1]

/-- A file with one record: a Translation field of length 0xFFFFFFFF and the
context "C". -/
def sentinelFile : QByteArray :=
  magic ++ onePair
    ++ [0x69, 0, 0, 0, 12,
        3, 0xff, 0xff, 0xff, 0xff,
        7, 0, 0, 0, 1, 0x43,
        1]

/-- A file with one record whose Translation field has the odd length 1. -/
def oddLengthFile : QByteArray :=
  magic ++ onePair ++ [0x69, 0, 0, 0, 7, 3, 0, 0, 0, 1, 0x41, 1]

/-- A file whose Messages block ends inside a Comment field: the field declares
6 bytes, and the bytes that follow the block are a header with tag 0 and
length 0, the byte 0x41 and the byte 0x01. -/
def terminatorFile : QByteArray :=
  magic ++ onePair ++ [0x69, 0, 0, 0, 5, 8, 0, 0, 0, 6] ++ [0, 0, 0, 0, 0] ++ [0x41, 1]

/-- The file `sentinelFile` followed by a header with tag 0 and two more
bytes. -/
def terminatedFile : QByteArray := sentinelFile ++ [0, 0, 0, 0, 7, 0x42, 0xff]

/-! ## The record format in the words of the specification

A second description of the decoding of message records, used to state what
`loadQM` computes: a record is parsed into its list of fields without any
state, and the strings of a message are the last fields of each kind seen so
far. -/

/-- A field of a message record, decoded. -/
inductive Field where
  | translation (s : QString)
  | sourceText (s : QString) (hasError : Bool)
  | context (s : QString) (hasError : Bool)
  | comment (s : QString) (hasError : Bool)
  deriving DecidableEq, Repr

/-- What is found at one position of a record. -/
inductive FieldParse where
  | endTag
  | formatError
  /-- A field (or bytes that are skipped) and the position after it. -/
  | field (f : Option Field) (next : Nat)
  deriving DecidableEq, Repr

/-- A UTF-8 field: a 32-bit length and that many bytes. -/
def parseUtf8 (env : Env) (ba : QByteArray) (m : Nat) (mk : QString → Bool → Field) :
    Option FieldParse :=
  (read32 ba (m + 1)).bind fun len =>
    (fromBytes env ba (m + 5) len).map fun r => .field (some (mk r.1 r.2)) (m + 5 + len)

/-- The field at position `m`: `tag [len payload]`. A Translation of length
0xFFFFFFFF is the null string and has no payload; its last length byte is
looked at again as a tag. The tag Obsolete1 is followed by four bytes, every
other tag stands alone. -/
def parseField (env : Env) (ba : QByteArray) (m : Nat) : Option FieldParse :=
  (read8 ba m).bind fun tag =>
    if tag = Tag_End then some .endTag
    else if tag = Tag_Translation then
      (read32 ba (m + 1)).bind fun len =>
        if len = 0xFFFFFFFF then some (.field (some (.translation .null)) (m + 4))
        else if len % 2 = 1 then some .formatError
        else if len ≥ 2147483648 then none
        else (bytesAt ba (m + 5) len).map fun bytes =>
          .field (some (.translation (.str (utf16be bytes)))) (m + 5 + len)
    else if tag = Tag_Obsolete1 then some (.field none (m + 5))
    else if tag = Tag_SourceText then parseUtf8 env ba m .sourceText
    else if tag = Tag_Context then parseUtf8 env ba m .context
    else if tag = Tag_Comment then parseUtf8 env ba m .comment
    else some (.field none (m + 1))

/-- The outcome of parsing a record. -/
inductive RecordParse where
  | fields (fs : List Field)
  | formatError
  deriving DecidableEq, Repr

/-- The fields from position `m` up to the End tag, after the fields `acc`. -/
def parseRecord (env : Env) (ba : QByteArray) : Nat → Nat → List Field → Option RecordParse
  | 0, _, _ => none
  | fuel + 1, m, acc =>
    match parseField env ba m with
    | none => none
    | some .endTag => some (.fields acc)
    | some .formatError => some .formatError
    | some (.field f next) => parseRecord env ba fuel next (acc ++ f.toList)

def Field.translation? : Field → Option QString
  | .translation s => some s
  | _ => none

def Field.sourceText? : Field → Option QString
  | .sourceText s _ => some s
  | _ => none

def Field.context? : Field → Option QString
  | .context s _ => some s
  | _ => none

def Field.comment? : Field → Option QString
  | .comment s _ => some s
  | _ => none

/-- The last value picked by `sel` in a list of fields, the null string when
there is none. -/
def lastField (sel : Field → Option QString) (fs : List Field) : QString :=
  ((fs.filterMap sel).getLast?).getD .null

/-- The message of a record with fields `fs` that comes after records with
fields `earlier`: its own translations, and for each string the field decoded
most recently. -/
def specMessage (guess : Bool) (earlier fs : List Field) : TranslatorMessage :=
  makeMessage guess
    { context := lastField Field.context? (earlier ++ fs)
      sourcetext := lastField Field.sourceText? (earlier ++ fs)
      comment := lastField Field.comment? (earlier ++ fs)
      translations := fs.filterMap Field.translation?
      utf8Fail := false }

/-- The messages of the records with fields `records`, in order. -/
def specMessages (guess : Bool) (records : List (List Field)) : List TranslatorMessage :=
  (List.range records.length).map fun i =>
    specMessage guess (records.take i).flatten (records.getD i [])

/-- The state update of the field loop for one field. -/
def Field.apply (st : DecodeState) : Field → DecodeState
  | .translation s => { st with translations := st.translations ++ [s] }
  | .sourceText s e => { st with sourcetext := s, utf8Fail := e }
  | .context s e => { st with context := s, utf8Fail := e }
  | .comment s e => { st with comment := s, utf8Fail := e }

/-- The state change of one iteration of the field loop is the parsed field
applied to the state. -/
def FieldParse.step (st : DecodeState) : FieldParse → FieldStep
  | .endTag => .endTag st
  | .formatError => .formatError
  | .field f next => .next next ((f.map (Field.apply st)).getD st)

/-- The outcome of the field loop that corresponds to a parsed record. -/
def RecordParse.result (st : DecodeState) : RecordParse → RecordResult
  | .fields fs => .ended (fs.foldl Field.apply st)
  | .formatError => .formatError

/-- A file with two pairs and two records: the first record holds the context
"C", the second a Translation field of the odd length 1. -/
def oddSecondRecordFile : QByteArray :=
  magic ++ [0x42, 0, 0, 0, 16, 0, 0, 0, 1, 0, 0, 0, 0, 0, 0, 0, 2, 0, 0, 0, 7]
    ++ [0x69, 0, 0, 0, 14,
        7, 0, 0, 0, 1, 0x43, 1,
        3, 0, 0, 0, 1, 0x41, 1]

/-- A file with two pairs and two records: the first record holds the
translation "T" and the context "C", the second only the translation "U". -/
def inheritFile : QByteArray :=
  magic ++ [0x42, 0, 0, 0, 16, 0, 0, 0, 1, 0, 0, 0, 0, 0, 0, 0, 2, 0, 0, 0, 14]
    ++ [0x69, 0, 0, 0, 22,
        3, 0, 0, 0, 2, 0, 0x54, 7, 0, 0, 0, 1, 0x43, 1,
        3, 0, 0, 0, 2, 0, 0x55, 1]

/-- The state in which the block scan leaves `inheritFile`. -/
def inheritScan : ScanState :=
  { messageArray := some 42, offsetArray := some 21, offsetLength := 16, ok := true,
    utf8Fail := false, translator := Translator.empty }

/-- The messages loaded from `inheritFile`. -/
def inheritMessages : List TranslatorMessage :=
  [{ id := .null, context := .str [0x43], sourceText := .null, comment := .null,
     translations := [.str [0x54]], type := .Finished, plural := false },
   { id := .null, context := .str [0x43], sourceText := .null, comment := .null,
     translations := [.str [0x55]], type := .Finished, plural := false }]

/-! ## Notions used to state the round trip -/

/-- The encoding of a record with all its fields: the Translation fields, then
Comment, SourceText, Context and End. -/
def encFull (bm : ByteTranslatorMessage) : QByteArray :=
  bm.m_translations.flatMap (fun t => Tag_Translation :: writeQString t)
    ++ writeFields bm HashContextSourceTextComment ++ [Tag_End]

/-- The lengths of the strings of a record are below `2 ^ 31`, the largest
length the reader accepts. -/
def RecordFits (bm : ByteTranslatorMessage) : Prop :=
  bm.m_context.length < 2147483648 ∧ bm.m_sourcetext.length < 2147483648 ∧
  bm.m_comment.length < 2147483648 ∧
  ∀ t ∈ bm.m_translations, 2 * t.units.length < 2147483648

/-- The locals of `loadQM` after the field loop has decoded a record written
with all its fields, entered with the translations `ts`. -/
def decodedState (env : Env) (ts : List QString) (bm : ByteTranslatorMessage) : DecodeState :=
  { context := (env.fromUtf8 bm.m_context).1
    sourcetext := (env.fromUtf8 bm.m_sourcetext).1
    comment := (env.fromUtf8 bm.m_comment).1
    translations := ts ++ bm.m_translations
    utf8Fail := (env.fromUtf8 bm.m_context).2 }

/-- A stored record with the position of its encoding in the message array. -/
abbrev Placed := Nat × ByteTranslatorMessage

/-- The key under which `squeeze` files a placed record in the map `offsets`. -/
def Placed.offset (p : Placed) : Offset := ⟨msgHash p.2, p.1⟩

/-- The order of the map `offsets`, on placed records. -/
def Placed.lt (a b : Placed) : Bool := Offset.lt a.offset b.offset

/-- The records of a list with the positions of their encodings when they are
written one after the other with all their fields, from position `pos`. -/
def placeFrom : Nat → List ByteTranslatorMessage → List Placed
  | _, [] => []
  | pos, it :: rest => (pos, it) :: placeFrom (pos + (encFull it).length) rest

/-- The message `loadQM` builds from a record written with all its fields. -/
def loadedMessage (env : Env) (guess : Bool) (bm : ByteTranslatorMessage) : TranslatorMessage :=
  makeMessage guess (decodedState env [] bm)

/-- Every record of the message loop of `squeeze` is written with all its
fields: `cpNext` is the value left by the previous iteration. -/
def AllFull (mode : TranslatorSaveMode) : List ByteTranslatorMessage → Nat → Prop
  | [], _ => True
  | it :: rest, cpNext =>
    writeMessage it mode
        (max cpNext ((match rest with | [] => 0 | next :: _ => commonPrefix it next) + 1))
      = encFull it
    ∧ AllFull mode rest (match rest with | [] => 0 | next :: _ => commonPrefix it next)

/-- The effect of a block with tag `tag` and payload `payload`, found at `data`,
on the locals of the block scan (lines 470-490). -/
def applyBlock (env : Env) (tag : Byte) (data : Nat) (payload : QByteArray) (st : ScanState) :
    ScanState :=
  if tag = Hashes then
    { st with offsetArray := some (data + 5), offsetLength := payload.length }
  else if tag = Messages then
    { st with messageArray := some (data + 5) }
  else if tag = Dependencies then
    { st with translator := (st.translator.setDependencies (env.readStrings payload)) }
  else if tag = Language then
    { st with utf8Fail := (env.fromUtf8 payload).2,
              translator := (st.translator.setLanguageCode (env.fromUtf8 payload).1) }
  else st

/-- The bytes written for the language code. -/
def languageBlock (env : Env) (r : Releaser) : QByteArray :=
  if r.m_language.isEmpty then [] else writeBlock Language (originalBytes env r.m_language)

/-- The placed records in the order of the map `offsets` of `squeeze`. -/
def sortedPlaced (l : List ByteTranslatorMessage) : List Placed :=
  (placeFrom 0 l).foldl (fun o p => qmapInsert Placed.lt p o) []

/-- The filter of `saveQM` (lines 638-654): whether a message of the catalog is
handed to the releaser. -/
def persisted (cd : ConversionData) (msg : TranslatorMessage) : Bool :=
  decide (msg.type ≠ .Obsolete ∧ msg.type ≠ .Vanished)
    && !(cd.m_idBased && msg.id.isEmpty)
    && (decide (msg.type ≠ .Unfinished)
        || (!(msg.translation.isEmpty && !cd.m_idBased && cd.m_unTrPrefix.isEmpty)
            && !cd.m_ignoreUnfinished))

/-- The record that `Releaser::insert` builds from a message and its
translations. -/
def toByteMessage (env : Env) (msg : TranslatorMessage) (tlns : List QString) :
    ByteTranslatorMessage :=
  { m_context := originalBytes env msg.context
    m_sourcetext := originalBytes env msg.sourceText
    m_comment := originalBytes env msg.comment
    m_translations := tlns }

/-- The key of the map `m_messages`: the three byte strings that
`ByteTranslatorMessage::operator<` compares. -/
def ByteTranslatorMessage.key (bm : ByteTranslatorMessage) :
    QByteArray × QByteArray × QByteArray :=
  (bm.m_context, bm.m_sourcetext, bm.m_comment)

/-- The value `forceComment` that `saveQM` passes to `Releaser::insert`. -/
def forceComment (translator : Translator) (msg : TranslatorMessage) : Bool :=
  msg.comment.isEmpty || msg.context.isEmpty || containsStripped translator msg

/-- A string survives the conversion to UTF-8 and back: decoding its bytes
reports no error and yields its code units. -/
def Utf8Safe (env : Env) (s : QString) : Prop :=
  (env.fromUtf8 (originalBytes env s)).2 = false ∧
  (env.fromUtf8 (originalBytes env s)).1.units = s.units

/-- The tuple (context, sourceText, comment, translations) of a message, the
strings taken as sequences of code units. -/
def tupleOf (m : TranslatorMessage) : List QChar × List QChar × List QChar × List QString :=
  (m.context.units, m.sourceText.units, m.comment.units, m.translations)

/-! ## Concrete catalogs -/

/-- A finished message with the given strings. -/
def finishedMessage (context sourceText comment : List QChar) (translations : List QString) :
    TranslatorMessage :=
  { id := .null, context := .str context, sourceText := .str sourceText, comment := .str comment,
    translations := translations, type := .Finished, plural := false }

/-- A catalog with one finished entry: context "C", source text "S", comment
"c", translation "T". -/
def commentCatalog : Translator :=
  { messages := [finishedMessage [0x43] [0x53] [0x63] [.str [0x54]]]
    languageCode := .null, dependencies := [] }

/-- A catalog for the language "en" that depends on "A", with three finished
entries whose comments are forced (an empty comment, a comment beside an entry
with the same context and source text and an empty comment, an empty context)
and one obsolete entry. -/
def sampleCatalog : Translator :=
  { messages :=
      [finishedMessage [0x43] [0x53] [] [.str [0x54]],
       finishedMessage [0x43] [0x53] [0x61] [.str [0x55], .null],
       finishedMessage [] [0x58] [0x62] [.str [0x56]],
       { finishedMessage [0x43] [0x4f] [] [.str [0x57]] with type := .Obsolete }]
    languageCode := .str langEn, dependencies := [.str [0x41]] }

instance (env : Env) (s : QString) : Decidable (Utf8Safe env s) := by
  unfold Utf8Safe
  infer_instance

/-- A finished entry with the given strings. -/
def finishedEntry (context sourceText comment : QString) (translations : List QString) :
    TranslatorMessage :=
  { id := .null, context := context, sourceText := sourceText, comment := comment,
    translations := translations, type := .Finished, plural := false }

/-- The catalog of three finished entries that share the context and the
source text. -/
def threeComments (context sourceText c1 c2 c3 : QString) (t1 t2 t3 : List QString)
    (languageCode : QString) (dependencies : List QString) : Translator :=
  { messages := [finishedEntry context sourceText c1 t1, finishedEntry context sourceText c2 t2,
                 finishedEntry context sourceText c3 t3]
    languageCode := languageCode, dependencies := dependencies }

/-- The hash under which the writer files an entry. -/
def entryHash (env : Env) (sourceText comment : QString) : Nat :=
  elfHash (originalBytes env sourceText ++ originalBytes env comment)

/-- Conversion data with the default settings for the save mode
`SaveStripped`. -/
def strippedData : ConversionData :=
  { ConversionData.default with m_saveMode := .SaveStripped }

/-- One translation, the string "T". -/
def oneT : List QString := [.str [0x54]]

/-- Three entries with context "C", source text "S" and the comments "a", "b"
and "c". -/
def abcCatalog : Translator :=
  threeComments (.str [0x43]) (.str [0x53]) (.str [0x61]) (.str [0x62]) (.str [0x63])
    oneT oneT oneT .null []

/-- Three entries with context "C", source text "S" and the comments "", "aq"
and "ba"; the byte strings "Saq" and "Sba" have the same hash. -/
def collisionCatalog : Translator :=
  threeComments (.str [0x43]) (.str [0x53]) (.str []) (.str [0x61, 0x71]) (.str [0x62, 0x61])
    oneT oneT oneT .null []

/-- Three entries with context "C", source text "S" and the comments "", "a"
and "b". -/
def keptCatalog : Translator :=
  threeComments (.str [0x43]) (.str [0x53]) (.str []) (.str [0x61]) (.str [0x62])
    oneT oneT oneT .null []

/-- The comments of the messages that `loadQM` returns for the bytes that
`saveQM` writes for a catalog in `SaveStripped` mode, with the success flag. -/
def strippedComments (cat : Translator) : Option (Bool × List (List QChar)) :=
  (saveQM sampleEnv cat strippedData).bind fun res =>
    (loadQM sampleEnv Translator.empty res.bytes ConversionData.default).map fun r =>
      (r.ok, r.translator.messages.map (fun m => m.comment.units))

/-! ## The message loop of `saveQM`, entry by entry -/

/-- Lines 655-676 of `saveQM`: the releaser after a message that is kept has
been handed to it. -/
def passToWriter (env : Env) (translator : Translator) (cd : ConversionData) (r : Releaser)
    (msg : TranslatorMessage) : Releaser :=
  if cd.m_idBased then r.insertIdBased env msg (saveTranslations cd msg)
  else r.insert env msg (saveTranslations cd msg) (forceComment translator msg)

/-- The releaser of `saveQM` before its message loop (lines 621-627). -/
def initialReleaser (env : Env) (translator : Translator) : Releaser :=
  match env.numerusInfo translator.languageCode with
  | some (rules, _) => (Releaser.new translator.languageCode).setNumerusRules rules
  | none => Releaser.new translator.languageCode

/-- A catalog with one unfinished entry: context "C", source text "S" and an
empty translation. -/
def untranslatedCatalog : Translator :=
  { messages :=
      [{ id := .null, context := .str [0x43], sourceText := .str [0x53], comment := .null,
         translations := [.str []], type := .Unfinished, plural := false }]
    languageCode := .null, dependencies := [] }

/-- Conversion data with the untranslated prefix "X". -/
def prefixData : ConversionData :=
  { ConversionData.default with m_unTrPrefix := .str [0x58] }

/-- Conversion data with the untranslated prefix "X" that ignores unfinished
entries. -/
def prefixNoUnfinishedData : ConversionData :=
  { prefixData with m_ignoreUnfinished := true }

/-! ## Releasers that hold one record -/

/-- A releaser that holds the record with context "C", source text "S",
comment "c" and translation "T". -/
def heldReleaser : Releaser :=
  { Releaser.new .null with
    m_messages := [{ m_context := [0x43], m_sourcetext := [0x53], m_comment := [0x63],
                     m_translations := [.str [0x54]] }] }

/-- A releaser that holds the record with context "C", source text "S", an
empty comment and translation "T". -/
def bareReleaser : Releaser :=
  { Releaser.new .null with
    m_messages := [{ m_context := [0x43], m_sourcetext := [0x53], m_comment := [],
                     m_translations := [.str [0x54]] }] }

/-! ## The layout of a saved file -/

/-- A top-level block in the words of the specification: no byte at all when
the payload is empty, else one tag byte, the length of the payload as a 4-byte
big-endian integer, then the payload. -/
def IsBlock (tag : Byte) (payload bytes : QByteArray) : Prop :=
  (payload = [] ∧ bytes = []) ∨
  (payload ≠ [] ∧ ∃ b0 b1 b2 b3 : Byte, bytes = tag :: b0 :: b1 :: b2 :: b3 :: payload ∧
    b0.val * 16777216 + b1.val * 65536 + b2.val * 256 + b3.val = payload.length)

/-- The releaser of `saveQM` for `sampleCatalog`, squeezed in `SaveEverything`
mode. -/
def sampleReleaser : Releaser :=
  (((saveLoop sampleEnv sampleCatalog ConversionData.default).releaser.setDependencies
    sampleCatalog.dependencies).squeeze .SaveEverything).getD (Releaser.new .null)

/-! ## A file with plural messages -/

/-- A file for the language "ja" with two records: the first holds the
translations "T" and "U" and the source text "S", the second the translation
"V" and the source text "%n". -/
def pluralFile : QByteArray :=
  magic ++ [0xa7, 0, 0, 0, 2, 0x6a, 0x61]
    ++ [0x42, 0, 0, 0, 16, 0, 0, 0, 1, 0, 0, 0, 0, 0, 0, 0, 2, 0, 0, 0, 21]
    ++ [0x69, 0, 0, 0, 36,
        3, 0, 0, 0, 2, 0, 0x54, 3, 0, 0, 0, 2, 0, 0x55, 6, 0, 0, 0, 1, 0x53, 1,
        3, 0, 0, 0, 2, 0, 0x56, 6, 0, 0, 0, 2, 0x25, 0x6e, 1]

/-- The state in which the block scan leaves `pluralFile`. -/
def pluralScan : ScanState :=
  { messageArray := some 49, offsetArray := some 28, offsetLength := 16, ok := true,
    utf8Fail := false
    translator := { messages := [], languageCode := .str langJa, dependencies := [] } }

/-- The messages loaded from `pluralFile`. -/
def pluralMessages : List TranslatorMessage :=
  [{ id := .null, context := .null, sourceText := .str [0x53], comment := .null,
     translations := [.str [0x54], .str [0x55]], type := .Finished, plural := true },
   { id := .null, context := .null, sourceText := .str [0x25, 0x6e], comment := .null,
     translations := [.str [0x56]], type := .Finished, plural := true }]

/-! ## The block sequence of an input -/

/-- A top-level block: the position of its header, its tag and its payload. -/
structure TopBlock where
  data : Nat
  tag : Byte
  payload : QByteArray
  deriving DecidableEq, Repr

/-- The blocks of an input in the words of the specification
(`block := tag length payload`), from position `data`: the sequence ends at a
header with tag 0 or length 0, at a block that passes the end of the input,
and when no more than four bytes are left. -/
def topBlocks (ba : QByteArray) : Nat → Nat → List TopBlock
  | 0, _ => []
  | fuel + 1, data =>
    if data + 4 < ba.length then
      match read8 ba data, read32 ba (data + 1) with
      | some tag, some len =>
        if tag = 0 ∨ len = 0 then []
        else if data + 5 + len > ba.length then []
        else ⟨data, tag, (ba.drop (data + 5)).take len⟩ :: topBlocks ba fuel (data + 5 + len)
      | _, _ => []
    else []

/-- Whether the sequence of blocks from position `data` ends at a block that
passes the end of the input. -/
def blocksOverrun (ba : QByteArray) : Nat → Nat → Bool
  | 0, _ => false
  | fuel + 1, data =>
    if data + 4 < ba.length then
      match read8 ba data, read32 ba (data + 1) with
      | some tag, some len =>
        if tag = 0 ∨ len = 0 then false
        else if data + 5 + len > ba.length then true
        else blocksOverrun ba fuel (data + 5 + len)
      | _, _ => false
    else false

/-- The payload of the last block with the given tag. -/
def lastPayload (tag : Byte) (blocks : List TopBlock) : Option QByteArray :=
  ((blocks.filter (fun b => b.tag = tag)).getLast?).map (fun b => b.payload)

/-- A file with two Language blocks ("en", then "ja") and two Dependencies
blocks (the string "A", then the string "B"), in alternation. -/
def duplicateFile : QByteArray :=
  magic ++ [0xa7, 0, 0, 0, 2, 0x65, 0x6e] ++ [0x96, 0, 0, 0, 6, 0, 0, 0, 2, 0, 0x41]
    ++ [0xa7, 0, 0, 0, 2, 0x6a, 0x61] ++ [0x96, 0, 0, 0, 6, 0, 0, 0, 2, 0, 0x42]

/-! ## An input with bytes put in -/

/-- A pointer into an input after `k` bytes have been put in at position `p`:
a pointer at or after `p` moves by `k`. -/
def shiftPtr (p k : Nat) (x : Option Nat) : Option Nat :=
  x.map (fun x => if p ≤ x then x + k else x)

/-- The locals of the block scan after `k` bytes have been put into the input
at position `p`. -/
def ScanState.shift (p k : Nat) (s : ScanState) : ScanState :=
  { s with messageArray := shiftPtr p k s.messageArray, offsetArray := shiftPtr p k s.offsetArray }

/-- The outcome of an iteration of the block scan after `k` bytes have been put
into the input at position `p`, before the block of the iteration. -/
def ScanStep.shift (p k : Nat) : ScanStep → ScanStep
  | .stop s => .stop (s.shift p k)
  | .next d s => .next (d + k) (s.shift p k)

/-- The start of a file: the magic, a Hashes block with the pair (1, 0) and a
Messages block that holds a Translation field of length 0xFFFFFFFF and no End
tag. -/
def openRecordStart : QByteArray :=
  magic ++ onePair ++ [0x69, 0, 0, 0, 5, 3, 0xff, 0xff, 0xff, 0xff]

/-- A Language block of eight bytes that read as a Comment field of length 1
with the byte "A", an End tag and two spaces. -/
def commentLikeLanguage : QByteArray :=
  [0xa7, 0, 0, 0, 8, 0, 0, 0, 1, 0x41, 1, 0x20, 0x20]

/-- The start of a file with one whole record: the magic, a Hashes block with
the pair (1, 0) and a Messages block with the translation "T" and the context
"C". -/
def wholeRecordStart : QByteArray :=
  magic ++ onePair ++ [0x69, 0, 0, 0, 14, 3, 0, 0, 0, 2, 0, 0x54, 7, 0, 0, 0, 1, 0x43, 1]

/-- A Language block with the code "ja". -/
def jaLanguage : QByteArray := [0xa7, 0, 0, 0, 2, 0x6a, 0x61]

/-! ## The records written by `squeeze` -/

/-- A record as the message loop of `squeeze` writes it: the position of its
encoding in the message array, the record, and the prefix level passed to
`writeMessage`. -/
structure Written where
  pos : Nat
  msg : ByteTranslatorMessage
  level : Nat
  deriving DecidableEq, Repr

/-- The encoding of a written record. -/
def Written.bytes (mode : TranslatorSaveMode) (w : Written) : QByteArray :=
  writeMessage w.msg mode w.level

/-- The (hash, offset) pair of a written record: the hash of its source text
followed by its comment, and the position of its encoding. -/
def Written.offset (w : Written) : Offset :=
  ⟨elfHash (w.msg.m_sourcetext ++ w.msg.m_comment), w.pos⟩

/-- The value `cpNext` of an iteration of the message loop of `squeeze`
(lines 286-290): the common prefix of the record with its successor in the
map, 0 for the last record. -/
def cpAfter (it : ByteTranslatorMessage) : List ByteTranslatorMessage → Nat
  | [] => 0
  | next :: _ => commonPrefix it next

/-- The records that the message loop of `squeeze` (lines 283-293) writes for
the records of the map, from position `pos` of the message array; `cpNext` is
the value left by the previous iteration. -/
def writtenRecords (mode : TranslatorSaveMode) :
    Nat → List ByteTranslatorMessage → Nat → List Written
  | _, [], _ => []
  | pos, it :: rest, cpNext =>
    ⟨pos, it, max cpNext (cpAfter it rest + 1)⟩
      :: writtenRecords mode
          (pos + (writeMessage it mode (max cpNext (cpAfter it rest + 1))).length)
          rest (cpAfter it rest)

/-- The releaser of `saveQM` for `collisionCatalog` before `squeeze`. -/
def collisionReleaser : Releaser :=
  (saveLoop sampleEnv collisionCatalog strippedData).releaser

/-- The releaser `collisionReleaser` squeezed in `SaveStripped` mode. -/
def collisionSqueezed : Releaser :=
  (collisionReleaser.squeeze .SaveStripped).getD (Releaser.new .null)

/-! ## Reading back the records written by `squeeze` -/

/-- The locals of `loadQM` after the field loop, entered in state `st`, has
decoded a record written by `squeeze`: the strings whose fields the record
holds are decoded from it, the others stay as they were. -/
def decodeWritten (env : Env) (mode : TranslatorSaveMode) (st : DecodeState) (w : Written) :
    DecodeState :=
  if mode = .SaveStripped ∧ w.level = HashContext then
    { st with
      context := (env.fromUtf8 w.msg.m_context).1
      translations := st.translations ++ w.msg.m_translations
      utf8Fail := (env.fromUtf8 w.msg.m_context).2 }
  else if mode = .SaveStripped ∧ w.level = HashContextSourceText then
    { st with
      context := (env.fromUtf8 w.msg.m_context).1
      sourcetext := (env.fromUtf8 w.msg.m_sourcetext).1
      translations := st.translations ++ w.msg.m_translations
      utf8Fail := (env.fromUtf8 w.msg.m_context).2 }
  else decodedState env st.translations w.msg

/-- The messages that `loadQM` builds from written records decoded one after
the other, the field loop of the first being entered in state `st`. -/
def loadedRecords (env : Env) (guess : Bool) (mode : TranslatorSaveMode) :
    DecodeState → List Written → List TranslatorMessage
  | _, [] => []
  | st, w :: ws =>
    makeMessage guess (decodeWritten env mode st w)
      :: loadedRecords env guess mode { decodeWritten env mode st w with translations := [] } ws

/-- The order of the map `offsets`, on written records. -/
def Written.lt (a b : Written) : Bool := Offset.lt a.offset b.offset

/-- The written records in the order of the map `offsets` of `squeeze`. -/
def sortedWritten (mode : TranslatorSaveMode) (l : List ByteTranslatorMessage) : List Written :=
  (writtenRecords mode 0 l 0).foldl (fun o w => qmapInsert Written.lt w o) []

/-- A catalog with one finished entry: a context of 300 letters "C", the
source text "S", an empty comment and the translation "T". -/
def longContextCatalog : Translator :=
  { messages := [finishedMessage (List.replicate 300 0x43) [0x53] [] [.str [0x54]]]
    languageCode := .null, dependencies := [] }

/-! ## The encoding of a record in the words of the specification -/

/-- The keys of the map `contextSet` of `squeeze` (lines 304-306): the
contexts of the records, in ascending order. -/
def contextSet (messages : List ByteTranslatorMessage) : List QByteArray :=
  messages.foldl (fun set m => qmapInsert qbaLt m.m_context set) []

/-- The level of a record between its neighbours in the map: the larger of the
common prefix with the predecessor and of the common prefix with the successor
plus 1, where a missing neighbour counts as a common prefix of 0. -/
def neighbourLevel (prev : Option ByteTranslatorMessage) (it : ByteTranslatorMessage)
    (next : Option ByteTranslatorMessage) : Nat :=
  max ((prev.map fun p => commonPrefix p it).getD 0)
    ((next.map fun n => commonPrefix it n).getD 0 + 1)

/-- A field that holds a byte string: the tag, the length as a 4-byte
big-endian integer, the bytes. -/
def byteField (tag : Byte) (b : QByteArray) : QByteArray :=
  tag :: write32 b.length ++ b

/-- The field group of a record in the words of the specification: Context
alone at level `HashContext` and SourceText, Context at level
`HashContextSourceText` in `SaveStripped` mode, else Comment, SourceText,
Context. -/
def fieldGroup (mode : TranslatorSaveMode) (level : Nat) (msg : ByteTranslatorMessage) :
    QByteArray :=
  match mode with
  | .SaveEverything =>
    byteField Tag_Comment msg.m_comment ++ byteField Tag_SourceText msg.m_sourcetext
      ++ byteField Tag_Context msg.m_context
  | .SaveStripped =>
    if level = HashContext then byteField Tag_Context msg.m_context
    else if level = HashContextSourceText then
      byteField Tag_SourceText msg.m_sourcetext ++ byteField Tag_Context msg.m_context
    else
      byteField Tag_Comment msg.m_comment ++ byteField Tag_SourceText msg.m_sourcetext
        ++ byteField Tag_Context msg.m_context

/-- The Translation fields of a record, in order. -/
def translationFields (msg : ByteTranslatorMessage) : QByteArray :=
  msg.m_translations.flatMap (fun t => Tag_Translation :: writeQString t)

/-- The encoding of a record at a level: the Translation fields, the field
group, the End tag. -/
def recordEncoding (mode : TranslatorSaveMode) (level : Nat) (msg : ByteTranslatorMessage) :
    QByteArray :=
  translationFields msg ++ fieldGroup mode level msg ++ [Tag_End]

/-- The encodings of the records of a list that follows the record `prev`,
each at the level that its neighbours give it. -/
def encodedRecords (mode : TranslatorSaveMode) :
    Option ByteTranslatorMessage → List ByteTranslatorMessage → List QByteArray
  | _, [] => []
  | prev, it :: rest =>
    recordEncoding mode (neighbourLevel prev it rest.head?) it
      :: encodedRecords mode (some it) rest

/-! ## Records that share the hash, the context and the source text -/

/-- A record with context "C", source text "S", the given comment and the
translation "T". -/
def collisionRecord (comment : QByteArray) : ByteTranslatorMessage :=
  { m_context := [0x43], m_sourcetext := [0x53], m_comment := comment,
    m_translations := [.str [0x54]] }

/-! ## The context table in the words of the specification -/

/-- The items of the multi-map `hashMap` of `squeeze` (lines 316-318), in
ascending order of the bucket index. -/
def contextHashMap (contexts : List QByteArray) (hTableSize : Nat) : List (Nat × QByteArray) :=
  contexts.foldl (fun hm c => qmultimapInsert (elfHash c % hTableSize) c hm) []

/-- A bucket of the context table: its index and the contexts that are stored
in it, in the order of the pool. -/
structure Bucket where
  index : Nat
  contexts : List QByteArray
  deriving DecidableEq, Repr

/-- An item of the hash map put in front of the buckets of the items that
follow it: it goes into the first bucket when that has its index, else into a
bucket of its own. -/
def addToBuckets (e : Nat × QByteArray) : List Bucket → List Bucket
  | [] => [⟨e.1, [e.2]⟩]
  | b :: bs =>
    if b.index = e.1 then ⟨b.index, e.2 :: b.contexts⟩ :: bs
    else ⟨e.1, [e.2]⟩ :: b :: bs

/-- The buckets of a hash map: the runs of items with the same index. -/
def bucketsOf (hashMap : List (Nat × QByteArray)) : List Bucket :=
  hashMap.foldr addToBuckets []

/-- The Pascal strings of the contexts of a bucket. -/
def Bucket.entries (b : Bucket) : QByteArray :=
  b.contexts.flatMap poolEntry

/-- The bytes of a bucket in the pool: its Pascal strings, and one zero byte
when their length is odd. -/
def Bucket.bytes (b : Bucket) : QByteArray :=
  if b.entries.length % 2 = 1 then b.entries ++ [0] else b.entries

/-- The table `hTable` after the buckets have been entered one after the
other, the first at pool offset `upto`: the entry of a bucket is half its pool
offset, stored in 16 bits. -/
def tableOf : List Bucket → Nat → List Nat → List Nat
  | [], _, hTable => hTable
  | b :: bs, upto, hTable =>
    tableOf bs (upto + b.bytes.length) (hTable.set b.index ((upto / 2) % 65536))

/-- The entry `hTable[i]` of a context array laid out as the specification
says (`hTableSize:uint16`, `hTable[hTableSize]:uint16`, the pool): the
big-endian 16-bit value at offset `2 + 2 * i`. -/
def tableEntry (arr : QByteArray) (i : Nat) : Option Nat :=
  match arr[2 + 2 * i]?, arr[2 + 2 * i + 1]? with
  | some hi, some lo => some (hi.val * 256 + lo.val)
  | _, _ => none

/-- The size of the context table that `squeeze` computes for the records. -/
def tableSize (messages : List ByteTranslatorMessage) : Nat :=
  hTableSizeFor (contextSet messages).length

/-- The buckets that `squeeze` fills for the records. -/
def contextBuckets (messages : List ByteTranslatorMessage) : List Bucket :=
  bucketsOf (contextHashMap (contextSet messages) (tableSize messages))

/-- The context pool after the two reserved bytes: the bytes of the buckets
one after the other. -/
def contextPool (messages : List ByteTranslatorMessage) : QByteArray :=
  (contextBuckets messages).flatMap Bucket.bytes

/-! ## Releasers with several contexts -/

/-- A record with the given context, the source text "S", an empty comment
and the translation "T". -/
def contextRecord (c : QByteArray) : ByteTranslatorMessage :=
  { m_context := c, m_sourcetext := [0x53], m_comment := [], m_translations := [.str [0x54]] }

/-- A releaser that holds four records, with the contexts "", "A", "AB" and
"B". -/
def poolReleaser : Releaser :=
  { Releaser.new .null with
    m_messages := [contextRecord [], contextRecord [0x41], contextRecord [0x41, 0x42],
                   contextRecord [0x42]] }

/-! ## Pascal strings -/

/-- A Pascal string in the words of the specification: a length byte, then as
many bytes. -/
def IsPascalString (len : Nat) (data bytes : QByteArray) : Prop :=
  ∃ lenByte : Byte, lenByte.val = len ∧ data.length = len ∧ bytes = lenByte :: data

/-! ## Releasers with many contexts -/

/-- The context number `i`: the three bytes of `i` in big-endian order, then
`pad` letters "C". -/
def numberedContext (pad i : Nat) : QByteArray :=
  [toByte (i / 65536), toByte (i / 256), toByte i] ++ List.replicate pad 0x43

/-- A releaser that holds `n` records, with the contexts number 0 to `n - 1`
in ascending order. -/
def numberedReleaser (n pad : Nat) : Releaser :=
  { Releaser.new .null with
    m_messages := (List.range n).map fun i => contextRecord (numberedContext pad i) }

/-! ## The size of the context table in the words of the specification -/

/-- The size of the context table for `n` contexts, as the specification gives
it. -/
def specTableSize (n : Nat) : Nat :=
  if n < 60 then 151
  else if n < 200 then 503
  else if n < 750 then 1511
  else if n < 2500 then 5003
  else if n < 10000 then 15013
  else 3 * n / 2

/-! ## A releaser with two buckets -/

/-- A releaser that holds two records, with the contexts "A" and "B". -/
def abReleaser : Releaser :=
  { Releaser.new .null with m_messages := [contextRecord [0x41], contextRecord [0x42]] }

/-! ## Calls of the writer -/

/-- A call of `Releaser::insert` or of `Releaser::insertIdBased`. -/
inductive ReleaserCall where
  | insert (message : TranslatorMessage) (tlns : List QString) (forceComment : Bool)
  | insertIdBased (message : TranslatorMessage) (tlns : List QString)
  deriving DecidableEq, Repr

/-- The releaser after a call. -/
def ReleaserCall.run (env : Env) (r : Releaser) : ReleaserCall → Releaser
  | .insert message tlns forceComment => r.insert env message tlns forceComment
  | .insertIdBased message tlns => r.insertIdBased env message tlns

/-- The context of the record that a call hands to the map. -/
def ReleaserCall.context (env : Env) : ReleaserCall → QByteArray
  | .insert message _ _ => originalBytes env message.context
  | .insertIdBased _ _ => []

/-- A releaser constructed for a language, given numerus rules and
dependencies, after a sequence of calls. -/
def releaserAfter (env : Env) (language : QString) (rules : QByteArray)
    (dependencies : List QString) (calls : List ReleaserCall) : Releaser :=
  calls.foldl (ReleaserCall.run env)
    (((Releaser.new language).setNumerusRules rules).setDependencies dependencies)

/-- Two calls of `insert` and a call of `insertIdBased`. -/
def sampleCalls : List ReleaserCall :=
  [.insert (finishedMessage [0x43] [0x53] [0x61, 0x71] [.str [0x54]]) [.str [0x54]] true,
   .insert (finishedMessage [0x43] [0x53] [0x62, 0x61] [.str [0x55]]) [.str [0x55], .null] true,
   .insertIdBased { finishedMessage [] [] [] [] with id := .str [0x69, 0x64] } [.str [0x56]]]

/-! ## Records that are neighbours in the map -/

/-- Records of a list that are neighbours in the order of the map `m_messages`
have different hashes: between two records of the list with the same hash
stands a third record of the list. -/
def NeighboursDiffer (l : List ByteTranslatorMessage) : Prop :=
  ∀ a ∈ l, ∀ b ∈ l, a.lt b = true → msgHash a = msgHash b →
    ∃ c ∈ l, a.lt c = true ∧ c.lt b = true

instance (l : List ByteTranslatorMessage) : Decidable (NeighboursDiffer l) := by
  unfold NeighboursDiffer
  infer_instance

/-- Three entries with an empty context, source text "S" and the comments
"aq", "b" and "ba"; the byte strings "Saq" and "Sba" have the same hash, and
"b" stands between "aq" and "ba" in the order of the map. -/
def farCollisionCatalog : Translator :=
  threeComments (.str []) (.str [0x53]) (.str [0x61, 0x71]) (.str [0x62]) (.str [0x62, 0x61])
    oneT oneT oneT .null []

/-! ## Records read before a place of the input -/

/-- The outcome of an iteration of the field loop after `k` bytes have been put
into the input before the field. -/
def FieldStep.shift (k : Nat) : FieldStep → FieldStep
  | .next m st => .next (m + k) st
  | .endTag st => .endTag st
  | .formatError => .formatError

/-- Whether the `n` records that the message loop visits from the pair at
`start` on, in an input whose message array is at `base`, are all decoded from
the first `p` bytes of the input alone: the field loop of each, run on these
bytes and no others, comes to an End tag or to a Translation field of odd
length. -/
def recordsBefore (env : Env) (ba : QByteArray) (p base : Nat) :
    Nat → Nat → DecodeState → Bool
  | 0, _, _ => true
  | n + 1, start, st =>
    match read32 ba (start + 4) with
    | none => true
    | some ro =>
      match decodeRecord env (ba.take p) p (base + ro) st with
      | none => false
      | some .formatError => true
      | some (.ended st1) =>
        recordsBefore env ba p base n (start + 8) { st1 with translations := [] }

/-- The Hashes block with the pair (1, 0) and the Messages block with the
translation "T" and the context "C" that follow the magic in
`wholeRecordStart`. -/
def wholeRecordBlocks : QByteArray :=
  onePair ++ [0x69, 0, 0, 0, 14, 3, 0, 0, 0, 2, 0, 0x54, 7, 0, 0, 0, 1, 0x43, 1]

/-! # Properties -/

set_option maxRecDepth 100000

/-! ## Reading primitives -/

theorem read8_some_lt {ba : QByteArray} {p : Nat} {b : Byte} (h : read8 ba p = some b) :
    p < ba.length := by
  unfold read8 at h
  by_contra hlt
  rw [List.getElem?_eq_none (by omega)] at h
  cases h

/-- An iteration of the field loop that goes on has read the byte at `m` and
leaves the cursor further on. -/
theorem decodeField_next_lt {env : Env} {ba : QByteArray} {m m1 : Nat} {st st1 : DecodeState}
    (h : decodeField env ba m st = some (.next m1 st1)) : m < m1 ∧ m < ba.length := by
  unfold decodeField at h
  cases h8 : read8 ba m with
  | none => simp [h8] at h
  | some tag =>
    have hlt := read8_some_lt h8
    refine ⟨?_, hlt⟩
    simp only [h8, Option.bind_eq_bind, Option.some_bind, Option.pure_def] at h
    split_ifs at h
    all_goals first
      | (simp at h; done)
      | (simp at h; omega)
      | (obtain ⟨len, -, h⟩ := Option.bind_eq_some.mp h
         obtain ⟨r, -, h⟩ := Option.bind_eq_some.mp h
         simp at h; omega)
      | (obtain ⟨len, -, h⟩ := Option.bind_eq_some.mp h
         split_ifs at h
         all_goals first
          | (simp at h; done)
          | (simp at h; omega)
          | (obtain ⟨r, -, h⟩ := Option.bind_eq_some.mp h
             simp at h; omega))

theorem decodeField_none_of_ge {env : Env} {ba : QByteArray} {m : Nat} {st : DecodeState}
    (h : ba.length ≤ m) : decodeField env ba m st = none := by
  unfold decodeField read8
  rw [List.getElem?_eq_none h]
  rfl

theorem decodeRecord_fuel {env : Env} {ba : QByteArray} (f1 : Nat) :
    ∀ (f2 m : Nat) (st : DecodeState), ba.length ≤ m + f1 → ba.length ≤ m + f2 →
      decodeRecord env ba f1 m st = decodeRecord env ba f2 m st := by
  induction f1 with
  | zero =>
    intro f2 m st h1 _
    cases f2 with
    | zero => rfl
    | succ f2 =>
      simp only [decodeRecord]
      rw [decodeField_none_of_ge (by omega)]
  | succ f1 ih =>
    intro f2 m st h1 h2
    cases f2 with
    | zero =>
      simp only [decodeRecord]
      rw [decodeField_none_of_ge (by omega)]
    | succ f2 =>
      simp only [decodeRecord]
      cases hd : decodeField env ba m st with
      | none => rfl
      | some r =>
        cases r with
        | endTag s => rfl
        | formatError => rfl
        | next m1 s1 =>
          have := decodeField_next_lt hd
          exact ih f2 m1 s1 (by omega) (by omega)

theorem FieldReach.decodeRecord_eq {env : Env} {ba : QByteArray} {m m' : Nat} {st st' : DecodeState}
    (h : FieldReach env ba m st m' st') :
    decodeRecord env ba ba.length m st = decodeRecord env ba ba.length m' st' := by
  induction h with
  | refl => rfl
  | @step m m1 m2 st st1 st2 hd _ ih =>
    have hlt := decodeField_next_lt hd
    rw [← ih]
    have key : ∀ f, ba.length = f + 1 →
        decodeRecord env ba (f + 1) m st = decodeRecord env ba ba.length m1 st1 := by
      intro f hf
      simp only [decodeRecord, hd]
      exact decodeRecord_fuel f ba.length m1 st1 (by omega) (by omega)
    have hf : ba.length = (ba.length - 1) + 1 := by omega
    rw [← key (ba.length - 1) hf, ← hf]

theorem LoopReach.messageLoop_eq {env : Env} {ba : QByteArray} {guess : Bool}
    {messageArray : Option Nat} {a b : LoopState}
    (h : LoopReach env ba guess messageArray a b) :
    messageLoop env ba guess messageArray a.left a.start a.st a.translator
      = messageLoop env ba guess messageArray b.left b.start b.st b.translator := by
  induction h with
  | refl => rfl
  | step h32 hma hrec _ ih =>
    rw [← ih]
    simp [messageLoop, h32, hma, hrec]

theorem decodeField_end {env : Env} {ba : QByteArray} {m : Nat} {st : DecodeState}
    (htag : read8 ba m = some Tag_End) : decodeField env ba m st = some (.endTag st) := by
  unfold decodeField
  simp only [htag, Option.bind_eq_bind, Option.some_bind, Option.pure_def]
  rfl

theorem decodeField_translation {env : Env} {ba : QByteArray} {m : Nat} {st : DecodeState}
    (htag : read8 ba m = some Tag_Translation) :
    decodeField env ba m st = (read32 ba (m + 1)).bind fun len =>
      if len ≠ 0xFFFFFFFF ∧ len % 2 = 1 then some .formatError
      else if len = 0xFFFFFFFF then
        some (.next (m + 4) { st with translations := st.translations ++ [.null] })
      else if len ≥ 2147483648 then none
      else (bytesAt ba (m + 5) len).bind fun bytes =>
        some (.next (m + 5 + len)
          { st with translations := st.translations ++ [.str (utf16be bytes)] }) := by
  unfold decodeField
  simp only [htag, Option.bind_eq_bind, Option.some_bind, Option.pure_def]
  rw [if_neg (by decide)]
  rfl

theorem decodeField_sourceText {env : Env} {ba : QByteArray} {m : Nat} {st : DecodeState}
    (htag : read8 ba m = some Tag_SourceText) :
    decodeField env ba m st = (read32 ba (m + 1)).bind fun len =>
      (fromBytes env ba (m + 5) len).bind fun r =>
        some (.next (m + 5 + len) { st with sourcetext := r.1, utf8Fail := r.2 }) := by
  unfold decodeField
  simp only [htag, Option.bind_eq_bind, Option.some_bind, Option.pure_def]
  rw [if_neg (by decide), if_neg (by decide), if_neg (by decide)]
  rfl

theorem decodeField_context {env : Env} {ba : QByteArray} {m : Nat} {st : DecodeState}
    (htag : read8 ba m = some Tag_Context) :
    decodeField env ba m st = (read32 ba (m + 1)).bind fun len =>
      (fromBytes env ba (m + 5) len).bind fun r =>
        some (.next (m + 5 + len) { st with context := r.1, utf8Fail := r.2 }) := by
  unfold decodeField
  simp only [htag, Option.bind_eq_bind, Option.some_bind, Option.pure_def]
  rw [if_neg (by decide), if_neg (by decide), if_neg (by decide), if_neg (by decide)]
  rfl

theorem decodeField_comment {env : Env} {ba : QByteArray} {m : Nat} {st : DecodeState}
    (htag : read8 ba m = some Tag_Comment) :
    decodeField env ba m st = (read32 ba (m + 1)).bind fun len =>
      (fromBytes env ba (m + 5) len).bind fun r =>
        some (.next (m + 5 + len) { st with comment := r.1, utf8Fail := r.2 }) := by
  unfold decodeField
  simp only [htag, Option.bind_eq_bind, Option.some_bind, Option.pure_def]
  rw [if_neg (by decide), if_neg (by decide), if_neg (by decide), if_neg (by decide),
    if_neg (by decide)]
  rfl

theorem decodeField_obsolete1 {env : Env} {ba : QByteArray} {m : Nat} {st : DecodeState}
    (htag : read8 ba m = some Tag_Obsolete1) :
    decodeField env ba m st = some (.next (m + 5) st) := by
  unfold decodeField
  simp only [htag, Option.bind_eq_bind, Option.some_bind, Option.pure_def]
  rw [if_neg (by decide), if_neg (by decide)]
  rfl

theorem decodeField_unknown {env : Env} {ba : QByteArray} {m : Nat} {st : DecodeState} {tag : Byte}
    (htag : read8 ba m = some tag) (h1 : tag ≠ Tag_End) (h3 : tag ≠ Tag_Translation)
    (h5 : tag ≠ Tag_Obsolete1) (h6 : tag ≠ Tag_SourceText) (h7 : tag ≠ Tag_Context)
    (h8 : tag ≠ Tag_Comment) :
    decodeField env ba m st = some (.next (m + 1) st) := by
  unfold decodeField
  simp only [htag, Option.bind_eq_bind, Option.some_bind, Option.pure_def]
  rw [if_neg h1, if_neg h3, if_neg h5, if_neg h6, if_neg h7, if_neg h8]

theorem decodeField_odd {env : Env} {ba : QByteArray} {m len : Nat} {st : DecodeState}
    (htag : read8 ba m = some Tag_Translation) (hlen : read32 ba (m + 1) = some len)
    (hodd : len % 2 = 1) (hne : len ≠ 0xFFFFFFFF) :
    decodeField env ba m st = some .formatError := by
  rw [decodeField_translation htag, hlen, Option.some_bind, if_pos ⟨hne, hodd⟩]

theorem decodeRecord_formatError {env : Env} {ba : QByteArray} {m : Nat} {st : DecodeState}
    (h : decodeField env ba m st = some .formatError) :
    decodeRecord env ba ba.length m st = some .formatError := by
  have hlt : m < ba.length := by
    by_contra hge
    rw [decodeField_none_of_ge (by omega)] at h
    cases h
  have hf : ba.length = (ba.length - 1) + 1 := by omega
  rw [hf]
  simp only [decodeRecord, h]

/-- C2: an input shorter than 16 bytes, or whose first 16 bytes are not the
magic, makes `loadQM` append the format error "magic marker missing" and
return false, with the translator left as it was. -/
theorem loadQM_magic_mismatch (env : Env) (translator : Translator) (ba : QByteArray)
    (cd : ConversionData) (h : ba.length < 16 ∨ ba.take 16 ≠ magic) :
    loadQM env translator ba cd
      = some { ok := false, translator := translator, cd := cd.appendError .magicMissing } := by
  unfold loadQM
  rw [if_pos h]

theorem loadQM_magic_mismatch_witness :
    (magic.take 15).length < 16 ∧
    loadQM sampleEnv Translator.empty (magic.take 15) ConversionData.default
      = some { ok := false, translator := Translator.empty,
               cd := ConversionData.default.appendError .magicMissing } :=
  ⟨by decide, loadQM_magic_mismatch sampleEnv Translator.empty (magic.take 15)
    ConversionData.default (Or.inl (by decide))⟩

theorem read32_sentinel {ba : QByteArray} {p : Nat} (h : read32 ba p = some 0xFFFFFFFF) :
    read8 ba (p + 3) = some 0xff := by
  unfold read32 at h
  unfold read8
  cases h0 : ba[p]? <;> cases h1 : ba[p + 1]? <;> cases h2 : ba[p + 2]? <;>
    cases h3 : ba[p + 3]? <;> simp [h0, h1, h2, h3] at h
  rename_i b0 b1 b2 b3
  have := b0.isLt; have := b1.isLt; have := b2.isLt; have := b3.isLt
  congr 1
  apply Fin.ext
  show b3.val = 255
  omega

/-- C5: in the field loop, a Translation field whose length is 0xFFFFFFFF
appends a null (empty) translation, reads no payload, and the decoding goes on
exactly as the decoding that starts at the byte after the four length bytes. -/
theorem sentinel_translation (env : Env) (ba : QByteArray) (m : Nat) (st : DecodeState)
    (htag : read8 ba m = some Tag_Translation)
    (hlen : read32 ba (m + 1) = some 0xFFFFFFFF) :
    decodeRecord env ba ba.length m st
      = decodeRecord env ba ba.length (m + 5)
          { st with translations := st.translations ++ [QString.null] }
    ∧ QString.null.units = [] := by
  refine ⟨?_, rfl⟩
  have h1 : decodeField env ba m st
      = some (.next (m + 4) { st with translations := st.translations ++ [QString.null] }) := by
    rw [decodeField_translation htag, hlen, Option.some_bind, if_neg (by simp), if_pos rfl]
  have h2 : decodeField env ba (m + 4) { st with translations := st.translations ++ [QString.null] }
      = some (.next (m + 5) { st with translations := st.translations ++ [QString.null] }) := by
    have h8 := read32_sentinel hlen
    rw [show m + 1 + 3 = m + 4 by omega] at h8
    exact decodeField_unknown h8 (by decide) (by decide) (by decide) (by decide) (by decide)
      (by decide)
  exact (FieldReach.step h1 (FieldReach.step h2 (FieldReach.refl _ _))).decodeRecord_eq

/-- C8: when the decoding of a record comes to a Translation field whose
length is odd and is not 0xFFFFFFFF, `loadQM` appends the format error and
returns false. -/
theorem odd_translation_length_fails (env : Env) (translator : Translator) (ba : QByteArray)
    (cd : ConversionData) (s : ScanState) (a : LoopState) (ro base m len : Nat)
    (st' : DecodeState)
    (hmagic : ¬ (ba.length < MagicLength ∨ ba.take MagicLength ≠ magic))
    (hscan : scanLoop env ba ba.length MagicLength (ScanState.init translator) = some s)
    (hloop : LoopReach env ba (guessPlurals env s.translator) s.messageArray
      ⟨s.offsetLength / 8, s.offsetArray.getD 0, DecodeState.init s.utf8Fail, s.translator⟩ a)
    (hleft : 0 < a.left)
    (hro : read32 ba (a.start + 4) = some ro) (hbase : s.messageArray = some base)
    (hfield : FieldReach env ba (base + ro) a.st m st')
    (htag : read8 ba m = some Tag_Translation) (hlen : read32 ba (m + 1) = some len)
    (hodd : len % 2 = 1) (hne : len ≠ 0xFFFFFFFF) :
    loadQM env translator ba cd
      = some { ok := false, translator := a.translator, cd := cd.appendError .formatError } := by
  unfold loadQM
  rw [if_neg hmagic]
  simp only [hscan, Option.bind_eq_bind, Option.some_bind]
  unfold loadMessages
  have hl := hloop.messageLoop_eq
  simp only at hl
  dsimp only
  rw [hl]
  obtain ⟨n, start, st, tr⟩ := a
  simp only at hleft hro hfield ⊢
  obtain ⟨k, rfl⟩ : ∃ k, n = k + 1 := ⟨n - 1, by omega⟩
  have hrec := hfield.decodeRecord_eq
  rw [decodeRecord_formatError (decodeField_odd htag hlen hodd hne)] at hrec
  simp [messageLoop, hro, hbase, hrec]

theorem read32_some_lt {ba : QByteArray} {p v : Nat} (h : read32 ba p = some v) :
    p + 3 < ba.length ∧ v < 4294967296 := by
  unfold read32 at h
  cases h0 : ba[p]? <;> cases h1 : ba[p + 1]? <;> cases h2 : ba[p + 2]? <;>
    cases h3 : ba[p + 3]? <;> simp [h0, h1, h2, h3] at h
  rename_i b0 b1 b2 b3
  have := b0.isLt; have := b1.isLt; have := b2.isLt; have := b3.isLt
  refine ⟨?_, by omega⟩
  by_contra hge
  rw [List.getElem?_eq_none (by omega)] at h3
  cases h3

theorem read8_isSome {ba : QByteArray} {p : Nat} (h : p < ba.length) :
    ∃ b, read8 ba p = some b := by
  unfold read8
  exact ⟨ba[p], List.getElem?_eq_getElem h⟩

theorem read32_isSome {ba : QByteArray} {p : Nat} (h : p + 3 < ba.length) :
    ∃ v, read32 ba p = some v := by
  unfold read32
  rw [List.getElem?_eq_getElem (show p < ba.length by omega),
    List.getElem?_eq_getElem (show p + 1 < ba.length by omega),
    List.getElem?_eq_getElem (show p + 2 < ba.length by omega),
    List.getElem?_eq_getElem h]
  exact ⟨_, rfl⟩

/-- The block scan body in terms of the tag and the length it reads. -/
theorem scanBlock_eq {env : Env} {ba : QByteArray} {data : Nat} {st : ScanState} {tag : Byte}
    {blockLen : Nat} (htag : read8 ba data = some tag) (hlen : read32 ba (data + 1) = some blockLen) :
    scanBlock env ba data st =
      if tag = 0 ∨ blockLen = 0 then some (.stop st)
      else if data + 5 + blockLen > ba.length then some (.stop { st with ok := false })
      else some (.next (data + 5 + blockLen)
        (if tag = Hashes then
          { st with offsetArray := some (data + 5), offsetLength := blockLen }
        else if tag = Messages then
          { st with messageArray := some (data + 5) }
        else if tag = Dependencies then
          { st with translator :=
              (st.translator.setDependencies (env.readStrings ((ba.drop (data + 5)).take blockLen))) }
        else if tag = Language then
          { st with utf8Fail := (env.fromUtf8 ((ba.drop (data + 5)).take blockLen)).2,
                    translator :=
                      (st.translator.setLanguageCode (env.fromUtf8 ((ba.drop (data + 5)).take blockLen)).1) }
        else st)) := by
  unfold scanBlock
  simp only [htag, hlen, Option.bind_eq_bind, Option.some_bind, Option.pure_def]

theorem scanBlock_next {env : Env} {ba : QByteArray} {data d1 : Nat} {st s1 : ScanState}
    (h : scanBlock env ba data st = some (.next d1 s1)) : data + 6 ≤ d1 ∧ d1 ≤ ba.length := by
  cases h8 : read8 ba data with
  | none => simp [scanBlock, h8] at h
  | some tag =>
    cases h32 : read32 ba (data + 1) with
    | none => simp [scanBlock, h8, h32] at h
    | some blockLen =>
      rw [scanBlock_eq h8 h32] at h
      by_cases h1 : tag = 0 ∨ blockLen = 0
      · rw [if_pos h1] at h
        simp at h
      · by_cases h2 : data + 5 + blockLen > ba.length
        · rw [if_neg h1, if_pos h2] at h
          simp at h
        · rw [if_neg h1, if_neg h2] at h
          simp only [Option.some.injEq, ScanStep.next.injEq] at h
          obtain ⟨hd, -⟩ := h
          push_neg at h1
          have := h1.2
          omega

theorem ScanReach.scanLoop_eq {env : Env} {ba : QByteArray} {data d2 : Nat} {st s2 : ScanState}
    (h : ScanReach env ba data st d2 s2) :
    ∀ f, ba.length < data + f →
      ∃ f', ba.length < d2 + f' ∧ scanLoop env ba f data st = scanLoop env ba f' d2 s2 := by
  induction h with
  | refl => exact fun f hf => ⟨f, hf, rfl⟩
  | @step data d1 d2 st s1 s2 hguard hblock _ ih =>
    intro f hf
    have hn := scanBlock_next hblock
    obtain ⟨k, rfl⟩ : ∃ k, f = k + 1 := ⟨f - 1, by omega⟩
    obtain ⟨f', hf', heq⟩ := ih k (by omega)
    refine ⟨f', hf', ?_⟩
    rw [← heq]
    simp only [scanLoop, if_pos hguard, hblock]

theorem loadMessages_ok_false {env : Env} {ba : QByteArray} {cd : ConversionData} {s : ScanState}
    {r : LoadResult} (hok : s.ok = false) (h : loadMessages env ba cd s = some r) :
    r.ok = false := by
  unfold loadMessages at h
  dsimp only at h
  obtain ⟨res, -, h⟩ := Option.bind_eq_some.mp h
  cases res with
  | formatError t => simp at h; rw [← h]
  | completed st t =>
    simp only at h
    split_ifs at h <;> simp at h <;> rw [← h]
    exact hok

/-- When the block scan comes to a header with a nonzero tag whose nonzero
length passes the end of the buffer, `loadQM` does not return success. -/
theorem scan_overrun_not_ok (env : Env) (translator : Translator) (ba : QByteArray)
    (cd : ConversionData) (data : Nat) (st : ScanState) (tag : Byte) (blockLen : Nat)
    (hmagic : ¬ (ba.length < MagicLength ∨ ba.take MagicLength ≠ magic))
    (hreach : ScanReach env ba MagicLength (ScanState.init translator) data st)
    (hguard : data + 4 < ba.length)
    (htag : read8 ba data = some tag) (hlen : read32 ba (data + 1) = some blockLen)
    (htag0 : tag ≠ 0) (hlen0 : blockLen ≠ 0) (hover : data + 5 + blockLen > ba.length)
    (r : LoadResult) (h : loadQM env translator ba cd = some r) : r.ok = false := by
  unfold loadQM at h
  rw [if_neg hmagic] at h
  obtain ⟨f', hf', heq⟩ := hreach.scanLoop_eq ba.length (by simp [MagicLength])
  obtain ⟨k, rfl⟩ : ∃ k, f' = k + 1 := ⟨f' - 1, by omega⟩
  have hs : scanLoop env ba (k + 1) data st = some { st with ok := false } := by
    simp only [scanLoop, if_pos hguard, scanBlock_eq htag hlen]
    rw [if_neg (by push_neg; exact ⟨htag0, hlen0⟩), if_pos hover]
  rw [heq, hs] at h
  exact loadMessages_ok_false rfl h

theorem sentinel_translation_witness :
    read8 sentinelFile 34 = some Tag_Translation ∧
    read32 sentinelFile 35 = some 0xFFFFFFFF ∧
    (decodeRecord sampleEnv sentinelFile sentinelFile.length 34 (DecodeState.init false)
      = decodeRecord sampleEnv sentinelFile sentinelFile.length 39
          { DecodeState.init false with translations := [QString.null] }
     ∧ QString.null.units = []) :=
  ⟨by decide, by decide,
    sentinel_translation sampleEnv sentinelFile 34 (DecodeState.init false) (by decide) (by decide)⟩

theorem odd_translation_length_fails_witness :
    loadQM sampleEnv Translator.empty oddLengthFile ConversionData.default
      = some { ok := false, translator := Translator.empty,
               cd := ConversionData.default.appendError .formatError } :=
  odd_translation_length_fails sampleEnv Translator.empty oddLengthFile ConversionData.default
    { messageArray := some 34, offsetArray := some 21, offsetLength := 8, ok := true,
      utf8Fail := false, translator := Translator.empty }
    ⟨1, 21, DecodeState.init false, Translator.empty⟩ 0 34 34 1 (DecodeState.init false)
    (by decide) (by decide) (LoopReach.refl _) (by decide) (by decide) rfl
    (FieldReach.refl _ _) (by decide) (by decide) (by decide) (by decide)

/-- C3: on a file cut off inside its Messages block the block scan comes to a
header with a nonzero tag whose length passes the end of the buffer, sets `ok`
to false and leaves the loop; the message loop then dereferences the null
`messageArray`, so `loadQM` does not return at all. -/
theorem truncated_file_faults :
    ¬ (truncatedFile.length < MagicLength ∨ truncatedFile.take MagicLength ≠ magic) ∧
    scanLoop sampleEnv truncatedFile truncatedFile.length MagicLength
        (ScanState.init Translator.empty)
      = some { messageArray := none, offsetArray := some 21, offsetLength := 8, ok := false,
               utf8Fail := false, translator := Translator.empty } ∧
    read8 truncatedFile 29 = some Messages ∧
    read32 truncatedFile 30 = some 9 ∧
    29 + 5 + 9 > truncatedFile.length ∧
    loadQM sampleEnv Translator.empty truncatedFile ConversionData.default = none := by
  decide

/-- C9: on a file that holds only the start of a Messages block `loadQM`
returns false and has appended no error message. -/
theorem overrun_fails_without_message :
    loadQM sampleEnv Translator.empty overrunFile ConversionData.default
      = some { ok := false, translator := Translator.empty, cd := ConversionData.default }
    ∧ ConversionData.default.m_errors = [] := by
  decide

/-- C4: the Comment field of the record of `lostUtf8File` is not valid UTF-8,
the SourceText and Context fields decoded after it are, and `loadQM` returns
true without an error message. -/
theorem invalid_utf8_not_reported :
    (fromBytes sampleEnv lostUtf8File 46 1).map Prod.snd = some true ∧
    loadQM sampleEnv Translator.empty lostUtf8File ConversionData.default
      = some { ok := true
               translator :=
                { messages := [{ id := .null, context := .str [0x43], sourceText := .str [0x53],
                                 comment := .str [0xfffd], translations := [.str [0x54]],
                                 type := .Finished, plural := false }]
                  languageCode := .null, dependencies := [] }
               cd := ConversionData.default } := by
  decide

/-! ## Reads in a buffer that is extended -/

theorem read8_append {ba rest : QByteArray} {p : Nat} {b : Byte} (h : read8 ba p = some b) :
    read8 (ba ++ rest) p = some b := by
  have hlt := read8_some_lt h
  unfold read8 at h ⊢
  rw [List.getElem?_append_left hlt]
  exact h

theorem read32_append {ba rest : QByteArray} {p v : Nat} (h : read32 ba p = some v) :
    read32 (ba ++ rest) p = some v := by
  have hlt := (read32_some_lt h).1
  unfold read32 at h ⊢
  rw [List.getElem?_append_left (show p < ba.length by omega),
    List.getElem?_append_left (show p + 1 < ba.length by omega),
    List.getElem?_append_left (show p + 2 < ba.length by omega),
    List.getElem?_append_left hlt]
  exact h

theorem bytesAt_append {ba rest : QByteArray} {p n : Nat} {bs : QByteArray}
    (h : bytesAt ba p n = some bs) : bytesAt (ba ++ rest) p n = some bs := by
  unfold bytesAt at h ⊢
  split_ifs at h with hle
  rw [if_pos (by rw [List.length_append]; omega)]
  rw [← Option.some.inj h]
  congr 1
  rw [List.drop_append_of_le_length (by omega), List.take_append_of_le_length]
  rw [List.length_drop]
  omega

theorem fromBytes_append {env : Env} {ba rest : QByteArray} {p n : Nat} {r : QString × Bool}
    (h : fromBytes env ba p n = some r) : fromBytes env (ba ++ rest) p n = some r := by
  unfold fromBytes at h ⊢
  split_ifs at h with hlt
  rw [if_pos hlt]
  obtain ⟨bs, hbs, hr⟩ := Option.map_eq_some'.mp h
  rw [bytesAt_append hbs, Option.map_some', hr]

theorem decodeField_append {env : Env} {ba rest : QByteArray} {m : Nat} {st : DecodeState}
    {x : FieldStep} (h : decodeField env ba m st = some x) :
    decodeField env (ba ++ rest) m st = some x := by
  cases h8 : read8 ba m with
  | none => simp [decodeField, h8] at h
  | some tag =>
    have h8' : read8 (ba ++ rest) m = some tag := read8_append h8
    have utf8 : ∀ (g : Nat → QString × Bool → FieldStep),
        ((read32 ba (m + 1)).bind fun len =>
          (fromBytes env ba (m + 5) len).bind fun r => some (g len r)) = some x →
        ((read32 (ba ++ rest) (m + 1)).bind fun len =>
          (fromBytes env (ba ++ rest) (m + 5) len).bind fun r => some (g len r)) = some x := by
      intro g hg
      obtain ⟨len, h32, hg⟩ := Option.bind_eq_some.mp hg
      obtain ⟨r, hr, hg⟩ := Option.bind_eq_some.mp hg
      rw [read32_append h32, Option.some_bind, fromBytes_append hr, Option.some_bind]
      exact hg
    by_cases h1 : tag = Tag_End
    · subst h1
      rw [decodeField_end h8] at h
      rw [decodeField_end h8']
      exact h
    by_cases h3 : tag = Tag_Translation
    · subst h3
      rw [decodeField_translation h8] at h
      rw [decodeField_translation h8']
      obtain ⟨len, h32, h⟩ := Option.bind_eq_some.mp h
      rw [read32_append h32, Option.some_bind]
      split_ifs at h ⊢
      · exact h
      · exact h
      · obtain ⟨bs, hbs, h⟩ := Option.bind_eq_some.mp h
        rw [bytesAt_append hbs, Option.some_bind]
        exact h
    by_cases h5 : tag = Tag_Obsolete1
    · subst h5
      rw [decodeField_obsolete1 h8] at h
      rw [decodeField_obsolete1 h8']
      exact h
    by_cases h6 : tag = Tag_SourceText
    · subst h6
      rw [decodeField_sourceText h8] at h
      rw [decodeField_sourceText h8']
      exact utf8 _ h
    by_cases h7 : tag = Tag_Context
    · subst h7
      rw [decodeField_context h8] at h
      rw [decodeField_context h8']
      exact utf8 _ h
    by_cases h9 : tag = Tag_Comment
    · subst h9
      rw [decodeField_comment h8] at h
      rw [decodeField_comment h8']
      exact utf8 _ h
    rw [decodeField_unknown h8 h1 h3 h5 h6 h7 h9] at h
    rw [decodeField_unknown h8' h1 h3 h5 h6 h7 h9]
    exact h

theorem decodeRecord_append {env : Env} {ba rest : QByteArray} (f : Nat) :
    ∀ (m : Nat) (st : DecodeState) (x : RecordResult),
      decodeRecord env ba f m st = some x → decodeRecord env (ba ++ rest) f m st = some x := by
  induction f with
  | zero => intro m st x h; simp [decodeRecord] at h
  | succ f ih =>
    intro m st x h
    simp only [decodeRecord] at h ⊢
    cases hd : decodeField env ba m st with
    | none => simp [hd] at h
    | some y =>
      rw [decodeField_append hd]
      rw [hd] at h
      cases y with
      | endTag s => exact h
      | formatError => exact h
      | next m1 s1 => exact ih m1 s1 x h

theorem decodeRecord_fuel_mono {env : Env} {ba : QByteArray} (f : Nat) :
    ∀ (m : Nat) (st : DecodeState) (x : RecordResult) (k : Nat),
      decodeRecord env ba f m st = some x → decodeRecord env ba (f + k) m st = some x := by
  induction f with
  | zero => intro m st x k h; simp [decodeRecord] at h
  | succ f ih =>
    intro m st x k h
    rw [show f + 1 + k = (f + k) + 1 by omega]
    simp only [decodeRecord] at h ⊢
    cases hd : decodeField env ba m st with
    | none => simp [hd] at h
    | some y =>
      rw [hd] at h
      cases y with
      | endTag s => exact h
      | formatError => exact h
      | next m1 s1 => exact ih m1 s1 x k h

theorem messageLoop_append {env : Env} {ba rest : QByteArray} {guess : Bool}
    {messageArray : Option Nat} (n : Nat) :
    ∀ (start : Nat) (st : DecodeState) (translator : Translator) (x : MessagesResult),
      messageLoop env ba guess messageArray n start st translator = some x →
      messageLoop env (ba ++ rest) guess messageArray n start st translator = some x := by
  induction n with
  | zero => intro start st translator x h; exact h
  | succ n ih =>
    intro start st translator x h
    simp only [messageLoop, Option.bind_eq_bind] at h ⊢
    obtain ⟨ro, hro, h⟩ := Option.bind_eq_some.mp h
    obtain ⟨base, hbase, h⟩ := Option.bind_eq_some.mp h
    obtain ⟨rr, hrr, h⟩ := Option.bind_eq_some.mp h
    subst hbase
    have hrr' : decodeRecord env (ba ++ rest) (ba ++ rest).length (base + ro) st = some rr := by
      rw [List.length_append]
      exact decodeRecord_fuel_mono _ _ _ _ _ (decodeRecord_append _ _ _ _ hrr)
    rw [read32_append hro, Option.some_bind, Option.some_bind, hrr', Option.some_bind]
    cases rr with
    | formatError => exact h
    | ended s => exact ih _ _ _ _ h

theorem loadMessages_append {env : Env} {ba rest : QByteArray} {cd : ConversionData}
    {s : ScanState} {r : LoadResult} (h : loadMessages env ba cd s = some r) :
    loadMessages env (ba ++ rest) cd s = some r := by
  unfold loadMessages at h ⊢
  dsimp only at h ⊢
  simp only [Option.bind_eq_bind] at h ⊢
  obtain ⟨x, hx, h⟩ := Option.bind_eq_some.mp h
  rw [messageLoop_append _ _ _ _ _ hx, Option.some_bind]
  exact h

/-! ## The block scan on a buffer that is cut off -/

theorem read8_take {ba : QByteArray} {p n : Nat} (h : p < n) :
    read8 (ba.take n) p = read8 ba p := by
  unfold read8
  exact List.getElem?_take_of_lt h

theorem read32_take {ba : QByteArray} {p n : Nat} (h : p + 3 < n) :
    read32 (ba.take n) p = read32 ba p := by
  unfold read32
  rw [List.getElem?_take_of_lt (show p < n by omega),
    List.getElem?_take_of_lt (show p + 1 < n by omega),
    List.getElem?_take_of_lt (show p + 2 < n by omega),
    List.getElem?_take_of_lt h]

theorem take_drop_take {ba : QByteArray} {a len n : Nat} (h : a + len ≤ n) :
    ((ba.take n).drop a).take len = (ba.drop a).take len := by
  rw [List.drop_take, List.take_take, Nat.min_eq_left (by omega)]

theorem scanBlock_exists {env : Env} {ba : QByteArray} {data : Nat} {st : ScanState} {x : ScanStep}
    (h : scanBlock env ba data st = some x) :
    ∃ tag blockLen, read8 ba data = some tag ∧ read32 ba (data + 1) = some blockLen := by
  unfold scanBlock at h
  simp only [Option.bind_eq_bind] at h
  obtain ⟨tag, h8, h⟩ := Option.bind_eq_some.mp h
  obtain ⟨blockLen, h32, -⟩ := Option.bind_eq_some.mp h
  exact ⟨tag, blockLen, h8, h32⟩

theorem scanBlock_take {env : Env} {ba : QByteArray} {data d1 n : Nat} {st s1 : ScanState}
    (h : scanBlock env ba data st = some (.next d1 s1)) (hd : d1 ≤ n) (hn : n ≤ ba.length) :
    scanBlock env (ba.take n) data st = some (.next d1 s1) := by
  obtain ⟨tag, blockLen, h8, h32⟩ := scanBlock_exists h
  have hnext := scanBlock_next h
  rw [scanBlock_eq h8 h32] at h
  have h8' : read8 (ba.take n) data = some tag := by rw [read8_take (by omega)]; exact h8
  have h32' : read32 (ba.take n) (data + 1) = some blockLen := by
    rw [read32_take (by omega)]; exact h32
  rw [scanBlock_eq h8' h32']
  by_cases h1 : tag = 0 ∨ blockLen = 0
  · rw [if_pos h1] at h
    simp at h
  by_cases h2 : data + 5 + blockLen > ba.length
  · rw [if_neg h1, if_pos h2] at h
    simp at h
  rw [if_neg h1, if_neg h2] at h
  have hd1 : data + 5 + blockLen = d1 := by
    simp only [Option.some.injEq, ScanStep.next.injEq] at h
    exact h.1
  rw [if_neg h1, if_neg (by rw [List.length_take]; omega), take_drop_take (by omega)]
  exact h

theorem ScanReach.le {env : Env} {ba : QByteArray} {data d2 : Nat} {st s2 : ScanState}
    (h : ScanReach env ba data st d2 s2) : data ≤ d2 := by
  induction h with
  | refl => exact Nat.le_refl _
  | step _ hblock _ ih =>
    have := scanBlock_next hblock
    omega

theorem ScanReach.take {env : Env} {ba : QByteArray} {data p : Nat} {st s2 : ScanState}
    (h : ScanReach env ba data st p s2) (hp : p ≤ ba.length) :
    ScanReach env (ba.take p) data st p s2 := by
  induction h with
  | refl => exact ScanReach.refl _ _
  | step hguard hblock hrest ih =>
    have hn := scanBlock_next hblock
    have hle := hrest.le
    refine ScanReach.step ?_ (scanBlock_take hblock hle hp) (ih hp)
    rw [List.length_take]
    omega

theorem scanLoop_stop_at {env : Env} {ba : QByteArray} {p f : Nat} {st : ScanState}
    (hf : ba.length < p + f) (hp : p ≤ ba.length) (hstop : ¬ p + 4 < ba.length) :
    scanLoop env ba f p st = some st := by
  obtain ⟨k, rfl⟩ : ∃ k, f = k + 1 := ⟨f - 1, by omega⟩
  simp only [scanLoop, if_neg hstop]

/-- C10, as amended: when the block scan comes to a header whose tag is 0 or
whose length is 0, and `loadQM` returns on the input cut off just before that
header, then `loadQM` returns the same result (success flag, translator and
messages) on the whole input, whatever bytes follow the header. -/
theorem scan_terminator_same_as_cut (env : Env) (translator : Translator) (ba : QByteArray)
    (cd : ConversionData) (p : Nat) (st : ScanState) (tag : Byte) (blockLen : Nat)
    (r : LoadResult)
    (hmagic : ¬ (ba.length < MagicLength ∨ ba.take MagicLength ≠ magic))
    (hreach : ScanReach env ba MagicLength (ScanState.init translator) p st)
    (hguard : p + 4 < ba.length)
    (htag : read8 ba p = some tag) (hlen : read32 ba (p + 1) = some blockLen)
    (hzero : tag = 0 ∨ blockLen = 0)
    (hcut : loadQM env translator (ba.take p) cd = some r) :
    loadQM env translator ba cd = some r := by
  have hp16 := hreach.le
  have hple : p ≤ ba.length := by omega
  -- the scan of the whole input stops at the header
  obtain ⟨f', hf', heq⟩ := hreach.scanLoop_eq ba.length (by simp [MagicLength])
  obtain ⟨k, rfl⟩ : ∃ k, f' = k + 1 := ⟨f' - 1, by omega⟩
  have hfull : scanLoop env ba ba.length MagicLength (ScanState.init translator) = some st := by
    rw [heq]
    simp only [scanLoop, if_pos hguard, scanBlock_eq htag hlen, if_pos hzero]
  -- the scan of the cut input stops at its end, in the same state
  have hlen_cut : (ba.take p).length = p := by rw [List.length_take]; omega
  obtain ⟨g', hg', hceq⟩ := (hreach.take hple).scanLoop_eq (ba.take p).length
    (by rw [hlen_cut]; simp [MagicLength])
  have hcutscan : scanLoop env (ba.take p) (ba.take p).length MagicLength
      (ScanState.init translator) = some st := by
    rw [hceq]
    exact scanLoop_stop_at hg' (by rw [hlen_cut]) (by rw [hlen_cut]; omega)
  have hmagic_cut : ¬ ((ba.take p).length < MagicLength ∨ (ba.take p).take MagicLength ≠ magic) := by
    rw [hlen_cut, List.take_take, Nat.min_eq_left hp16]
    push_neg at hmagic ⊢
    exact ⟨hp16, hmagic.2⟩
  unfold loadQM at hcut ⊢
  rw [if_neg hmagic_cut, hcutscan] at hcut
  rw [if_neg hmagic, hfull]
  simp only [Option.bind_eq_bind, Option.some_bind] at hcut ⊢
  have : loadMessages env (ba.take p ++ ba.drop p) cd st = some r := loadMessages_append hcut
  rwa [List.take_append_drop] at this

/-- C10, counterexample: in `terminatorFile` the block scan comes at offset 39
to a header with tag 0. `loadQM` succeeds on the file, with a comment decoded
from the header and the byte after it, and does not return on the file cut off
before the header. -/
theorem terminator_bytes_are_read :
    ScanReach sampleEnv terminatorFile MagicLength (ScanState.init Translator.empty) 39
      { messageArray := some 34, offsetArray := some 21, offsetLength := 8, ok := true,
        utf8Fail := false, translator := Translator.empty } ∧
    39 + 4 < terminatorFile.length ∧
    read8 terminatorFile 39 = some 0 ∧
    loadQM sampleEnv Translator.empty terminatorFile ConversionData.default
      = some { ok := true
               translator :=
                { messages := [{ id := .null, context := .null, sourceText := .null,
                                 comment := .str [0, 0, 0, 0, 0, 0x41], translations := [],
                                 type := .Finished, plural := false }]
                  languageCode := .null, dependencies := [] }
               cd := ConversionData.default } ∧
    loadQM sampleEnv Translator.empty (terminatorFile.take 39) ConversionData.default = none :=
  ⟨ScanReach.step (by decide) (rfl : scanBlock sampleEnv terminatorFile 16 _ = some (.next 29 _))
      (ScanReach.step (by decide)
        (rfl : scanBlock sampleEnv terminatorFile 29 _ = some (.next 39 _))
        (ScanReach.refl _ _)),
    by decide, by decide, by decide, by decide⟩

theorem scan_terminator_same_as_cut_witness :
    loadQM sampleEnv Translator.empty terminatedFile ConversionData.default
      = some { ok := true
               translator :=
                { messages := [{ id := .null, context := .str [0x43], sourceText := .null,
                                 comment := .null, translations := [.null],
                                 type := .Finished, plural := false }]
                  languageCode := .null, dependencies := [] }
               cd := ConversionData.default } :=
  scan_terminator_same_as_cut sampleEnv Translator.empty terminatedFile ConversionData.default 46
    { messageArray := some 34, offsetArray := some 21, offsetLength := 8, ok := true,
      utf8Fail := false, translator := Translator.empty } 0 7 _
    (by decide)
    (ScanReach.step (by decide) (rfl : scanBlock sampleEnv terminatedFile 16 _ = some (.next 29 _))
      (ScanReach.step (by decide)
        (rfl : scanBlock sampleEnv terminatedFile 29 _ = some (.next 46 _))
        (ScanReach.refl _ _)))
    (by decide) (by decide) (by decide) (Or.inl rfl) (by decide)

/-! ## The field loop as a fold over parsed fields -/

theorem decodeField_eq_parse (env : Env) (ba : QByteArray) (m : Nat) (st : DecodeState) :
    decodeField env ba m st = (parseField env ba m).map (FieldParse.step st) := by
  cases h8 : read8 ba m with
  | none => simp [decodeField, parseField, h8]
  | some tag =>
    have utf8 : ∀ (mk : QString → Bool → Field) (g : Nat → QString × Bool → FieldStep),
        (∀ len r, g len r = .next (m + 5 + len) (Field.apply st (mk r.1 r.2))) →
        ((read32 ba (m + 1)).bind fun len =>
          (fromBytes env ba (m + 5) len).bind fun r => some (g len r))
        = (parseUtf8 env ba m mk).map (FieldParse.step st) := by
      intro mk g hg
      unfold parseUtf8
      cases read32 ba (m + 1) with
      | none => rfl
      | some len =>
        simp only [Option.some_bind]
        cases fromBytes env ba (m + 5) len with
        | none => rfl
        | some r => simp [hg, FieldParse.step]
    unfold parseField
    rw [h8, Option.some_bind]
    by_cases h1 : tag = Tag_End
    · subst h1
      rw [decodeField_end h8, if_pos rfl]; rfl
    by_cases h3 : tag = Tag_Translation
    · subst h3
      rw [decodeField_translation h8, if_neg h1, if_pos rfl]
      cases read32 ba (m + 1) with
      | none => rfl
      | some len =>
        simp only [Option.some_bind]
        by_cases hs : len = 0xFFFFFFFF
        · subst hs; rfl
        · by_cases hodd : len % 2 = 1
          · rw [if_pos ⟨hs, hodd⟩, if_neg hs, if_pos hodd]; rfl
          · rw [if_neg (by tauto), if_neg hs, if_neg hs, if_neg hodd]
            split_ifs
            · rfl
            · cases bytesAt ba (m + 5) len <;> rfl
    by_cases h5 : tag = Tag_Obsolete1
    · subst h5
      rw [decodeField_obsolete1 h8, if_neg h1, if_neg h3, if_pos rfl]; rfl
    by_cases h6 : tag = Tag_SourceText
    · subst h6
      rw [decodeField_sourceText h8, if_neg h1, if_neg h3, if_neg h5, if_pos rfl]
      exact utf8 _ _ (fun _ _ => rfl)
    by_cases h7 : tag = Tag_Context
    · subst h7
      rw [decodeField_context h8, if_neg h1, if_neg h3, if_neg h5, if_neg h6, if_pos rfl]
      exact utf8 _ _ (fun _ _ => rfl)
    by_cases h9 : tag = Tag_Comment
    · subst h9
      rw [decodeField_comment h8, if_neg h1, if_neg h3, if_neg h5, if_neg h6, if_neg h7, if_pos rfl]
      exact utf8 _ _ (fun _ _ => rfl)
    rw [decodeField_unknown h8 h1 h3 h5 h6 h7 h9, if_neg h1, if_neg h3, if_neg h5, if_neg h6,
      if_neg h7, if_neg h9]
    rfl

theorem decodeRecord_eq_parse (env : Env) (ba : QByteArray) (f : Nat) :
    ∀ (m : Nat) (st0 st : DecodeState) (acc : List Field), st = acc.foldl Field.apply st0 →
      decodeRecord env ba f m st = (parseRecord env ba f m acc).map (RecordParse.result st0) := by
  induction f with
  | zero => intro m st0 st acc _; rfl
  | succ f ih =>
    intro m st0 st acc hst
    simp only [decodeRecord, parseRecord, decodeField_eq_parse]
    cases parseField env ba m with
    | none => rfl
    | some p =>
      cases p with
      | endTag => simp [FieldParse.step, RecordParse.result, hst]
      | formatError => simp [FieldParse.step, RecordParse.result]
      | field fo next =>
        simp only [Option.map_some', FieldParse.step]
        apply ih
        cases fo with
        | none => simpa using hst
        | some fld => simp [hst, List.foldl_append]

theorem getLast?_append_getD {α : Type} (a b : List α) (d : α) :
    ((a ++ b).getLast?).getD d = (b.getLast?).getD ((a.getLast?).getD d) := by
  induction b using List.reverseRecOn with
  | nil => simp
  | append_singleton b' x _ =>
    rw [← List.append_assoc]
    simp

theorem lastField_append (sel : Field → Option QString) (a b : List Field) :
    lastField sel (a ++ b) = ((b.filterMap sel).getLast?).getD (lastField sel a) := by
  unfold lastField
  rw [List.filterMap_append, getLast?_append_getD]

theorem foldl_apply_context (fs : List Field) (st : DecodeState) :
    (fs.foldl Field.apply st).context = ((fs.filterMap Field.context?).getLast?).getD st.context := by
  induction fs using List.reverseRecOn with
  | nil => rfl
  | append_singleton fs f ih =>
    rw [List.foldl_append, List.filterMap_append, getLast?_append_getD, ← ih]
    cases f <;> rfl

theorem foldl_apply_sourcetext (fs : List Field) (st : DecodeState) :
    (fs.foldl Field.apply st).sourcetext
      = ((fs.filterMap Field.sourceText?).getLast?).getD st.sourcetext := by
  induction fs using List.reverseRecOn with
  | nil => rfl
  | append_singleton fs f ih =>
    rw [List.foldl_append, List.filterMap_append, getLast?_append_getD, ← ih]
    cases f <;> rfl

theorem foldl_apply_comment (fs : List Field) (st : DecodeState) :
    (fs.foldl Field.apply st).comment = ((fs.filterMap Field.comment?).getLast?).getD st.comment := by
  induction fs using List.reverseRecOn with
  | nil => rfl
  | append_singleton fs f ih =>
    rw [List.foldl_append, List.filterMap_append, getLast?_append_getD, ← ih]
    cases f <;> rfl

theorem foldl_apply_translations (fs : List Field) (st : DecodeState) :
    (fs.foldl Field.apply st).translations = st.translations ++ fs.filterMap Field.translation? := by
  induction fs using List.reverseRecOn with
  | nil => simp
  | append_singleton fs f ih =>
    rw [List.foldl_append, List.filterMap_append, ← List.append_assoc, ← ih]
    cases f <;> simp [Field.apply, Field.translation?]

theorem makeMessage_congr (guess : Bool) {a b : DecodeState} (h1 : a.context = b.context)
    (h2 : a.sourcetext = b.sourcetext) (h3 : a.comment = b.comment)
    (h4 : a.translations = b.translations) : makeMessage guess a = makeMessage guess b := by
  unfold makeMessage
  rw [h1, h2, h3, h4]

/-- The message of a record in terms of the fields parsed so far. -/
theorem makeMessage_foldl (guess : Bool) (earlier fs : List Field) (st : DecodeState)
    (ht : st.translations = [])
    (hc : st.context = lastField Field.context? earlier)
    (hs : st.sourcetext = lastField Field.sourceText? earlier)
    (hm : st.comment = lastField Field.comment? earlier) :
    makeMessage guess (fs.foldl Field.apply st) = specMessage guess earlier fs := by
  unfold specMessage
  apply makeMessage_congr
  · show _ = lastField Field.context? (earlier ++ fs)
    rw [foldl_apply_context, hc, lastField_append]
  · show _ = lastField Field.sourceText? (earlier ++ fs)
    rw [foldl_apply_sourcetext, hs, lastField_append]
  · show _ = lastField Field.comment? (earlier ++ fs)
    rw [foldl_apply_comment, hm, lastField_append]
  · show _ = fs.filterMap Field.translation?
    rw [foldl_apply_translations, ht, List.nil_append]

theorem messageLoop_spec {env : Env} {ba : QByteArray} {guess : Bool} {messageArray : Option Nat}
    (n : Nat) :
    ∀ (start : Nat) (st : DecodeState) (translator : Translator) (earlier : List Field)
      (stF : DecodeState) (trF : Translator),
      st.translations = [] →
      st.context = lastField Field.context? earlier →
      st.sourcetext = lastField Field.sourceText? earlier →
      st.comment = lastField Field.comment? earlier →
      messageLoop env ba guess messageArray n start st translator = some (.completed stF trF) →
      ∃ records : List (List Field), records.length = n ∧
        (∀ i, i < n → ∃ ro base, read32 ba (start + 8 * i + 4) = some ro ∧
          messageArray = some base ∧
          parseRecord env ba ba.length (base + ro) [] = some (.fields (records.getD i []))) ∧
        trF.messages = translator.messages ++ (List.range n).map fun i =>
          specMessage guess (earlier ++ (records.take i).flatten) (records.getD i []) := by
  induction n with
  | zero =>
    intro start st translator earlier stF trF _ _ _ _ h
    simp only [messageLoop, Option.some.injEq, MessagesResult.completed.injEq] at h
    refine ⟨[], rfl, fun i hi => absurd hi (Nat.not_lt_zero i), ?_⟩
    rw [← h.2]
    simp
  | succ n ih =>
    intro start st translator earlier stF trF ht hc hs hm h
    simp only [messageLoop, Option.bind_eq_bind] at h
    obtain ⟨ro, hro, h⟩ := Option.bind_eq_some.mp h
    obtain ⟨base, hbase, h⟩ := Option.bind_eq_some.mp h
    obtain ⟨rr, hrr, h⟩ := Option.bind_eq_some.mp h
    rw [decodeRecord_eq_parse env ba ba.length (base + ro) st st [] rfl] at hrr
    obtain ⟨pr, hpr, hres⟩ := Option.map_eq_some'.mp hrr
    cases pr with
    | formatError =>
      rw [← hres] at h
      simp [RecordParse.result] at h
    | fields fs =>
      rw [← hres] at h
      simp only [RecordParse.result] at h
      have hmsg := makeMessage_foldl guess earlier fs st ht hc hs hm
      rw [hmsg] at h
      obtain ⟨records, hlen, hrec, hmsgs⟩ := ih (start + 8)
        { fs.foldl Field.apply st with translations := [] }
        (translator.append (specMessage guess earlier fs)) (earlier ++ fs) stF trF rfl
        (by show (fs.foldl Field.apply st).context = _
            rw [foldl_apply_context, hc, lastField_append])
        (by show (fs.foldl Field.apply st).sourcetext = _
            rw [foldl_apply_sourcetext, hs, lastField_append])
        (by show (fs.foldl Field.apply st).comment = _
            rw [foldl_apply_comment, hm, lastField_append])
        h
      refine ⟨fs :: records, by simp [hlen], ?_, ?_⟩
      · intro i hi
        cases i with
        | zero => exact ⟨ro, base, by simpa using hro, hbase, by simpa using hpr⟩
        | succ j =>
          obtain ⟨ro', base', h1, h2, h3⟩ := hrec j (by omega)
          refine ⟨ro', base', ?_, h2, by simpa using h3⟩
          rw [← h1]
          congr 1
          omega
      · rw [hmsgs, List.range_succ_eq_map]
        simp [Translator.append, List.append_assoc, Function.comp_def]

theorem scanBlock_messages {env : Env} {ba : QByteArray} {data : Nat} {st : ScanState}
    {x : ScanStep} (h : scanBlock env ba data st = some x) :
    (match x with
      | .stop s => s.translator.messages
      | .next _ s => s.translator.messages) = st.translator.messages := by
  obtain ⟨tag, blockLen, h8, h32⟩ := scanBlock_exists h
  rw [scanBlock_eq h8 h32] at h
  split_ifs at h <;> simp only [Option.some.injEq] at h <;> subst h <;> rfl

theorem scanLoop_messages {env : Env} {ba : QByteArray} (f : Nat) :
    ∀ (data : Nat) (st s : ScanState), scanLoop env ba f data st = some s →
      s.translator.messages = st.translator.messages := by
  induction f with
  | zero => intro data st s h; simp [scanLoop] at h
  | succ f ih =>
    intro data st s h
    simp only [scanLoop] at h
    split_ifs at h with hg
    · cases hb : scanBlock env ba data st with
      | none => simp [hb] at h
      | some x =>
        have hm := scanBlock_messages hb
        rw [hb] at h
        cases x with
        | stop s' =>
          simp only [Option.some.injEq] at h
          subst h
          exact hm
        | next d s' =>
          simp only at h hm
          rw [ih d s' s h, hm]
    · simp only [Option.some.injEq] at h
      subst h
      rfl

/-- C6, as amended: when `loadQM` returns without having met a format error in
a Translation field, the records located by the (hash, offset) pairs of the
Hashes block parse into field lists `records`, one per pair and in the order
of the pairs, and the messages appended to the translator are, in the same
order, one per record: the translations of the record, and for the context,
the source text and the comment the field of that kind decoded most recently,
in this record or an earlier one, or the null string when there is none. -/
theorem loadQM_messages_spec (env : Env) (translator : Translator) (ba : QByteArray)
    (cd : ConversionData) (s : ScanState) (r : LoadResult)
    (hmagic : ¬ (ba.length < MagicLength ∨ ba.take MagicLength ≠ magic))
    (hscan : scanLoop env ba ba.length MagicLength (ScanState.init translator) = some s)
    (hload : loadQM env translator ba cd = some r)
    (hnoerr : r.cd ≠ cd.appendError .formatError) :
    ∃ records : List (List Field), records.length = s.offsetLength / 8 ∧
      (∀ i, i < s.offsetLength / 8 → ∃ ro base,
        read32 ba (s.offsetArray.getD 0 + 8 * i + 4) = some ro ∧
        s.messageArray = some base ∧
        parseRecord env ba ba.length (base + ro) [] = some (.fields (records.getD i []))) ∧
      r.translator.messages
        = translator.messages ++ specMessages (guessPlurals env s.translator) records := by
  unfold loadQM at hload
  rw [if_neg hmagic, hscan] at hload
  simp only [Option.bind_eq_bind, Option.some_bind] at hload
  unfold loadMessages at hload
  dsimp only at hload
  simp only [Option.bind_eq_bind] at hload
  obtain ⟨res, hres, hload⟩ := Option.bind_eq_some.mp hload
  cases res with
  | formatError t =>
    simp only [Option.some.injEq] at hload
    subst hload
    exact absurd rfl hnoerr
  | completed stF trF =>
    obtain ⟨records, hlen, hrec, hmsgs⟩ := messageLoop_spec _ _ _ _ [] stF trF rfl rfl rfl rfl hres
    refine ⟨records, hlen, hrec, ?_⟩
    have hr : r.translator = trF := by
      simp only at hload
      split_ifs at hload <;> simp only [Option.some.injEq] at hload <;> subst hload <;> rfl
    rw [hr, hmsgs, scanLoop_messages _ _ _ _ hscan, specMessages, hlen]
    simp [ScanState.init]

/-- C6, counterexample: the Hashes block of `oddSecondRecordFile` holds two
pairs, and `loadQM` returns (false) with one message appended. -/
theorem odd_record_drops_messages :
    (scanLoop sampleEnv oddSecondRecordFile oddSecondRecordFile.length MagicLength
        (ScanState.init Translator.empty)).map (fun s => s.offsetLength / 8) = some 2 ∧
    loadQM sampleEnv Translator.empty oddSecondRecordFile ConversionData.default
      = some { ok := false
               translator :=
                { messages := [{ id := .null, context := .str [0x43], sourceText := .null,
                                 comment := .null, translations := [],
                                 type := .Finished, plural := false }]
                  languageCode := .null, dependencies := [] }
               cd := ConversionData.default.appendError .formatError } := by
  decide

theorem loadQM_messages_spec_witness :
    ∃ records : List (List Field), records.length = inheritScan.offsetLength / 8 ∧
      (∀ i, i < inheritScan.offsetLength / 8 → ∃ ro base,
        read32 inheritFile (inheritScan.offsetArray.getD 0 + 8 * i + 4) = some ro ∧
        inheritScan.messageArray = some base ∧
        parseRecord sampleEnv inheritFile inheritFile.length (base + ro) []
          = some (.fields (records.getD i []))) ∧
      inheritMessages
        = Translator.empty.messages
            ++ specMessages (guessPlurals sampleEnv inheritScan.translator) records :=
  loadQM_messages_spec sampleEnv Translator.empty inheritFile ConversionData.default inheritScan
    { ok := true
      translator := { messages := inheritMessages, languageCode := .null, dependencies := [] }
      cd := ConversionData.default }
    (by decide) (by decide) (by decide) (by decide)

/-! ## Writing and reading back -/

theorem write32_length (n : Nat) : (write32 n).length = 4 := rfl

theorem read8_of_drop {ba rest : QByteArray} {m : Nat} {x : Byte} (h : ba.drop m = x :: rest) :
    read8 ba m = some x := by
  unfold read8
  have := List.getElem?_drop ba m 0
  rw [h] at this
  simpa using this.symm

theorem getElem?_of_drop {ba xs rest : QByteArray} {m i : Nat} (h : ba.drop m = xs ++ rest)
    (hi : i < xs.length) : ba[m + i]? = xs[i]? := by
  have := List.getElem?_drop ba m i
  rw [h, List.getElem?_append_left hi] at this
  exact this.symm

theorem read32_of_drop {ba rest : QByteArray} {m n : Nat} (h : ba.drop m = write32 n ++ rest)
    (hn : n < 4294967296) : read32 ba m = some n := by
  unfold read32
  have h0 := getElem?_of_drop (i := 0) h (by simp [write32])
  have h1 := getElem?_of_drop (i := 1) h (by simp [write32])
  have h2 := getElem?_of_drop (i := 2) h (by simp [write32])
  have h3 := getElem?_of_drop (i := 3) h (by simp [write32])
  rw [Nat.add_zero] at h0
  rw [h0, h1, h2, h3]
  simp only [write32, toByte, List.getElem?_cons_zero, List.getElem?_cons_succ, Option.some.injEq]
  omega

theorem bytesAt_of_drop {ba bs rest : QByteArray} {m : Nat} (h : ba.drop m = bs ++ rest)
    (hm : m ≤ ba.length) : bytesAt ba m bs.length = some bs := by
  unfold bytesAt
  have hlen : m + bs.length ≤ ba.length := by
    have := congrArg List.length h
    rw [List.length_drop, List.length_append] at this
    omega
  rw [if_pos hlen, h, List.take_left]

theorem drop_add_of_drop {ba xs rest : QByteArray} {m : Nat} (h : ba.drop m = xs ++ rest) :
    ba.drop (m + xs.length) = rest := by
  rw [← List.drop_drop, h, List.drop_left]

theorem utf16be_unitBytes (us : List QChar) : utf16be (us.flatMap unitBytes) = us := by
  induction us with
  | nil => rfl
  | cons u us ih =>
    simp only [List.flatMap_cons, unitBytes, List.cons_append, List.nil_append, utf16be, ih]
    congr 1
    apply Fin.ext
    have := u.isLt
    simp only [toByte]
    omega

theorem length_flatMap_unitBytes (us : List QChar) : (us.flatMap unitBytes).length = 2 * us.length := by
  induction us with
  | nil => rfl
  | cons u us ih => simp [List.flatMap_cons, unitBytes, ih]; omega

theorem lt_length_of_drop_cons {ba rest : QByteArray} {m : Nat} {x : Byte}
    (h : ba.drop m = x :: rest) : m < ba.length := by
  by_contra hge
  rw [List.drop_of_length_le (by omega)] at h
  cases h

theorem FieldReach.chain {env : Env} {ba : QByteArray} {m1 m2 m3 : Nat} {s1 s2 s3 : DecodeState}
    (h1 : FieldReach env ba m1 s1 m2 s2) (h2 : FieldReach env ba m2 s2 m3 s3) :
    FieldReach env ba m1 s1 m3 s3 := by
  induction h1 with
  | refl => exact h2
  | step hd _ ih => exact FieldReach.step hd (ih h2)

theorem writeQString_length (t : QString) : (writeQString t).length = 4 + 2 * t.units.length := by
  cases t with
  | null => rfl
  | str us =>
    rw [writeQString, List.length_append, write32_length, length_flatMap_unitBytes]
    rfl

/-- The field loop over one Translation field written by the writer. -/
theorem reach_translation (env : Env) {ba rest : QByteArray} {m : Nat} (st : DecodeState)
    (t : QString) (h : ba.drop m = (Tag_Translation :: writeQString t) ++ rest)
    (ht : 2 * t.units.length < 2147483648) :
    FieldReach env ba m st (m + (Tag_Translation :: writeQString t).length)
      { st with translations := st.translations ++ [t] } := by
  have h8 : read8 ba m = some Tag_Translation := read8_of_drop h
  have hm := lt_length_of_drop_cons h
  have hd1 : ba.drop (m + 1) = writeQString t ++ rest := by
    rw [← List.drop_drop, h]; rfl
  cases t with
  | null =>
    have h32 : read32 ba (m + 1) = some 0xFFFFFFFF := by
      unfold read32
      have e0 := getElem?_of_drop (i := 0) hd1 (by simp [writeQString])
      have e1 := getElem?_of_drop (i := 1) hd1 (by simp [writeQString])
      have e2 := getElem?_of_drop (i := 2) hd1 (by simp [writeQString])
      have e3 := getElem?_of_drop (i := 3) hd1 (by simp [writeQString])
      rw [Nat.add_zero] at e0
      rw [e0, show m + 1 + 1 = m + 1 + 1 from rfl, e1, e2, e3]
      rfl
    have s1 : decodeField env ba m st
        = some (.next (m + 4) { st with translations := st.translations ++ [QString.null] }) := by
      rw [decodeField_translation h8, h32, Option.some_bind, if_neg (by simp), if_pos rfl]
    have h8b := read32_sentinel h32
    rw [show m + 1 + 3 = m + 4 by omega] at h8b
    have s2 : decodeField env ba (m + 4) { st with translations := st.translations ++ [QString.null] }
        = some (.next (m + 4 + 1) { st with translations := st.translations ++ [QString.null] }) :=
      decodeField_unknown h8b (by decide) (by decide) (by decide) (by decide) (by decide)
        (by decide)
    exact FieldReach.step s1 (FieldReach.step s2 (FieldReach.refl _ _))
  | str us =>
    simp only [QString.units] at ht
    have hd1' : ba.drop (m + 1) = write32 (2 * us.length) ++ (us.flatMap unitBytes ++ rest) := by
      rw [hd1, writeQString, List.append_assoc]
    have h32 : read32 ba (m + 1) = some (2 * us.length) := read32_of_drop hd1' (by omega)
    have hd5 : ba.drop (m + 5) = us.flatMap unitBytes ++ rest := by
      have := drop_add_of_drop hd1'
      rwa [write32_length] at this
    have hb := bytesAt_of_drop hd5 (by
      have := (read32_some_lt h32).1
      omega)
    rw [length_flatMap_unitBytes] at hb
    have s1 : decodeField env ba m st
        = some (.next (m + 5 + 2 * us.length)
            { st with translations := st.translations ++ [QString.str us] }) := by
      rw [decodeField_translation h8, h32, Option.some_bind, if_neg (by omega), if_neg (by omega),
        if_neg (by omega), hb, Option.some_bind, utf16be_unitBytes]
    have hlen : m + (Tag_Translation :: writeQString (QString.str us)).length
        = m + 5 + 2 * us.length := by
      rw [List.length_cons, writeQString_length]
      simp only [QString.units]
      omega
    rw [hlen]
    exact FieldReach.step s1 (FieldReach.refl _ _)

/-- The field loop over the Translation fields of a record. -/
theorem reach_translations (env : Env) {ba : QByteArray} (ts : List QString) :
    ∀ (m : Nat) (st : DecodeState) (rest : QByteArray),
      ba.drop m = ts.flatMap (fun t => Tag_Translation :: writeQString t) ++ rest →
      (∀ t ∈ ts, 2 * t.units.length < 2147483648) →
      FieldReach env ba m st
        (m + (ts.flatMap (fun t => Tag_Translation :: writeQString t)).length)
        { st with translations := st.translations ++ ts } := by
  induction ts with
  | nil =>
    intro m st rest _ _
    simp only [List.flatMap_nil, List.length_nil, Nat.add_zero, List.append_nil]
    exact FieldReach.refl _ _
  | cons t ts ih =>
    intro m st rest h hfit
    rw [List.flatMap_cons, List.append_assoc] at h
    have r1 := reach_translation env st t h (hfit t (List.mem_cons_self _ _))
    have h' := drop_add_of_drop h
    have r2 := ih _ { st with translations := st.translations ++ [t] } rest h'
      (fun x hx => hfit x (List.mem_cons_of_mem _ hx))
    have := r1.chain r2
    simp only [List.append_assoc, List.singleton_append] at this
    rw [List.flatMap_cons, List.length_append, ← Nat.add_assoc]
    exact this

/-- One iteration of the field loop over a UTF-8 field written by the writer. -/
theorem read_utf8_field (env : Env) {ba rest : QByteArray} {m : Nat} {tag : Byte}
    {b : QByteArray} (h : ba.drop m = (tag :: writeQByteArray b) ++ rest)
    (hb : b.length < 2147483648) :
    read8 ba m = some tag ∧ read32 ba (m + 1) = some b.length ∧
    fromBytes env ba (m + 5) b.length = some (env.fromUtf8 b) ∧
    ba.drop (m + 5 + b.length) = rest := by
  have h8 : read8 ba m = some tag := read8_of_drop h
  have hd1 : ba.drop (m + 1) = write32 b.length ++ (b ++ rest) := by
    rw [← List.drop_drop, h]
    simp [writeQByteArray]
  have h32 : read32 ba (m + 1) = some b.length := read32_of_drop hd1 (by omega)
  have hd5 : ba.drop (m + 5) = b ++ rest := by
    have := drop_add_of_drop hd1
    rwa [write32_length] at this
  refine ⟨h8, h32, ?_, drop_add_of_drop hd5⟩
  unfold fromBytes
  rw [if_pos hb, bytesAt_of_drop hd5 (by have := (read32_some_lt h32).1; omega)]
  rfl

/-- The field loop over a record written with all its fields. -/
theorem decodeRecord_encFull (env : Env) {ba rest : QByteArray} {m : Nat} (st : DecodeState)
    (bm : ByteTranslatorMessage) (h : ba.drop m = encFull bm ++ rest) (hfit : RecordFits bm) :
    decodeRecord env ba ba.length m st = some (.ended (decodedState env st.translations bm)) := by
  obtain ⟨hc, hs, hm, ht⟩ := hfit
  unfold encFull writeFields at h
  rw [if_neg (by decide), if_neg (by decide)] at h
  simp only [List.append_assoc] at h
  have r1 := reach_translations env bm.m_translations m st _ h ht
  have h1 := drop_add_of_drop h
  generalize m + (bm.m_translations.flatMap fun t => Tag_Translation :: writeQString t).length
    = m1 at r1 h1
  obtain ⟨a8, a32, afb, h2⟩ := read_utf8_field env h1 hm
  obtain ⟨b8, b32, bfb, h3⟩ := read_utf8_field env h2 hs
  obtain ⟨c8, c32, cfb, h4⟩ := read_utf8_field env h3 hc
  have e8 : read8 ba (m1 + 5 + bm.m_comment.length + 5 + bm.m_sourcetext.length + 5
      + bm.m_context.length) = some Tag_End := read8_of_drop h4
  rw [(r1.chain (FieldReach.step (by rw [decodeField_comment a8, a32, Option.some_bind, afb,
      Option.some_bind])
    (FieldReach.step (by rw [decodeField_sourceText b8, b32, Option.some_bind, bfb,
      Option.some_bind])
    (FieldReach.step (by rw [decodeField_context c8, c32, Option.some_bind, cfb,
      Option.some_bind]) (FieldReach.refl _ _))))).decodeRecord_eq]
  have hlt := read8_some_lt e8
  obtain ⟨f, hf⟩ : ∃ f, ba.length = f + 1 := ⟨ba.length - 1, by omega⟩
  rw [hf]
  simp only [decodeRecord, decodeField_end e8]
  rfl

theorem writeOffsets_cons (k : Offset) (ks : List Offset) :
    writeOffsets (k :: ks) = write32 k.h ++ (write32 k.o ++ writeOffsets ks) := by
  simp [writeOffsets, List.flatMap_cons]

/-- The message loop over pairs that point to records written with all their
fields appends the message of each record, in the order of the pairs. -/
theorem messageLoop_placed (env : Env) {ba : QByteArray} (guess : Bool) (base : Nat)
    (ps : List Placed) :
    ∀ (start : Nat) (st : DecodeState) (translator : Translator) (rest : QByteArray),
      ba.drop start = writeOffsets (ps.map Placed.offset) ++ rest →
      (∀ p ∈ ps, p.1 < 4294967296 ∧ RecordFits p.2 ∧ (env.fromUtf8 p.2.m_context).2 = false ∧
        ∃ rest', ba.drop (base + p.1) = encFull p.2 ++ rest') →
      st.translations = [] → st.utf8Fail = false →
      ∃ stF, stF.utf8Fail = false ∧
        messageLoop env ba guess (some base) ps.length start st translator
          = some (.completed stF
              { translator with
                messages := translator.messages ++ ps.map (fun p => loadedMessage env guess p.2) }) := by
  induction ps with
  | nil =>
    intro start st translator rest _ _ _ hu
    exact ⟨st, hu, by simp [messageLoop]⟩
  | cons p ps ih =>
    intro start st translator rest h hall ht hu
    obtain ⟨hp, hfit, hflag, rest', hrec⟩ := hall p (List.mem_cons_self _ _)
    rw [List.map_cons, writeOffsets_cons, List.append_assoc] at h
    have h4 := drop_add_of_drop h
    rw [write32_length, List.append_assoc] at h4
    have hro : read32 ba (start + 4) = some p.1 := read32_of_drop h4 hp
    have h8 := drop_add_of_drop h4
    rw [write32_length] at h8
    have hdec := decodeRecord_encFull env st p.2 hrec hfit
    rw [ht] at hdec
    obtain ⟨stF, hF, hloop⟩ := ih (start + 4 + 4)
      { decodedState env [] p.2 with translations := [] }
      (translator.append (makeMessage guess (decodedState env [] p.2))) rest h8
      (fun q hq => hall q (List.mem_cons_of_mem _ hq)) rfl hflag
    refine ⟨stF, hF, ?_⟩
    simp only [List.length_cons, messageLoop, Option.bind_eq_bind, hro, Option.some_bind, hdec]
    rw [show start + 8 = start + 4 + 4 by omega, hloop]
    simp [Translator.append, loadedMessage]

/-! ## The maps of the writer -/

theorem qmapInsert_perm {α : Type} (lt : α → α → Bool) (k : α) (l : List α)
    (h : ∀ x ∈ l, lt k x = true ∨ lt x k = true) : (qmapInsert lt k l).Perm (k :: l) := by
  induction l with
  | nil => exact List.Perm.refl _
  | cons x xs ih =>
    simp only [qmapInsert]
    split_ifs with h1 h2
    · exact List.Perm.refl _
    · exact ((ih (fun y hy => h y (List.mem_cons_of_mem _ hy))).cons x).trans (List.Perm.swap k x xs)
    · rcases h x (List.mem_cons_self _ _) with h' | h'
      · exact absurd h' h1
      · exact absurd h' h2

theorem qmapInsert_map {α β : Type} (f : α → β) (ltA : α → α → Bool) (ltB : β → β → Bool)
    (hlt : ∀ a b, ltA a b = ltB (f a) (f b)) (k : α) (l : List α) :
    (qmapInsert ltA k l).map f = qmapInsert ltB (f k) (l.map f) := by
  induction l with
  | nil => rfl
  | cons x xs ih =>
    simp only [qmapInsert, List.map_cons, hlt]
    split_ifs <;> simp [ih]

theorem foldl_qmapInsert_map {α β : Type} (f : α → β) (ltA : α → α → Bool) (ltB : β → β → Bool)
    (hlt : ∀ a b, ltA a b = ltB (f a) (f b)) (l : List α) :
    ∀ acc : List α, (l.foldl (fun o p => qmapInsert ltA p o) acc).map f
      = l.foldl (fun o p => qmapInsert ltB (f p) o) (acc.map f) := by
  induction l with
  | nil => intro acc; rfl
  | cons x xs ih =>
    intro acc
    simp only [List.foldl_cons]
    rw [ih, qmapInsert_map f ltA ltB hlt]

theorem foldl_qmapInsert_perm {α : Type} (lt : α → α → Bool) (l : List α) :
    ∀ acc : List α, (acc ++ l).Pairwise (fun a b => lt a b = true ∨ lt b a = true) →
      (l.foldl (fun o p => qmapInsert lt p o) acc).Perm (acc ++ l) := by
  induction l with
  | nil => intro acc _; simp
  | cons x xs ih =>
    intro acc hp
    simp only [List.foldl_cons]
    have hx : ∀ y ∈ acc, lt x y = true ∨ lt y x = true := by
      intro y hy
      have := (List.pairwise_append.mp hp).2.2 y hy x (List.mem_cons_self _ _)
      exact this.symm
    have hperm := qmapInsert_perm lt x acc hx
    have hp' : (qmapInsert lt x acc ++ xs).Pairwise (fun a b => lt a b = true ∨ lt b a = true) := by
      have hsymm : ∀ {a b : α}, (lt a b = true ∨ lt b a = true) → (lt b a = true ∨ lt a b = true) :=
        fun hab => hab.symm
      have h2 : ((x :: acc) ++ xs).Pairwise (fun a b => lt a b = true ∨ lt b a = true) := by
        refine (List.Perm.pairwise_iff hsymm ?_).mp hp
        simp only [List.cons_append]
        exact List.perm_middle
      exact (List.Perm.pairwise_iff hsymm (hperm.append_right xs)).mpr h2
    refine (ih _ hp').trans ?_
    refine (hperm.append_right xs).trans ?_
    simp only [List.cons_append]
    exact List.perm_middle.symm

theorem Placed.lt_or_of_ne {a b : Placed} (h : a.1 ≠ b.1) :
    Placed.lt a b = true ∨ Placed.lt b a = true := by
  unfold Placed.lt Offset.lt Placed.offset
  simp only
  by_cases hh : msgHash a.2 = msgHash b.2
  · rw [if_neg (by simpa using hh), if_neg (by simpa using hh.symm)]
    simp only [decide_eq_true_eq]
    omega
  · rw [if_pos hh, if_pos (Ne.symm hh)]
    simp only [decide_eq_true_eq]
    omega

/-! ## The message loop of `squeeze` -/

theorem encFull_length_pos (bm : ByteTranslatorMessage) : 0 < (encFull bm).length := by
  unfold encFull
  simp

/-- When every record is written with all its fields and the message array
stays below `2 ^ 32` bytes, the message loop of `squeeze` appends the
encodings in order and files each record under its hash and position. -/
theorem squeezeMessages_full (mode : TranslatorSaveMode) (l : List ByteTranslatorMessage) :
    ∀ (cpNext : Nat) (offsets : List Offset) (ms : QByteArray),
      AllFull mode l cpNext → ms.length + (l.flatMap encFull).length < 4294967296 →
      squeezeMessages mode l cpNext offsets ms
        = ((placeFrom ms.length l).foldl (fun o p => qmapInsert Offset.lt p.offset o) offsets,
           ms ++ l.flatMap encFull) := by
  induction l with
  | nil => intro cpNext offsets ms _ _; simp [squeezeMessages, placeFrom]
  | cons it rest ih =>
    intro cpNext offsets ms hfull hlen
    obtain ⟨hw, hrest⟩ := hfull
    rw [List.flatMap_cons, List.length_append] at hlen
    simp only [squeezeMessages, placeFrom, List.foldl_cons, List.flatMap_cons]
    rw [hw, ih _ _ _ hrest (by rw [List.length_append]; omega), List.length_append,
      Nat.mod_eq_of_lt (by omega), List.append_assoc]
    rfl

theorem allFull_saveEverything (l : List ByteTranslatorMessage) :
    ∀ cpNext, AllFull .SaveEverything l cpNext := by
  induction l with
  | nil => intro _; trivial
  | cons it rest ih =>
    intro cpNext
    exact ⟨by simp [writeMessage, encFull], ih _⟩

theorem placeFrom_map_snd (l : List ByteTranslatorMessage) :
    ∀ pos, (placeFrom pos l).map Prod.snd = l := by
  induction l with
  | nil => intro _; rfl
  | cons it rest ih => intro pos; simp [placeFrom, ih]

theorem placeFrom_length (l : List ByteTranslatorMessage) :
    ∀ pos, (placeFrom pos l).length = l.length := by
  intro pos
  rw [← List.length_map (placeFrom pos l) Prod.snd, placeFrom_map_snd]

/-- A placed record is found at its position in the concatenated encodings. -/
theorem placeFrom_mem (l : List ByteTranslatorMessage) :
    ∀ (pos : Nat) (p : Placed), p ∈ placeFrom pos l →
      p.2 ∈ l ∧ pos ≤ p.1 ∧ p.1 < pos + (l.flatMap encFull).length ∧
      ∃ rest, (l.flatMap encFull).drop (p.1 - pos) = encFull p.2 ++ rest := by
  induction l with
  | nil => intro pos p hp; simp [placeFrom] at hp
  | cons it rest ih =>
    intro pos p hp
    simp only [placeFrom, List.mem_cons] at hp
    have hpos := encFull_length_pos it
    rw [List.flatMap_cons, List.length_append]
    rcases hp with rfl | hp
    · refine ⟨List.mem_cons_self _ _, Nat.le_refl _, by simp only; omega, ?_⟩
      simp only [Nat.sub_self, List.drop_zero]
      exact ⟨_, rfl⟩
    · obtain ⟨h1, h2, h3, rest', h4⟩ := ih _ p hp
      refine ⟨List.mem_cons_of_mem _ h1, by omega, by omega, rest', ?_⟩
      rw [show p.1 - pos = (encFull it).length + (p.1 - (pos + (encFull it).length)) by omega,
        List.drop_append]
      exact h4

theorem placeFrom_pairwise (l : List ByteTranslatorMessage) :
    ∀ pos, (placeFrom pos l).Pairwise
      (fun a b => Placed.lt a b = true ∨ Placed.lt b a = true) := by
  induction l with
  | nil => intro _; exact List.Pairwise.nil
  | cons it rest ih =>
    intro pos
    simp only [placeFrom]
    refine List.Pairwise.cons ?_ (ih _)
    intro q hq
    have := (placeFrom_mem rest _ q hq).2.1
    have hpos := encFull_length_pos it
    exact Placed.lt_or_of_ne (by simp only; omega)

/-! ## The block scan over the blocks written by `save` -/

theorem ScanReach.follow {env : Env} {ba : QByteArray} {d1 d2 d3 : Nat} {s1 s2 s3 : ScanState}
    (h1 : ScanReach env ba d1 s1 d2 s2) (h2 : ScanReach env ba d2 s2 d3 s3) :
    ScanReach env ba d1 s1 d3 s3 := by
  induction h1 with
  | refl => exact h2
  | step hg hb _ ih => exact ScanReach.step hg hb (ih h2)

theorem length_ge_of_drop {ba xs rest : QByteArray} {m : Nat} (h : ba.drop m = xs ++ rest)
    (hx : xs ≠ []) : m + xs.length ≤ ba.length := by
  have := congrArg List.length h
  rw [List.length_drop, List.length_append] at this
  have : 0 < xs.length := List.length_pos.mpr hx
  omega

/-- The block scan over one block written by the writer. -/
theorem scan_writeBlock {env : Env} {ba rest : QByteArray} {data : Nat} {st : ScanState}
    {tag : Byte} {payload : QByteArray} (h : ba.drop data = writeBlock tag payload ++ rest)
    (htag : tag ≠ 0) (hne : payload ≠ []) (hlen : payload.length < 4294967296) :
    ScanReach env ba data st (data + (writeBlock tag payload).length)
      (applyBlock env tag data payload st) := by
  have hblen : (writeBlock tag payload).length = 5 + payload.length := by
    simp [writeBlock, write32_length]; omega
  have hge := length_ge_of_drop h (by simp [writeBlock])
  have hpos : 0 < payload.length := List.length_pos.mpr hne
  rw [hblen] at hge ⊢
  have h' : ba.drop data = tag :: (write32 payload.length ++ (payload ++ rest)) := by
    rw [h]; simp [writeBlock]
  have h8 : read8 ba data = some tag := read8_of_drop h'
  have hd1 : ba.drop (data + 1) = write32 payload.length ++ (payload ++ rest) := by
    rw [← List.drop_drop, h']; rfl
  have h32 : read32 ba (data + 1) = some payload.length := read32_of_drop hd1 hlen
  have hd5 : ba.drop (data + 5) = payload ++ rest := by
    have := drop_add_of_drop hd1
    rwa [write32_length] at this
  have hblock : scanBlock env ba data st
      = some (.next (data + 5 + payload.length) (applyBlock env tag data payload st)) := by
    rw [scanBlock_eq h8 h32, if_neg (by push_neg; exact ⟨htag, by omega⟩), if_neg (by omega),
      hd5, List.take_left]
    rfl
  rw [← Nat.add_assoc]
  exact ScanReach.step (by omega) hblock (ScanReach.refl _ _)

/-- The block scan over a block that `save` writes when its payload is not
empty. -/
theorem scan_saveBlock (env : Env) {ba rest : QByteArray} {data : Nat} (st : ScanState)
    {tag : Byte} {payload : QByteArray} (h : ba.drop data = saveBlock tag payload ++ rest)
    (htag : tag ≠ 0) (hlen : payload.length < 4294967296) :
    ScanReach env ba data st (data + (saveBlock tag payload).length)
      (if payload = [] then st else applyBlock env tag data payload st) := by
  unfold saveBlock at h ⊢
  by_cases hp : payload = []
  · subst hp
    simp only [List.isEmpty_nil, if_true, List.length_nil, Nat.add_zero]
    exact ScanReach.refl _ _
  · have he : payload.isEmpty = false := by
      cases payload with
      | nil => exact absurd rfl hp
      | cons _ _ => rfl
    rw [he] at h ⊢
    simp only [Bool.false_eq_true, if_false] at h ⊢
    rw [if_neg hp]
    exact scan_writeBlock h htag hp hlen

theorem applyBlock_ok (env : Env) (tag : Byte) (data : Nat) (payload : QByteArray)
    (st : ScanState) : (applyBlock env tag data payload st).ok = st.ok := by
  unfold applyBlock
  split_ifs <;> rfl

theorem applyBlock_utf8Fail (env : Env) {tag : Byte} (data : Nat) (payload : QByteArray)
    (st : ScanState) (h : tag ≠ Language) :
    (applyBlock env tag data payload st).utf8Fail = st.utf8Fail := by
  unfold applyBlock
  split_ifs <;> rfl

theorem applyBlock_offsets (env : Env) {tag : Byte} (data : Nat) (payload : QByteArray)
    (st : ScanState) (h : tag ≠ Hashes) :
    (applyBlock env tag data payload st).offsetArray = st.offsetArray ∧
    (applyBlock env tag data payload st).offsetLength = st.offsetLength := by
  unfold applyBlock
  rw [if_neg h]
  split_ifs <;> exact ⟨rfl, rfl⟩

theorem applyBlock_messageArray (env : Env) {tag : Byte} (data : Nat) (payload : QByteArray)
    (st : ScanState) (h : tag ≠ Messages) :
    (applyBlock env tag data payload st).messageArray = st.messageArray := by
  unfold applyBlock
  split_ifs <;> rfl

theorem saveBlock_length_ge (tag : Byte) (payload : QByteArray) :
    payload.length ≤ (saveBlock tag payload).length := by
  cases payload with
  | nil => exact Nat.zero_le _
  | cons x xs => simp [saveBlock, writeBlock, write32_length]; omega

theorem applyBlock_language (env : Env) (data : Nat) (payload : QByteArray) (st : ScanState) :
    applyBlock env Language data payload st
      = { st with utf8Fail := (env.fromUtf8 payload).2,
                  translator := (st.translator.setLanguageCode (env.fromUtf8 payload).1) } := by
  unfold applyBlock
  rw [if_neg (by decide), if_neg (by decide), if_neg (by decide), if_pos rfl]

theorem applyBlock_hashes (env : Env) (data : Nat) (payload : QByteArray) (st : ScanState) :
    applyBlock env Hashes data payload st
      = { st with offsetArray := some (data + 5), offsetLength := payload.length } := by
  unfold applyBlock
  rw [if_pos rfl]

theorem applyBlock_messages (env : Env) (data : Nat) (payload : QByteArray) (st : ScanState) :
    applyBlock env Messages data payload st = { st with messageArray := some (data + 5) } := by
  unfold applyBlock
  rw [if_neg (by decide), if_pos rfl]

theorem saveBlock_length (tag : Byte) (payload : QByteArray) :
    (saveBlock tag payload).length = if payload = [] then 0 else 5 + payload.length := by
  cases payload with
  | nil => rfl
  | cons x xs => simp [saveBlock, writeBlock, write32_length]; omega

theorem save_eq (env : Env) (r : Releaser) :
    r.save env = magic ++ (languageBlock env r ++ (saveBlock Dependencies r.m_dependencyArray
      ++ (saveBlock Hashes r.m_offsetArray ++ (saveBlock Messages r.m_messageArray
      ++ (saveBlock Contexts r.m_contextArray ++ (saveBlock NumerusRules r.m_numerusRules
      ++ [])))))) := by
  simp [Releaser.save, languageBlock]

theorem ite_prop {α : Type} {c : Prop} [Decidable c] {a b : α} (P : α → Prop) (ha : c → P a)
    (hb : ¬ c → P b) : P (if c then a else b) := by
  split_ifs with h
  · exact ha h
  · exact hb h

theorem ScanReach.le_length {env : Env} {ba : QByteArray} {data d2 : Nat} {st s2 : ScanState}
    (h : ScanReach env ba data st d2 s2) (hd : data ≤ ba.length) : d2 ≤ ba.length := by
  induction h with
  | refl => exact hd
  | step _ hblock _ ih => exact ih (scanBlock_next hblock).2

/-- The block scan over a file written by `save`: it runs to the end of the
file, keeps `ok`, and leaves the positions of the Hashes and Messages
payloads. -/
theorem scan_save (env : Env) (translator : Translator) (r : Releaser)
    (hlang : r.m_language.isEmpty = true ∨ originalBytes env r.m_language ≠ [])
    (hsize : (r.save env).length < 4294967296) :
    ∃ s, scanLoop env (r.save env) (r.save env).length MagicLength (ScanState.init translator)
        = some s ∧
      s.ok = true ∧
      s.utf8Fail = (if r.m_language.isEmpty then false
        else (env.fromUtf8 (originalBytes env r.m_language)).2) ∧
      (r.m_offsetArray = [] → s.offsetLength = 0) ∧
      (r.m_offsetArray ≠ [] → s.offsetLength = r.m_offsetArray.length ∧
        ∃ oa rest, s.offsetArray = some oa ∧ (r.save env).drop oa = r.m_offsetArray ++ rest) ∧
      (r.m_messageArray ≠ [] →
        ∃ ma rest, s.messageArray = some ma ∧ (r.save env).drop ma = r.m_messageArray ++ rest) := by
  have hsave := save_eq env r
  generalize r.save env = ba at hsave hsize ⊢
  have hlen := congrArg List.length hsave
  simp only [List.length_append, List.length_nil] at hlen
  have hmag : magic.length = 16 := rfl
  rw [hmag] at hlen
  have g2 := saveBlock_length_ge Dependencies r.m_dependencyArray
  have g3 := saveBlock_length_ge Hashes r.m_offsetArray
  have g4 := saveBlock_length_ge Messages r.m_messageArray
  have g5 := saveBlock_length_ge Contexts r.m_contextArray
  have g6 := saveBlock_length_ge NumerusRules r.m_numerusRules
  -- the state and the position after each block
  have h0 : ba.drop 16 = languageBlock env r ++ (saveBlock Dependencies r.m_dependencyArray
      ++ (saveBlock Hashes r.m_offsetArray ++ (saveBlock Messages r.m_messageArray
      ++ (saveBlock Contexts r.m_contextArray ++ (saveBlock NumerusRules r.m_numerusRules
      ++ []))))) := by
    rw [hsave, ← hmag, List.drop_left]
  -- Language
  obtain ⟨s1, r1, k1, u1, o1, m1⟩ : ∃ s1, ScanReach env ba 16 (ScanState.init translator)
      (16 + (languageBlock env r).length) s1 ∧ s1.ok = true ∧
      s1.utf8Fail = (if r.m_language.isEmpty then false
        else (env.fromUtf8 (originalBytes env r.m_language)).2) ∧
      (s1.offsetArray = none ∧ s1.offsetLength = 0) ∧ s1.messageArray = none := by
    unfold languageBlock at h0 hlen ⊢
    by_cases hl : r.m_language.isEmpty = true
    · rw [if_pos hl] at h0 ⊢
      rw [if_pos hl]
      exact ⟨_, ScanReach.refl _ _, rfl, rfl, ⟨rfl, rfl⟩, rfl⟩
    · rw [if_neg hl] at h0 hlen ⊢
      rw [if_neg hl]
      have hne : originalBytes env r.m_language ≠ [] := hlang.resolve_left hl
      have hl32 : (originalBytes env r.m_language).length < 4294967296 := by
        simp only [writeBlock, List.length_cons, List.length_append, write32_length] at hlen
        omega
      exact ⟨_, scan_writeBlock h0 (by decide) hne hl32, by rw [applyBlock_ok]; rfl,
        by rw [applyBlock_language], by rw [applyBlock_language]; exact ⟨rfl, rfl⟩,
        by rw [applyBlock_language]; rfl⟩
  have h1 := drop_add_of_drop h0
  generalize 16 + (languageBlock env r).length = p1 at r1 h1
  -- Dependencies
  have hd32 : r.m_dependencyArray.length < 4294967296 := by omega
  have r2 := scan_saveBlock env s1 h1 (by decide) hd32
  have h2 := drop_add_of_drop h1
  generalize hs2 : (if r.m_dependencyArray = [] then s1
    else applyBlock env Dependencies p1 r.m_dependencyArray s1) = s2 at r2
  have k2 : s2.ok = true := by
    rw [← hs2]; exact ite_prop (fun s : ScanState => s.ok = true) (fun _ => k1) (fun _ => by beta_reduce; rw [applyBlock_ok]; exact k1)
  have u2 : s2.utf8Fail = s1.utf8Fail := by
    rw [← hs2]
    exact ite_prop (fun s : ScanState => s.utf8Fail = s1.utf8Fail) (fun _ => rfl)
      (fun _ => applyBlock_utf8Fail env _ _ _ (by decide))
  have o2 : s2.offsetArray = none ∧ s2.offsetLength = 0 := by
    rw [← hs2]
    exact ite_prop (fun s : ScanState => s.offsetArray = none ∧ s.offsetLength = 0) (fun _ => o1)
      (fun _ => by
        beta_reduce
        have := applyBlock_offsets env p1 r.m_dependencyArray s1 (show Dependencies ≠ Hashes by decide)
        rw [this.1, this.2]; exact o1)
  have m2 : s2.messageArray = none := by
    rw [← hs2]
    exact ite_prop (fun s : ScanState => s.messageArray = none) (fun _ => m1)
      (fun _ => by beta_reduce; rw [applyBlock_messageArray env _ _ _ (by decide)]; exact m1)
  generalize p1 + (saveBlock Dependencies r.m_dependencyArray).length = p2 at r2 h2
  -- Hashes
  have ho32 : r.m_offsetArray.length < 4294967296 := by omega
  have r3 := scan_saveBlock env s2 h2 (by decide) ho32
  have h3 := drop_add_of_drop h2
  generalize hs3 : (if r.m_offsetArray = [] then s2
    else applyBlock env Hashes p2 r.m_offsetArray s2) = s3 at r3
  have k3 : s3.ok = true := by
    rw [← hs3]; exact ite_prop (fun s : ScanState => s.ok = true) (fun _ => k2) (fun _ => by beta_reduce; rw [applyBlock_ok]; exact k2)
  have u3 : s3.utf8Fail = s1.utf8Fail := by
    rw [← hs3]
    exact ite_prop (fun s : ScanState => s.utf8Fail = s1.utf8Fail) (fun _ => u2)
      (fun _ => by beta_reduce; rw [applyBlock_utf8Fail env _ _ _ (by decide)]; exact u2)
  have o3a : r.m_offsetArray = [] → s3.offsetLength = 0 := by
    intro he; rw [← hs3, if_pos he]; exact o2.2
  have o3b : r.m_offsetArray ≠ [] → s3.offsetLength = r.m_offsetArray.length ∧
      ∃ rest, s3.offsetArray = some (p2 + 5) ∧ ba.drop (p2 + 5) = r.m_offsetArray ++ rest := by
    intro hne
    rw [← hs3, if_neg hne]
    obtain ⟨T, hT⟩ : ∃ T, ba.drop p2 = saveBlock Hashes r.m_offsetArray ++ T := ⟨_, h2⟩
    have hb : ba.drop p2 = Hashes :: (write32 r.m_offsetArray.length ++ (r.m_offsetArray ++ T)) := by
      rw [hT]
      cases hr : r.m_offsetArray with
      | nil => exact absurd hr hne
      | cons x xs => simp [saveBlock, writeBlock]
    have hb1 : ba.drop (p2 + 1) = write32 r.m_offsetArray.length ++ (r.m_offsetArray ++ T) := by
      rw [← List.drop_drop, hb]; rfl
    have := drop_add_of_drop hb1
    rw [write32_length] at this
    exact ⟨by rw [applyBlock_hashes], _, by rw [applyBlock_hashes], this⟩
  have m3 : s3.messageArray = none := by
    rw [← hs3]
    exact ite_prop (fun s : ScanState => s.messageArray = none) (fun _ => m2)
      (fun _ => by beta_reduce; rw [applyBlock_messageArray env _ _ _ (by decide)]; exact m2)
  generalize p2 + (saveBlock Hashes r.m_offsetArray).length = p3 at r3 h3
  -- Messages
  have hm32 : r.m_messageArray.length < 4294967296 := by omega
  have r4 := scan_saveBlock env s3 h3 (by decide) hm32
  have h4 := drop_add_of_drop h3
  generalize hs4 : (if r.m_messageArray = [] then s3
    else applyBlock env Messages p3 r.m_messageArray s3) = s4 at r4
  have k4 : s4.ok = true := by
    rw [← hs4]; exact ite_prop (fun s : ScanState => s.ok = true) (fun _ => k3) (fun _ => by beta_reduce; rw [applyBlock_ok]; exact k3)
  have u4 : s4.utf8Fail = s1.utf8Fail := by
    rw [← hs4]
    exact ite_prop (fun s : ScanState => s.utf8Fail = s1.utf8Fail) (fun _ => u3)
      (fun _ => by beta_reduce; rw [applyBlock_utf8Fail env _ _ _ (by decide)]; exact u3)
  have o4 : s4.offsetArray = s3.offsetArray ∧ s4.offsetLength = s3.offsetLength := by
    rw [← hs4]
    exact ite_prop (fun s : ScanState => s.offsetArray = s3.offsetArray ∧ s.offsetLength = s3.offsetLength)
      (fun _ => ⟨rfl, rfl⟩) (fun _ => applyBlock_offsets env _ _ _ (by decide))
  have m4 : r.m_messageArray ≠ [] →
      ∃ rest, s4.messageArray = some (p3 + 5) ∧ ba.drop (p3 + 5) = r.m_messageArray ++ rest := by
    intro hne
    rw [← hs4, if_neg hne]
    obtain ⟨T, hT⟩ : ∃ T, ba.drop p3 = saveBlock Messages r.m_messageArray ++ T := ⟨_, h3⟩
    have hb : ba.drop p3
        = Messages :: (write32 r.m_messageArray.length ++ (r.m_messageArray ++ T)) := by
      rw [hT]
      cases hr : r.m_messageArray with
      | nil => exact absurd hr hne
      | cons x xs => simp [saveBlock, writeBlock]
    have hb1 : ba.drop (p3 + 1) = write32 r.m_messageArray.length ++ (r.m_messageArray ++ T) := by
      rw [← List.drop_drop, hb]; rfl
    have := drop_add_of_drop hb1
    rw [write32_length] at this
    exact ⟨_, by rw [applyBlock_messages], this⟩
  generalize p3 + (saveBlock Messages r.m_messageArray).length = p4 at r4 h4
  -- Contexts
  have hc32 : r.m_contextArray.length < 4294967296 := by omega
  have r5 := scan_saveBlock env s4 h4 (by decide) hc32
  have h5 := drop_add_of_drop h4
  generalize hs5 : (if r.m_contextArray = [] then s4
    else applyBlock env Contexts p4 r.m_contextArray s4) = s5 at r5
  have e5 : s5 = s4 := by
    rw [← hs5]; split_ifs
    · rfl
    · rfl
  generalize p4 + (saveBlock Contexts r.m_contextArray).length = p5 at r5 h5
  -- NumerusRules
  have hn32 : r.m_numerusRules.length < 4294967296 := by omega
  have r6 := scan_saveBlock env s5 h5 (by decide) hn32
  have h6 := drop_add_of_drop h5
  generalize hs6 : (if r.m_numerusRules = [] then s5
    else applyBlock env NumerusRules p5 r.m_numerusRules s5) = s6 at r6
  have e6 : s6 = s5 := by
    rw [← hs6]; split_ifs
    · rfl
    · rfl
  generalize hp6 : p5 + (saveBlock NumerusRules r.m_numerusRules).length = p6 at r6 h6
  -- the end of the file
  have hend : ba.length ≤ p6 := by
    by_contra hlt
    have := congrArg List.length h6
    rw [List.length_drop, List.length_nil] at this
    omega
  have hreach := (((((r1.follow r2).follow r3).follow r4).follow r5).follow r6)
  have hp6le : p6 ≤ ba.length := hreach.le_length (by omega)
  obtain ⟨f', hf', heq⟩ := hreach.scanLoop_eq ba.length (by simp [MagicLength])
  refine ⟨s6, ?_, ?_, ?_, ?_, ?_, ?_⟩
  · rw [show MagicLength = 16 from rfl, heq]
    exact scanLoop_stop_at hf' hp6le (by omega)
  · rw [e6, e5]; exact k4
  · rw [e6, e5, u4, u1]
  · intro he; rw [e6, e5, o4.2]; exact o3a he
  · intro hne
    obtain ⟨hl, rest, ha, hd⟩ := o3b hne
    rw [e6, e5, o4.1, o4.2]
    exact ⟨hl, _, rest, ha, hd⟩
  · intro hne
    obtain ⟨rest, ha, hd⟩ := m4 hne
    rw [e6, e5]
    exact ⟨_, rest, ha, hd⟩

theorem writeOffsets_length (l : List Offset) : (writeOffsets l).length = 8 * l.length := by
  induction l with
  | nil => rfl
  | cons k ks ih =>
    rw [writeOffsets_cons, List.length_append, List.length_append, write32_length,
      write32_length, ih, List.length_cons]
    omega

theorem save_magic (env : Env) (r : Releaser) :
    ¬ ((r.save env).length < MagicLength ∨ (r.save env).take MagicLength ≠ magic) := by
  rw [save_eq]
  push_neg
  constructor
  · rw [List.length_append]
    show 16 ≤ 16 + _
    omega
  · exact List.take_left magic _

/-- Loading a file written by `save` from arrays that hold records written
with all their fields: the load succeeds and appends the message of each
record, in the order of the offset array. -/
theorem loadQM_save (env : Env) (tr0 : Translator) (cd0 : ConversionData) (r : Releaser)
    (ps : List Placed)
    (hoff : r.m_offsetArray = writeOffsets (ps.map Placed.offset))
    (hps : ∀ p ∈ ps, RecordFits p.2 ∧ (env.fromUtf8 p.2.m_context).2 = false ∧
      ∃ rest', r.m_messageArray.drop p.1 = encFull p.2 ++ rest')
    (hlang : r.m_language.isEmpty = true ∨
      (originalBytes env r.m_language ≠ [] ∧
        (env.fromUtf8 (originalBytes env r.m_language)).2 = false))
    (hsize : (r.save env).length < 4294967296) :
    ∃ res, loadQM env tr0 (r.save env) cd0 = some res ∧ res.ok = true ∧ res.cd = cd0 ∧
      res.translator.messages
        = tr0.messages ++ ps.map (fun p => loadedMessage env (guessPlurals env res.translator) p.2) := by
  obtain ⟨s, hscan, hok, hutf, hoff0, hoff1, hmsg⟩ := scan_save env tr0 r
    (hlang.imp id (fun h => h.1)) hsize
  have hu : s.utf8Fail = false := by
    rw [hutf]
    rcases hlang with h | h
    · rw [if_pos h]
    · split_ifs
      · rfl
      · exact h.2
  have hm0 := scanLoop_messages _ _ _ _ hscan
  unfold loadQM
  rw [if_neg (save_magic env r), hscan]
  simp only [Option.bind_eq_bind, Option.some_bind]
  unfold loadMessages
  dsimp only
  cases ps with
  | nil =>
    have hz : s.offsetLength = 0 := hoff0 (by rw [hoff]; rfl)
    rw [hz]
    simp only [Nat.zero_div, messageLoop, Option.bind_eq_bind, Option.some_bind]
    have hi : (DecodeState.init s.utf8Fail).utf8Fail = false := hu
    rw [hi]
    simp only [Bool.false_eq_true, if_false]
    refine ⟨_, rfl, hok, rfl, ?_⟩
    simp [hm0, ScanState.init]
  | cons p0 ps' =>
    have hne : r.m_offsetArray ≠ [] := by
      intro he
      have := congrArg List.length he
      rw [hoff, writeOffsets_length] at this
      simp at this
    obtain ⟨hlen, oa, rest, hoa, hdrop⟩ := hoff1 hne
    have hmne : r.m_messageArray ≠ [] := by
      intro he
      obtain ⟨_, _, rest', hr⟩ := hps p0 (List.mem_cons_self _ _)
      rw [he, List.drop_nil] at hr
      have := congrArg List.length hr
      have := encFull_length_pos p0.2
      simp only [List.length_nil, List.length_append] at *
      omega
    obtain ⟨ma, rest2, hma, hmdrop⟩ := hmsg hmne
    have hmlen : ma + r.m_messageArray.length ≤ (r.save env).length :=
      length_ge_of_drop hmdrop hmne
    have hall : ∀ p ∈ p0 :: ps', p.1 < 4294967296 ∧ RecordFits p.2 ∧
        (env.fromUtf8 p.2.m_context).2 = false ∧
        ∃ rest', (r.save env).drop (ma + p.1) = encFull p.2 ++ rest' := by
      intro p hp
      obtain ⟨hfit, hflag, rest', hr⟩ := hps p hp
      have hp1 : p.1 < r.m_messageArray.length := by
        by_contra hge
        rw [List.drop_of_length_le (by omega)] at hr
        have := congrArg List.length hr
        have := encFull_length_pos p.2
        simp only [List.length_nil, List.length_append] at *
        omega
      refine ⟨by omega, hfit, hflag, rest' ++ rest2, ?_⟩
      rw [← List.drop_drop, hmdrop, List.drop_append_of_le_length (by omega), hr,
        List.append_assoc]
    rw [hoff] at hdrop hlen
    obtain ⟨stF, hF, hloop⟩ := messageLoop_placed env (guessPlurals env s.translator) ma
      (p0 :: ps') oa
      (DecodeState.init s.utf8Fail) s.translator rest hdrop hall rfl hu
    rw [hlen, writeOffsets_length, List.length_map, Nat.mul_div_cancel_left _ (by decide),
      hma, hoa, Option.getD_some, hloop]
    simp only [Option.bind_eq_bind, Option.some_bind, hF, Bool.false_eq_true, if_false]
    refine ⟨_, rfl, hok, rfl, ?_⟩
    rw [hm0]
    rfl

/-! ## The order of the map `m_messages` -/

theorem qbaLt_total : ∀ (a b : QByteArray), a ≠ b → qbaLt a b = true ∨ qbaLt b a = true := by
  intro a
  induction a with
  | nil =>
    intro b hne
    cases b with
    | nil => exact absurd rfl hne
    | cons y ys => exact Or.inl rfl
  | cons x xs ih =>
    intro b hne
    cases b with
    | nil => exact Or.inr rfl
    | cons y ys =>
      simp only [qbaLt]
      by_cases h1 : x < y
      · simp [h1]
      · by_cases h2 : y < x
        · simp [h2]
        · have hxy : x = y := by
            apply Fin.ext
            have := Fin.lt_def.not.mp h1
            have := Fin.lt_def.not.mp h2
            omega
          subst hxy
          simp only [h1, if_false]
          exact ih ys (fun h => hne (by rw [h]))

theorem ByteTranslatorMessage.lt_total (a b : ByteTranslatorMessage) (h : a.key ≠ b.key) :
    a.lt b = true ∨ b.lt a = true := by
  unfold ByteTranslatorMessage.lt
  by_cases hc : a.m_context = b.m_context
  · by_cases hs : a.m_sourcetext = b.m_sourcetext
    · have hm : a.m_comment ≠ b.m_comment := by
        intro hm
        exact h (by simp [ByteTranslatorMessage.key, hc, hs, hm])
      rw [if_neg (by simpa using hc), if_neg (by simpa using hs), if_neg (by simpa using hc.symm),
        if_neg (by simpa using hs.symm)]
      exact qbaLt_total _ _ hm
    · rw [if_neg (by simpa using hc), if_pos hs, if_neg (by simpa using hc.symm),
        if_pos (Ne.symm hs)]
      exact qbaLt_total _ _ hs
  · rw [if_pos hc, if_pos (Ne.symm hc)]
    exact qbaLt_total _ _ hc

/-- Inserting records with pairwise different keys into the empty map leaves a
permutation of the records. -/
theorem foldl_insert_perm (l : List ByteTranslatorMessage)
    (h : (l.map ByteTranslatorMessage.key).Nodup) :
    (l.foldl (fun o p => qmapInsert ByteTranslatorMessage.lt p o) []).Perm l := by
  have := foldl_qmapInsert_perm ByteTranslatorMessage.lt l [] (by
    rw [List.nil_append]
    have hp := List.pairwise_map.mp h
    exact hp.imp (fun hne => ByteTranslatorMessage.lt_total _ _ hne))
  simpa using this

theorem sortedPlaced_perm (l : List ByteTranslatorMessage) :
    (sortedPlaced l).Perm (placeFrom 0 l) := by
  have := foldl_qmapInsert_perm Placed.lt (placeFrom 0 l) [] (by
    rw [List.nil_append]; exact placeFrom_pairwise l 0)
  simpa using this

theorem sortedPlaced_offsets (l : List ByteTranslatorMessage) :
    (sortedPlaced l).map Placed.offset
      = (placeFrom 0 l).foldl (fun o p => qmapInsert Offset.lt p.offset o) [] := by
  unfold sortedPlaced
  rw [foldl_qmapInsert_map Placed.offset Placed.lt Offset.lt (fun _ _ => rfl)]
  rfl

/-! ## `squeeze` and the message loop of `saveQM` -/

theorem squeezeMessages_snd (mode : TranslatorSaveMode) (l : List ByteTranslatorMessage) :
    ∀ (cpNext : Nat) (offsets : List Offset) (ms : QByteArray), AllFull mode l cpNext →
      (squeezeMessages mode l cpNext offsets ms).2 = ms ++ l.flatMap encFull := by
  induction l with
  | nil => intro cpNext offsets ms _; simp [squeezeMessages]
  | cons it rest ih =>
    intro cpNext offsets ms hfull
    obtain ⟨hw, hrest⟩ := hfull
    simp only [squeezeMessages, List.flatMap_cons]
    rw [hw, ih _ _ _ hrest, List.append_assoc]

/-- `squeeze` in `SaveEverything` mode on a releaser whose arrays are still
empty. -/
theorem squeeze_saveEverything (r : Releaser)
    (h0 : r.m_messageArray = [] ∧ r.m_offsetArray = [] ∧ r.m_contextArray = []) :
    ∃ r', r.squeeze .SaveEverything = some r' ∧ r'.m_language = r.m_language ∧
      r'.m_messageArray = r.m_messages.flatMap encFull ∧
      ((r.m_messages.flatMap encFull).length < 4294967296 →
        r'.m_offsetArray = writeOffsets ((sortedPlaced r.m_messages).map Placed.offset)) := by
  unfold Releaser.squeeze
  dsimp only
  cases hL : r.m_messages with
  | nil =>
    rw [if_pos ⟨rfl, rfl⟩]
    refine ⟨_, rfl, rfl, ?_, ?_⟩
    · simp [h0.1]
    · intro _
      simp [h0.2.1, sortedPlaced, placeFrom, writeOffsets]
  | cons it rest =>
    rw [if_neg (by simp), if_neg (by decide)]
    refine ⟨_, rfl, rfl, ?_, ?_⟩
    · show (squeezeMessages TranslatorSaveMode.SaveEverything (it :: rest) 0 [] []).2 = _
      rw [squeezeMessages_snd _ _ _ _ _ (allFull_saveEverything _ _)]
      simp
    · intro hlen
      show writeOffsets (squeezeMessages TranslatorSaveMode.SaveEverything (it :: rest) 0 [] []).1 = _
      rw [squeezeMessages_full _ _ _ _ _ (allFull_saveEverything _ _) (by simpa using hlen),
        sortedPlaced_offsets]
      rfl

theorem persisted_eq (cd : ConversionData) (msg : TranslatorMessage) :
    persisted cd msg = true ↔
      (msg.type ≠ .Obsolete ∧ msg.type ≠ .Vanished) ∧ ¬ (cd.m_idBased = true ∧ msg.id.isEmpty = true) ∧
      (msg.type = .Unfinished →
        ¬ (msg.translation.isEmpty = true ∧ (!cd.m_idBased) = true ∧ cd.m_unTrPrefix.isEmpty = true) ∧
        cd.m_ignoreUnfinished = false) := by
  unfold persisted
  generalize msg.type = t
  generalize cd.m_idBased = b1
  generalize msg.id.isEmpty = b2
  generalize msg.translation.isEmpty = b3
  generalize cd.m_unTrPrefix.isEmpty = b4
  generalize cd.m_ignoreUnfinished = b5
  cases t <;> cases b1 <;> cases b2 <;> cases b3 <;> cases b4 <;> cases b5 <;> simp

/-- The releaser after one iteration of the message loop of `saveQM`. -/
theorem saveMessage_releaser (env : Env) (cat : Translator) (cd : ConversionData)
    (st : SaveState) (msg : TranslatorMessage) (hid : cd.m_idBased = false) :
    (saveMessage env cat cd st msg).releaser =
      if persisted cd msg then
        st.releaser.insert env msg (saveTranslations cd msg) (forceComment cat msg)
      else st.releaser := by
  by_cases hp : persisted cd msg = true
  · rw [if_pos hp]
    obtain ⟨h1, h2, h3⟩ := (persisted_eq cd msg).mp hp
    unfold saveMessage
    rw [if_pos h1, if_neg h2]
    by_cases hu : msg.type = .Unfinished
    · obtain ⟨h4, h5⟩ := h3 hu
      rw [if_pos hu, if_neg h4, if_neg (by simp [h5])]
      simp [saveInsert, hid, forceComment]
    · rw [if_neg hu]
      simp [saveInsert, hid, forceComment]
  · rw [if_neg hp]
    have hnp := (persisted_eq cd msg).not.mp hp
    unfold saveMessage
    by_cases h1 : msg.type ≠ .Obsolete ∧ msg.type ≠ .Vanished
    · rw [if_pos h1]
      by_cases h2 : cd.m_idBased = true ∧ msg.id.isEmpty = true
      · rw [if_pos h2]
      · rw [if_neg h2]
        by_cases hu : msg.type = .Unfinished
        · rw [if_pos hu]
          by_cases h4 : msg.translation.isEmpty = true ∧ (!cd.m_idBased) = true ∧
              cd.m_unTrPrefix.isEmpty = true
          · rw [if_pos h4]
          · rw [if_neg h4]
            by_cases h5 : cd.m_ignoreUnfinished = true
            · rw [if_pos h5]
            · exact absurd ⟨h1, h2, fun _ => ⟨h4, by simpa using h5⟩⟩ hnp
        · exact absurd ⟨h1, h2, fun h => absurd h hu⟩ hnp
    · rw [if_neg h1]

theorem insert_force (env : Env) (r : Releaser) (msg : TranslatorMessage) (tlns : List QString) :
    r.insert env msg tlns true
      = { r with m_messages :=
            qmapInsert ByteTranslatorMessage.lt (toByteMessage env msg tlns) r.m_messages } := by
  simp [Releaser.insert, toByteMessage]

theorem saveTranslations_plain (cd : ConversionData) (msg : TranslatorMessage)
    (hid : cd.m_idBased = false) (hpre : cd.m_unTrPrefix.isEmpty = true) :
    saveTranslations cd msg = msg.translations := by
  simp [saveTranslations, hid, hpre]

/-- The map of the releaser after the message loop of `saveQM`, when every
persisted message keeps its comment. -/
theorem foldl_saveMessage_releaser (env : Env) (cat : Translator) (cd : ConversionData)
    (hid : cd.m_idBased = false) (hpre : cd.m_unTrPrefix.isEmpty = true)
    (msgs : List TranslatorMessage) :
    ∀ st : SaveState,
      (∀ m ∈ msgs, persisted cd m = true → forceComment cat m = true) →
      (msgs.foldl (saveMessage env cat cd) st).releaser =
        { st.releaser with m_messages :=
            (List.foldl (fun o p => qmapInsert ByteTranslatorMessage.lt p o) st.releaser.m_messages
              ((msgs.filter (persisted cd)).map (fun m => toByteMessage env m m.translations))) } := by
  induction msgs with
  | nil => intro st _; rfl
  | cons m ms ih =>
    intro st hforce
    rw [List.foldl_cons, ih _ (fun x hx => hforce x (List.mem_cons_of_mem _ hx)),
      saveMessage_releaser env cat cd st m hid]
    by_cases hp : persisted cd m = true
    · rw [if_pos hp, hforce m (List.mem_cons_self _ _) hp, insert_force,
        saveTranslations_plain cd m hid hpre, List.filter_cons_of_pos hp]
      rfl
    · rw [if_neg hp, List.filter_cons_of_neg hp]

theorem saveLoop_releaser (env : Env) (cat : Translator) (cd : ConversionData)
    (hid : cd.m_idBased = false) (hpre : cd.m_unTrPrefix.isEmpty = true)
    (hforce : ∀ m ∈ cat.messages, persisted cd m = true → forceComment cat m = true) :
    ∃ rules, (saveLoop env cat cd).releaser =
      { m_language := cat.languageCode, m_messageArray := [], m_offsetArray := [],
        m_contextArray := []
        m_messages :=
          (List.foldl (fun o p => qmapInsert ByteTranslatorMessage.lt p o) []
            ((cat.messages.filter (persisted cd)).map (fun m => toByteMessage env m m.translations)))
        m_numerusRules := rules, m_dependencies := [], m_dependencyArray := [] } := by
  unfold saveLoop
  dsimp only
  rw [foldl_saveMessage_releaser env cat cd hid hpre _ _ hforce]
  cases env.numerusInfo cat.languageCode with
  | none => exact ⟨[], rfl⟩
  | some p => exact ⟨p.1, rfl⟩

theorem length_translations_ge (ts : List QString) (t : QString) (h : t ∈ ts) :
    2 * t.units.length ≤ (ts.flatMap (fun t => Tag_Translation :: writeQString t)).length := by
  induction ts with
  | nil => cases h
  | cons x xs ih =>
    rw [List.flatMap_cons, List.length_append, List.length_cons, writeQString_length]
    rcases List.mem_cons.mp h with rfl | h'
    · omega
    · have := ih h'
      omega

theorem encFull_length (bm : ByteTranslatorMessage) :
    (encFull bm).length
      = (bm.m_translations.flatMap (fun t => Tag_Translation :: writeQString t)).length
        + (16 + bm.m_comment.length + bm.m_sourcetext.length + bm.m_context.length) := by
  unfold encFull writeFields
  rw [if_neg (by decide), if_neg (by decide)]
  simp only [List.length_append, List.length_cons, writeQByteArray, write32_length,
    List.length_nil]
  omega

theorem recordFits_of_length (bm : ByteTranslatorMessage) (h : (encFull bm).length < 2147483648) :
    RecordFits bm := by
  rw [encFull_length] at h
  refine ⟨by omega, by omega, by omega, ?_⟩
  intro t ht
  have := length_translations_ge _ t ht
  omega

theorem tupleOf_loadedMessage (env : Env) (guess : Bool) (m : TranslatorMessage)
    (h : Utf8Safe env m.context ∧ Utf8Safe env m.sourceText ∧ Utf8Safe env m.comment) :
    tupleOf (loadedMessage env guess (toByteMessage env m m.translations)) = tupleOf m := by
  obtain ⟨hc, hs, hm⟩ := h
  simp only [tupleOf, loadedMessage, makeMessage, decodedState, toByteMessage, List.nil_append,
    hc.2, hs.2, hm.2]

theorem messageArray_le_save (env : Env) (r : Releaser) :
    r.m_messageArray.length ≤ (r.save env).length := by
  rw [save_eq]
  simp only [List.length_append]
  have := saveBlock_length_ge Messages r.m_messageArray
  omega

/-- The bytes that `saveQM` writes are those saved by the squeezed releaser of
the message loop. -/
theorem saveQM_of_squeeze (env : Env) (cat : Translator) (cd : ConversionData) (r' : Releaser)
    (hsq : ((saveLoop env cat cd).releaser.setDependencies cat.dependencies).squeeze
      cd.m_saveMode = some r') :
    ∃ res, saveQM env cat cd = some res ∧ res.saved = true ∧ res.bytes = r'.save env := by
  unfold saveQM
  dsimp only
  have h2 : (if (saveLoop env cat cd).droppedData ≠ 0
      then (if (saveLoop env cat cd).missingIds ≠ 0
        then cd.appendError (.missingIds (saveLoop env cat cd).missingIds) else cd).appendError
          (.droppedData (saveLoop env cat cd).droppedData)
      else (if (saveLoop env cat cd).missingIds ≠ 0
        then cd.appendError (.missingIds (saveLoop env cat cd).missingIds) else cd)).m_saveMode
      = cd.m_saveMode := by
    split_ifs <;> rfl
  rw [h2, hsq]
  exact ⟨_, rfl, rfl, rfl⟩

/-- Loading the file saved by a squeezed releaser whose records `l`, a
permutation of the records of the messages `kept`, are all written with all
their fields. -/
theorem roundtrip_core (env : Env) (tr0 : Translator) (cd0 : ConversionData)
    (languageCode : QString) (kept : List TranslatorMessage) (l : List ByteTranslatorMessage)
    (r' : Releaser)
    (hutf8 : ∀ m ∈ kept,
      Utf8Safe env m.context ∧ Utf8Safe env m.sourceText ∧ Utf8Safe env m.comment)
    (hperm : l.Perm (kept.map (fun m => toByteMessage env m m.translations)))
    (hlang' : r'.m_language = languageCode)
    (hmsgs : r'.m_messageArray = l.flatMap encFull)
    (hoffs : (l.flatMap encFull).length < 4294967296 →
      r'.m_offsetArray = writeOffsets ((sortedPlaced l).map Placed.offset))
    (hsz : (r'.save env).length < 2147483648)
    (hlang : languageCode.isEmpty = true ∨
      (originalBytes env languageCode ≠ [] ∧
        (env.fromUtf8 (originalBytes env languageCode)).2 = false)) :
    ∃ r loaded, loadQM env tr0 (r'.save env) cd0 = some r ∧ r.ok = true ∧ r.cd = cd0 ∧
      r.translator.messages = tr0.messages ++ loaded ∧
      (loaded.map tupleOf).Perm (kept.map tupleOf) := by
  have hmlen := messageArray_le_save env r'
  rw [hmsgs] at hmlen
  have hoff := hoffs (by omega)
  have hps : ∀ p ∈ sortedPlaced l, RecordFits p.2 ∧ (env.fromUtf8 p.2.m_context).2 = false ∧
      ∃ rest', r'.m_messageArray.drop p.1 = encFull p.2 ++ rest' := by
    intro p hp
    have hp' := (sortedPlaced_perm l).mem_iff.mp hp
    obtain ⟨hmem, -, -, rest', hdrop⟩ := placeFrom_mem l 0 p hp'
    rw [Nat.sub_zero] at hdrop
    refine ⟨?_, ?_, rest', by rw [hmsgs]; exact hdrop⟩
    · apply recordFits_of_length
      have := congrArg List.length hdrop
      rw [List.length_drop, List.length_append] at this
      omega
    · have := hperm.mem_iff.mp hmem
      obtain ⟨m, hm, hmeq⟩ := List.mem_map.mp this
      rw [← hmeq]
      exact (hutf8 m hm).1.1
  obtain ⟨r, hload, hok, hcd, hmessages⟩ := loadQM_save env tr0 cd0 r' (sortedPlaced l) hoff hps
    (by rw [hlang']; exact hlang) (by omega)
  refine ⟨r, _, hload, hok, hcd, hmessages, ?_⟩
  have h1 : ((sortedPlaced l).map Prod.snd).Perm l := by
    have := (sortedPlaced_perm l).map Prod.snd
    rwa [placeFrom_map_snd] at this
  have h2 := (h1.trans hperm).map
    (fun bm => tupleOf (loadedMessage env (guessPlurals env r.translator) bm))
  simp only [List.map_map] at h2 ⊢
  refine h2.trans (List.Perm.of_eq ?_)
  apply List.map_congr_left
  intro m hm
  exact tupleOf_loadedMessage env _ m (hutf8 m hm)

/-- C1, as amended: a catalog saved by `saveQM` in `SaveEverything` mode,
without ID-based mode and untranslated prefix, into a file shorter than
`2 ^ 31` bytes, whose persisted entries keep their comments (`forceComment`),
have pairwise different (context, sourceText, comment) keys and hold strings
that survive the UTF-8 conversion, and whose language code is empty or valid:
`loadQM` succeeds on the written bytes and the messages it appends carry, up
to order, exactly the (context, sourceText, comment, translations) tuples of
the persisted entries. -/
theorem saveQM_loadQM_roundtrip (env : Env) (cat : Translator) (cd : ConversionData)
    (tr0 : Translator) (cd0 : ConversionData)
    (hmode : cd.m_saveMode = .SaveEverything) (hid : cd.m_idBased = false)
    (hpre : cd.m_unTrPrefix.isEmpty = true)
    (hsize : ∀ res ∈ saveQM env cat cd, res.bytes.length < 2147483648)
    (hforce : ∀ m ∈ cat.messages, persisted cd m = true → forceComment cat m = true)
    (hkeys : ((cat.messages.filter (persisted cd)).map
      (fun m => (toByteMessage env m m.translations).key)).Nodup)
    (hutf8 : ∀ m ∈ cat.messages, persisted cd m = true →
      Utf8Safe env m.context ∧ Utf8Safe env m.sourceText ∧ Utf8Safe env m.comment)
    (hlang : cat.languageCode.isEmpty = true ∨
      (originalBytes env cat.languageCode ≠ [] ∧
        (env.fromUtf8 (originalBytes env cat.languageCode)).2 = false)) :
    ∃ res r loaded, saveQM env cat cd = some res ∧ res.saved = true ∧
      loadQM env tr0 res.bytes cd0 = some r ∧ r.ok = true ∧ r.cd = cd0 ∧
      r.translator.messages = tr0.messages ++ loaded ∧
      (loaded.map tupleOf).Perm ((cat.messages.filter (persisted cd)).map tupleOf) := by
  obtain ⟨rules, hrel⟩ := saveLoop_releaser env cat cd hid hpre hforce
  have hperm := foldl_insert_perm
    ((cat.messages.filter (persisted cd)).map (fun m => toByteMessage env m m.translations))
    (by rw [List.map_map]; exact hkeys)
  obtain ⟨r', hsq, hlang', hmsgs, hoffs⟩ := squeeze_saveEverything
    ((saveLoop env cat cd).releaser.setDependencies cat.dependencies)
    (by rw [hrel]; exact ⟨rfl, rfl, rfl⟩)
  rw [← hmode] at hsq
  obtain ⟨res, hres, hsaved, hbytes⟩ := saveQM_of_squeeze env cat cd r' hsq
  have hsz := hsize res hres
  rw [hbytes] at hsz
  rw [hrel] at hlang' hmsgs hoffs
  obtain ⟨r, loaded, hload, hok, hcd, hmessages, hp⟩ := roundtrip_core env tr0 cd0
    cat.languageCode (cat.messages.filter (persisted cd)) _ r'
    (fun m hm => hutf8 m (List.mem_filter.mp hm).1 (List.mem_filter.mp hm).2)
    hperm hlang' hmsgs hoffs hsz hlang
  exact ⟨res, r, loaded, hres, hsaved, by rw [hbytes]; exact hload, hok, hcd, hmessages, hp⟩

/-- C1, counterexample: the catalog `commentCatalog`, saved in `SaveEverything`
mode and loaded again, yields its entry without the comment "c". -/
theorem comment_dropped_on_roundtrip :
    ConversionData.default.m_saveMode = .SaveEverything ∧
    commentCatalog.messages.map tupleOf = [([0x43], [0x53], [0x63], [.str [0x54]])] ∧
    ((saveQM sampleEnv commentCatalog ConversionData.default).bind fun res =>
      (loadQM sampleEnv Translator.empty res.bytes ConversionData.default).map fun r =>
        (r.ok, r.translator.messages.map tupleOf))
      = some (true, [([0x43], [0x53], [], [.str [0x54]])]) :=
  ⟨rfl, rfl, rfl⟩

theorem saveQM_loadQM_roundtrip_witness :
    ∃ res r loaded, saveQM sampleEnv sampleCatalog ConversionData.default = some res ∧
      res.saved = true ∧
      loadQM sampleEnv Translator.empty res.bytes ConversionData.default = some r ∧
      r.ok = true ∧ r.cd = ConversionData.default ∧
      r.translator.messages = Translator.empty.messages ++ loaded ∧
      (loaded.map tupleOf).Perm
        ((sampleCatalog.messages.filter (persisted ConversionData.default)).map tupleOf) :=
  saveQM_loadQM_roundtrip sampleEnv sampleCatalog ConversionData.default Translator.empty
    ConversionData.default rfl rfl rfl (by decide) (by decide) (by decide) (by decide) (by decide)

/-! ## `squeeze` in `SaveStripped` mode -/

theorem allFull_stripped (l : List ByteTranslatorMessage)
    (h : l.Pairwise (fun a b => msgHash a ≠ msgHash b)) : AllFull .SaveStripped l 0 := by
  induction l with
  | nil => trivial
  | cons it rest ih =>
    obtain ⟨hhead, htail⟩ := List.pairwise_cons.mp h
    have hcp : (match rest with | [] => 0 | next :: _ => commonPrefix it next) = 0 := by
      cases rest with
      | nil => rfl
      | cons next rest' =>
        simp only [commonPrefix]
        rw [if_pos (hhead next (List.mem_cons_self _ _))]
    refine ⟨?_, ?_⟩
    · rw [hcp]
      simp [writeMessage, encFull, writeFields]
    · rw [hcp]
      exact ih htail

theorem qmapInsert_length_le {α : Type} (lt : α → α → Bool) (k : α) (l : List α) :
    (qmapInsert lt k l).length ≤ l.length + 1 := by
  induction l with
  | nil => simp [qmapInsert]
  | cons x xs ih =>
    simp only [qmapInsert]
    split_ifs <;> simp only [List.length_cons] <;> omega

theorem contextSet_length_le (l : List ByteTranslatorMessage) :
    ∀ acc : List QByteArray,
      (l.foldl (fun set m => qmapInsert qbaLt m.m_context set) acc).length
        ≤ acc.length + l.length := by
  induction l with
  | nil => intro acc; simp
  | cons x xs ih =>
    intro acc
    rw [List.foldl_cons, List.length_cons]
    have := ih (qmapInsert qbaLt x.m_context acc)
    have := qmapInsert_length_le qbaLt x.m_context acc
    omega

theorem hTableSizeFor_pos (n : Nat) (h : n < 10000) : hTableSizeFor n ≠ 0 := by
  unfold hTableSizeFor
  split_ifs <;> decide

theorem buildContextArray_isSome (l : List ByteTranslatorMessage) (h : l.length < 10000) :
    ∃ c, buildContextArray l = some c := by
  unfold buildContextArray
  dsimp only
  have hlen := contextSet_length_le l []
  rw [if_neg (hTableSizeFor_pos _ (by simp only [List.length_nil] at hlen; omega))]
  split_ifs
  · exact ⟨_, rfl⟩
  · exact ⟨_, rfl⟩

/-- `squeeze` in `SaveStripped` mode on a releaser whose arrays are still empty
and whose records are all written with all their fields. -/
theorem squeeze_stripped (r : Releaser) (hfull : AllFull .SaveStripped r.m_messages 0)
    (hn : r.m_messages.length < 10000) :
    ∃ r', r.squeeze .SaveStripped = some r' ∧ r'.m_language = r.m_language ∧
      r'.m_messageArray = r.m_messages.flatMap encFull ∧
      ((r.m_messages.flatMap encFull).length < 4294967296 →
        r'.m_offsetArray = writeOffsets ((sortedPlaced r.m_messages).map Placed.offset)) := by
  obtain ⟨c, hc⟩ := buildContextArray_isSome r.m_messages hn
  unfold Releaser.squeeze
  dsimp only
  rw [if_neg (by simp), if_pos rfl, hc]
  refine ⟨_, rfl, rfl, ?_, ?_⟩
  · show (squeezeMessages TranslatorSaveMode.SaveStripped r.m_messages 0 [] []).2 = _
    rw [squeezeMessages_snd _ _ _ _ _ hfull]
    simp
  · intro hlen
    show writeOffsets (squeezeMessages TranslatorSaveMode.SaveStripped r.m_messages 0 [] []).1 = _
    rw [squeezeMessages_full _ _ _ _ _ hfull (by simpa using hlen), sortedPlaced_offsets]
    rfl

theorem msgHash_toByteMessage (env : Env) (m : TranslatorMessage) (ts : List QString) :
    msgHash (toByteMessage env m ts) = entryHash env m.sourceText m.comment := rfl

/-- C7, counterexample: the three entries of `abcCatalog` share the context "C"
and the source text "S" and have the comments "a", "b" and "c"; saved in
`SaveStripped` mode and loaded again they carry the comments "", "b" and
"c". -/
theorem stripped_comment_lost :
    abcCatalog.messages.map (fun m => (m.context.units, m.sourceText.units, m.comment.units))
      = [([0x43], [0x53], [0x61]), ([0x43], [0x53], [0x62]), ([0x43], [0x53], [0x63])] ∧
    strippedComments abcCatalog = some (true, [[], [0x62], [0x63]]) :=
  ⟨rfl, rfl⟩

/-- The entries of `collisionCatalog` keep their comments in the writer, but
the entries with the comments "aq" and "ba" have the same hash: the second is
written without its Comment field and comes back with the comment "aq". -/
theorem stripped_collision_inherits_comment :
    entryHash sampleEnv (.str [0x53]) (.str [0x61, 0x71])
      = entryHash sampleEnv (.str [0x53]) (.str [0x62, 0x61]) ∧
    strippedComments collisionCatalog = some (true, [[], [0x61, 0x71], [0x61, 0x71]]) :=
  ⟨rfl, rfl⟩

/-! ## The hash -/

theorem elfHashStep_lt (h : Nat) (k : Byte) : elfHashStep h k < 4294967296 := by
  unfold elfHashStep
  exact lt_of_le_of_lt Nat.and_le_left (by
    split_ifs
    · refine Nat.xor_lt_two_pow (n := 32) (Nat.mod_lt _ (by decide)) ?_
      rw [Nat.shiftRight_eq_div_pow]
      exact lt_of_le_of_lt (Nat.div_le_self _ _)
        (lt_of_le_of_lt Nat.and_le_right (by decide))
    · exact Nat.mod_lt _ (by decide))

theorem elfHashLoop_lt : ∀ (ks : List Byte) (h : Nat), h < 4294967296 →
    elfHashLoop h ks < 4294967296 := by
  intro ks
  induction ks with
  | nil => intro h hh; simpa [elfHashLoop] using hh
  | cons k ks ih =>
    intro h hh
    unfold elfHashLoop
    split_ifs
    · exact hh
    · exact ih _ (elfHashStep_lt h k)

theorem elfHash_lt (ba : QByteArray) : elfHash ba < 4294967296 := by
  unfold elfHash
  have := elfHashLoop_lt ba 0 (by decide)
  simp only
  split_ifs
  · decide
  · exact this

/-- C19: `elfHash` never returns 0, and the hash of the empty byte sequence
is 1. -/
theorem elfHash_nonzero (ba : QByteArray) : elfHash ba ≠ 0 ∧ elfHash [] = 1 := by
  refine ⟨?_, rfl⟩
  unfold elfHash
  simp only
  split_ifs with h
  · decide
  · exact h

/-! ## The filter of `saveQM` -/

theorem saveInsert_releaser (env : Env) (cat : Translator) (cd : ConversionData)
    (msg : TranslatorMessage) (st : SaveState) :
    (saveInsert env cat cd msg st).releaser = passToWriter env cat cd st.releaser msg := by
  unfold saveInsert passToWriter forceComment
  by_cases hid : cd.m_idBased = true
  · simp [hid]
  · simp [hid]

/-- The releaser after one iteration of the message loop of `saveQM`, in
either keying mode. -/
theorem saveMessage_passToWriter (env : Env) (cat : Translator) (cd : ConversionData)
    (st : SaveState) (msg : TranslatorMessage) :
    (saveMessage env cat cd st msg).releaser =
      if persisted cd msg then passToWriter env cat cd st.releaser msg else st.releaser := by
  by_cases hp : persisted cd msg = true
  · rw [if_pos hp]
    obtain ⟨h1, h2, h3⟩ := (persisted_eq cd msg).mp hp
    unfold saveMessage
    rw [if_pos h1, if_neg h2]
    by_cases hu : msg.type = .Unfinished
    · obtain ⟨h4, h5⟩ := h3 hu
      rw [if_pos hu, if_neg h4, if_neg (by simp [h5]), saveInsert_releaser]
    · rw [if_neg hu, saveInsert_releaser]
  · rw [if_neg hp]
    have hnp := (persisted_eq cd msg).not.mp hp
    unfold saveMessage
    by_cases h1 : msg.type ≠ .Obsolete ∧ msg.type ≠ .Vanished
    · rw [if_pos h1]
      by_cases h2 : cd.m_idBased = true ∧ msg.id.isEmpty = true
      · rw [if_pos h2]
      · rw [if_neg h2]
        by_cases hu : msg.type = .Unfinished
        · rw [if_pos hu]
          by_cases h4 : msg.translation.isEmpty = true ∧ (!cd.m_idBased) = true ∧
              cd.m_unTrPrefix.isEmpty = true
          · rw [if_pos h4]
          · rw [if_neg h4]
            by_cases h5 : cd.m_ignoreUnfinished = true
            · rw [if_pos h5]
            · exact absurd ⟨h1, h2, fun _ => ⟨h4, by simpa using h5⟩⟩ hnp
        · exact absurd ⟨h1, h2, fun h => absurd h hu⟩ hnp
    · rw [if_neg h1]

theorem foldl_saveMessage_passToWriter (env : Env) (cat : Translator) (cd : ConversionData)
    (msgs : List TranslatorMessage) :
    ∀ st : SaveState,
      (msgs.foldl (saveMessage env cat cd) st).releaser =
        List.foldl (passToWriter env cat cd) st.releaser (msgs.filter (persisted cd)) := by
  induction msgs with
  | nil => intro st; rfl
  | cons m ms ih =>
    intro st
    rw [List.foldl_cons, ih, saveMessage_passToWriter]
    by_cases hp : persisted cd m = true
    · rw [if_pos hp, List.filter_cons_of_pos hp, List.foldl_cons]
    · rw [if_neg hp, List.filter_cons_of_neg hp]

theorem saveLoop_passToWriter (env : Env) (cat : Translator) (cd : ConversionData) :
    (saveLoop env cat cd).releaser =
      List.foldl (passToWriter env cat cd) (initialReleaser env cat)
        (cat.messages.filter (persisted cd)) := by
  unfold saveLoop
  dsimp only
  rw [foldl_saveMessage_passToWriter]
  rfl

/-- `saveQM` returns exactly when `squeeze` does, and then it returns true. -/
theorem saveQM_saved (env : Env) (cat : Translator) (cd : ConversionData) :
    (saveQM env cat cd).map (fun res => res.saved) =
      (((saveLoop env cat cd).releaser.setDependencies cat.dependencies).squeeze cd.m_saveMode).map
        (fun _ => true) := by
  unfold saveQM
  have hmode : ∀ (c : ConversionData) (e : ErrorMessage), (c.appendError e).m_saveMode = c.m_saveMode :=
    fun _ _ => rfl
  have h1 : (if (saveLoop env cat cd).missingIds ≠ 0 then
      cd.appendError (.missingIds (saveLoop env cat cd).missingIds) else cd).m_saveMode
      = cd.m_saveMode := by split_ifs <;> rfl
  have h2 : ∀ c : ConversionData, (if (saveLoop env cat cd).droppedData ≠ 0 then
      c.appendError (.droppedData (saveLoop env cat cd).droppedData) else c).m_saveMode
      = c.m_saveMode := by intro c; split_ifs <;> rfl
  simp only [Option.bind_eq_bind, Option.pure_def, h2, h1]
  cases ((saveLoop env cat cd).releaser.setDependencies cat.dependencies).squeeze cd.m_saveMode with
  | none => rfl
  | some r' => rfl

/-- C16: `saveQM` hands an entry to the releaser exactly when the filter
`persisted` accepts it, and the filter accepts an entry only if its type is
neither Obsolete nor Vanished, it has a non-empty id when the ID-based mode is
on, and it is not an Unfinished entry with an empty translation while the
ID-based mode is off and the untranslated prefix is empty. An entry that is
not accepted leaves the releaser as it was, so the releaser after the message
loop is the one that the accepted entries alone produce; and `saveQM` returns
true whenever `squeeze` returns. -/
theorem saveQM_filter (env : Env) (cat : Translator) (cd : ConversionData) :
    (∀ msg : TranslatorMessage, persisted cd msg = true →
      msg.type ≠ .Obsolete ∧ msg.type ≠ .Vanished ∧
      (cd.m_idBased = true → msg.id.isEmpty = false) ∧
      ¬ (msg.type = .Unfinished ∧ msg.translation.isEmpty = true ∧ cd.m_idBased = false ∧
          cd.m_unTrPrefix.isEmpty = true)) ∧
    (∀ (st : SaveState) (msg : TranslatorMessage),
      (saveMessage env cat cd st msg).releaser =
        if persisted cd msg then passToWriter env cat cd st.releaser msg else st.releaser) ∧
    (saveLoop env cat cd).releaser =
      List.foldl (passToWriter env cat cd) (initialReleaser env cat)
        (cat.messages.filter (persisted cd)) ∧
    (saveQM env cat cd).map (fun res => res.saved) =
      (((saveLoop env cat cd).releaser.setDependencies cat.dependencies).squeeze cd.m_saveMode).map
        (fun _ => true) := by
  refine ⟨?_, saveMessage_passToWriter env cat cd, saveLoop_passToWriter env cat cd,
    saveQM_saved env cat cd⟩
  intro msg hp
  obtain ⟨h1, h2, h3⟩ := (persisted_eq cd msg).mp hp
  refine ⟨h1.1, h1.2, ?_, ?_⟩
  · intro hid
    cases hempty : msg.id.isEmpty with
    | false => rfl
    | true => exact absurd ⟨hid, hempty⟩ h2
  · rintro ⟨hu, ht, hid, hpre⟩
    exact (h3 hu).1 ⟨ht, by simp [hid], hpre⟩

/-- C17, as amended: with a non-empty untranslated prefix, an Unfinished entry
whose translation is empty is handed to the releaser provided unfinished
entries are not ignored and, in the ID-based mode, the entry has an id; the
translations handed over are those of the entry with every empty one replaced
by the prefix followed by the source text, so the first of them, when the
entry has one, is the prefix followed by the source text. -/
theorem untranslated_prefix_kept (env : Env) (cat : Translator) (cd : ConversionData)
    (st : SaveState) (msg : TranslatorMessage)
    (hpre : cd.m_unTrPrefix.isEmpty = false) (htype : msg.type = .Unfinished)
    (hempty : msg.translation.isEmpty = true) (hign : cd.m_ignoreUnfinished = false)
    (hid : cd.m_idBased = true → msg.id.isEmpty = false) :
    (saveMessage env cat cd st msg).releaser =
      (if cd.m_idBased then
        st.releaser.insertIdBased env msg
          (msg.translations.map fun t =>
            if t.isEmpty then cd.m_unTrPrefix.append msg.sourceText else t)
      else
        st.releaser.insert env msg
          (msg.translations.map fun t =>
            if t.isEmpty then cd.m_unTrPrefix.append msg.sourceText else t)
          (forceComment cat msg)) ∧
    (msg.translations ≠ [] →
      (msg.translations.map fun t =>
        if t.isEmpty then cd.m_unTrPrefix.append msg.sourceText else t).head?
        = some (cd.m_unTrPrefix.append msg.sourceText)) := by
  have hp : persisted cd msg = true := by
    rw [persisted_eq]
    refine ⟨by simp [htype], ?_, fun _ => ⟨?_, hign⟩⟩
    · rintro ⟨h1, h2⟩
      rw [hid h1] at h2
      cases h2
    · rintro ⟨-, -, h3⟩
      rw [hpre] at h3
      cases h3
  have htl : saveTranslations cd msg
      = msg.translations.map fun t =>
          if t.isEmpty then cd.m_unTrPrefix.append msg.sourceText else t := by
    unfold saveTranslations
    rw [if_pos ⟨htype, Or.inr (by simp [hpre])⟩]
  refine ⟨?_, ?_⟩
  · rw [saveMessage_passToWriter, if_pos hp]
    unfold passToWriter
    rw [htl]
  · intro hne
    cases hts : msg.translations with
    | nil => exact absurd hts hne
    | cons t ts =>
      have : t.isEmpty = true := by
        have := hempty
        unfold TranslatorMessage.translation at this
        rw [hts] at this
        exact this
      simp [this]

/-- C17, counterexample: the entry of `untranslatedCatalog` is Unfinished and
has an empty translation; saved with the untranslated prefix "X" by a
conversion that ignores unfinished entries, it is not handed to the releaser
and the file written holds the magic alone. -/
theorem unfinished_dropped_despite_prefix :
    prefixNoUnfinishedData.m_unTrPrefix.isEmpty = false ∧
    untranslatedCatalog.messages.map (fun m => (m.type, m.translation.isEmpty))
      = [(.Unfinished, true)] ∧
    (saveLoop sampleEnv untranslatedCatalog prefixNoUnfinishedData).releaser.m_messages = [] ∧
    (saveQM sampleEnv untranslatedCatalog prefixNoUnfinishedData).map (fun res => res.bytes)
      = some magic := by
  decide

theorem untranslated_prefix_kept_witness :
    ((saveMessage sampleEnv untranslatedCatalog prefixData
        (saveLoop sampleEnv Translator.empty prefixData)
        (untranslatedCatalog.messages.headD (finishedMessage [] [] [] []))).releaser.m_messages
      = [{ m_context := [0x43], m_sourcetext := [0x53], m_comment := [],
           m_translations := [.str [0x58, 0x53]] }]) ∧
    ((saveQM sampleEnv untranslatedCatalog prefixData).bind fun res =>
      (loadQM sampleEnv Translator.empty res.bytes ConversionData.default).map fun r =>
        (r.ok, r.translator.messages.map tupleOf))
      = some (true, [([0x43], [0x53], [], [.str [0x58, 0x53]])]) := by
  refine ⟨?_, rfl⟩
  have h := (untranslated_prefix_kept sampleEnv untranslatedCatalog prefixData
    (saveLoop sampleEnv Translator.empty prefixData)
    (untranslatedCatalog.messages.headD (finishedMessage [] [] [] []))
    (by decide) (by decide) (by decide) (by decide) (by decide)).1
  rw [h]
  decide

/-! ## The map of records and `Releaser::insert` -/

theorem qbaLt_irrefl : ∀ a : QByteArray, qbaLt a a = false := by
  intro a
  induction a with
  | nil => rfl
  | cons x xs ih => simp [qbaLt, ih]

theorem qbaLt_trans : ∀ a b c : QByteArray, qbaLt a b = true → qbaLt b c = true →
    qbaLt a c = true := by
  intro a
  induction a with
  | nil =>
    intro b c hab hbc
    cases b with
    | nil => cases hab
    | cons y ys =>
      cases c with
      | nil => cases hbc
      | cons z zs => rfl
  | cons x xs ih =>
    intro b c hab hbc
    cases b with
    | nil => cases hab
    | cons y ys =>
      cases c with
      | nil => cases hbc
      | cons z zs =>
        simp only [qbaLt] at hab hbc ⊢
        by_cases hxy : x < y
        · by_cases hyz : y < z
          · rw [if_pos (lt_trans hxy hyz)]
          · rw [if_neg hyz] at hbc
            by_cases hzy : z < y
            · rw [if_pos hzy] at hbc; cases hbc
            · have : y = z := le_antisymm (not_lt.mp hzy) (not_lt.mp hyz)
              subst this
              rw [if_pos hxy]
        · rw [if_neg hxy] at hab
          by_cases hyx : y < x
          · rw [if_pos hyx] at hab; cases hab
          · rw [if_neg hyx] at hab
            have : x = y := le_antisymm (not_lt.mp hyx) (not_lt.mp hxy)
            subst this
            by_cases hxz : x < z
            · rw [if_pos hxz]
            · rw [if_neg hxz] at hbc ⊢
              by_cases hzx : z < x
              · rw [if_pos hzx] at hbc; cases hbc
              · rw [if_neg hzx] at hbc ⊢
                exact ih ys zs hab hbc

theorem qbaLt_ne {a b : QByteArray} (h : qbaLt a b = true) : a ≠ b := by
  intro hab
  subst hab
  rw [qbaLt_irrefl] at h
  cases h

theorem qbaLt_asymm {a b : QByteArray} (h : qbaLt a b = true) : qbaLt b a = false := by
  cases hba : qbaLt b a with
  | false => rfl
  | true =>
    have := qbaLt_trans a b a h hba
    rw [qbaLt_irrefl] at this
    cases this

/-- `ByteTranslatorMessage::operator<` as the lexicographic order of the
keys. -/
theorem ByteTranslatorMessage.lt_iff_lex (a b : ByteTranslatorMessage) :
    a.lt b = true ↔
      qbaLt a.m_context b.m_context = true ∨
      (a.m_context = b.m_context ∧ (qbaLt a.m_sourcetext b.m_sourcetext = true ∨
        (a.m_sourcetext = b.m_sourcetext ∧ qbaLt a.m_comment b.m_comment = true))) := by
  unfold ByteTranslatorMessage.lt
  by_cases hc : a.m_context = b.m_context
  · rw [if_neg (by simpa using hc)]
    by_cases hs : a.m_sourcetext = b.m_sourcetext
    · rw [if_neg (by simpa using hs)]
      simp [hc, hs, qbaLt_irrefl]
    · rw [if_pos hs]
      simp [hc, hs, qbaLt_irrefl]
  · rw [if_pos hc]
    simp [hc]

theorem ByteTranslatorMessage.lt_chain (a b c : ByteTranslatorMessage)
    (hab : a.lt b = true) (hbc : b.lt c = true) : a.lt c = true := by
  rw [ByteTranslatorMessage.lt_iff_lex] at hab hbc ⊢
  rcases hab with h1 | ⟨e1, h1 | ⟨e1', h1⟩⟩ <;> rcases hbc with h2 | ⟨e2, h2 | ⟨e2', h2⟩⟩
  · exact Or.inl (qbaLt_trans _ _ _ h1 h2)
  · exact Or.inl (e2 ▸ h1)
  · exact Or.inl (e2 ▸ h1)
  · exact Or.inl (e1 ▸ h2)
  · exact Or.inr ⟨e1.trans e2, Or.inl (qbaLt_trans _ _ _ h1 h2)⟩
  · exact Or.inr ⟨e1.trans e2, Or.inl (e2' ▸ h1)⟩
  · exact Or.inl (e1 ▸ h2)
  · exact Or.inr ⟨e1.trans e2, Or.inl (e1' ▸ h2)⟩
  · exact Or.inr ⟨e1.trans e2, Or.inr ⟨e1'.trans e2', qbaLt_trans _ _ _ h1 h2⟩⟩

/-- Records with the same key are not ordered by `operator<`. -/
theorem ByteTranslatorMessage.lt_of_key_eq {a b : ByteTranslatorMessage} (h : a.key = b.key) :
    a.lt b = false := by
  have h' : a.m_context = b.m_context ∧ a.m_sourcetext = b.m_sourcetext ∧
      a.m_comment = b.m_comment := by
    simpa [ByteTranslatorMessage.key] using h
  cases hlt : a.lt b with
  | false => rfl
  | true =>
    rw [ByteTranslatorMessage.lt_iff_lex] at hlt
    rcases hlt with h1 | ⟨-, h1 | ⟨-, h1⟩⟩
    · exact absurd h'.1 (qbaLt_ne h1)
    · exact absurd h'.2.1 (qbaLt_ne h1)
    · exact absurd h'.2.2 (qbaLt_ne h1)

/-- Two records are equivalent for the map exactly when they have the same
key. -/
theorem ByteTranslatorMessage.equiv_iff (a b : ByteTranslatorMessage) :
    (a.lt b = false ∧ b.lt a = false) ↔ a.key = b.key := by
  constructor
  · rintro ⟨h1, h2⟩
    by_contra hne
    rcases ByteTranslatorMessage.lt_total a b hne with h | h
    · rw [h1] at h; cases h
    · rw [h2] at h; cases h
  · intro h
    exact ⟨ByteTranslatorMessage.lt_of_key_eq h, ByteTranslatorMessage.lt_of_key_eq h.symm⟩

theorem mem_qmapInsert {α : Type} (lt : α → α → Bool) (k z : α) (l : List α)
    (h : z ∈ qmapInsert lt k l) : z = k ∨ z ∈ l := by
  induction l with
  | nil => simpa [qmapInsert] using h
  | cons x xs ih =>
    simp only [qmapInsert] at h
    split_ifs at h
    · simpa using h
    · rcases List.mem_cons.mp h with h | h
      · exact Or.inr (h ▸ List.mem_cons_self _ _)
      · rcases ih h with h | h
        · exact Or.inl h
        · exact Or.inr (List.mem_cons_of_mem _ h)
    · exact Or.inr h

theorem mem_qmapInsert_of_mem {α : Type} (lt : α → α → Bool) (k z : α) (l : List α)
    (h : z ∈ l) : z ∈ qmapInsert lt k l := by
  induction l with
  | nil => cases h
  | cons x xs ih =>
    simp only [qmapInsert]
    split_ifs
    · exact List.mem_cons_of_mem _ h
    · rcases List.mem_cons.mp h with h | h
      · exact h ▸ List.mem_cons_self _ _
      · exact List.mem_cons_of_mem _ (ih h)
    · exact h

/-- `QMap::insert` keeps the keys in ascending order. -/
theorem qmapInsert_sorted {α : Type} (lt : α → α → Bool)
    (htrans : ∀ a b c, lt a b = true → lt b c = true → lt a c = true) (k : α) (l : List α)
    (hs : l.Pairwise (fun a b => lt a b = true)) :
    (qmapInsert lt k l).Pairwise (fun a b => lt a b = true) := by
  induction l with
  | nil => simp [qmapInsert]
  | cons x xs ih =>
    obtain ⟨hx, hxs⟩ := List.pairwise_cons.mp hs
    simp only [qmapInsert]
    split_ifs with h1 h2
    · refine List.pairwise_cons.mpr ⟨?_, hs⟩
      intro y hy
      rcases List.mem_cons.mp hy with hy | hy
      · exact hy ▸ h1
      · exact htrans _ _ _ h1 (hx y hy)
    · refine List.pairwise_cons.mpr ⟨?_, ih hxs⟩
      intro y hy
      rcases mem_qmapInsert lt k y xs hy with hy | hy
      · exact hy ▸ h2
      · exact hx y hy
    · exact hs

/-- `QMap::insert` with a key equivalent to a stored key leaves the keys as
they are. -/
theorem qmapInsert_of_equiv {α : Type} (lt : α → α → Bool)
    (htrans : ∀ a b c, lt a b = true → lt b c = true → lt a c = true) (k : α) (l : List α)
    (hs : l.Pairwise (fun a b => lt a b = true))
    (h : ∃ x ∈ l, lt k x = false ∧ lt x k = false) : qmapInsert lt k l = l := by
  induction l with
  | nil => obtain ⟨x, hx, -⟩ := h; cases hx
  | cons x xs ih =>
    obtain ⟨hx, hxs⟩ := List.pairwise_cons.mp hs
    obtain ⟨y, hy, hky, hyk⟩ := h
    simp only [qmapInsert]
    split_ifs with h1 h2
    · exfalso
      rcases List.mem_cons.mp hy with hy | hy
      · rw [hy, h1] at hky; cases hky
      · rw [htrans _ _ _ h1 (hx y hy)] at hky; cases hky
    · rcases List.mem_cons.mp hy with hy | hy
      · rw [hy, h2] at hyk; cases hyk
      · rw [ih hxs ⟨y, hy, hky, hyk⟩]
    · rfl

theorem qmapContains_iff (k : ByteTranslatorMessage) (l : List ByteTranslatorMessage) :
    qmapContains ByteTranslatorMessage.lt k l = true ↔ ∃ x ∈ l, x.key = k.key := by
  unfold qmapContains
  rw [List.any_eq_true]
  constructor
  · rintro ⟨x, hx, h⟩
    refine ⟨x, hx, (ByteTranslatorMessage.equiv_iff x k).mp ?_⟩
    simpa using h
  · rintro ⟨x, hx, h⟩
    refine ⟨x, hx, ?_⟩
    have := (ByteTranslatorMessage.equiv_iff x k).mpr h
    simp [this.1, this.2]

/-- The keys of the map after `QMap::insert` of a record, the map being in
ascending order: the record is added when no stored record has its key, and
the map is left as it is when one has. -/
theorem qmapInsert_record (k : ByteTranslatorMessage) (l : List ByteTranslatorMessage)
    (hs : l.Pairwise (fun a b => a.lt b = true)) :
    (qmapInsert ByteTranslatorMessage.lt k l).Pairwise (fun a b => a.lt b = true) ∧
    ((∀ x ∈ l, x.key ≠ k.key) → (qmapInsert ByteTranslatorMessage.lt k l).Perm (k :: l)) ∧
    ((∃ x ∈ l, x.key = k.key) → qmapInsert ByteTranslatorMessage.lt k l = l) := by
  refine ⟨qmapInsert_sorted _ ByteTranslatorMessage.lt_chain k l hs, ?_, ?_⟩
  · intro hfree
    exact qmapInsert_perm _ k l
      (fun x hx => ByteTranslatorMessage.lt_total k x (fun h => hfree x hx h.symm))
  · rintro ⟨x, hx, hkey⟩
    have := (ByteTranslatorMessage.equiv_iff x k).mpr hkey
    exact qmapInsert_of_equiv _ ByteTranslatorMessage.lt_chain k l hs ⟨x, hx, this.2, this.1⟩

/-- C15, as amended: `Releaser::insert` changes the map of records only. With
`forceComment` false and no stored record with the key (context, sourceText,
empty comment) it goes for that key, else for the key (context, sourceText,
comment). When no stored record has the key it goes for, the record is added
under that key to the stored records; when one has, the stored records are
left exactly as they are and the new record is not stored. The map stays in
ascending order. -/
theorem insert_stores_or_keeps (env : Env) (r : Releaser) (message : TranslatorMessage)
    (tlns : List QString) (forceComment : Bool)
    (hsorted : r.m_messages.Pairwise (fun a b => a.lt b = true)) :
    ∃ stored : ByteTranslatorMessage,
      stored.m_context = originalBytes env message.context ∧
      stored.m_sourcetext = originalBytes env message.sourceText ∧
      stored.m_translations = tlns ∧
      stored.m_comment =
        (if forceComment = false ∧
            (∀ x ∈ r.m_messages, x.key ≠
              (originalBytes env message.context, originalBytes env message.sourceText, []))
         then [] else originalBytes env message.comment) ∧
      r.insert env message tlns forceComment
        = { r with m_messages := (r.insert env message tlns forceComment).m_messages } ∧
      (r.insert env message tlns forceComment).m_messages.Pairwise (fun a b => a.lt b = true) ∧
      ((∀ x ∈ r.m_messages, x.key ≠ stored.key) →
        (r.insert env message tlns forceComment).m_messages.Perm (stored :: r.m_messages)) ∧
      ((∃ x ∈ r.m_messages, x.key = stored.key) →
        (r.insert env message tlns forceComment).m_messages = r.m_messages) := by
  by_cases hc : forceComment = false ∧
      (∀ x ∈ r.m_messages, x.key ≠
        (originalBytes env message.context, originalBytes env message.sourceText, []))
  · have hcont : qmapContains ByteTranslatorMessage.lt
        { toByteMessage env message tlns with m_comment := [] } r.m_messages = false := by
      cases hq : qmapContains ByteTranslatorMessage.lt
        { toByteMessage env message tlns with m_comment := [] } r.m_messages with
      | false => rfl
      | true =>
        obtain ⟨x, hx, hk⟩ := (qmapContains_iff _ _).mp hq
        exact absurd hk (hc.2 x hx)
    have hins : r.insert env message tlns forceComment
        = { r with m_messages := (qmapInsert ByteTranslatorMessage.lt
              { toByteMessage env message tlns with m_comment := [] } r.m_messages) } := by
      unfold Releaser.insert toByteMessage at *
      simp only [hc.1, hcont]
      rfl
    refine ⟨{ toByteMessage env message tlns with m_comment := [] }, rfl, rfl, rfl, ?_, ?_, ?_⟩
    · rw [if_pos hc]
    · rw [hins]
    · rw [hins]
      exact qmapInsert_record _ _ hsorted
  · have hins : r.insert env message tlns forceComment
        = { r with m_messages := (qmapInsert ByteTranslatorMessage.lt
              (toByteMessage env message tlns) r.m_messages) } := by
      cases forceComment with
      | true => exact insert_force env r message tlns
      | false =>
        have hex : ∃ x ∈ r.m_messages, x.key =
            (originalBytes env message.context, originalBytes env message.sourceText, []) := by
          by_contra hne
          exact hc ⟨rfl, fun x hx hk => hne ⟨x, hx, hk⟩⟩
        have hcont : qmapContains ByteTranslatorMessage.lt
            { toByteMessage env message tlns with m_comment := [] } r.m_messages = true :=
          (qmapContains_iff _ _).mpr hex
        unfold Releaser.insert toByteMessage at *
        simp only [hcont]
        rfl
    refine ⟨toByteMessage env message tlns, rfl, rfl, rfl, ?_, ?_, ?_⟩
    · rw [if_neg hc]
      rfl
    · rw [hins]
    · rw [hins]
      exact qmapInsert_record _ _ hsorted

/-- C15, counterexample: the releaser `heldReleaser` holds a record with the
key ("C", "S", "c") and the translation "T"; an insertion with `forceComment`
true of a message with the same context, source text and comment and the
translation "U" leaves the stored record with the translation "T" in place:
the new record is not stored. -/
theorem insert_keeps_first_record :
    heldReleaser.m_messages.map (fun m => (m.key, m.m_translations))
      = [(([0x43], [0x53], [0x63]), [.str [0x54]])] ∧
    ((heldReleaser.insert sampleEnv (finishedMessage [0x43] [0x53] [0x63] [.str [0x55]])
        [.str [0x55]] true).m_messages.map (fun m => (m.key, m.m_translations)))
      = [(([0x43], [0x53], [0x63]), [.str [0x54]])] :=
  ⟨rfl, rfl⟩

theorem insert_stores_or_keeps_witness :
    ∃ stored : ByteTranslatorMessage,
      stored.m_context = [0x43] ∧ stored.m_sourcetext = [0x53] ∧
      stored.m_translations = [.str [0x55]] ∧ stored.m_comment = [0x63] ∧
      (bareReleaser.insert sampleEnv (finishedMessage [0x43] [0x53] [0x63] [.str [0x55]])
        [.str [0x55]] false).m_messages.Perm (stored :: bareReleaser.m_messages) := by
  obtain ⟨stored, h1, h2, h3, h4, -, -, h5, -⟩ :=
    insert_stores_or_keeps sampleEnv bareReleaser
      (finishedMessage [0x43] [0x53] [0x63] [.str [0x55]]) [.str [0x55]] false (by decide)
  have h4' : stored.m_comment = [0x63] := by
    rw [h4, if_neg (by decide)]
    rfl
  refine ⟨stored, h1, h2, h3, h4', h5 ?_⟩
  intro x hx hk
  have hx' : x = { m_context := [0x43], m_sourcetext := [0x53], m_comment := [],
                   m_translations := [.str [0x54]] } := by
    simpa [bareReleaser, Releaser.new] using hx
  subst hx'
  have : stored.key = ([0x43], [0x53], [0x63]) := by
    unfold ByteTranslatorMessage.key
    rw [h1, h2, h4']
    rfl
  rw [this] at hk
  exact absurd hk (by decide)

/-! ## The layout written by `save` -/

theorem saveBlock_isBlock (tag : Byte) (payload : QByteArray) (h : payload.length < 4294967296) :
    IsBlock tag payload (saveBlock tag payload) := by
  unfold saveBlock IsBlock
  cases payload with
  | nil => exact Or.inl ⟨rfl, rfl⟩
  | cons x xs =>
    refine Or.inr ⟨by simp, ?_⟩
    rw [if_neg (by simp)]
    refine ⟨toByte ((x :: xs).length / 16777216), toByte ((x :: xs).length / 65536),
      toByte ((x :: xs).length / 256), toByte (x :: xs).length, rfl, ?_⟩
    simp only [toByte]
    omega

/-- `squeeze` leaves the language code and the numerus rules as they are. -/
theorem squeeze_keeps (r r' : Releaser) (mode : TranslatorSaveMode)
    (h : r.squeeze mode = some r') :
    r'.m_language = r.m_language ∧ r'.m_numerusRules = r.m_numerusRules ∧
    r'.m_dependencyArray = r.m_dependencies.flatMap writeQString := by
  unfold Releaser.squeeze at h
  dsimp only at h
  split_ifs at h with h1 h2
  · cases h; exact ⟨rfl, rfl, rfl⟩
  · obtain ⟨c, -, hc⟩ := Option.map_eq_some'.mp h
    subst hc
    exact ⟨rfl, rfl, rfl⟩
  · cases h; exact ⟨rfl, rfl, rfl⟩

/-- C13: the bytes written by `Releaser::save` are the magic followed by the
Language, Dependencies, Hashes, Messages, Contexts and NumerusRules blocks in
this order, each absent when its payload is empty and else made of the tag,
the payload length as a 4-byte big-endian integer and the payload; the payload
of the NumerusRules block is the byte sequence last given to
`setNumerusRules`, also after `squeeze`. The payload lengths are to fit the
four length bytes, and the UTF-8 form of a non-empty language code is not to be
empty. -/
theorem save_layout (env : Env) (r : Releaser)
    (hlang : r.m_language.isEmpty = true ∨ originalBytes env r.m_language ≠ [])
    (hsize : (originalBytes env r.m_language).length < 4294967296 ∧
      r.m_dependencyArray.length < 4294967296 ∧ r.m_offsetArray.length < 4294967296 ∧
      r.m_messageArray.length < 4294967296 ∧ r.m_contextArray.length < 4294967296 ∧
      r.m_numerusRules.length < 4294967296) :
    (∃ L D H M C N : QByteArray,
      r.save env = magic ++ L ++ D ++ H ++ M ++ C ++ N ∧ magic.length = 16 ∧
      IsBlock Language (originalBytes env r.m_language) L ∧
      IsBlock Dependencies r.m_dependencyArray D ∧
      IsBlock Hashes r.m_offsetArray H ∧
      IsBlock Messages r.m_messageArray M ∧
      IsBlock Contexts r.m_contextArray C ∧
      IsBlock NumerusRules r.m_numerusRules N) ∧
    (∀ (r0 : Releaser) (rules : QByteArray) (mode : TranslatorSaveMode),
      (r0.setNumerusRules rules).squeeze mode = some r → r.m_numerusRules = rules) := by
  obtain ⟨h1, h2, h3, h4, h5, h6⟩ := hsize
  refine ⟨⟨saveBlock Language (originalBytes env r.m_language), _, _, _, _, _, ?_, rfl,
    saveBlock_isBlock _ _ h1, saveBlock_isBlock _ _ h2, saveBlock_isBlock _ _ h3,
    saveBlock_isBlock _ _ h4, saveBlock_isBlock _ _ h5, saveBlock_isBlock _ _ h6⟩, ?_⟩
  · unfold Releaser.save
    congr 6
    unfold saveBlock
    rcases hlang with hl | hl
    · have : originalBytes env r.m_language = [] := by
        unfold originalBytes
        rw [if_pos hl]
      rw [if_pos hl, this]
      rfl
    · have hne : r.m_language.isEmpty = false := by
        cases he : r.m_language.isEmpty with
        | false => rfl
        | true =>
          exfalso
          apply hl
          unfold originalBytes
          rw [if_pos he]
      rw [hne]
      cases hob : originalBytes env r.m_language with
      | nil => exact absurd hob hl
      | cons x xs => rfl
  · intro r0 rules mode hsq
    exact (squeeze_keeps _ _ _ hsq).2.1

theorem save_layout_witness :
    (∃ L D H M C N : QByteArray,
      sampleReleaser.save sampleEnv = magic ++ L ++ D ++ H ++ M ++ C ++ N ∧ magic.length = 16 ∧
      IsBlock Language (originalBytes sampleEnv sampleReleaser.m_language) L ∧
      IsBlock Dependencies sampleReleaser.m_dependencyArray D ∧
      IsBlock Hashes sampleReleaser.m_offsetArray H ∧
      IsBlock Messages sampleReleaser.m_messageArray M ∧
      IsBlock Contexts sampleReleaser.m_contextArray C ∧
      IsBlock NumerusRules sampleReleaser.m_numerusRules N) ∧
    sampleReleaser.m_numerusRules = [0x01, 0x01] ∧
    sampleReleaser.m_language = .str langEn :=
  ⟨(save_layout sampleEnv sampleReleaser (by decide) (by decide)).1, by decide, by decide⟩

/-! ## Plural marking -/

/-- C18: when `loadQM` returns without having met a format error, every
message it appends holds the translations of the Translation fields of its
record; it is marked plural when these are more than one, and also, when the
plural-forms lookup for the language code of the catalog yields exactly one
form, when its source text contains "%n". -/
theorem loaded_plural (env : Env) (translator : Translator) (ba : QByteArray)
    (cd : ConversionData) (s : ScanState) (r : LoadResult)
    (hmagic : ¬ (ba.length < MagicLength ∨ ba.take MagicLength ≠ magic))
    (hscan : scanLoop env ba ba.length MagicLength (ScanState.init translator) = some s)
    (hload : loadQM env translator ba cd = some r)
    (hnoerr : r.cd ≠ cd.appendError .formatError) :
    ∃ (records : List (List Field)) (loaded : List TranslatorMessage),
      records.length = s.offsetLength / 8 ∧
      (∀ i, i < s.offsetLength / 8 → ∃ ro base,
        read32 ba (s.offsetArray.getD 0 + 8 * i + 4) = some ro ∧
        s.messageArray = some base ∧
        parseRecord env ba ba.length (base + ro) [] = some (.fields (records.getD i []))) ∧
      r.translator.messages = translator.messages ++ loaded ∧
      loaded.length = records.length ∧
      ∀ i m, loaded[i]? = some m →
        m.translations = (records.getD i []).filterMap Field.translation? ∧
        (1 < m.translations.length → m.plural = true) ∧
        (∀ rules, env.numerusInfo s.translator.languageCode = some (rules, 1) →
          containsUnits strProN m.sourceText.units = true → m.plural = true) := by
  unfold loadQM at hload
  rw [if_neg hmagic, hscan] at hload
  simp only [Option.bind_eq_bind, Option.some_bind] at hload
  unfold loadMessages at hload
  dsimp only at hload
  simp only [Option.bind_eq_bind] at hload
  obtain ⟨res, hres, hload⟩ := Option.bind_eq_some.mp hload
  cases res with
  | formatError t =>
    simp only [Option.some.injEq] at hload
    subst hload
    exact absurd rfl hnoerr
  | completed stF trF =>
    obtain ⟨records, hlen, hrec, hmsgs⟩ := messageLoop_spec _ _ _ _ [] stF trF rfl rfl rfl rfl hres
    have hr : r.translator = trF := by
      simp only at hload
      split_ifs at hload <;> simp only [Option.some.injEq] at hload <;> subst hload <;> rfl
    refine ⟨records, (List.range (s.offsetLength / 8)).map (fun i =>
      specMessage (guessPlurals env s.translator) ([] ++ (records.take i).flatten)
        (records.getD i [])), hlen, hrec, ?_, ?_, ?_⟩
    · rw [hr, hmsgs, scanLoop_messages _ _ _ _ hscan]
      rfl
    · simp [hlen]
    · intro i m hm
      rw [List.getElem?_map] at hm
      obtain ⟨j, hj, hmj⟩ := Option.map_eq_some'.mp hm
      have hji : j = i := by
        by_cases hi : i < s.offsetLength / 8
        · rw [List.getElem?_range hi] at hj
          exact (Option.some.inj hj).symm
        · rw [List.getElem?_eq_none (by simpa using hi)] at hj
          cases hj
      subst hji
      subst hmj
      refine ⟨rfl, ?_, ?_⟩
      · intro h1
        simp only [specMessage, makeMessage] at h1 ⊢
        rw [if_pos h1]
      · intro rules hinfo hcontains
        have hguess : guessPlurals env s.translator = true := by
          unfold guessPlurals
          rw [hinfo]
          rfl
        simp only [specMessage, makeMessage, hguess] at hcontains ⊢
        split_ifs
        · rfl
        · exact hcontains

theorem loaded_plural_witness :
    ∃ (records : List (List Field)) (loaded : List TranslatorMessage),
      records.length = pluralScan.offsetLength / 8 ∧
      (∀ i, i < pluralScan.offsetLength / 8 → ∃ ro base,
        read32 pluralFile (pluralScan.offsetArray.getD 0 + 8 * i + 4) = some ro ∧
        pluralScan.messageArray = some base ∧
        parseRecord sampleEnv pluralFile pluralFile.length (base + ro) []
          = some (.fields (records.getD i []))) ∧
      pluralMessages = Translator.empty.messages ++ loaded ∧
      loaded.length = records.length ∧
      ∀ i m, loaded[i]? = some m →
        m.translations = (records.getD i []).filterMap Field.translation? ∧
        (1 < m.translations.length → m.plural = true) ∧
        (∀ rules, sampleEnv.numerusInfo pluralScan.translator.languageCode = some (rules, 1) →
          containsUnits strProN m.sourceText.units = true → m.plural = true) :=
  loaded_plural sampleEnv Translator.empty pluralFile ConversionData.default pluralScan
    { ok := true
      translator := { messages := pluralMessages, languageCode := .str langJa, dependencies := [] }
      cd := ConversionData.default }
    (by decide) (by decide) (by decide) (by decide)

/-! ## The block scan as a walk over the blocks -/

theorem topBlocks_succ {ba : QByteArray} {fuel data : Nat} {tag : Byte} {len : Nat}
    (hg : data + 4 < ba.length) (h8 : read8 ba data = some tag)
    (h32 : read32 ba (data + 1) = some len) :
    topBlocks ba (fuel + 1) data =
      if tag = 0 ∨ len = 0 then []
      else if data + 5 + len > ba.length then []
      else ⟨data, tag, (ba.drop (data + 5)).take len⟩ :: topBlocks ba fuel (data + 5 + len) := by
  simp only [topBlocks, if_pos hg, h8, h32]

theorem blocksOverrun_succ {ba : QByteArray} {fuel data : Nat} {tag : Byte} {len : Nat}
    (hg : data + 4 < ba.length) (h8 : read8 ba data = some tag)
    (h32 : read32 ba (data + 1) = some len) :
    blocksOverrun ba (fuel + 1) data =
      if tag = 0 ∨ len = 0 then false
      else if data + 5 + len > ba.length then true
      else blocksOverrun ba fuel (data + 5 + len) := by
  simp only [blocksOverrun, if_pos hg, h8, h32]

/-- The block scan returns for every input, in the state that the blocks of
the input produce one after the other; `ok` is cleared exactly when the
sequence of blocks ends at a block that passes the end of the input. -/
theorem scanLoop_blocks (env : Env) (ba : QByteArray) (fuel : Nat) :
    ∀ (data : Nat) (st : ScanState), data ≤ ba.length → ba.length < data + fuel →
      scanLoop env ba fuel data st
        = some { (topBlocks ba fuel data).foldl
                  (fun st b => applyBlock env b.tag b.data b.payload st) st with
                 ok := if blocksOverrun ba fuel data then false else st.ok } := by
  induction fuel with
  | zero => intro data st h1 h2; omega
  | succ fuel ih =>
    intro data st h1 h2
    by_cases hg : data + 4 < ba.length
    · obtain ⟨tag, h8⟩ := read8_isSome (show data < ba.length by omega)
      obtain ⟨len, h32⟩ := read32_isSome (show data + 1 + 3 < ba.length by omega)
      rw [topBlocks_succ hg h8 h32, blocksOverrun_succ hg h8 h32]
      simp only [scanLoop, if_pos hg, scanBlock_eq h8 h32]
      by_cases hz : tag = 0 ∨ len = 0
      · simp only [if_pos hz, List.foldl_nil]
        rfl
      · simp only [if_neg hz]
        by_cases ho : data + 5 + len > ba.length
        · simp only [if_pos ho, List.foldl_nil]
          rfl
        · simp only [if_neg ho, List.foldl_cons]
          have hlen : ((ba.drop (data + 5)).take len).length = len := by
            rw [List.length_take, List.length_drop]
            omega
          have hst : (if tag = Hashes then
                { st with offsetArray := some (data + 5), offsetLength := len }
              else if tag = Messages then
                { st with messageArray := some (data + 5) }
              else if tag = Dependencies then
                { st with translator :=
                    (st.translator.setDependencies
                      (env.readStrings ((ba.drop (data + 5)).take len))) }
              else if tag = Language then
                { st with utf8Fail := (env.fromUtf8 ((ba.drop (data + 5)).take len)).2,
                          translator :=
                            (st.translator.setLanguageCode
                              (env.fromUtf8 ((ba.drop (data + 5)).take len)).1) }
              else st) = applyBlock env tag data ((ba.drop (data + 5)).take len) st := by
            unfold applyBlock
            rw [hlen]
          rw [hst, ih _ _ (by omega) (by omega), applyBlock_ok]
    · have ht : topBlocks ba (fuel + 1) data = [] := by simp only [topBlocks, if_neg hg]
      have hb : blocksOverrun ba (fuel + 1) data = false := by
        simp only [blocksOverrun, if_neg hg]
      rw [ht, hb]
      simp only [scanLoop, if_neg hg, List.foldl_nil]
      rfl

theorem foldl_applyBlock_language (env : Env) (blocks : List TopBlock) :
    ∀ st : ScanState,
      (blocks.foldl (fun st b => applyBlock env b.tag b.data b.payload st) st).translator.languageCode
        = ((lastPayload Language blocks).map (fun p => (env.fromUtf8 p).1)).getD
            st.translator.languageCode := by
  induction blocks with
  | nil => intro st; rfl
  | cons b bs ih =>
    intro st
    rw [List.foldl_cons, ih]
    unfold lastPayload
    by_cases hb : b.tag = Language
    · rw [List.filter_cons_of_pos (by simpa using hb)]
      cases hf : bs.filter (fun b => b.tag = Language) with
      | nil =>
        simp only [List.getLast?_nil, Option.map_none', Option.getD_none, List.getLast?_singleton,
          Option.map_some', Option.getD_some]
        rw [hb, applyBlock_language]
        rfl
      | cons c cs =>
        rw [List.getLast?_cons_cons, List.getLast?_eq_getLast _ (List.cons_ne_nil c cs)]
        rfl
    · rw [List.filter_cons_of_neg (by simpa using hb)]
      have : (applyBlock env b.tag b.data b.payload st).translator.languageCode
          = st.translator.languageCode := by
        unfold applyBlock
        rw [if_neg hb]
        split_ifs <;> rfl
      rw [this]

theorem foldl_applyBlock_dependencies (env : Env) (blocks : List TopBlock) :
    ∀ st : ScanState,
      (blocks.foldl (fun st b => applyBlock env b.tag b.data b.payload st) st).translator.dependencies
        = ((lastPayload Dependencies blocks).map env.readStrings).getD
            st.translator.dependencies := by
  induction blocks with
  | nil => intro st; rfl
  | cons b bs ih =>
    intro st
    rw [List.foldl_cons, ih]
    unfold lastPayload
    by_cases hb : b.tag = Dependencies
    · rw [List.filter_cons_of_pos (by simpa using hb)]
      cases hf : bs.filter (fun b => b.tag = Dependencies) with
      | nil =>
        simp only [List.getLast?_nil, Option.map_none', Option.getD_none, List.getLast?_singleton,
          Option.map_some', Option.getD_some]
        rw [hb]
        rfl
      | cons c cs =>
        rw [List.getLast?_cons_cons, List.getLast?_eq_getLast _ (List.cons_ne_nil c cs)]
        rfl
    · rw [List.filter_cons_of_neg (by simpa using hb)]
      have : (applyBlock env b.tag b.data b.payload st).translator.dependencies
          = st.translator.dependencies := by
        unfold applyBlock
        rw [if_neg hb]
        split_ifs <;> rfl
      rw [this]

/-- The message loop appends messages and leaves the language code and the
dependencies of the translator as they are. -/
theorem messageLoop_keeps {env : Env} {ba : QByteArray} {guess : Bool} {messageArray : Option Nat}
    (n : Nat) :
    ∀ (start : Nat) (st : DecodeState) (translator : Translator) (res : MessagesResult),
      messageLoop env ba guess messageArray n start st translator = some res →
      (match res with
        | .completed _ t => t.languageCode = translator.languageCode ∧
            t.dependencies = translator.dependencies
        | .formatError t => t.languageCode = translator.languageCode ∧
            t.dependencies = translator.dependencies) := by
  induction n with
  | zero =>
    intro start st translator res h
    simp only [messageLoop, Option.some.injEq] at h
    subst h
    exact ⟨rfl, rfl⟩
  | succ n ih =>
    intro start st translator res h
    simp only [messageLoop, Option.bind_eq_bind] at h
    obtain ⟨ro, -, h⟩ := Option.bind_eq_some.mp h
    obtain ⟨base, -, h⟩ := Option.bind_eq_some.mp h
    obtain ⟨rr, -, h⟩ := Option.bind_eq_some.mp h
    cases rr with
    | formatError =>
      simp only [Option.some.injEq] at h
      subst h
      exact ⟨rfl, rfl⟩
    | ended st1 =>
      have := ih _ _ _ _ h
      cases res with
      | completed s t => exact this
      | formatError t => exact this

/-- `loadQM` returns the translator with the language code and the
dependencies left by the block scan. -/
theorem loadMessages_keeps {env : Env} {ba : QByteArray} {cd : ConversionData} {s : ScanState}
    {r : LoadResult} (h : loadMessages env ba cd s = some r) :
    r.translator.languageCode = s.translator.languageCode ∧
    r.translator.dependencies = s.translator.dependencies := by
  unfold loadMessages at h
  simp only [Option.bind_eq_bind] at h
  obtain ⟨res, hres, h⟩ := Option.bind_eq_some.mp h
  have hk := messageLoop_keeps _ _ _ _ _ hres
  cases res with
  | formatError t =>
    simp only [Option.some.injEq] at h
    subst h
    exact hk
  | completed st t =>
    simp only at h
    split_ifs at h <;> simp only [Option.some.injEq] at h <;> subst h <;> exact hk

/-- A load that the message loop ends without success either had its flag
cleared by the block scan or reports a malformed record or invalid UTF-8. -/
theorem loadMessages_rejects {env : Env} {ba : QByteArray} {cd : ConversionData} {s : ScanState}
    {r : LoadResult} (h : loadMessages env ba cd s = some r) (hr : r.ok = false) :
    s.ok = false ∨ r.cd = cd.appendError .formatError ∨ r.cd = cd.appendError .invalidUtf8 := by
  unfold loadMessages at h
  simp only [Option.bind_eq_bind] at h
  obtain ⟨res, _, h⟩ := Option.bind_eq_some.mp h
  cases res with
  | formatError t =>
    simp only [Option.some.injEq] at h
    subst h
    exact Or.inr (Or.inl rfl)
  | completed st t =>
    simp only at h
    split_ifs at h <;> simp only [Option.some.injEq] at h <;> subst h
    · exact Or.inr (Or.inr rfl)
    · exact Or.inl hr

/-- C12: for every input that starts with the magic, the block scan of
`loadQM` returns, whatever tags are repeated: its success flag is cleared only
when the sequence of blocks ends at a block that passes the end of the input,
the language code it leaves is the one decoded from the last Language block
and the dependency list the one read from the last Dependencies block (those
of the translator passed in when there is no such block), and these are the
language code and the dependency list of the catalog that `loadQM` returns;
when `loadQM` returns without success, a block passes the end of the input, or
a record is malformed, or a string is not valid UTF-8. -/
theorem duplicate_blocks_last_wins (env : Env) (translator : Translator) (ba : QByteArray)
    (cd : ConversionData)
    (hmagic : ¬ (ba.length < MagicLength ∨ ba.take MagicLength ≠ magic)) :
    ∃ s, scanLoop env ba ba.length MagicLength (ScanState.init translator) = some s ∧
      s.ok = !blocksOverrun ba ba.length MagicLength ∧
      s.translator.languageCode
        = ((lastPayload Language (topBlocks ba ba.length MagicLength)).map
            (fun p => (env.fromUtf8 p).1)).getD translator.languageCode ∧
      s.translator.dependencies
        = ((lastPayload Dependencies (topBlocks ba ba.length MagicLength)).map
            env.readStrings).getD translator.dependencies ∧
      ∀ r, loadQM env translator ba cd = some r →
        r.translator.languageCode = s.translator.languageCode ∧
        r.translator.dependencies = s.translator.dependencies ∧
        (r.ok = false → blocksOverrun ba ba.length MagicLength = true ∨
          r.cd = cd.appendError .formatError ∨ r.cd = cd.appendError .invalidUtf8) := by
  have hlen : MagicLength ≤ ba.length := by
    by_contra h
    exact hmagic (Or.inl (by omega))
  have hscan := scanLoop_blocks env ba ba.length MagicLength (ScanState.init translator) hlen
    (by simp [MagicLength])
  refine ⟨_, hscan, ?_, ?_, ?_, ?_⟩
  · simp only [ScanState.init]
    cases blocksOverrun ba ba.length MagicLength <;> rfl
  · exact foldl_applyBlock_language env _ _
  · exact foldl_applyBlock_dependencies env _ _
  · intro r hr
    unfold loadQM at hr
    rw [if_neg hmagic, hscan] at hr
    refine ⟨(loadMessages_keeps hr).1, (loadMessages_keeps hr).2, fun hok => ?_⟩
    rcases loadMessages_rejects hr hok with h | h | h
    · left
      simp only [ScanState.init] at h
      revert h
      cases blocksOverrun ba ba.length MagicLength <;> simp
    · exact Or.inr (Or.inl h)
    · exact Or.inr (Or.inr h)

theorem duplicate_blocks_last_wins_witness :
    (∃ s, scanLoop sampleEnv duplicateFile duplicateFile.length MagicLength
          (ScanState.init Translator.empty) = some s ∧
      s.ok = !blocksOverrun duplicateFile duplicateFile.length MagicLength ∧
      s.translator.languageCode
        = ((lastPayload Language (topBlocks duplicateFile duplicateFile.length MagicLength)).map
            (fun p => (sampleEnv.fromUtf8 p).1)).getD Translator.empty.languageCode ∧
      s.translator.dependencies
        = ((lastPayload Dependencies (topBlocks duplicateFile duplicateFile.length MagicLength)).map
            sampleEnv.readStrings).getD Translator.empty.dependencies ∧
      ∀ r, loadQM sampleEnv Translator.empty duplicateFile ConversionData.default = some r →
        r.translator.languageCode = s.translator.languageCode ∧
        r.translator.dependencies = s.translator.dependencies ∧
        (r.ok = false → blocksOverrun duplicateFile duplicateFile.length MagicLength = true ∨
          r.cd = ConversionData.default.appendError .formatError ∨
          r.cd = ConversionData.default.appendError .invalidUtf8)) ∧
    (topBlocks duplicateFile duplicateFile.length MagicLength).map (fun b => b.tag)
      = [Language, Dependencies, Language, Dependencies] ∧
    loadQM sampleEnv Translator.empty duplicateFile ConversionData.default
      = some { ok := true
               translator :=
                { messages := [], languageCode := .str langJa, dependencies := [.str [0x42]] }
               cd := ConversionData.default } :=
  ⟨duplicate_blocks_last_wins sampleEnv Translator.empty duplicateFile ConversionData.default
    (by decide), by decide, by decide⟩

/-! ## Blocks that the scan skips -/

theorem getElem?_insert_right (pre blk post : QByteArray) {q : Nat} (hq : pre.length ≤ q) :
    (pre ++ blk ++ post)[q + blk.length]? = (pre ++ post)[q]? := by
  rw [List.append_assoc, List.getElem?_append_right (by omega),
    List.getElem?_append_right (by omega), List.getElem?_append_right hq]
  congr 1
  omega

theorem read8_insert_right {pre blk post : QByteArray} {q : Nat} (hq : pre.length ≤ q) :
    read8 (pre ++ blk ++ post) (q + blk.length) = read8 (pre ++ post) q := by
  unfold read8
  exact getElem?_insert_right pre blk post hq

theorem read32_insert_right {pre blk post : QByteArray} {q : Nat} (hq : pre.length ≤ q) :
    read32 (pre ++ blk ++ post) (q + blk.length) = read32 (pre ++ post) q := by
  unfold read32
  have h0 := getElem?_insert_right pre blk post hq
  have h1 := getElem?_insert_right pre blk post (show pre.length ≤ q + 1 by omega)
  have h2 := getElem?_insert_right pre blk post (show pre.length ≤ q + 2 by omega)
  have h3 := getElem?_insert_right pre blk post (show pre.length ≤ q + 3 by omega)
  rw [show q + blk.length + 1 = q + 1 + blk.length by omega,
    show q + blk.length + 2 = q + 2 + blk.length by omega,
    show q + blk.length + 3 = q + 3 + blk.length by omega, h0, h1, h2, h3]

theorem drop_insert_right {pre blk post : QByteArray} {q : Nat} (hq : pre.length ≤ q) :
    (pre ++ blk ++ post).drop (q + blk.length) = (pre ++ post).drop q := by
  apply List.ext_getElem?
  intro i
  rw [List.getElem?_drop, List.getElem?_drop,
    show q + blk.length + i = q + i + blk.length by omega]
  exact getElem?_insert_right pre blk post (by omega)

theorem shiftPtr_some_ge {p k x : Nat} (h : p ≤ x) : shiftPtr p k (some x) = some (x + k) := by
  simp [shiftPtr, h]

/-- One iteration of the block scan after a place where bytes have been put
in: the same iteration, with the positions moved. -/
theorem scanBlock_insert_right {env : Env} {pre blk post : QByteArray} {q : Nat} {st : ScanState}
    {x : ScanStep} (hq : pre.length ≤ q) (h : scanBlock env (pre ++ post) q st = some x) :
    scanBlock env (pre ++ blk ++ post) (q + blk.length) (st.shift pre.length blk.length)
      = some (x.shift pre.length blk.length) := by
  obtain ⟨tag, len, h8, h32⟩ := scanBlock_exists h
  rw [scanBlock_eq h8 h32] at h
  have h8' : read8 (pre ++ blk ++ post) (q + blk.length) = some tag := by
    rw [read8_insert_right hq]; exact h8
  have h32' : read32 (pre ++ blk ++ post) (q + blk.length + 1) = some len := by
    rw [show q + blk.length + 1 = q + 1 + blk.length by omega, read32_insert_right (by omega)]
    exact h32
  have hlen : (pre ++ blk ++ post).length = (pre ++ post).length + blk.length := by
    simp only [List.length_append]; omega
  have hdrop : (pre ++ blk ++ post).drop (q + blk.length + 5) = (pre ++ post).drop (q + 5) := by
    rw [show q + blk.length + 5 = q + 5 + blk.length by omega]
    exact drop_insert_right (by omega)
  rw [scanBlock_eq h8' h32', hdrop]
  by_cases h1 : tag = 0 ∨ len = 0
  · rw [if_pos h1] at h ⊢
    simp only [Option.some.injEq] at h
    subst h
    rfl
  rw [if_neg h1] at h ⊢
  by_cases h2 : q + 5 + len > (pre ++ post).length
  · rw [if_pos h2] at h
    rw [if_pos (by rw [hlen]; omega)]
    simp only [Option.some.injEq] at h
    subst h
    rfl
  rw [if_neg h2] at h
  rw [if_neg (by rw [hlen]; omega)]
  simp only [Option.some.injEq] at h
  subst h
  have hp : shiftPtr pre.length blk.length (some (q + 5)) = some (q + blk.length + 5) := by
    rw [shiftPtr_some_ge (by omega)]
    congr 1
    omega
  simp only [ScanStep.shift, Option.some.injEq, ScanStep.next.injEq]
  refine ⟨by omega, ?_⟩
  split_ifs
  · simp only [ScanState.shift, hp]
  · simp only [ScanState.shift, hp]
  · rfl
  · rfl
  · rfl

/-- The block scan after a place where bytes have been put in. -/
theorem scanLoop_insert_right {env : Env} {pre post : QByteArray} (blk : QByteArray) (f : Nat) :
    ∀ (q : Nat) (st s : ScanState), pre.length ≤ q →
      scanLoop env (pre ++ post) f q st = some s →
      scanLoop env (pre ++ blk ++ post) f (q + blk.length) (st.shift pre.length blk.length)
        = some (s.shift pre.length blk.length) := by
  induction f with
  | zero => intro q st s _ h; simp [scanLoop] at h
  | succ f ih =>
    intro q st s hq h
    have hlen : (pre ++ blk ++ post).length = (pre ++ post).length + blk.length := by
      simp only [List.length_append]; omega
    simp only [scanLoop] at h ⊢
    by_cases hg : q + 4 < (pre ++ post).length
    · rw [if_pos hg] at h
      rw [if_pos (by rw [hlen]; omega)]
      cases hb : scanBlock env (pre ++ post) q st with
      | none => rw [hb] at h; cases h
      | some x =>
        rw [hb] at h
        rw [scanBlock_insert_right hq hb]
        cases x with
        | stop s' =>
          simp only [Option.some.injEq] at h
          subst h
          rfl
        | next d s' =>
          have := scanBlock_next hb
          exact ih d s' s (by omega) h
    · rw [if_neg hg] at h
      rw [if_neg (by rw [hlen]; omega)]
      simp only [Option.some.injEq] at h
      subst h
      rfl

theorem scanBlock_append {env : Env} {ba rest : QByteArray} {data d1 : Nat} {st s1 : ScanState}
    (h : scanBlock env ba data st = some (.next d1 s1)) :
    scanBlock env (ba ++ rest) data st = some (.next d1 s1) := by
  obtain ⟨tag, blockLen, h8, h32⟩ := scanBlock_exists h
  rw [scanBlock_eq h8 h32] at h
  rw [scanBlock_eq (read8_append h8) (read32_append h32)]
  by_cases h1 : tag = 0 ∨ blockLen = 0
  · rw [if_pos h1] at h
    simp at h
  by_cases h2 : data + 5 + blockLen > ba.length
  · rw [if_neg h1, if_pos h2] at h
    simp at h
  rw [if_neg h1, if_neg h2] at h
  rw [if_neg h1, if_neg (by rw [List.length_append]; omega)]
  have hpay : ((ba ++ rest).drop (data + 5)).take blockLen = (ba.drop (data + 5)).take blockLen := by
    rw [List.drop_append_of_le_length (by omega), List.take_append_of_le_length]
    rw [List.length_drop]
    omega
  rw [hpay]
  exact h

theorem ScanReach.append {env : Env} {ba : QByteArray} {data d2 : Nat} {st s2 : ScanState}
    (h : ScanReach env ba data st d2 s2) (rest : QByteArray) :
    ScanReach env (ba ++ rest) data st d2 s2 := by
  induction h with
  | refl => exact ScanReach.refl _ _
  | step hguard hblock _ ih =>
    refine ScanReach.step ?_ (scanBlock_append hblock) ih
    rw [List.length_append]
    omega

/-- The pointers that the block scan has set lie before the position it has
come to. -/
theorem ScanReach.ptr_lt {env : Env} {ba : QByteArray} {data d2 : Nat} {st s2 : ScanState}
    (h : ScanReach env ba data st d2 s2)
    (h0 : (∀ x, st.messageArray = some x → x < data) ∧ (∀ x, st.offsetArray = some x → x < data)) :
    (∀ x, s2.messageArray = some x → x < d2) ∧ (∀ x, s2.offsetArray = some x → x < d2) := by
  induction h with
  | refl => exact h0
  | @step data d1 d2 st s1 s2 hguard hblock _ ih =>
    apply ih
    obtain ⟨tag, len, h8, h32⟩ := scanBlock_exists hblock
    have hn := scanBlock_next hblock
    rw [scanBlock_eq h8 h32] at hblock
    by_cases h1 : tag = 0 ∨ len = 0
    · rw [if_pos h1] at hblock
      simp at hblock
    by_cases h2 : data + 5 + len > ba.length
    · rw [if_neg h1, if_pos h2] at hblock
      simp at hblock
    rw [if_neg h1, if_neg h2] at hblock
    simp only [Option.some.injEq, ScanStep.next.injEq] at hblock
    obtain ⟨hd, hs⟩ := hblock
    have hlen : len ≠ 0 := fun h => h1 (Or.inr h)
    have hm := h0.1
    have ho := h0.2
    subst hs
    split_ifs
    · refine ⟨fun x hx => ?_, fun x hx => ?_⟩
      · have := hm x hx; omega
      · simp only [Option.some.injEq] at hx; omega
    · refine ⟨fun x hx => ?_, fun x hx => ?_⟩
      · simp only [Option.some.injEq] at hx; omega
      · have := ho x hx; omega
    · refine ⟨fun x hx => ?_, fun x hx => ?_⟩
      · have := hm x hx; omega
      · have := ho x hx; omega
    · refine ⟨fun x hx => ?_, fun x hx => ?_⟩
      · have := hm x hx; omega
      · have := ho x hx; omega
    · refine ⟨fun x hx => ?_, fun x hx => ?_⟩
      · have := hm x hx; omega
      · have := ho x hx; omega

theorem shiftPtr_of_lt {p k : Nat} {x : Option Nat} (h : ∀ y, x = some y → y < p) :
    shiftPtr p k x = x := by
  cases x with
  | none => rfl
  | some y =>
    have := h y rfl
    simp only [shiftPtr, Option.map_some', Option.some.injEq]
    rw [if_neg (by omega)]

theorem scanLoop_fuel_mono {env : Env} {ba : QByteArray} (f : Nat) :
    ∀ (data : Nat) (st s : ScanState) (j : Nat), scanLoop env ba f data st = some s →
      scanLoop env ba (f + j) data st = some s := by
  induction f with
  | zero => intro data st s j h; simp [scanLoop] at h
  | succ f ih =>
    intro data st s j h
    rw [show f + 1 + j = (f + j) + 1 by omega]
    simp only [scanLoop] at h ⊢
    split_ifs at h ⊢ with hg
    · cases hb : scanBlock env ba data st with
      | none => rw [hb] at h; cases h
      | some x =>
        rw [hb] at h
        cases x with
        | stop s' => exact h
        | next d s' => exact ih d s' s j h
    · exact h

theorem scanLoop_fuel_eq {env : Env} {ba : QByteArray} {f1 f2 data : Nat} {st s1 s2 : ScanState}
    (h1 : scanLoop env ba f1 data st = some s1) (h2 : scanLoop env ba f2 data st = some s2) :
    s1 = s2 := by
  have e1 := scanLoop_fuel_mono f1 data st s1 f2 h1
  have e2 := scanLoop_fuel_mono f2 data st s2 f1 h2
  rw [Nat.add_comm] at e2
  rw [e1] at e2
  exact Option.some.inj e2

theorem decodeRecord_some_lt {env : Env} {ba : QByteArray} {f m : Nat} {st : DecodeState}
    {x : RecordResult} (h : decodeRecord env ba f m st = some x) : m < ba.length := by
  by_contra hge
  cases f with
  | zero => simp [decodeRecord] at h
  | succ f =>
    simp only [decodeRecord] at h
    rw [decodeField_none_of_ge (by omega)] at h
    cases h

/-- A message loop that returns on the first `p` bytes of an input has used no
pointer at or after `p`. -/
theorem loadMessages_shift {env : Env} {pre : QByteArray} {cd : ConversionData} {s : ScanState}
    {r : LoadResult} (k : Nat) (h : loadMessages env pre cd s = some r) :
    loadMessages env pre cd (s.shift pre.length k) = some r := by
  unfold loadMessages at h ⊢
  dsimp only at h ⊢
  cases hn : s.offsetLength / 8 with
  | zero =>
    rw [hn] at h
    have e : (s.shift pre.length k).offsetLength / 8 = 0 := hn
    rw [e]
    simp only [messageLoop, Option.bind_eq_bind, Option.some_bind] at h ⊢
    exact h
  | succ n =>
    rw [hn] at h
    have e : (s.shift pre.length k).offsetLength / 8 = n + 1 := hn
    rw [e]
    simp only [Option.bind_eq_bind] at h
    obtain ⟨res, hres, -⟩ := Option.bind_eq_some.mp h
    simp only [messageLoop, Option.bind_eq_bind] at hres
    obtain ⟨ro, hro, hres⟩ := Option.bind_eq_some.mp hres
    obtain ⟨base, hbase, hres⟩ := Option.bind_eq_some.mp hres
    obtain ⟨rr, hrr, -⟩ := Option.bind_eq_some.mp hres
    have h1 := (read32_some_lt hro).1
    have h2 := decodeRecord_some_lt hrr
    have hm : (s.shift pre.length k).messageArray = s.messageArray := by
      refine shiftPtr_of_lt (fun y hy => ?_)
      rw [hbase] at hy
      cases hy
      omega
    have ho : (s.shift pre.length k).offsetArray.getD 0 = s.offsetArray.getD 0 := by
      cases hoa : s.offsetArray with
      | none => simp [ScanState.shift, shiftPtr, hoa]
      | some oa =>
        have : (s.shift pre.length k).offsetArray = s.offsetArray := by
          refine shiftPtr_of_lt (fun y hy => ?_)
          rw [hoa] at hy h1
          cases hy
          simp only [Option.getD_some] at h1
          omega
        rw [this, hoa]
    rw [hm, ho]
    exact h

/-- C11, counterexample: in the first input a Contexts block of one byte
stands between a Messages block, whose record runs past the end of its block,
and a Language block; in the second input the Contexts block is removed.
`loadQM` succeeds on both, with a message without comment for the first and a
message with the comment "A" for the second. -/
theorem skipped_block_changes_result :
    ScanReach sampleEnv (openRecordStart ++ writeBlock Contexts [1] ++ commentLikeLanguage)
      MagicLength (ScanState.init Translator.empty) openRecordStart.length
      { messageArray := some 34, offsetArray := some 21, offsetLength := 8, ok := true,
        utf8Fail := false, translator := Translator.empty } ∧
    writeBlock Contexts [1] = [0x2f, 0, 0, 0, 1, 1] ∧
    loadQM sampleEnv Translator.empty
        (openRecordStart ++ writeBlock Contexts [1] ++ commentLikeLanguage) ConversionData.default
      = some { ok := true
               translator :=
                { messages := [{ id := .null, context := .null, sourceText := .null,
                                 comment := .null, translations := [.null],
                                 type := .Finished, plural := false }]
                  languageCode := .str [0, 0, 0, 1, 0x41, 1, 0x20, 0x20], dependencies := [] }
               cd := ConversionData.default } ∧
    loadQM sampleEnv Translator.empty (openRecordStart ++ commentLikeLanguage)
        ConversionData.default
      = some { ok := true
               translator :=
                { messages := [{ id := .null, context := .null, sourceText := .null,
                                 comment := .str [0x41], translations := [.null],
                                 type := .Finished, plural := false }]
                  languageCode := .str [0, 0, 0, 1, 0x41, 1, 0x20, 0x20], dependencies := [] }
               cd := ConversionData.default } :=
  ⟨ScanReach.step (by decide)
      (rfl : scanBlock sampleEnv
        (openRecordStart ++ writeBlock Contexts [1] ++ commentLikeLanguage) 16 _
          = some (.next 29 _))
      (ScanReach.step (by decide)
        (rfl : scanBlock sampleEnv
          (openRecordStart ++ writeBlock Contexts [1] ++ commentLikeLanguage) 29 _
            = some (.next 39 _))
        (ScanReach.refl _ _)),
    by decide, by decide, by decide⟩

/-! ## The arrays built by `squeeze` -/

theorem writeMessage_length_pos (msg : ByteTranslatorMessage) (mode : TranslatorSaveMode)
    (pfx : Nat) : 0 < (writeMessage msg mode pfx).length := by
  unfold writeMessage
  rw [List.length_append]
  simp

theorem writtenRecords_length (mode : TranslatorSaveMode) (l : List ByteTranslatorMessage) :
    ∀ pos cpNext, (writtenRecords mode pos l cpNext).length = l.length := by
  induction l with
  | nil => intro _ _; rfl
  | cons it rest ih => intro pos cpNext; simp [writtenRecords, ih]

theorem writtenRecords_map_msg (mode : TranslatorSaveMode) (l : List ByteTranslatorMessage) :
    ∀ pos cpNext, (writtenRecords mode pos l cpNext).map (fun w => w.msg) = l := by
  induction l with
  | nil => intro _ _; rfl
  | cons it rest ih => intro pos cpNext; simp [writtenRecords, ih]

theorem squeezeMessages_cons (mode : TranslatorSaveMode) (it : ByteTranslatorMessage)
    (rest : List ByteTranslatorMessage) (cpNext : Nat) (offsets : List Offset) (ms : QByteArray) :
    squeezeMessages mode (it :: rest) cpNext offsets ms
      = squeezeMessages mode rest (cpAfter it rest)
          (qmapInsert Offset.lt ⟨msgHash it, ms.length % 4294967296⟩ offsets)
          (ms ++ writeMessage it mode (max cpNext (cpAfter it rest + 1))) := by
  cases rest <;> rfl

/-- The message array written by the message loop of `squeeze`. -/
theorem squeezeMessages_snd_written (mode : TranslatorSaveMode) (l : List ByteTranslatorMessage) :
    ∀ (pos cpNext : Nat) (offsets : List Offset) (ms : QByteArray),
      (squeezeMessages mode l cpNext offsets ms).2
        = ms ++ (writtenRecords mode pos l cpNext).flatMap (Written.bytes mode) := by
  induction l with
  | nil => intro pos cpNext offsets ms; simp [squeezeMessages, writtenRecords]
  | cons it rest ih =>
    intro pos cpNext offsets ms
    rw [squeezeMessages_cons, ih (pos + (writeMessage it mode
      (max cpNext (cpAfter it rest + 1))).length), List.append_assoc]
    simp only [writtenRecords, List.flatMap_cons]
    rfl

/-- The keys filed by the message loop of `squeeze`, the message array staying
below `2 ^ 32` bytes. -/
theorem squeezeMessages_fst_written (mode : TranslatorSaveMode) (l : List ByteTranslatorMessage) :
    ∀ (cpNext : Nat) (offsets : List Offset) (ms : QByteArray),
      ms.length + ((writtenRecords mode ms.length l cpNext).flatMap (Written.bytes mode)).length
        < 4294967296 →
      (squeezeMessages mode l cpNext offsets ms).1
        = (writtenRecords mode ms.length l cpNext).foldl
            (fun o w => qmapInsert Offset.lt w.offset o) offsets := by
  induction l with
  | nil => intro cpNext offsets ms _; simp [squeezeMessages, writtenRecords]
  | cons it rest ih =>
    intro cpNext offsets ms hlen
    simp only [writtenRecords, List.flatMap_cons, List.length_append] at hlen
    have hb : (Written.bytes mode ⟨ms.length, it,
        max cpNext (cpAfter it rest + 1)⟩).length
        = (writeMessage it mode (max cpNext (cpAfter it rest + 1))).length :=
      rfl
    rw [squeezeMessages_cons, ih _ _ _ (by rw [List.length_append]; omega), List.length_append,
      Nat.mod_eq_of_lt (by omega)]
    simp only [writtenRecords, List.foldl_cons]
    rfl

/-- A written record lies at its position in the concatenated encodings. -/
theorem writtenRecords_mem (mode : TranslatorSaveMode) (l : List ByteTranslatorMessage) :
    ∀ (pos cpNext : Nat) (w : Written), w ∈ writtenRecords mode pos l cpNext →
      w.msg ∈ l ∧ pos ≤ w.pos ∧
      w.pos < pos + ((writtenRecords mode pos l cpNext).flatMap (Written.bytes mode)).length ∧
      ∃ rest, ((writtenRecords mode pos l cpNext).flatMap (Written.bytes mode)).drop (w.pos - pos)
        = w.bytes mode ++ rest := by
  induction l with
  | nil => intro pos cpNext w hw; simp [writtenRecords] at hw
  | cons it rest ih =>
    intro pos cpNext w hw
    simp only [writtenRecords, List.mem_cons] at hw
    simp only [writtenRecords, List.flatMap_cons, List.length_append]
    have hpos := writeMessage_length_pos it mode
      (max cpNext (cpAfter it rest + 1))
    rcases hw with rfl | hw
    · refine ⟨List.mem_cons_self _ _, Nat.le_refl _, ?_, ?_⟩
      · simp only [Written.bytes]; omega
      · simp only [Nat.sub_self, List.drop_zero]
        exact ⟨_, rfl⟩
    · obtain ⟨h1, h2, h3, rest', h4⟩ := ih _ _ w hw
      refine ⟨List.mem_cons_of_mem _ h1, by omega, ?_, rest', ?_⟩
      · simp only [Written.bytes] at h3 ⊢; omega
      · have hsub : w.pos - pos = (Written.bytes mode ⟨pos, it,
            max cpNext (cpAfter it rest + 1)⟩).length
            + (w.pos - (pos + (writeMessage it mode
              (max cpNext (cpAfter it rest + 1))).length)) := by
          simp only [Written.bytes]; omega
        rw [hsub, List.drop_append]
        exact h4

/-- The positions of written records grow. -/
theorem writtenRecords_pairwise (mode : TranslatorSaveMode) (l : List ByteTranslatorMessage) :
    ∀ pos cpNext, (writtenRecords mode pos l cpNext).Pairwise (fun a b => a.pos < b.pos) := by
  induction l with
  | nil => intro _ _; exact List.Pairwise.nil
  | cons it rest ih =>
    intro pos cpNext
    simp only [writtenRecords]
    refine List.Pairwise.cons ?_ (ih _ _)
    intro w hw
    have := (writtenRecords_mem mode rest _ _ w hw).2.1
    have hpos := writeMessage_length_pos it mode
      (max cpNext (cpAfter it rest + 1))
    simp only
    omega

theorem Offset.lt_iff_pair (a b : Offset) :
    Offset.lt a b = true ↔ a.h < b.h ∨ (a.h = b.h ∧ a.o < b.o) := by
  unfold Offset.lt
  by_cases h : a.h = b.h
  · rw [if_neg (by simpa using h)]
    simp only [decide_eq_true_eq]
    constructor
    · intro ho; exact Or.inr ⟨h, ho⟩
    · rintro (h' | ⟨-, ho⟩)
      · omega
      · exact ho
  · rw [if_pos h]
    simp only [decide_eq_true_eq]
    constructor
    · intro hh; exact Or.inl hh
    · rintro (h' | ⟨he, -⟩)
      · exact h'
      · exact absurd he h

theorem Offset.lt_transitive (a b c : Offset) (hab : Offset.lt a b = true) (hbc : Offset.lt b c = true) :
    Offset.lt a c = true := by
  rw [Offset.lt_iff_pair] at hab hbc ⊢
  omega

theorem Offset.lt_or_of_pos_ne {a b : Offset} (h : a.o ≠ b.o) :
    Offset.lt a b = true ∨ Offset.lt b a = true := by
  rw [Offset.lt_iff_pair, Offset.lt_iff_pair]
  omega

theorem foldl_qmapInsert_sorted {α : Type} (lt : α → α → Bool)
    (htrans : ∀ a b c, lt a b = true → lt b c = true → lt a c = true) (l : List α) :
    ∀ acc : List α, acc.Pairwise (fun a b => lt a b = true) →
      (l.foldl (fun o k => qmapInsert lt k o) acc).Pairwise (fun a b => lt a b = true) := by
  induction l with
  | nil => intro acc h; exact h
  | cons x xs ih =>
    intro acc h
    exact ih _ (qmapInsert_sorted lt htrans x acc h)

/-- The keys of the map `offsets` after the message loop of `squeeze`: the
pairs of the written records, in ascending order. -/
theorem sortedOffsets (ws : List Written) (hpos : ws.Pairwise (fun a b => a.pos < b.pos)) :
    ((ws.map Written.offset).foldl (fun o k => qmapInsert Offset.lt k o) []).Perm
        (ws.map Written.offset) ∧
    ((ws.map Written.offset).foldl (fun o k => qmapInsert Offset.lt k o) []).Pairwise
        (fun a b => Offset.lt a b = true) := by
  refine ⟨?_, foldl_qmapInsert_sorted _ Offset.lt_transitive _ _ List.Pairwise.nil⟩
  have := foldl_qmapInsert_perm Offset.lt (ws.map Written.offset) [] (by
    rw [List.nil_append, List.pairwise_map]
    exact hpos.imp (fun {a b} hab => Offset.lt_or_of_pos_ne (by
      simp only [Written.offset]; omega)))
  simpa using this

/-- The pairs of the offset array, read back. -/
theorem read32_writeOffsets (pairs : List Offset)
    (hb : ∀ k ∈ pairs, k.h < 4294967296 ∧ k.o < 4294967296) :
    ∀ (i : Nat) (k : Offset), pairs[i]? = some k →
      read32 (writeOffsets pairs) (8 * i) = some k.h ∧
      read32 (writeOffsets pairs) (8 * i + 4) = some k.o := by
  induction pairs with
  | nil => intro i k h; simp at h
  | cons p ps ih =>
    intro i k h
    cases i with
    | zero =>
      simp only [List.getElem?_cons_zero, Option.some.injEq] at h
      subst h
      have hp := hb p (List.mem_cons_self _ _)
      constructor
      · have hd : (writeOffsets (p :: ps)).drop 0
            = write32 p.h ++ (write32 p.o ++ writeOffsets ps) := by
          rw [List.drop_zero, writeOffsets_cons]
        exact read32_of_drop hd hp.1
      · have hd : (writeOffsets (p :: ps)).drop 4 = write32 p.o ++ writeOffsets ps := by
          rw [writeOffsets_cons]
          rfl
        exact read32_of_drop hd hp.2
    | succ i =>
      simp only [List.getElem?_cons_succ] at h
      obtain ⟨h1, h2⟩ := ih (fun k hk => hb k (List.mem_cons_of_mem _ hk)) i k h
      have hd : ∀ j, (writeOffsets (p :: ps))[8 * (i + 1) + j]? = (writeOffsets ps)[8 * i + j]? := by
        intro j
        rw [writeOffsets_cons, ← List.append_assoc,
          List.getElem?_append_right (by simp [write32_length]; omega)]
        congr 1
        simp [write32_length]
        omega
      unfold read32 at h1 h2 ⊢
      have e0 := hd 0
      have e1 := hd 1
      have e2 := hd 2
      have e3 := hd 3
      have e4 := hd 4
      have e5 := hd 5
      have e6 := hd 6
      have e7 := hd 7
      simp only [Nat.add_zero] at e0
      constructor
      · rw [e0, e1, e2, e3]
        exact h1
      · rw [show 8 * (i + 1) + 4 + 1 = 8 * (i + 1) + 5 by omega,
          show 8 * (i + 1) + 4 + 2 = 8 * (i + 1) + 6 by omega,
          show 8 * (i + 1) + 4 + 3 = 8 * (i + 1) + 7 by omega, e4, e5, e6, e7]
        rw [show 8 * i + 4 + 1 = 8 * i + 5 by omega, show 8 * i + 4 + 2 = 8 * i + 6 by omega,
          show 8 * i + 4 + 3 = 8 * i + 7 by omega] at h2
        exact h2

/-- The arrays that `squeeze` builds from the records of the map. -/
theorem squeeze_arrays (r r' : Releaser) (mode : TranslatorSaveMode)
    (hsq : r.squeeze mode = some r')
    (hfresh : r.m_messages ≠ [] ∨ mode = .SaveStripped ∨
      (r.m_offsetArray = [] ∧ r.m_messageArray = [])) :
    r'.m_messageArray = (writtenRecords mode 0 r.m_messages 0).flatMap (Written.bytes mode) ∧
    (r'.m_messageArray.length < 4294967296 →
      r'.m_offsetArray = writeOffsets
        (((writtenRecords mode 0 r.m_messages 0).map Written.offset).foldl
          (fun o k => qmapInsert Offset.lt k o) [])) := by
  unfold Releaser.squeeze at hsq
  dsimp only at hsq
  by_cases h1 : (r.m_messages.isEmpty = true ∧ mode = .SaveEverything)
  · rw [if_pos h1] at hsq
    simp only [Option.some.injEq] at hsq
    subst hsq
    have hnil : r.m_messages = [] := List.isEmpty_iff.mp h1.1
    rcases hfresh with h | h | h
    · exact absurd hnil h
    · rw [h1.2] at h; cases h
    · simp [hnil, writtenRecords, h.1, h.2, writeOffsets]
  · rw [if_neg h1] at hsq
    have hm : ∀ x : Releaser, (if mode = .SaveStripped then
          (buildContextArray r.m_messages).map (fun c =>
            ({ ({ r with m_dependencyArray := r.m_dependencies.flatMap writeQString }) with
                  m_messageArray := (squeezeMessages mode r.m_messages 0 [] []).2,
                  m_offsetArray := writeOffsets (squeezeMessages mode r.m_messages 0 [] []).1,
                  m_contextArray := c, m_messages := [] } : Releaser))
        else some { ({ r with m_dependencyArray := r.m_dependencies.flatMap writeQString }) with
                    m_messageArray := (squeezeMessages mode r.m_messages 0 [] []).2,
                    m_offsetArray := writeOffsets (squeezeMessages mode r.m_messages 0 [] []).1,
                    m_contextArray := [], m_messages := [] }) = some x →
        x.m_messageArray = (squeezeMessages mode r.m_messages 0 [] []).2 ∧
        x.m_offsetArray = writeOffsets (squeezeMessages mode r.m_messages 0 [] []).1 := by
      intro x hx
      split_ifs at hx
      · obtain ⟨c, -, hc⟩ := Option.map_eq_some'.mp hx
        subst hc
        exact ⟨rfl, rfl⟩
      · simp only [Option.some.injEq] at hx
        subst hx
        exact ⟨rfl, rfl⟩
    obtain ⟨e1, e2⟩ := hm r' hsq
    have hsnd := squeezeMessages_snd_written mode r.m_messages 0 0 [] []
    rw [List.nil_append] at hsnd
    refine ⟨e1.trans hsnd, ?_⟩
    intro hlen
    rw [e2, squeezeMessages_fst_written mode r.m_messages 0 [] [] (by
      rw [e1, hsnd] at hlen
      simpa using hlen), List.foldl_map]
    rfl

/-- C14: after `squeeze`, on a releaser that holds records or whose arrays are
still empty, and with a message array below `2 ^ 32` bytes: the message array
is the concatenation of the encodings of the stored records in the order of
the map, and the offset array holds one pair of big-endian 32-bit values per
stored record, its hash `elfHash (sourceText ++ comment)` and the position at
which its encoding starts in the message array, the pairs being in strictly
ascending order by (hash, offset). -/
theorem squeeze_hashes (r r' : Releaser) (mode : TranslatorSaveMode)
    (hsq : r.squeeze mode = some r')
    (hfresh : r.m_messages ≠ [] ∨ mode = .SaveStripped ∨
      (r.m_offsetArray = [] ∧ r.m_messageArray = []))
    (hsize : r'.m_messageArray.length < 4294967296) :
    ∃ pairs : List Offset,
      (writtenRecords mode 0 r.m_messages 0).map (fun w => w.msg) = r.m_messages ∧
      r'.m_messageArray = (writtenRecords mode 0 r.m_messages 0).flatMap (Written.bytes mode) ∧
      (∀ w ∈ writtenRecords mode 0 r.m_messages 0,
        ∃ rest, r'.m_messageArray.drop w.pos = writeMessage w.msg mode w.level ++ rest) ∧
      pairs.Perm ((writtenRecords mode 0 r.m_messages 0).map fun w =>
        (⟨elfHash (w.msg.m_sourcetext ++ w.msg.m_comment), w.pos⟩ : Offset)) ∧
      pairs.Pairwise (fun a b => a.h < b.h ∨ (a.h = b.h ∧ a.o < b.o)) ∧
      pairs.length = r.m_messages.length ∧
      r'.m_offsetArray.length = 8 * pairs.length ∧
      ∀ (i : Nat) (k : Offset), pairs[i]? = some k →
        read32 r'.m_offsetArray (8 * i) = some k.h ∧
        read32 r'.m_offsetArray (8 * i + 4) = some k.o := by
  obtain ⟨hmsg, hoff⟩ := squeeze_arrays r r' mode hsq hfresh
  have hoff := hoff hsize
  obtain ⟨hperm, hsorted⟩ := sortedOffsets (writtenRecords mode 0 r.m_messages 0)
    (writtenRecords_pairwise mode r.m_messages 0 0)
  refine ⟨_, writtenRecords_map_msg mode r.m_messages 0 0, hmsg, ?_, hperm, ?_, ?_, ?_, ?_⟩
  · intro w hw
    obtain ⟨-, -, -, rest, h⟩ := writtenRecords_mem mode r.m_messages 0 0 w hw
    rw [Nat.sub_zero] at h
    rw [hmsg]
    exact ⟨rest, h⟩
  · exact hsorted.imp (fun {a b} hab => (Offset.lt_iff_pair a b).mp hab)
  · rw [hperm.length_eq, List.length_map, writtenRecords_length]
  · rw [hoff, writeOffsets_length]
  · rw [hoff]
    refine read32_writeOffsets _ ?_
    intro k hk
    obtain ⟨w, hw, rfl⟩ := List.mem_map.mp (hperm.mem_iff.mp hk)
    refine ⟨elfHash_lt _, ?_⟩
    have := (writtenRecords_mem mode r.m_messages 0 0 w hw).2.2.1
    rw [← hmsg] at this
    simp only [Written.offset]
    omega

theorem squeeze_hashes_witness :
    (∃ pairs : List Offset,
      (writtenRecords .SaveStripped 0 collisionReleaser.m_messages 0).map (fun w => w.msg)
        = collisionReleaser.m_messages ∧
      collisionSqueezed.m_messageArray
        = (writtenRecords .SaveStripped 0 collisionReleaser.m_messages 0).flatMap
            (Written.bytes .SaveStripped) ∧
      (∀ w ∈ writtenRecords .SaveStripped 0 collisionReleaser.m_messages 0,
        ∃ rest, collisionSqueezed.m_messageArray.drop w.pos
          = writeMessage w.msg .SaveStripped w.level ++ rest) ∧
      pairs.Perm ((writtenRecords .SaveStripped 0 collisionReleaser.m_messages 0).map fun w =>
        (⟨elfHash (w.msg.m_sourcetext ++ w.msg.m_comment), w.pos⟩ : Offset)) ∧
      pairs.Pairwise (fun a b => a.h < b.h ∨ (a.h = b.h ∧ a.o < b.o)) ∧
      pairs.length = collisionReleaser.m_messages.length ∧
      collisionSqueezed.m_offsetArray.length = 8 * pairs.length ∧
      ∀ (i : Nat) (k : Offset), pairs[i]? = some k →
        read32 collisionSqueezed.m_offsetArray (8 * i) = some k.h ∧
        read32 collisionSqueezed.m_offsetArray (8 * i + 4) = some k.o) ∧
    (writtenRecords .SaveStripped 0 collisionReleaser.m_messages 0).map
        (fun w => (w.pos, w.level)) = [(0, 1), (25, 4), (52, 3)] :=
  ⟨squeeze_hashes collisionReleaser collisionSqueezed .SaveStripped (by decide) (by decide)
    (by decide), by decide⟩

/-! ## The contexts read back from a stripped file -/

theorem mode_cases (mode : TranslatorSaveMode) : mode = .SaveEverything ∨ mode = .SaveStripped := by
  cases mode
  · exact Or.inl rfl
  · exact Or.inr rfl

theorem bytes_eq_encFull (mode : TranslatorSaveMode) (w : Written)
    (h : ¬ (mode = .SaveStripped ∧ w.level = HashContext))
    (h' : ¬ (mode = .SaveStripped ∧ w.level = HashContextSourceText)) :
    w.bytes mode = encFull w.msg := by
  unfold Written.bytes writeMessage encFull
  rcases mode_cases mode with hm | hm
  · rw [if_pos hm]
  · rw [if_neg (by rw [hm]; decide)]
    have h2 : w.level ≠ HashContext := fun e => h ⟨hm, e⟩
    have h3 : w.level ≠ HashContextSourceText := fun e => h' ⟨hm, e⟩
    unfold writeFields
    rw [if_neg h2, if_neg h3, if_neg (by decide), if_neg (by decide)]

theorem bytes_stripped (w : Written) :
    w.bytes .SaveStripped
      = w.msg.m_translations.flatMap (fun t => Tag_Translation :: writeQString t)
        ++ writeFields w.msg w.level ++ [Tag_End] := rfl

/-- The field loop over a record written by `squeeze`. -/
theorem decodeRecord_written (env : Env) {ba rest : QByteArray} {m : Nat} (st : DecodeState)
    (mode : TranslatorSaveMode) (w : Written) (h : ba.drop m = w.bytes mode ++ rest)
    (hlen : (w.bytes mode).length < 2147483648) :
    decodeRecord env ba ba.length m st = some (.ended (decodeWritten env mode st w)) := by
  unfold decodeWritten
  by_cases h2 : mode = .SaveStripped ∧ w.level = HashContext
  · rw [if_pos h2]
    obtain ⟨rfl, hl⟩ := h2
    rw [bytes_stripped] at h hlen
    unfold writeFields at h hlen
    rw [if_pos hl] at h hlen
    simp only [List.length_append, List.length_cons, writeQByteArray, write32_length,
      List.length_nil] at hlen
    have ht : ∀ t ∈ w.msg.m_translations, 2 * t.units.length < 2147483648 := by
      intro t htm
      have := length_translations_ge _ t htm
      omega
    simp only [List.append_assoc] at h
    have r1 := reach_translations env w.msg.m_translations m st _ h ht
    have h1 := drop_add_of_drop h
    generalize m + (w.msg.m_translations.flatMap fun t => Tag_Translation :: writeQString t).length
      = m1 at r1 h1
    obtain ⟨c8, c32, cfb, h4⟩ := read_utf8_field env h1 (by omega)
    have e8 : read8 ba (m1 + 5 + w.msg.m_context.length) = some Tag_End := read8_of_drop h4
    rw [(r1.chain (FieldReach.step (by rw [decodeField_context c8, c32, Option.some_bind, cfb,
        Option.some_bind]) (FieldReach.refl _ _))).decodeRecord_eq]
    have hlt := read8_some_lt e8
    obtain ⟨f, hf⟩ : ∃ f, ba.length = f + 1 := ⟨ba.length - 1, by omega⟩
    rw [hf]
    simp only [decodeRecord, decodeField_end e8]
  · rw [if_neg h2]
    by_cases h3 : mode = .SaveStripped ∧ w.level = HashContextSourceText
    · rw [if_pos h3]
      obtain ⟨rfl, hl⟩ := h3
      rw [bytes_stripped] at h hlen
      unfold writeFields at h hlen
      rw [if_neg (by rw [hl]; decide), if_pos hl] at h hlen
      simp only [List.length_append, List.length_cons, writeQByteArray, write32_length,
        List.length_nil] at hlen
      have ht : ∀ t ∈ w.msg.m_translations, 2 * t.units.length < 2147483648 := by
        intro t htm
        have := length_translations_ge _ t htm
        omega
      simp only [List.append_assoc] at h
      have r1 := reach_translations env w.msg.m_translations m st _ h ht
      have h1 := drop_add_of_drop h
      generalize m + (w.msg.m_translations.flatMap fun t => Tag_Translation :: writeQString t).length
        = m1 at r1 h1
      obtain ⟨b8, b32, bfb, h3'⟩ := read_utf8_field env h1 (by omega)
      obtain ⟨c8, c32, cfb, h4⟩ := read_utf8_field env h3' (by omega)
      have e8 : read8 ba (m1 + 5 + w.msg.m_sourcetext.length + 5 + w.msg.m_context.length)
          = some Tag_End := read8_of_drop h4
      rw [(r1.chain (FieldReach.step (by rw [decodeField_sourceText b8, b32, Option.some_bind, bfb,
          Option.some_bind])
        (FieldReach.step (by rw [decodeField_context c8, c32, Option.some_bind, cfb,
          Option.some_bind]) (FieldReach.refl _ _)))).decodeRecord_eq]
      have hlt := read8_some_lt e8
      obtain ⟨f, hf⟩ : ∃ f, ba.length = f + 1 := ⟨ba.length - 1, by omega⟩
      rw [hf]
      simp only [decodeRecord, decodeField_end e8]
    · rw [if_neg h3]
      rw [bytes_eq_encFull mode w h2 h3] at h hlen
      exact decodeRecord_encFull env st w.msg h (recordFits_of_length _ hlen)

theorem decodeWritten_context (env : Env) (mode : TranslatorSaveMode) (st : DecodeState)
    (w : Written) :
    (decodeWritten env mode st w).context = (env.fromUtf8 w.msg.m_context).1 ∧
    (decodeWritten env mode st w).utf8Fail = (env.fromUtf8 w.msg.m_context).2 ∧
    (decodeWritten env mode st w).translations = st.translations ++ w.msg.m_translations := by
  unfold decodeWritten
  split_ifs <;> exact ⟨rfl, rfl, rfl⟩

/-- The message loop over pairs that point to records written by `squeeze`
appends the message of each record, in the order of the pairs. -/
theorem messageLoop_written (env : Env) {ba : QByteArray} (guess : Bool)
    (mode : TranslatorSaveMode) (base : Nat) (ws : List Written) :
    ∀ (start : Nat) (st : DecodeState) (translator : Translator) (rest : QByteArray),
      ba.drop start = writeOffsets (ws.map Written.offset) ++ rest →
      (∀ w ∈ ws, w.pos < 4294967296 ∧ (w.bytes mode).length < 2147483648 ∧
        ∃ rest', ba.drop (base + w.pos) = w.bytes mode ++ rest') →
      ∃ stF, stF.utf8Fail = ((ws.getLast?.map fun w => (env.fromUtf8 w.msg.m_context).2).getD
          st.utf8Fail) ∧
        messageLoop env ba guess (some base) ws.length start st translator
          = some (.completed stF
              { translator with
                messages := translator.messages ++ loadedRecords env guess mode st ws }) := by
  induction ws with
  | nil =>
    intro start st translator rest _ _
    exact ⟨st, rfl, by simp [messageLoop, loadedRecords]⟩
  | cons w ws ih =>
    intro start st translator rest h hall
    obtain ⟨hp, hfit, rest', hrec⟩ := hall w (List.mem_cons_self _ _)
    rw [List.map_cons, writeOffsets_cons, List.append_assoc] at h
    have h4 := drop_add_of_drop h
    rw [write32_length, List.append_assoc] at h4
    have hro : read32 ba (start + 4) = some w.pos := read32_of_drop h4 hp
    have h8 := drop_add_of_drop h4
    rw [write32_length] at h8
    have hdec := decodeRecord_written env st mode w hrec hfit
    obtain ⟨stF, hF, hloop⟩ := ih (start + 4 + 4)
      { decodeWritten env mode st w with translations := [] }
      (translator.append (makeMessage guess (decodeWritten env mode st w))) rest h8
      (fun q hq => hall q (List.mem_cons_of_mem _ hq))
    refine ⟨stF, ?_, ?_⟩
    · rw [hF]
      cases ws with
      | nil =>
        simp only [List.getLast?_nil, Option.map_none', Option.getD_none, List.getLast?_singleton,
          Option.map_some', Option.getD_some]
        exact (decodeWritten_context env mode st w).2.1
      | cons w' ws' =>
        rw [List.getLast?_cons_cons]
        simp only [List.getLast?_eq_getLast _ (List.cons_ne_nil w' ws'), Option.map_some',
          Option.getD_some]
    · simp only [List.length_cons, messageLoop, Option.bind_eq_bind, hro, Option.some_bind, hdec]
      rw [show start + 8 = start + 4 + 4 by omega, hloop]
      simp [Translator.append, loadedRecords]

theorem loadedRecords_context (env : Env) (guess : Bool) (mode : TranslatorSaveMode)
    (ws : List Written) :
    ∀ st : DecodeState,
      (loadedRecords env guess mode st ws).map (fun m => m.context)
        = ws.map (fun w => (env.fromUtf8 w.msg.m_context).1) := by
  induction ws with
  | nil => intro st; rfl
  | cons w ws ih =>
    intro st
    simp only [loadedRecords, List.map_cons, ih]
    rw [show (makeMessage guess (decodeWritten env mode st w)).context
      = (decodeWritten env mode st w).context from rfl, (decodeWritten_context env mode st w).1]

theorem loadedRecords_length (env : Env) (guess : Bool) (mode : TranslatorSaveMode)
    (ws : List Written) :
    ∀ st : DecodeState, (loadedRecords env guess mode st ws).length = ws.length := by
  induction ws with
  | nil => intro st; rfl
  | cons w ws ih => intro st; simp [loadedRecords, ih]


theorem Written.lt_or_of_pos {a b : Written} (h : a.pos ≠ b.pos) :
    Written.lt a b = true ∨ Written.lt b a = true :=
  Offset.lt_or_of_pos_ne (a := a.offset) (b := b.offset) h

theorem sortedWritten_perm (mode : TranslatorSaveMode) (l : List ByteTranslatorMessage) :
    (sortedWritten mode l).Perm (writtenRecords mode 0 l 0) := by
  have := foldl_qmapInsert_perm Written.lt (writtenRecords mode 0 l 0) [] (by
    rw [List.nil_append]
    exact (writtenRecords_pairwise mode l 0 0).imp
      (fun {a b} hab => Written.lt_or_of_pos (by omega)))
  simpa using this

theorem sortedWritten_offsets (mode : TranslatorSaveMode) (l : List ByteTranslatorMessage) :
    (sortedWritten mode l).map Written.offset
      = ((writtenRecords mode 0 l 0).map Written.offset).foldl
          (fun o k => qmapInsert Offset.lt k o) [] := by
  unfold sortedWritten
  rw [foldl_qmapInsert_map Written.offset Written.lt Offset.lt (fun _ _ => rfl), List.foldl_map]
  rfl

/-- Loading a file written by `save` from the arrays of `squeeze`: the load
succeeds and appends the message of each record, in the order of the offset
array. -/
theorem loadQM_save_written (env : Env) (tr0 : Translator) (cd0 : ConversionData) (r : Releaser)
    (mode : TranslatorSaveMode) (ws : List Written)
    (hoff : r.m_offsetArray = writeOffsets (ws.map Written.offset))
    (hws : ∀ w ∈ ws, (w.bytes mode).length < 2147483648 ∧
      (env.fromUtf8 w.msg.m_context).2 = false ∧
      ∃ rest', r.m_messageArray.drop w.pos = w.bytes mode ++ rest')
    (hlang : r.m_language.isEmpty = true ∨
      (originalBytes env r.m_language ≠ [] ∧
        (env.fromUtf8 (originalBytes env r.m_language)).2 = false))
    (hsize : (r.save env).length < 4294967296) :
    ∃ res, loadQM env tr0 (r.save env) cd0 = some res ∧ res.ok = true ∧ res.cd = cd0 ∧
      res.translator.messages
        = tr0.messages ++ loadedRecords env (guessPlurals env res.translator) mode
            (DecodeState.init false) ws := by
  obtain ⟨s, hscan, hok, hutf, hoff0, hoff1, hmsg⟩ := scan_save env tr0 r
    (hlang.imp id (fun h => h.1)) hsize
  have hu : s.utf8Fail = false := by
    rw [hutf]
    rcases hlang with h | h
    · rw [if_pos h]
    · split_ifs
      · rfl
      · exact h.2
  have hm0 := scanLoop_messages _ _ _ _ hscan
  unfold loadQM
  rw [if_neg (save_magic env r), hscan]
  simp only [Option.bind_eq_bind, Option.some_bind]
  unfold loadMessages
  dsimp only
  rw [hu]
  cases ws with
  | nil =>
    have hz : s.offsetLength = 0 := hoff0 (by rw [hoff]; rfl)
    rw [hz]
    simp only [Nat.zero_div, messageLoop, Option.bind_eq_bind, Option.some_bind]
    have hi : (DecodeState.init false).utf8Fail = false := rfl
    rw [hi]
    simp only [Bool.false_eq_true, if_false]
    refine ⟨_, rfl, hok, rfl, ?_⟩
    simp [hm0, ScanState.init, loadedRecords]
  | cons w0 ws' =>
    have hne : r.m_offsetArray ≠ [] := by
      intro he
      have := congrArg List.length he
      rw [hoff, writeOffsets_length] at this
      simp at this
    obtain ⟨hlen, oa, rest, hoa, hdrop⟩ := hoff1 hne
    have hmne : r.m_messageArray ≠ [] := by
      intro he
      obtain ⟨_, _, rest', hr⟩ := hws w0 (List.mem_cons_self _ _)
      rw [he, List.drop_nil] at hr
      have := congrArg List.length hr
      have := writeMessage_length_pos w0.msg mode w0.level
      simp only [List.length_nil, List.length_append, Written.bytes] at *
      omega
    obtain ⟨ma, rest2, hma, hmdrop⟩ := hmsg hmne
    have hmlen : ma + r.m_messageArray.length ≤ (r.save env).length :=
      length_ge_of_drop hmdrop hmne
    have hall : ∀ w ∈ w0 :: ws', w.pos < 4294967296 ∧ (w.bytes mode).length < 2147483648 ∧
        ∃ rest', (r.save env).drop (ma + w.pos) = w.bytes mode ++ rest' := by
      intro w hw
      obtain ⟨hfit, hflag, rest', hr⟩ := hws w hw
      have hp1 : w.pos < r.m_messageArray.length := by
        by_contra hge
        rw [List.drop_of_length_le (by omega)] at hr
        have := congrArg List.length hr
        have := writeMessage_length_pos w.msg mode w.level
        simp only [List.length_nil, List.length_append, Written.bytes] at *
        omega
      refine ⟨by omega, hfit, rest' ++ rest2, ?_⟩
      rw [← List.drop_drop, hmdrop, List.drop_append_of_le_length (by omega), hr,
        List.append_assoc]
    rw [hoff] at hdrop hlen
    obtain ⟨stF, hF, hloop⟩ := messageLoop_written env (guessPlurals env s.translator) mode ma
      (w0 :: ws') oa (DecodeState.init false) s.translator rest hdrop hall
    have hF' : stF.utf8Fail = false := by
      rw [hF]
      have hl := List.getLast?_eq_getLast (w0 :: ws') (List.cons_ne_nil _ _)
      rw [hl]
      simp only [Option.map_some', Option.getD_some]
      exact (hws _ (List.getLast_mem _)).2.1
    rw [hlen, writeOffsets_length, List.length_map, Nat.mul_div_cancel_left _ (by decide),
      hma, hoa, Option.getD_some, hloop]
    simp only [Option.bind_eq_bind, Option.some_bind, hF', Bool.false_eq_true, if_false]
    refine ⟨_, rfl, hok, rfl, ?_⟩
    rw [hm0]
    rfl

/-- `squeeze` returns unless the size of the context table is zero. -/
theorem squeeze_returns (r : Releaser) (mode : TranslatorSaveMode)
    (htable : mode = .SaveStripped → hTableSizeFor (contextSet r.m_messages).length ≠ 0) :
    ∃ r', r.squeeze mode = some r' := by
  unfold Releaser.squeeze
  dsimp only
  split_ifs with h1 h2
  · exact ⟨_, rfl⟩
  · have hc : ∃ c, buildContextArray r.m_messages = some c := by
      have ht : hTableSizeFor (List.foldl (fun set (m : ByteTranslatorMessage) =>
          qmapInsert qbaLt m.m_context set) [] r.m_messages).length ≠ 0 := htable h2
      unfold buildContextArray
      dsimp only
      rw [if_neg ht]
      split_ifs
      · exact ⟨_, rfl⟩
      · exact ⟨_, rfl⟩
    obtain ⟨c, hc⟩ := hc
    rw [hc]
    exact ⟨_, rfl⟩
  · exact ⟨_, rfl⟩

/-- `squeeze` returns when the releaser holds fewer than 10000 records. -/
theorem squeeze_isSome (r : Releaser) (mode : TranslatorSaveMode)
    (hn : r.m_messages.length < 10000) : ∃ r', r.squeeze mode = some r' := by
  obtain ⟨c, hc⟩ := buildContextArray_isSome r.m_messages hn
  unfold Releaser.squeeze
  dsimp only
  split_ifs
  · exact ⟨_, rfl⟩
  · rw [hc]
    exact ⟨_, rfl⟩
  · exact ⟨_, rfl⟩

theorem qmapInsert_has {α : Type} (lt : α → α → Bool) (k : α) (l : List α) :
    ∃ x ∈ qmapInsert lt k l, x = k ∨ (lt x k = false ∧ lt k x = false) := by
  induction l with
  | nil => exact ⟨k, by simp [qmapInsert], Or.inl rfl⟩
  | cons y ys ih =>
    simp only [qmapInsert]
    split_ifs with h1 h2
    · exact ⟨k, List.mem_cons_self _ _, Or.inl rfl⟩
    · obtain ⟨x, hx, hk⟩ := ih
      exact ⟨x, List.mem_cons_of_mem _ hx, hk⟩
    · refine ⟨y, List.mem_cons_self _ _, Or.inr ⟨?_, ?_⟩⟩
      · simpa using h2
      · simpa using h1

/-- The records of the map after `QMap::insert` of a record with the context
`k.m_context`: the records stored before, and a record with that context. -/
theorem qmapInsert_context (k : ByteTranslatorMessage) (l : List ByteTranslatorMessage) :
    (∀ x ∈ l, x ∈ qmapInsert ByteTranslatorMessage.lt k l) ∧
    (∃ x ∈ qmapInsert ByteTranslatorMessage.lt k l, x.m_context = k.m_context) ∧
    (∀ x ∈ qmapInsert ByteTranslatorMessage.lt k l, x ∈ l ∨ x.m_context = k.m_context) ∧
    (qmapInsert ByteTranslatorMessage.lt k l).length ≤ l.length + 1 := by
  refine ⟨fun x hx => mem_qmapInsert_of_mem _ k x l hx, ?_, ?_, qmapInsert_length_le _ k l⟩
  · obtain ⟨x, hx, hk⟩ := qmapInsert_has ByteTranslatorMessage.lt k l
    refine ⟨x, hx, ?_⟩
    rcases hk with rfl | hk
    · rfl
    · have := (ByteTranslatorMessage.equiv_iff x k).mp hk
      exact congrArg Prod.fst this
  · intro x hx
    rcases mem_qmapInsert _ k x l hx with rfl | h
    · exact Or.inr rfl
    · exact Or.inl h

/-- The releaser after a message has been handed to it, when the ID-based
mode is off: the arrays and the language code are left as they are, the
records stored before are kept, and a record with the context of the message is
stored. -/
theorem passToWriter_context (env : Env) (cat : Translator) (cd : ConversionData) (r : Releaser)
    (msg : TranslatorMessage) (hid : cd.m_idBased = false) :
    (passToWriter env cat cd r msg).m_language = r.m_language ∧
    (∀ x ∈ r.m_messages, x ∈ (passToWriter env cat cd r msg).m_messages) ∧
    (∃ x ∈ (passToWriter env cat cd r msg).m_messages,
      x.m_context = originalBytes env msg.context) ∧
    (∀ x ∈ (passToWriter env cat cd r msg).m_messages,
      x ∈ r.m_messages ∨ x.m_context = originalBytes env msg.context) ∧
    (passToWriter env cat cd r msg).m_messages.length ≤ r.m_messages.length + 1 := by
  unfold passToWriter Releaser.insert
  rw [hid]
  simp only [Bool.false_eq_true, if_false]
  split_ifs
  · exact ⟨rfl, qmapInsert_context _ _⟩
  · exact ⟨rfl, qmapInsert_context _ _⟩

theorem foldl_passToWriter_context (env : Env) (cat : Translator) (cd : ConversionData)
    (hid : cd.m_idBased = false) (msgs : List TranslatorMessage) :
    ∀ r : Releaser,
      (List.foldl (passToWriter env cat cd) r msgs).m_language = r.m_language ∧
      (∀ x ∈ r.m_messages, x ∈ (List.foldl (passToWriter env cat cd) r msgs).m_messages) ∧
      (∀ m ∈ msgs, ∃ x ∈ (List.foldl (passToWriter env cat cd) r msgs).m_messages,
        x.m_context = originalBytes env m.context) ∧
      (∀ x ∈ (List.foldl (passToWriter env cat cd) r msgs).m_messages,
        x ∈ r.m_messages ∨ ∃ m ∈ msgs, x.m_context = originalBytes env m.context) ∧
      (List.foldl (passToWriter env cat cd) r msgs).m_messages.length
        ≤ r.m_messages.length + msgs.length := by
  induction msgs with
  | nil =>
    intro r
    exact ⟨rfl, fun x hx => hx, fun m hm => absurd hm (List.not_mem_nil _),
      fun x hx => Or.inl hx, Nat.le_refl _⟩
  | cons m ms ih =>
    intro r
    obtain ⟨a1, a2, a3, a4, a5⟩ := passToWriter_context env cat cd r m hid
    obtain ⟨b1, b2, b3, b4, b5⟩ := ih (passToWriter env cat cd r m)
    rw [List.foldl_cons]
    refine ⟨b1.trans a1, fun x hx => b2 x (a2 x hx), ?_, ?_, ?_⟩
    · intro m' hm'
      rcases List.mem_cons.mp hm' with rfl | h
      · obtain ⟨x, hx, hc⟩ := a3
        exact ⟨x, b2 x hx, hc⟩
      · exact b3 m' h
    · intro x hx
      rcases b4 x hx with h | ⟨m', hm', hc⟩
      · rcases a4 x h with h' | h'
        · exact Or.inl h'
        · exact Or.inr ⟨m, List.mem_cons_self _ _, h'⟩
      · exact Or.inr ⟨m', List.mem_cons_of_mem _ hm', hc⟩
    · rw [List.length_cons]
      omega


/-- C20, as amended: for every catalog saved by `saveQM` in `SaveStripped` mode
without the ID-based mode, the size of the context table that `squeeze`
computes for the records of the writer not being zero, into a file shorter
than `2 ^ 31` bytes, the contexts of the persisted entries surviving the UTF-8
conversion and the language code being empty or valid: `saveQM` returns,
`loadQM` succeeds on the written bytes, every persisted entry finds its
context, whole and whatever its length, as the context of a loaded message,
and every loaded message has the whole context of a persisted entry. -/
theorem stripped_context_in_full (env : Env) (cat : Translator) (cd : ConversionData)
    (tr0 : Translator) (cd0 : ConversionData)
    (hmode : cd.m_saveMode = .SaveStripped) (hid : cd.m_idBased = false)
    (htable : tableSize (saveLoop env cat cd).releaser.m_messages ≠ 0)
    (hsize : ∀ res ∈ saveQM env cat cd, res.bytes.length < 2147483648)
    (hutf8 : ∀ m ∈ cat.messages, persisted cd m = true → Utf8Safe env m.context)
    (hlang : cat.languageCode.isEmpty = true ∨
      (originalBytes env cat.languageCode ≠ [] ∧
        (env.fromUtf8 (originalBytes env cat.languageCode)).2 = false)) :
    ∃ res r loaded, saveQM env cat cd = some res ∧ res.saved = true ∧
      loadQM env tr0 res.bytes cd0 = some r ∧ r.ok = true ∧ r.cd = cd0 ∧
      r.translator.messages = tr0.messages ++ loaded ∧
      (∀ m ∈ cat.messages, persisted cd m = true →
        ∃ m' ∈ loaded, m'.context.units = m.context.units) ∧
      (∀ m' ∈ loaded, ∃ m ∈ cat.messages, persisted cd m = true ∧
        m'.context.units = m.context.units) := by
  -- the records of the releaser
  have hloop := saveLoop_passToWriter env cat cd
  obtain ⟨f1, f2, f3, f4, f5⟩ := foldl_passToWriter_context env cat cd hid
    (cat.messages.filter (persisted cd)) (initialReleaser env cat)
  rw [← hloop] at f1 f2 f3 f4 f5
  have hinit : (initialReleaser env cat).m_messages = [] ∧
      (initialReleaser env cat).m_language = cat.languageCode := by
    unfold initialReleaser
    cases env.numerusInfo cat.languageCode with
    | none => exact ⟨rfl, rfl⟩
    | some p => exact ⟨rfl, rfl⟩
  -- squeeze and save
  obtain ⟨r', hsq⟩ := squeeze_returns
    ((saveLoop env cat cd).releaser.setDependencies cat.dependencies) .SaveStripped
    (fun _ => htable)
  have hsq' := hsq
  rw [← hmode] at hsq'
  obtain ⟨res, hres, hsaved, hbytes⟩ := saveQM_of_squeeze env cat cd r' hsq'
  have hsz := hsize res hres
  rw [hbytes] at hsz
  obtain ⟨hmsgs, hoffs⟩ := squeeze_arrays _ r' .SaveStripped hsq (Or.inr (Or.inl rfl))
  have hmlen := messageArray_le_save env r'
  have hoffs := hoffs (by omega)
  have hkeep := squeeze_keeps _ r' _ hsq
  have hrm : ((saveLoop env cat cd).releaser.setDependencies cat.dependencies).m_messages
      = (saveLoop env cat cd).releaser.m_messages := rfl
  rw [hrm] at hmsgs hoffs
  -- the written records in the order of the offset array
  have hperm := sortedWritten_perm .SaveStripped (saveLoop env cat cd).releaser.m_messages
  have hmem : ∀ w ∈ sortedWritten .SaveStripped (saveLoop env cat cd).releaser.m_messages,
      w.msg ∈ (saveLoop env cat cd).releaser.m_messages ∧
      (w.bytes .SaveStripped).length < 2147483648 ∧
      ∃ rest', r'.m_messageArray.drop w.pos = w.bytes .SaveStripped ++ rest' := by
    intro w hw
    obtain ⟨h1, -, -, rest', hdrop⟩ := writtenRecords_mem .SaveStripped _ 0 0 w
      (hperm.mem_iff.mp hw)
    rw [Nat.sub_zero, ← hmsgs] at hdrop
    refine ⟨h1, ?_, rest', hdrop⟩
    have := congrArg List.length hdrop
    rw [List.length_drop, List.length_append] at this
    omega
  have hctx : ∀ x ∈ (saveLoop env cat cd).releaser.m_messages,
      ∃ m ∈ cat.messages, persisted cd m = true ∧ x.m_context = originalBytes env m.context := by
    intro x hx
    rcases f4 x hx with h | ⟨m, hm, hc⟩
    · rw [hinit.1] at h
      cases h
    · exact ⟨m, (List.mem_filter.mp hm).1, (List.mem_filter.mp hm).2, hc⟩
  obtain ⟨r, hload, hok, hcd, hmessages⟩ := loadQM_save_written env tr0 cd0 r' .SaveStripped
    (sortedWritten .SaveStripped (saveLoop env cat cd).releaser.m_messages)
    (by rw [hoffs, sortedWritten_offsets])
    (fun w hw => by
      obtain ⟨h1, h2, h3⟩ := hmem w hw
      obtain ⟨m, hm, hp, hc⟩ := hctx _ h1
      refine ⟨h2, ?_, h3⟩
      rw [hc]
      exact (hutf8 m hm hp).1)
    (by
      have hl : r'.m_language = cat.languageCode := by
        rw [hkeep.1]
        show (saveLoop env cat cd).releaser.m_language = _
        rw [f1, hinit.2]
      rw [hl]
      exact hlang)
    (by omega)
  refine ⟨res, r, _, hres, hsaved, by rw [hbytes]; exact hload, hok, hcd, hmessages, ?_, ?_⟩
  · intro m hm hp
    obtain ⟨x, hx, hc⟩ := f3 m (List.mem_filter.mpr ⟨hm, hp⟩)
    have hx' : x ∈ (writtenRecords .SaveStripped 0 (saveLoop env cat cd).releaser.m_messages 0).map
        (fun w => w.msg) := by
      rw [writtenRecords_map_msg]
      exact hx
    obtain ⟨w, hw, hwx⟩ := List.mem_map.mp hx'
    have hw' := hperm.mem_iff.mpr hw
    have hin : (env.fromUtf8 w.msg.m_context).1 ∈
        (loadedRecords env (guessPlurals env r.translator) .SaveStripped (DecodeState.init false)
          (sortedWritten .SaveStripped (saveLoop env cat cd).releaser.m_messages)).map
          (fun m => m.context) := by
      rw [loadedRecords_context]
      exact List.mem_map.mpr ⟨w, hw', rfl⟩
    obtain ⟨m', hm', hc'⟩ := List.mem_map.mp hin
    refine ⟨m', hm', ?_⟩
    rw [hc', hwx, hc]
    exact (hutf8 m hm hp).2
  · intro m' hm'
    have hin : m'.context ∈
        (loadedRecords env (guessPlurals env r.translator) .SaveStripped (DecodeState.init false)
          (sortedWritten .SaveStripped (saveLoop env cat cd).releaser.m_messages)).map
          (fun m => m.context) := List.mem_map.mpr ⟨m', hm', rfl⟩
    rw [loadedRecords_context] at hin
    obtain ⟨w, hw, hc'⟩ := List.mem_map.mp hin
    obtain ⟨m, hm, hp, hc⟩ := hctx _ (hmem w hw).1
    refine ⟨m, hm, hp, ?_⟩
    rw [← hc', hc]
    exact (hutf8 m hm hp).2

/-- C20, counterexample: the entry of `longContextCatalog` has a context of 300
bytes; saved in `SaveStripped` mode and loaded again it has its context of 300
letters, not the first 255 of them. The entry written for the context into the
pool of the Contexts block, which `loadQM` skips, is the one that stops after
255 bytes. -/
theorem long_context_recovered_in_full :
    longContextCatalog.messages.map
        (fun m => (originalBytes sampleEnv m.context).length) = [300] ∧
    ((saveQM sampleEnv longContextCatalog strippedData).bind fun res =>
      (loadQM sampleEnv Translator.empty res.bytes ConversionData.default).map fun r =>
        (r.ok, r.translator.messages.map (fun m => m.context.units)))
      = some (true, [List.replicate 300 0x43]) ∧
    poolEntry (List.replicate 300 0x43) = 255 :: List.replicate 255 0x43 := by
  decide!

theorem stripped_context_in_full_witness :
    ∃ res r loaded, saveQM sampleEnv longContextCatalog strippedData = some res ∧
      res.saved = true ∧
      loadQM sampleEnv Translator.empty res.bytes ConversionData.default = some r ∧
      r.ok = true ∧ r.cd = ConversionData.default ∧
      r.translator.messages = Translator.empty.messages ++ loaded ∧
      (∀ m ∈ longContextCatalog.messages, persisted strippedData m = true →
        ∃ m' ∈ loaded, m'.context.units = m.context.units) ∧
      (∀ m' ∈ loaded, ∃ m ∈ longContextCatalog.messages, persisted strippedData m = true ∧
        m'.context.units = m.context.units) :=
  stripped_context_in_full sampleEnv longContextCatalog strippedData Translator.empty
    ConversionData.default rfl rfl (by decide!) (by decide!) (by decide!) (by decide)

/-! ## The hash and zero bytes -/

/-- The loop of `elfHash` does not look past a zero byte. -/
theorem elfHashLoop_zero (a b : QByteArray) :
    ∀ h, elfHashLoop h (a ++ 0 :: b) = elfHashLoop h a := by
  induction a with
  | nil => intro h; simp [elfHashLoop]
  | cons k ks ih =>
    intro h
    simp only [List.cons_append, elfHashLoop]
    split_ifs
    · rfl
    · exact ih _

/-- On bytes that are all nonzero the loop of `elfHash` is a fold of its body. -/
theorem elfHashLoop_foldl (a : QByteArray) (ha : ∀ x ∈ a, x ≠ 0) :
    ∀ h, elfHashLoop h a = a.foldl elfHashStep h := by
  induction a with
  | nil => intro h; rfl
  | cons k ks ih =>
    intro h
    have hk : k ≠ 0 := ha k (List.mem_cons_self _ _)
    simp only [elfHashLoop, if_neg hk, List.foldl_cons]
    exact ih (fun x hx => ha x (List.mem_cons_of_mem _ hx)) _

/-- C29: `elfHash` stops at the first zero byte of its input: for bytes `a`
without a zero byte, the hash of `a`, a zero byte and any bytes `b` is the hash
of `a`, which is the loop body folded over `a` (1 when that is 0); so two
records whose source text followed by the comment is `a`, a zero byte and
anything get the same message hash, and the same common-prefix level with
every other record as far as the hash decides it. -/
theorem elfHash_stops_at_zero (a b : QByteArray) (ha : ∀ x ∈ a, x ≠ 0) :
    elfHash (a ++ [0] ++ b) = elfHash a ∧
    elfHash a = (if a.foldl elfHashStep 0 = 0 then 1 else a.foldl elfHashStep 0) ∧
    ∀ (m1 m2 : ByteTranslatorMessage) (b1 b2 : QByteArray),
      m1.m_sourcetext ++ m1.m_comment = a ++ [0] ++ b1 →
      m2.m_sourcetext ++ m2.m_comment = a ++ [0] ++ b2 →
      msgHash m1 = msgHash m2 ∧ commonPrefix m1 m2 ≠ NoPrefix := by
  have h1 : ∀ c : QByteArray, elfHash (a ++ [0] ++ c) = elfHash a := by
    intro c
    unfold elfHash
    rw [List.append_assoc, List.singleton_append, elfHashLoop_zero]
  refine ⟨h1 b, ?_, ?_⟩
  · unfold elfHash
    rw [elfHashLoop_foldl a ha]
  · intro m1 m2 b1 b2 e1 e2
    have hh : msgHash m1 = msgHash m2 := by
      unfold msgHash
      rw [e1, e2, h1, h1]
    refine ⟨hh, ?_⟩
    unfold commonPrefix
    rw [if_neg (by simpa using hh)]
    split_ifs <;> simp

theorem elfHash_stops_at_zero_witness :
    (∀ x ∈ ([0x53, 0x61] : QByteArray), x ≠ 0) ∧
    elfHash ([0x53, 0x61] ++ [0] ++ [0x62]) = elfHash [0x53, 0x61] ∧
    elfHash [0x53, 0x61] = 1425 ∧
    msgHash { m_context := [0x43], m_sourcetext := [0x53], m_comment := [0x61, 0, 0x62],
              m_translations := [] }
      = msgHash { m_context := [0x43], m_sourcetext := [0x53, 0x61, 0], m_comment := [0x63],
                  m_translations := [] } :=
  have h := elfHash_stops_at_zero [0x53, 0x61] [0x62] (by decide)
  ⟨by decide, h.1, by decide,
    (h.2.2 { m_context := [0x43], m_sourcetext := [0x53], m_comment := [0x61, 0, 0x62],
             m_translations := [] }
      { m_context := [0x43], m_sourcetext := [0x53, 0x61, 0], m_comment := [0x63],
        m_translations := [] } [0x62] [0x63] rfl rfl).1⟩

/-! ## The block scan comes to an end -/

/-- C30: for every input that starts with the magic the block scan of `loadQM`
returns, with the same result for every fuel of at least the length of the
input. At every point that the scan comes to, the read position is inside the
input or at its end; when at most four bytes are left the scan ends there
without a read; when more are left the tag and the length are read inside the
input, and the iteration either stops the scan (tag 0, length 0, or a block
that passes the end of the input, which clears the flag) or accepts a payload
of at least one byte that ends inside the input and goes on right after it,
at least six bytes further. -/
theorem scan_terminates (env : Env) (translator : Translator) (ba : QByteArray)
    (hmagic : ¬ (ba.length < MagicLength ∨ ba.take MagicLength ≠ magic)) :
    (∃ s, ∀ fuel, ba.length ≤ fuel →
      scanLoop env ba fuel MagicLength (ScanState.init translator) = some s) ∧
    ∀ data st, ScanReach env ba MagicLength (ScanState.init translator) data st →
      data ≤ ba.length ∧
      (¬ data + 4 < ba.length → ∀ fuel, scanLoop env ba (fuel + 1) data st = some st) ∧
      (data + 4 < ba.length →
        ∃ tag blockLen, read8 ba data = some tag ∧ read32 ba (data + 1) = some blockLen ∧
          data + 5 ≤ ba.length ∧
          (((tag = 0 ∨ blockLen = 0) ∧ scanBlock env ba data st = some (.stop st)) ∨
           (data + 5 + blockLen > ba.length ∧
             scanBlock env ba data st = some (.stop { st with ok := false })) ∨
           (1 ≤ blockLen ∧ data + 5 + blockLen ≤ ba.length ∧ data + 6 ≤ data + 5 + blockLen ∧
             ∃ st', scanBlock env ba data st = some (.next (data + 5 + blockLen) st') ∧
               ScanReach env ba MagicLength (ScanState.init translator)
                 (data + 5 + blockLen) st'))) := by
  have hlen : MagicLength ≤ ba.length := by
    by_contra h
    exact hmagic (Or.inl (by omega))
  refine ⟨?_, ?_⟩
  · have h0 := scanLoop_blocks env ba ba.length MagicLength (ScanState.init translator) hlen
      (by simp [MagicLength])
    obtain ⟨s, hs⟩ : ∃ s, scanLoop env ba ba.length MagicLength (ScanState.init translator)
        = some s := ⟨_, h0⟩
    refine ⟨s, fun fuel hf => ?_⟩
    obtain ⟨j, rfl⟩ := Nat.exists_eq_add_of_le hf
    exact scanLoop_fuel_mono _ _ _ _ j hs
  · intro data st hreach
    have hd : data ≤ ba.length := hreach.le_length hlen
    refine ⟨hd, ?_, ?_⟩
    · intro hstop fuel
      simp only [scanLoop, if_neg hstop]
    · intro hgo
      obtain ⟨tag, htag⟩ := read8_isSome (show data < ba.length by omega)
      obtain ⟨blockLen, hbl⟩ := read32_isSome (show data + 1 + 3 < ba.length by omega)
      refine ⟨tag, blockLen, htag, hbl, by omega, ?_⟩
      have heq : scanBlock env ba data st = _ := scanBlock_eq htag hbl
      by_cases h1 : tag = 0 ∨ blockLen = 0
      · left
        rw [if_pos h1] at heq
        exact ⟨h1, heq⟩
      · rw [if_neg h1] at heq
        by_cases h2 : data + 5 + blockLen > ba.length
        · right; left
          rw [if_pos h2] at heq
          exact ⟨h2, heq⟩
        · right; right
          rw [if_neg h2] at heq
          have hb : 1 ≤ blockLen := by
            rcases Nat.eq_zero_or_pos blockLen with h | h
            · exact absurd (Or.inr h) h1
            · exact h
          refine ⟨hb, by omega, by omega, _, heq, ?_⟩
          exact hreach.follow (ScanReach.step hgo heq (ScanReach.refl _ _))

theorem scan_terminates_witness :
    ¬ (duplicateFile.length < MagicLength ∨ duplicateFile.take MagicLength ≠ magic) ∧
    (∃ s, ∀ fuel, duplicateFile.length ≤ fuel →
      scanLoop sampleEnv duplicateFile fuel MagicLength (ScanState.init Translator.empty)
        = some s) ∧
    scanLoop sampleEnv duplicateFile 5 MagicLength (ScanState.init Translator.empty)
      = some { messageArray := none, offsetArray := none, offsetLength := 0, ok := true,
               utf8Fail := false,
               translator :=
                { messages := [], languageCode := .str langJa, dependencies := [.str [0x42]] } } :=
  ⟨by decide,
   (scan_terminates sampleEnv Translator.empty duplicateFile (by decide)).1,
   by decide⟩

/-! ## The field groups written by `squeeze` -/

theorem writeMessage_eq_recordEncoding (msg : ByteTranslatorMessage) (mode : TranslatorSaveMode)
    (level : Nat) : writeMessage msg mode level = recordEncoding mode level msg := by
  unfold writeMessage recordEncoding translationFields writeFields fieldGroup byteField
    writeQByteArray
  cases mode
  · simp
  · simp only [reduceCtorEq, if_false]
    split_ifs <;> simp

theorem cpAfter_eq (it : ByteTranslatorMessage) (rest : List ByteTranslatorMessage) :
    cpAfter it rest = (rest.head?.map fun n => commonPrefix it n).getD 0 := by
  cases rest <;> rfl

theorem writtenRecords_encoded (mode : TranslatorSaveMode) (l : List ByteTranslatorMessage) :
    ∀ (prev : Option ByteTranslatorMessage) (pos cp : Nat),
      (∀ it, l.head? = some it → cp = (prev.map fun p => commonPrefix p it).getD 0) →
      (writtenRecords mode pos l cp).map (Written.bytes mode) = encodedRecords mode prev l := by
  induction l with
  | nil => intro prev pos cp _; rfl
  | cons it rest ih =>
    intro prev pos cp hcp
    simp only [writtenRecords, List.map_cons, encodedRecords, Written.bytes]
    rw [writeMessage_eq_recordEncoding, hcp it rfl, cpAfter_eq]
    congr 1
    rw [← cpAfter_eq]
    exact ih (some it) _ _ (fun it' h => by cases rest with
      | nil => simp at h
      | cons n ns => simp only [List.head?_cons, Option.some.injEq] at h; subst h; rfl)

/-- The message array that `squeeze` leaves. -/
theorem squeeze_messageArray (r r' : Releaser) (mode : TranslatorSaveMode)
    (hsq : r.squeeze mode = some r')
    (hfresh : r.m_messages ≠ [] ∨ mode = .SaveStripped ∨
      (r.m_offsetArray = [] ∧ r.m_messageArray = [])) :
    r'.m_messageArray = (encodedRecords mode none r.m_messages).flatten := by
  rw [(squeeze_arrays r r' mode hsq hfresh).1, List.flatMap_def,
    writtenRecords_encoded mode r.m_messages none 0 0 (fun _ _ => rfl)]

/-- C23: `squeeze` returns (in `SaveStripped` mode, when the size of the
context table is not zero) and leaves as message array the encodings of the
records of the map one after the other, each the Translation fields of the
record in order, then a field group, then the End tag. The level of a record
is the larger of the common prefix with its predecessor and of the common
prefix with its successor plus 1, 0 standing for a missing neighbour. In
`SaveEverything` mode the group is Comment, SourceText, Context at every
level; in `SaveStripped` mode it is Context at level `HashContext`,
SourceText, Context at level `HashContextSourceText`, and Comment, SourceText,
Context at every other level, `Hash` included. -/
theorem squeeze_field_groups (r : Releaser) (mode : TranslatorSaveMode)
    (hfresh : r.m_messages ≠ [] ∨ mode = .SaveStripped ∨
      (r.m_offsetArray = [] ∧ r.m_messageArray = []))
    (htable : mode = .SaveStripped → hTableSizeFor (contextSet r.m_messages).length ≠ 0) :
    (∃ r', r.squeeze mode = some r' ∧
      r'.m_messageArray = (encodedRecords mode none r.m_messages).flatten) ∧
    (∀ (level : Nat) (msg : ByteTranslatorMessage),
      writeMessage msg mode level
        = msg.m_translations.flatMap (fun t => Tag_Translation :: writeQString t)
          ++ fieldGroup mode level msg ++ [Tag_End]) ∧
    (∀ (level : Nat) (msg : ByteTranslatorMessage),
      fieldGroup .SaveEverything level msg
        = (Tag_Comment :: write32 msg.m_comment.length ++ msg.m_comment)
          ++ (Tag_SourceText :: write32 msg.m_sourcetext.length ++ msg.m_sourcetext)
          ++ (Tag_Context :: write32 msg.m_context.length ++ msg.m_context)) ∧
    (∀ msg : ByteTranslatorMessage,
      fieldGroup .SaveStripped HashContext msg
        = Tag_Context :: write32 msg.m_context.length ++ msg.m_context) ∧
    (∀ msg : ByteTranslatorMessage,
      fieldGroup .SaveStripped HashContextSourceText msg
        = (Tag_SourceText :: write32 msg.m_sourcetext.length ++ msg.m_sourcetext)
          ++ (Tag_Context :: write32 msg.m_context.length ++ msg.m_context)) ∧
    (∀ (level : Nat) (msg : ByteTranslatorMessage),
      level ≠ HashContext → level ≠ HashContextSourceText →
      fieldGroup .SaveStripped level msg
        = (Tag_Comment :: write32 msg.m_comment.length ++ msg.m_comment)
          ++ (Tag_SourceText :: write32 msg.m_sourcetext.length ++ msg.m_sourcetext)
          ++ (Tag_Context :: write32 msg.m_context.length ++ msg.m_context)) := by
  refine ⟨?_, ?_, ?_, ?_, ?_, ?_⟩
  · obtain ⟨r', hr'⟩ := squeeze_returns r mode htable
    exact ⟨r', hr', squeeze_messageArray r r' mode hr' hfresh⟩
  · intro level msg
    exact writeMessage_eq_recordEncoding msg mode level
  · intro level msg; rfl
  · intro msg; rfl
  · intro msg; rfl
  · intro level msg h1 h2
    simp only [fieldGroup, if_neg h1, if_neg h2, byteField]

theorem squeeze_field_groups_witness :
    (∃ r', collisionReleaser.squeeze .SaveStripped = some r' ∧
      r'.m_messageArray
        = (encodedRecords .SaveStripped none collisionReleaser.m_messages).flatten) ∧
    collisionReleaser.m_messages.map (fun m => (m.m_context, m.m_sourcetext, m.m_comment))
      = [([0x43], [0x53], []), ([0x43], [0x53], [0x61, 0x71]), ([0x43], [0x53], [0x62, 0x61])] ∧
    encodedRecords .SaveStripped none collisionReleaser.m_messages
      = [[3, 0, 0, 0, 2, 0, 0x54, 8, 0, 0, 0, 0, 6, 0, 0, 0, 1, 0x53, 7, 0, 0, 0, 1, 0x43, 1],
         [3, 0, 0, 0, 2, 0, 0x54, 8, 0, 0, 0, 2, 0x61, 0x71, 6, 0, 0, 0, 1, 0x53,
          7, 0, 0, 0, 1, 0x43, 1],
         [3, 0, 0, 0, 2, 0, 0x54, 6, 0, 0, 0, 1, 0x53, 7, 0, 0, 0, 1, 0x43, 1]] :=
  ⟨(squeeze_field_groups collisionReleaser .SaveStripped (Or.inr (Or.inl rfl))
      (fun _ => by decide)).1, by decide, by decide⟩

/-! ## Fields shared with a neighbour -/

theorem encodedRecords_split (mode : TranslatorSaveMode) (it : ByteTranslatorMessage)
    (post : List ByteTranslatorMessage) (pre : List ByteTranslatorMessage) :
    ∀ prev : Option ByteTranslatorMessage,
      ∃ before after : List QByteArray,
        before.length = pre.length ∧ after.length = post.length ∧
        encodedRecords mode prev (pre ++ it :: post)
          = before ++ recordEncoding mode
              (neighbourLevel (match pre.getLast? with | some p => some p | none => prev) it
                post.head?) it :: after := by
  induction pre with
  | nil =>
    intro prev
    refine ⟨[], encodedRecords mode (some it) post, rfl, ?_, rfl⟩
    clear prev
    induction post generalizing it with
    | nil => rfl
    | cons n ns ih => simp only [encodedRecords, List.length_cons, ih]
  | cons p ps ih =>
    intro prev
    obtain ⟨before, after, hb, ha, h⟩ := ih (some p)
    have hm : (match (p :: ps).getLast? with | some p => some p | none => prev)
        = (match ps.getLast? with | some x => some x | none => some p) := by
      cases ps with
      | nil => rfl
      | cons q qs =>
        rw [List.getLast?_cons_cons]
        cases h' : (q :: qs).getLast? with
        | none => simp at h'
        | some x => rfl
    refine ⟨recordEncoding mode (neighbourLevel prev p (ps ++ it :: post).head?) p :: before,
      after, by simp [hb], ha, ?_⟩
    rw [hm, List.cons_append, encodedRecords, h]
    rfl

theorem commonPrefix_shared {m1 m2 : ByteTranslatorMessage} (hh : msgHash m1 = msgHash m2)
    (hc : m1.m_context = m2.m_context) (hs : m1.m_sourcetext = m2.m_sourcetext) :
    commonPrefix m1 m2 = (if m1.m_comment ≠ m2.m_comment then HashContextSourceText
      else HashContextSourceTextComment) := by
  unfold commonPrefix
  rw [if_neg (by simpa using hh), if_neg (by simpa using hc), if_neg (by simpa using hs)]

theorem commonPrefix_lt_of_not_shared {m1 m2 : ByteTranslatorMessage}
    (h : ¬ (msgHash m1 = msgHash m2 ∧ m1.m_context = m2.m_context ∧
      m1.m_sourcetext = m2.m_sourcetext)) :
    commonPrefix m1 m2 < HashContextSourceText := by
  unfold commonPrefix
  split_ifs with h1 h2 h3 h4
  · decide
  · decide
  · decide
  · exact absurd ⟨not_not.mp h1, not_not.mp h2, not_not.mp h3⟩ h
  · exact absurd ⟨not_not.mp h1, not_not.mp h2, not_not.mp h3⟩ h

/-- C22, as amended: in `SaveStripped` mode `squeeze` returns (when the size
of the context table is not zero) and the message array holds, after the
encodings of the records before it and before those of the records after it,
the encoding of every record of the map at the level its neighbours give it.
This encoding always ends with the Context field and the End tag. For a record
that shares the hash, the context and the source text with its successor it is
the Translation fields, Comment, SourceText, Context and End: nothing is left
out. For a record that shares them with its predecessor, from which it differs
in the comment, and not with its successor, it is the Translation fields,
SourceText, Context and End: the comment is left out, the shared fields are
written. -/
theorem shared_fields_written (r : Releaser) (pre post : List ByteTranslatorMessage)
    (it : ByteTranslatorMessage) (hmsgs : r.m_messages = pre ++ it :: post)
    (htable : hTableSizeFor (contextSet r.m_messages).length ≠ 0) :
    ∃ (r' : Releaser) (before after : List QByteArray),
      r.squeeze .SaveStripped = some r' ∧
      before.length = pre.length ∧ after.length = post.length ∧
      r'.m_messageArray
        = before.flatten
          ++ recordEncoding .SaveStripped (neighbourLevel pre.getLast? it post.head?) it
          ++ after.flatten ∧
      (∃ front, recordEncoding .SaveStripped (neighbourLevel pre.getLast? it post.head?) it
        = front ++ byteField Tag_Context it.m_context ++ [Tag_End]) ∧
      (∀ n, post.head? = some n → msgHash it = msgHash n → it.m_context = n.m_context →
        it.m_sourcetext = n.m_sourcetext →
        recordEncoding .SaveStripped (neighbourLevel pre.getLast? it post.head?) it
          = translationFields it ++ byteField Tag_Comment it.m_comment
            ++ byteField Tag_SourceText it.m_sourcetext ++ byteField Tag_Context it.m_context
            ++ [Tag_End]) ∧
      (∀ p, pre.getLast? = some p → msgHash p = msgHash it → p.m_context = it.m_context →
        p.m_sourcetext = it.m_sourcetext → p.m_comment ≠ it.m_comment →
        (∀ n, post.head? = some n → ¬ (msgHash it = msgHash n ∧ it.m_context = n.m_context ∧
          it.m_sourcetext = n.m_sourcetext)) →
        recordEncoding .SaveStripped (neighbourLevel pre.getLast? it post.head?) it
          = translationFields it ++ byteField Tag_SourceText it.m_sourcetext
            ++ byteField Tag_Context it.m_context ++ [Tag_End]) := by
  obtain ⟨r', hr'⟩ := squeeze_returns r .SaveStripped (fun _ => htable)
  obtain ⟨before, after, hb, ha, hsplit⟩ := encodedRecords_split .SaveStripped it post pre none
  have hlast : (match pre.getLast? with | some p => some p | none => none) = pre.getLast? := by
    cases pre.getLast? <;> rfl
  rw [hlast] at hsplit
  refine ⟨r', before, after, hr', hb, ha, ?_, ?_, ?_, ?_⟩
  · rw [squeeze_messageArray r r' .SaveStripped hr' (Or.inr (Or.inl rfl)), hmsgs, hsplit]
    simp
  · simp only [recordEncoding, fieldGroup]
    split_ifs
    · exact ⟨translationFields it, rfl⟩
    · exact ⟨translationFields it ++ byteField Tag_SourceText it.m_sourcetext, by simp⟩
    · exact ⟨translationFields it ++ byteField Tag_Comment it.m_comment
        ++ byteField Tag_SourceText it.m_sourcetext, by simp⟩
  · intro n hn hh hc hs
    have hcp := commonPrefix_shared hh hc hs
    have hL : HashContextSourceTextComment ≤ neighbourLevel pre.getLast? it post.head? := by
      unfold neighbourLevel
      rw [hn]
      simp only [Option.map_some', Option.getD_some, hcp]
      split_ifs <;> simp
    simp only [recordEncoding, fieldGroup]
    rw [if_neg (by simp only [HashContext, HashContextSourceTextComment] at *; omega),
      if_neg (by simp only [HashContextSourceText, HashContextSourceTextComment] at *; omega)]
    simp
  · intro p hp hh hc hs hcm hnext
    have hcp := commonPrefix_shared hh hc hs
    rw [if_pos hcm] at hcp
    have hL : neighbourLevel pre.getLast? it post.head? = HashContextSourceText := by
      unfold neighbourLevel
      rw [hp]
      simp only [Option.map_some', Option.getD_some, hcp]
      cases hpost : post.head? with
      | none => simp
      | some n =>
        have := commonPrefix_lt_of_not_shared (hnext n hpost)
        simp only [Option.map_some', Option.getD_some]
        simp only [HashContextSourceText] at *
        omega
    simp only [recordEncoding, fieldGroup, hL]
    simp

/-- C22 does not hold as stated: the second and the third record of
`collisionReleaser` share the hash, the context "C" and the source text "S";
squeezed in `SaveStripped` mode, the second is written with Comment,
SourceText and Context, the third with SourceText and Context. -/
theorem shared_fields_not_omitted :
    collisionReleaser.m_messages
      = [collisionRecord [], collisionRecord [0x61, 0x71], collisionRecord [0x62, 0x61]] ∧
    msgHash (collisionRecord [0x61, 0x71]) = msgHash (collisionRecord [0x62, 0x61]) ∧
    (collisionReleaser.squeeze .SaveStripped).map (fun r => r.m_messageArray)
      = some
         ([3, 0, 0, 0, 2, 0, 0x54, 8, 0, 0, 0, 0, 6, 0, 0, 0, 1, 0x53, 7, 0, 0, 0, 1, 0x43, 1]
          ++ [3, 0, 0, 0, 2, 0, 0x54, 8, 0, 0, 0, 2, 0x61, 0x71, 6, 0, 0, 0, 1, 0x53,
              7, 0, 0, 0, 1, 0x43, 1]
          ++ [3, 0, 0, 0, 2, 0, 0x54, 6, 0, 0, 0, 1, 0x53, 7, 0, 0, 0, 1, 0x43, 1]) := by
  decide

theorem shared_fields_written_witness :
    collisionReleaser.m_messages
      = [collisionRecord [], collisionRecord [0x61, 0x71]] ++ collisionRecord [0x62, 0x61] :: [] ∧
    hTableSizeFor (contextSet collisionReleaser.m_messages).length ≠ 0 ∧
    ∃ (r' : Releaser) (before after : List QByteArray),
      collisionReleaser.squeeze .SaveStripped = some r' ∧
      before.length = 2 ∧ after.length = 0 ∧
      r'.m_messageArray
        = before.flatten
          ++ recordEncoding .SaveStripped
              (neighbourLevel (some (collisionRecord [0x61, 0x71])) (collisionRecord [0x62, 0x61])
                none) (collisionRecord [0x62, 0x61])
          ++ after.flatten ∧
      recordEncoding .SaveStripped
          (neighbourLevel (some (collisionRecord [0x61, 0x71])) (collisionRecord [0x62, 0x61])
            none) (collisionRecord [0x62, 0x61])
        = [3, 0, 0, 0, 2, 0, 0x54, 6, 0, 0, 0, 1, 0x53, 7, 0, 0, 0, 1, 0x43, 1] :=
  ⟨by decide, by decide,
    (shared_fields_written collisionReleaser
      [collisionRecord [], collisionRecord [0x61, 0x71]] [] (collisionRecord [0x62, 0x61])
      (by decide) (by decide)).elim fun r' h => h.elim fun before h => h.elim fun after h =>
        ⟨r', before, after, h.1, h.2.1, h.2.2.1, h.2.2.2.1, by decide⟩⟩

/-! ## The buckets of the context table -/

theorem poolEntry_length (c : QByteArray) : (poolEntry c).length = 1 + min c.length 255 := by
  unfold poolEntry
  simp only [List.length_cons, List.length_take]
  omega

theorem bucketsOf_cons (e : Nat × QByteArray) (l : List (Nat × QByteArray)) :
    bucketsOf (e :: l) = addToBuckets e (bucketsOf l) := rfl

theorem bucketsOf_cons_head (k : Nat) (c : QByteArray) (l : List (Nat × QByteArray)) :
    ∃ cs bs, bucketsOf ((k, c) :: l) = ⟨k, c :: cs⟩ :: bs := by
  rw [bucketsOf_cons]
  cases h : bucketsOf l with
  | nil => exact ⟨[], [], rfl⟩
  | cons b bs =>
    simp only [addToBuckets]
    split_ifs with hb
    · exact ⟨b.contexts, bs, by rw [hb]⟩
    · exact ⟨[], b :: bs, rfl⟩

/-- The inner loop of `squeeze` takes the run of items with the index of the
bucket. -/
theorem bucketRest_buckets (i : Nat) (rest : List (Nat × QByteArray)) :
    ∀ (c : QByteArray) (upto : Nat) (pool : QByteArray),
      ∃ run : List QByteArray,
        bucketsOf ((i, c) :: rest) = ⟨i, c :: run⟩ :: bucketsOf (bucketRest i rest upto pool).1 ∧
        (bucketRest i rest upto pool).2.1 = upto + (run.flatMap poolEntry).length ∧
        (bucketRest i rest upto pool).2.2 = pool ++ run.flatMap poolEntry ∧
        (bucketRest i rest upto pool).1.length ≤ rest.length := by
  induction rest with
  | nil =>
    intro c upto pool
    exact ⟨[], rfl, by simp [bucketRest], by simp [bucketRest], by simp [bucketRest]⟩
  | cons e rest ih =>
    intro c upto pool
    obtain ⟨k, c'⟩ := e
    by_cases hk : k = i
    · subst hk
      obtain ⟨run, h1, h2, h3, h4⟩ := ih c' (upto + 1 + min c'.length 255) (pool ++ poolEntry c')
      refine ⟨c' :: run, ?_, ?_, ?_, ?_⟩
      · simp only [bucketRest, if_true]
        rw [bucketsOf_cons, h1]
        simp [addToBuckets]
      · simp only [bucketRest, if_true, h2, List.flatMap_cons, List.length_append,
          poolEntry_length]
        omega
      · simp only [bucketRest, if_true, h3, List.flatMap_cons, List.append_assoc]
      · simp only [bucketRest, if_true, List.length_cons]
        omega
    · refine ⟨[], ?_, ?_, ?_, ?_⟩
      · simp only [bucketRest, if_neg hk]
        rw [bucketsOf_cons]
        obtain ⟨cs, bs, hb⟩ := bucketsOf_cons_head k c' rest
        rw [hb]
        simp only [addToBuckets, if_neg hk]
      · simp [bucketRest, hk]
      · simp [bucketRest, hk]
      · simp [bucketRest, hk]

/-- The loop over the buckets (lines 354-372) from an even value of `upto`:
the table, the final `upto` and the pool in terms of the buckets. -/
theorem poolLoop_buckets (fuel : Nat) :
    ∀ (hm : List (Nat × QByteArray)) (hTable : List Nat) (upto : Nat) (pool : QByteArray),
      hm.length ≤ fuel → upto % 2 = 0 →
      poolLoop fuel hm hTable upto pool
        = (tableOf (bucketsOf hm) upto hTable,
           upto + ((bucketsOf hm).flatMap Bucket.bytes).length,
           pool ++ (bucketsOf hm).flatMap Bucket.bytes) := by
  induction fuel with
  | zero =>
    intro hm hTable upto pool hlen _
    have : hm = [] := List.length_eq_zero.mp (by omega)
    subst this
    simp [poolLoop, bucketsOf, tableOf]
  | succ fuel ih =>
    intro hm hTable upto pool hlen heven
    cases hm with
    | nil => simp [poolLoop, bucketsOf, tableOf]
    | cons e rest =>
      obtain ⟨i, c⟩ := e
      obtain ⟨run, h1, h2, h3, h4⟩ :=
        bucketRest_buckets i rest c (upto + 1 + min c.length 255) (pool ++ poolEntry c)
      have hent : (Bucket.entries ⟨i, c :: run⟩).length
          = 1 + min c.length 255 + (run.flatMap poolEntry).length := by
        simp only [Bucket.entries, List.flatMap_cons, List.length_append, poolEntry_length]
      have hentries : Bucket.entries ⟨i, c :: run⟩ = poolEntry c ++ run.flatMap poolEntry := by
        simp only [Bucket.entries, List.flatMap_cons]
      simp only [List.length_cons] at hlen
      simp only [poolLoop]
      rw [h1]
      simp only [List.flatMap_cons, tableOf, List.length_append]
      split_ifs with hodd
      · have hb : Bucket.bytes ⟨i, c :: run⟩ = Bucket.entries ⟨i, c :: run⟩ ++ [0] := by
          unfold Bucket.bytes
          rw [if_pos (by rw [hent]; rw [h2] at hodd; omega)]
        rw [ih _ _ _ _ (by omega) (by omega), hb, h2, h3, hentries]
        simp only [List.length_append, List.length_singleton, poolEntry_length,
          List.append_assoc, Prod.mk.injEq]
        refine ⟨?_, ?_, ?_⟩
        · congr 1
          omega
        · omega
        · simp
      · have hb : Bucket.bytes ⟨i, c :: run⟩ = Bucket.entries ⟨i, c :: run⟩ := by
          unfold Bucket.bytes
          rw [if_neg (by rw [hent]; rw [h2] at hodd; omega)]
        rw [ih _ _ _ _ (by omega) (by omega), hb, h2, h3, hentries]
        simp only [List.length_append, poolEntry_length, List.append_assoc, Prod.mk.injEq]
        refine ⟨?_, ?_, ?_⟩
        · congr 1
          omega
        · omega
        · trivial

/-- The context array that `squeeze` builds, in terms of the buckets. -/
theorem buildContextArray_buckets (messages : List ByteTranslatorMessage) :
    buildContextArray messages
      = if tableSize messages = 0 then none
        else if 2 + (contextPool messages).length > 131072 then some []
        else some (write16 (tableSize messages)
          ++ (tableOf (contextBuckets messages) 2
                (List.replicate (tableSize messages) 0)).flatMap write16
          ++ [0, 0] ++ contextPool messages) := by
  have h := poolLoop_buckets
    (contextHashMap (contextSet messages) (tableSize messages)).length
    (contextHashMap (contextSet messages) (tableSize messages))
    (List.replicate (tableSize messages) 0) 2 [] (le_refl _) (by decide)
  show (if tableSize messages = 0 then none
    else if (poolLoop (contextHashMap (contextSet messages) (tableSize messages)).length
        (contextHashMap (contextSet messages) (tableSize messages))
        (List.replicate (tableSize messages) 0) 2 []).2.1 > 131072 then some []
    else some (write16 (tableSize messages)
      ++ (poolLoop (contextHashMap (contextSet messages) (tableSize messages)).length
        (contextHashMap (contextSet messages) (tableSize messages))
        (List.replicate (tableSize messages) 0) 2 []).1.flatMap write16
      ++ [0, 0]
      ++ (poolLoop (contextHashMap (contextSet messages) (tableSize messages)).length
        (contextHashMap (contextSet messages) (tableSize messages))
        (List.replicate (tableSize messages) 0) 2 []).2.2)) = _
  rw [h]
  simp only [List.nil_append]
  rfl

theorem tableOf_length (bs : List Bucket) :
    ∀ (upto : Nat) (t : List Nat), (tableOf bs upto t).length = t.length := by
  induction bs with
  | nil => intro upto t; rfl
  | cons b bs ih => intro upto t; simp only [tableOf, ih, List.length_set]

/-- The entry of an index that no bucket has is left as it was. -/
theorem tableOf_other (i : Nat) (bs : List Bucket) :
    ∀ (upto : Nat) (t : List Nat), (∀ b ∈ bs, b.index ≠ i) →
      (tableOf bs upto t)[i]? = t[i]? := by
  induction bs with
  | nil => intro upto t _; rfl
  | cons b bs ih =>
    intro upto t h
    simp only [tableOf]
    rw [ih _ _ (fun b' hb' => h b' (List.mem_cons_of_mem _ hb'))]
    exact List.getElem?_set_ne (h b (List.mem_cons_self _ _))

/-- The entry of a bucket is half the pool offset at which the bucket begins,
in 16 bits. -/
theorem tableOf_bucket (pre : List Bucket) (b : Bucket) (post : List Bucket) :
    ∀ (upto : Nat) (t : List Nat),
      (pre ++ b :: post).Pairwise (fun x y => x.index < y.index) → b.index < t.length →
      (tableOf (pre ++ b :: post) upto t)[b.index]?
        = some (((upto + (pre.flatMap Bucket.bytes).length) / 2) % 65536) := by
  induction pre with
  | nil =>
    intro upto t hs hb
    simp only [List.nil_append, tableOf, List.flatMap_nil, List.length_nil, Nat.add_zero]
    rw [tableOf_other]
    · rw [List.getElem?_set_self (by simpa using hb)]
    · intro b' hb'
      have := (List.pairwise_cons.mp hs).1 b' hb'
      omega
  | cons p ps ih =>
    intro upto t hs hb
    have h := ih (upto + p.bytes.length) (t.set p.index (upto / 2 % 65536))
      (List.pairwise_cons.mp hs).2 (by simpa using hb)
    simp only [List.cons_append, tableOf, List.flatMap_cons, List.length_append]
    refine h.trans ?_
    rw [Nat.add_assoc]

theorem qmultimapInsert_perm {β : Type} (k : Nat) (v : β) (l : List (Nat × β)) :
    (qmultimapInsert k v l).Perm ((k, v) :: l) := by
  induction l with
  | nil => exact List.Perm.refl _
  | cons x xs ih =>
    simp only [qmultimapInsert]
    split_ifs
    · exact (List.Perm.cons x ih).trans (List.Perm.swap _ _ _)
    · exact List.Perm.refl _

theorem qmultimapInsert_sorted {β : Type} (k : Nat) (v : β) (l : List (Nat × β))
    (hs : l.Pairwise (fun a b => a.1 ≤ b.1)) :
    (qmultimapInsert k v l).Pairwise (fun a b => a.1 ≤ b.1) := by
  induction l with
  | nil => simp [qmultimapInsert]
  | cons x xs ih =>
    simp only [qmultimapInsert]
    split_ifs with h
    · refine List.pairwise_cons.mpr ⟨?_, ih (List.pairwise_cons.mp hs).2⟩
      intro z hz
      rcases List.mem_cons.mp ((qmultimapInsert_perm k v xs).mem_iff.mp hz) with rfl | hz
      · exact Nat.le_of_lt h
      · exact (List.pairwise_cons.mp hs).1 z hz
    · refine List.pairwise_cons.mpr ⟨?_, hs⟩
      intro z hz
      rcases List.mem_cons.mp hz with rfl | hz
      · simpa using h
      · have := (List.pairwise_cons.mp hs).1 z hz
        simp only [not_lt] at h
        exact le_trans h this

/-- The hash map holds every context once, under its bucket index, in
ascending order of the index. -/
theorem contextHashMap_spec (size : Nat) (contexts : List QByteArray) :
    (contextHashMap contexts size).Perm (contexts.map fun c => (elfHash c % size, c)) ∧
    (contextHashMap contexts size).Pairwise (fun a b => a.1 ≤ b.1) := by
  unfold contextHashMap
  have key : ∀ (cs : List QByteArray) (acc : List (Nat × QByteArray)),
      acc.Pairwise (fun a b => a.1 ≤ b.1) →
      (cs.foldl (fun hm c => qmultimapInsert (elfHash c % size) c hm) acc).Perm
          (acc ++ cs.map fun c => (elfHash c % size, c)) ∧
      (cs.foldl (fun hm c => qmultimapInsert (elfHash c % size) c hm) acc).Pairwise
          (fun a b => a.1 ≤ b.1) := by
    intro cs
    induction cs with
    | nil => intro acc hacc; simpa using hacc
    | cons c cs ih =>
      intro acc hacc
      obtain ⟨h1, h2⟩ := ih (qmultimapInsert (elfHash c % size) c acc)
        (qmultimapInsert_sorted _ _ _ hacc)
      refine ⟨?_, h2⟩
      rw [List.foldl_cons]
      refine h1.trans ?_
      rw [List.map_cons]
      refine ((qmultimapInsert_perm _ _ acc).append_right _).trans ?_
      simp only [List.cons_append]
      exact List.perm_middle.symm
  simpa using key contexts [] List.Pairwise.nil

theorem bucketsOf_contexts (hm : List (Nat × QByteArray)) :
    (bucketsOf hm).flatMap (fun b => b.contexts) = hm.map Prod.snd := by
  induction hm with
  | nil => rfl
  | cons e l ih =>
    rw [bucketsOf_cons, List.map_cons, ← ih]
    cases bucketsOf l with
    | nil => rfl
    | cons b bs =>
      simp only [addToBuckets]
      split_ifs <;> simp

theorem bucketsOf_mem (hm : List (Nat × QByteArray)) :
    ∀ b ∈ bucketsOf hm, b.contexts ≠ [] ∧ ∀ c ∈ b.contexts, (b.index, c) ∈ hm := by
  induction hm with
  | nil => intro b hb; simp [bucketsOf] at hb
  | cons e l ih =>
    intro b hb
    rw [bucketsOf_cons] at hb
    cases hl : bucketsOf l with
    | nil =>
      rw [hl] at hb
      simp only [addToBuckets, List.mem_singleton] at hb
      subst hb
      simp
    | cons b0 bs =>
      rw [hl] at hb ih
      simp only [addToBuckets] at hb
      split_ifs at hb with h0
      · rcases List.mem_cons.mp hb with rfl | hb
        · refine ⟨by simp, ?_⟩
          intro c hc
          rcases List.mem_cons.mp hc with rfl | hc
          · simp [h0]
          · exact List.mem_cons_of_mem _ ((ih b0 (List.mem_cons_self _ _)).2 c hc)
        · obtain ⟨h1, h2⟩ := ih b (List.mem_cons_of_mem _ hb)
          exact ⟨h1, fun c hc => List.mem_cons_of_mem _ (h2 c hc)⟩
      · rcases List.mem_cons.mp hb with rfl | hb
        · simp
        · obtain ⟨h1, h2⟩ := ih b hb
          exact ⟨h1, fun c hc => List.mem_cons_of_mem _ (h2 c hc)⟩

/-- The indices of the buckets of a sorted hash map go up. -/
theorem bucketsOf_sorted (hm : List (Nat × QByteArray))
    (hs : hm.Pairwise (fun a b => a.1 ≤ b.1)) :
    (bucketsOf hm).Pairwise (fun a b => a.index < b.index) := by
  induction hm with
  | nil => simp [bucketsOf]
  | cons e l ih =>
    have ihl := ih (List.pairwise_cons.mp hs).2
    have hge : ∀ b ∈ bucketsOf l, e.1 ≤ b.index := by
      intro b hb
      obtain ⟨hne, hmem⟩ := bucketsOf_mem l b hb
      obtain ⟨c, hc⟩ := List.exists_mem_of_ne_nil _ hne
      exact (List.pairwise_cons.mp hs).1 _ (hmem c hc)
    rw [bucketsOf_cons]
    cases hl : bucketsOf l with
    | nil => simp [addToBuckets]
    | cons b0 bs =>
      rw [hl] at ihl hge
      simp only [addToBuckets]
      split_ifs with h0
      · exact List.pairwise_cons.mpr ⟨(List.pairwise_cons.mp ihl).1, (List.pairwise_cons.mp ihl).2⟩
      · refine List.pairwise_cons.mpr ⟨?_, ihl⟩
        intro b hb
        have h1 := hge b hb
        rcases List.mem_cons.mp hb with rfl | hb'
        · exact lt_of_le_of_ne h1 (fun h => h0 h.symm)
        · have h2 := (List.pairwise_cons.mp ihl).1 b hb'
          have h3 := hge b0 (List.mem_cons_self _ _)
          show e.1 < b.index
          omega

theorem contextSet_sorted (messages : List ByteTranslatorMessage) :
    (contextSet messages).Pairwise (fun a b => qbaLt a b = true) := by
  have h := foldl_qmapInsert_sorted qbaLt qbaLt_trans (messages.map fun m => m.m_context) []
    List.Pairwise.nil
  rw [List.foldl_map] at h
  exact h

theorem contextSet_nodup (messages : List ByteTranslatorMessage) :
    (contextSet messages).Nodup :=
  (contextSet_sorted messages).imp (fun h => qbaLt_ne h)

theorem mem_contextSet (messages : List ByteTranslatorMessage) (c : QByteArray) :
    c ∈ contextSet messages ↔ ∃ m ∈ messages, m.m_context = c := by
  unfold contextSet
  have key : ∀ (ms : List ByteTranslatorMessage) (acc : List QByteArray),
      c ∈ ms.foldl (fun set m => qmapInsert qbaLt m.m_context set) acc
        ↔ c ∈ acc ∨ ∃ m ∈ ms, m.m_context = c := by
    intro ms
    induction ms with
    | nil => intro acc; simp
    | cons m ms ih =>
      intro acc
      rw [List.foldl_cons, ih]
      constructor
      · rintro (h | ⟨m', hm', h⟩)
        · rcases mem_qmapInsert qbaLt _ _ _ h with h | h
          · exact Or.inr ⟨m, List.mem_cons_self _ _, h.symm⟩
          · exact Or.inl h
        · exact Or.inr ⟨m', List.mem_cons_of_mem _ hm', h⟩
      · rintro (h | ⟨m', hm', h⟩)
        · exact Or.inl (mem_qmapInsert_of_mem qbaLt _ _ _ h)
        · rcases List.mem_cons.mp hm' with rfl | hm'
          · left
            obtain ⟨x, hx, hx'⟩ := qmapInsert_has qbaLt m'.m_context acc
            subst h
            rcases hx' with hxe | ⟨h1, h2⟩
            · exact hxe ▸ hx
            · by_cases hne : x = m'.m_context
              · exact hne ▸ hx
              · rcases qbaLt_total x m'.m_context hne with h3 | h3
                · rw [h1] at h3; exact absurd h3 (by simp)
                · rw [h2] at h3; exact absurd h3 (by simp)
          · exact Or.inr ⟨m', hm', h⟩
  simpa using key messages []

/-- When the contexts of the records are pairwise different the context set
holds as many contexts as there are records. -/
theorem contextSet_perm (messages : List ByteTranslatorMessage)
    (h : (messages.map fun m => m.m_context).Nodup) :
    (contextSet messages).Perm (messages.map fun m => m.m_context) := by
  unfold contextSet
  rw [← List.foldl_map (fun m : ByteTranslatorMessage => m.m_context)
    (fun set c => qmapInsert qbaLt c set)]
  have := foldl_qmapInsert_perm qbaLt (messages.map fun m => m.m_context) []
    (by
      rw [List.nil_append]
      exact h.imp (fun hne => qbaLt_total _ _ hne))
  simpa using this

/-- The buckets hold every context of the records once, each in the bucket of
its hash, and their indices go up. -/
theorem contextBuckets_spec (messages : List ByteTranslatorMessage) :
    ((contextBuckets messages).flatMap fun b => b.contexts).Perm (contextSet messages) ∧
    (contextBuckets messages).Pairwise (fun a b => a.index < b.index) ∧
    ∀ b ∈ contextBuckets messages, b.contexts ≠ [] ∧
      ∀ c ∈ b.contexts, c ∈ contextSet messages ∧ b.index = elfHash c % tableSize messages := by
  obtain ⟨hperm, hsorted⟩ := contextHashMap_spec (tableSize messages) (contextSet messages)
  refine ⟨?_, bucketsOf_sorted _ hsorted, ?_⟩
  · unfold contextBuckets
    rw [bucketsOf_contexts]
    have := hperm.map Prod.snd
    simpa [List.map_map, Function.comp_def] using this
  · intro b hb
    obtain ⟨hne, hmem⟩ := bucketsOf_mem _ b hb
    refine ⟨hne, fun c hc => ?_⟩
    have := hperm.mem_iff.mp (hmem c hc)
    obtain ⟨c', hc', he⟩ := List.mem_map.mp this
    simp only [Prod.mk.injEq] at he
    obtain ⟨h1, rfl⟩ := he
    exact ⟨hc', h1.symm⟩

/-! ## The layout of the context array -/

theorem squeeze_contextArray {r r' : Releaser} (h : r.squeeze .SaveStripped = some r') :
    buildContextArray r.m_messages = some r'.m_contextArray := by
  unfold Releaser.squeeze at h
  dsimp only at h
  rw [if_neg (by simp), if_pos rfl] at h
  obtain ⟨c, hc, h⟩ := Option.map_eq_some'.mp h
  subst h
  exact hc

theorem Bucket.bytes_even (b : Bucket) : b.bytes.length % 2 = 0 := by
  unfold Bucket.bytes
  split_ifs with h
  · simp only [List.length_append, List.length_singleton]
    omega
  · omega

theorem Bucket.bytes_eq (b : Bucket) :
    ∃ pad, b.bytes = b.entries ++ pad ∧ (pad = [] ∨ pad = [0]) := by
  unfold Bucket.bytes
  split_ifs
  · exact ⟨[0], rfl, Or.inr rfl⟩
  · exact ⟨[], by simp, Or.inl rfl⟩

theorem Bucket.entries_pos (b : Bucket) (h : b.contexts ≠ []) : 0 < b.entries.length := by
  unfold Bucket.entries
  cases hc : b.contexts with
  | nil => exact absurd hc h
  | cons c cs =>
    simp only [List.flatMap_cons, List.length_append, poolEntry_length]
    omega

theorem flatMap_bytes_even (bs : List Bucket) : (bs.flatMap Bucket.bytes).length % 2 = 0 := by
  induction bs with
  | nil => rfl
  | cons b bs ih =>
    have := b.bytes_even
    simp only [List.flatMap_cons, List.length_append]
    omega

theorem length_flatMap_write16 (t : List Nat) : (t.flatMap write16).length = 2 * t.length := by
  induction t with
  | nil => rfl
  | cons v vs ih => simp only [List.flatMap_cons, List.length_append, ih, write16,
      List.length_cons, List.length_nil]; omega

theorem flatMap_write16_getElem (t : List Nat) :
    ∀ (i v : Nat), t[i]? = some v →
      (t.flatMap write16)[2 * i]? = some (toByte (v / 256)) ∧
      (t.flatMap write16)[2 * i + 1]? = some (toByte v) := by
  induction t with
  | nil => intro i v h; simp at h
  | cons x xs ih =>
    intro i v h
    cases i with
    | zero =>
      simp only [List.getElem?_cons_zero, Option.some.injEq] at h
      subst h
      simp [write16]
    | succ i =>
      simp only [List.getElem?_cons_succ] at h
      obtain ⟨h1, h2⟩ := ih i v h
      simp only [List.flatMap_cons, write16, List.cons_append, List.nil_append]
      have e1 : 2 * (i + 1) = 2 * i + 1 + 1 := by omega
      rw [e1]
      simp only [List.getElem?_cons_succ]
      exact ⟨h1, h2⟩

theorem tableOf_lt (bs : List Bucket) :
    ∀ (upto : Nat) (t : List Nat), (∀ v ∈ t, v < 65536) →
      ∀ v ∈ tableOf bs upto t, v < 65536 := by
  induction bs with
  | nil => intro upto t h; exact h
  | cons b bs ih =>
    intro upto t h
    simp only [tableOf]
    apply ih
    intro v hv
    rcases List.mem_or_eq_of_mem_set hv with hv | hv
    · exact h v hv
    · subst hv
      exact Nat.mod_lt _ (by decide)

/-- The entry `hTable[i]` read from a context array that holds the table
`t`. -/
theorem tableEntry_of_table (size : Nat) (t : List Nat) (rest : QByteArray) (i v : Nat)
    (h : t[i]? = some v) (hv : v < 65536) :
    tableEntry (write16 size ++ t.flatMap write16 ++ rest) i = some v := by
  obtain ⟨h1, h2⟩ := flatMap_write16_getElem t i v h
  have hi : i < t.length := by
    rcases List.getElem?_eq_some_iff.mp h with ⟨hi, _⟩
    exact hi
  have hlen := length_flatMap_write16 t
  unfold tableEntry
  have e1 : (write16 size ++ t.flatMap write16 ++ rest)[2 + 2 * i]? = some (toByte (v / 256)) := by
    rw [List.append_assoc, show write16 size = [toByte (size / 256), toByte size] from rfl]
    simp only [List.cons_append, List.nil_append]
    rw [show 2 + 2 * i = 2 * i + 1 + 1 by omega]
    simp only [List.getElem?_cons_succ]
    rw [List.getElem?_append_left (by omega)]
    exact h1
  have e2 : (write16 size ++ t.flatMap write16 ++ rest)[2 + 2 * i + 1]?
      = some (toByte v) := by
    rw [List.append_assoc, show write16 size = [toByte (size / 256), toByte size] from rfl]
    simp only [List.cons_append, List.nil_append]
    rw [show 2 + 2 * i + 1 = 2 * i + 1 + 1 + 1 by omega]
    simp only [List.getElem?_cons_succ]
    rw [List.getElem?_append_left (by omega)]
    exact h2
  rw [e1, e2]
  simp only [toByte, Option.some.injEq]
  omega

/-- The context array that `squeeze` leaves in `SaveStripped` mode. -/
theorem squeeze_contextArray_eq {r r' : Releaser} (h : r.squeeze .SaveStripped = some r') :
    tableSize r.m_messages ≠ 0 ∧
    r'.m_contextArray
      = if 2 + (contextPool r.m_messages).length > 131072 then []
        else write16 (tableSize r.m_messages)
          ++ (tableOf (contextBuckets r.m_messages) 2
                (List.replicate (tableSize r.m_messages) 0)).flatMap write16
          ++ [0, 0] ++ contextPool r.m_messages := by
  have h1 := squeeze_contextArray h
  rw [buildContextArray_buckets] at h1
  split_ifs at h1 with h0 hp
  · simp only [Option.some.injEq] at h1
    exact ⟨h0, by rw [if_pos hp, h1]⟩
  · simp only [Option.some.injEq] at h1
    exact ⟨h0, by rw [if_neg hp, h1]⟩

/-- The pool up to a bucket and from it on. -/
theorem contextPool_split {messages : List ByteTranslatorMessage} {pre post : List Bucket}
    {b : Bucket} (h : contextBuckets messages = pre ++ b :: post) :
    contextPool messages
      = pre.flatMap Bucket.bytes ++ (b.bytes ++ post.flatMap Bucket.bytes) := by
  unfold contextPool
  rw [h]
  simp

/-! ## The entries of the context table -/

/-- C27: when the size of the context table is not zero and the pool with its
two reserved bytes holds at most 131072 bytes, `squeeze` returns in
`SaveStripped` mode with a context array that is not empty: the table size,
the table, the two reserved bytes and the pool. For every context `c` of the
records the buckets are `pre`, the bucket `b` of `c` and `post`, where `b` has
the index `elfHash c % hTableSize` and holds `c` and only contexts of this
index; the entry of the table at this index is a nonzero value `entry` whose
double is exactly 2 plus the length of the buckets before `b`, and at the pool
offset `2 * entry` (the pool begins after the table, with its two reserved
bytes) the Pascal strings of the contexts of `b` begin. The entry of every
index that no context has is 0. -/
theorem table_entries (r : Releaser) (htable : tableSize r.m_messages ≠ 0)
    (hpool : 2 + (contextPool r.m_messages).length ≤ 131072) :
    ∃ r', r.squeeze .SaveStripped = some r' ∧ r'.m_contextArray ≠ [] ∧
      r'.m_contextArray.length
        = 2 + 2 * tableSize r.m_messages + (2 + (contextPool r.m_messages).length) ∧
      (∀ c ∈ contextSet r.m_messages,
        ∃ (pre post : List Bucket) (b : Bucket) (entry : Nat) (rest : QByteArray),
          contextBuckets r.m_messages = pre ++ b :: post ∧
          b.index = elfHash c % tableSize r.m_messages ∧ c ∈ b.contexts ∧
          (∀ c' ∈ b.contexts, elfHash c' % tableSize r.m_messages = b.index) ∧
          tableEntry r'.m_contextArray (elfHash c % tableSize r.m_messages) = some entry ∧
          entry ≠ 0 ∧
          2 * entry = 2 + (pre.flatMap Bucket.bytes).length ∧
          r'.m_contextArray.drop (2 + 2 * tableSize r.m_messages + 2 * entry)
            = b.contexts.flatMap poolEntry ++ rest) ∧
      (∀ i < tableSize r.m_messages,
        (∀ c ∈ contextSet r.m_messages, elfHash c % tableSize r.m_messages ≠ i) →
        tableEntry r'.m_contextArray i = some 0) := by
  obtain ⟨r', hr'⟩ := squeeze_returns r .SaveStripped (fun _ => htable)
  obtain ⟨_, harr⟩ := squeeze_contextArray_eq hr'
  rw [if_neg (by omega)] at harr
  obtain ⟨hperm, hsorted, hbuckets⟩ := contextBuckets_spec r.m_messages
  have hTlen := tableOf_length (contextBuckets r.m_messages) 2
    (List.replicate (tableSize r.m_messages) 0)
  rw [List.length_replicate] at hTlen
  have hTlt := tableOf_lt (contextBuckets r.m_messages) 2
    (List.replicate (tableSize r.m_messages) 0)
    (fun v hv => by rw [(List.mem_replicate.mp hv).2]; decide)
  refine ⟨r', hr', ?_, ?_, ?_, ?_⟩
  · rw [harr]
    simp [write16]
  · rw [harr]
    simp only [List.length_append, length_flatMap_write16, hTlen, write16, List.length_cons,
      List.length_nil]
    omega
  · intro c hc
    have hc' := hperm.mem_iff.mpr hc
    obtain ⟨b, hb, hcb⟩ := List.mem_flatMap.mp hc'
    obtain ⟨pre, post, hsplit⟩ := List.append_of_mem hb
    obtain ⟨hne, hmem⟩ := hbuckets b hb
    have hidx : b.index = elfHash c % tableSize r.m_messages := (hmem c hcb).2
    have hlt : b.index < tableSize r.m_messages := by
      rw [hidx]
      exact Nat.mod_lt _ (Nat.pos_of_ne_zero htable)
    have hpoolsplit := contextPool_split hsplit
    have heven := flatMap_bytes_even pre
    have hpos := b.entries_pos hne
    obtain ⟨pad, hpad, _⟩ := b.bytes_eq
    have hblen : 0 < b.bytes.length := by
      rw [hpad, List.length_append]
      omega
    have hbound : 2 + (pre.flatMap Bucket.bytes).length < 131072 := by
      rw [hpoolsplit] at hpool
      simp only [List.length_append] at hpool
      omega
    have hT := tableOf_bucket pre b post 2 (List.replicate (tableSize r.m_messages) 0)
      (hsplit ▸ hsorted) (by rw [List.length_replicate]; exact hlt)
    rw [← hsplit] at hT
    have hmod : (2 + (pre.flatMap Bucket.bytes).length) / 2 % 65536
        = (2 + (pre.flatMap Bucket.bytes).length) / 2 := Nat.mod_eq_of_lt (by omega)
    rw [hmod] at hT
    refine ⟨pre, post, b, (2 + (pre.flatMap Bucket.bytes).length) / 2,
      pad ++ post.flatMap Bucket.bytes, hsplit, hidx, hcb,
      fun c' hc' => ((hmem c' hc').2).symm, ?_, by omega, by omega, ?_⟩
    · rw [harr, ← hidx, List.append_assoc _ [0, 0]]
      exact tableEntry_of_table _ _ _ _ _ hT (by omega)
    · rw [harr, hpoolsplit, hpad]
      have e : 2 * ((2 + (pre.flatMap Bucket.bytes).length) / 2)
          = 2 + (pre.flatMap Bucket.bytes).length := by omega
      rw [e]
      have hl : (write16 (tableSize r.m_messages)
          ++ (tableOf (contextBuckets r.m_messages) 2
                (List.replicate (tableSize r.m_messages) 0)).flatMap write16
          ++ [0, 0] ++ pre.flatMap Bucket.bytes).length
          = 2 + 2 * tableSize r.m_messages + (2 + (pre.flatMap Bucket.bytes).length) := by
        simp only [List.length_append, length_flatMap_write16, hTlen, write16,
          List.length_cons, List.length_nil]
        omega
      rw [← hl, ← List.append_assoc, List.drop_left, List.append_assoc]
      rfl
  · intro i hi hnone
    have hT : (tableOf (contextBuckets r.m_messages) 2
        (List.replicate (tableSize r.m_messages) 0))[i]? = some 0 := by
      rw [tableOf_other]
      · rw [List.getElem?_replicate]
        simp [hi]
      · intro b hb hbi
        obtain ⟨hne, hmem⟩ := hbuckets b hb
        obtain ⟨c, hc⟩ := List.exists_mem_of_ne_nil _ hne
        exact hnone c (hmem c hc).1 (by rw [← (hmem c hc).2]; exact hbi)
    rw [harr, List.append_assoc _ [0, 0]]
    exact tableEntry_of_table _ _ _ _ _ hT (by decide)

theorem table_entries_witness :
    tableSize poolReleaser.m_messages = 151 ∧
    2 + (contextPool poolReleaser.m_messages).length ≤ 131072 ∧
    contextBuckets poolReleaser.m_messages
      = [⟨1, [[]]⟩, ⟨49, [[0x41, 0x42]]⟩, ⟨65, [[0x41]]⟩, ⟨66, [[0x42]]⟩] ∧
    (poolReleaser.squeeze .SaveStripped).map
        (fun r => (r.m_contextArray.drop 304, tableEntry r.m_contextArray 1,
          tableEntry r.m_contextArray 49, tableEntry r.m_contextArray 65,
          tableEntry r.m_contextArray 66, tableEntry r.m_contextArray 0))
      = some ([0, 0, 0, 0, 2, 0x41, 0x42, 0, 1, 0x41, 1, 0x42],
          some 1, some 2, some 4, some 5, some 0) ∧
    ∃ r', poolReleaser.squeeze .SaveStripped = some r' ∧ r'.m_contextArray ≠ [] ∧
      r'.m_contextArray.length
        = 2 + 2 * tableSize poolReleaser.m_messages
          + (2 + (contextPool poolReleaser.m_messages).length) :=
  ⟨by decide, by decide, by decide, by rfl,
    (table_entries poolReleaser (by decide) (by decide)).elim fun r' h =>
      ⟨r', h.1, h.2.1, h.2.2.1⟩⟩

/-! ## The contexts in the pool -/

theorem poolEntry_pascal (c : QByteArray) :
    IsPascalString (min c.length 255) (c.take (min c.length 255)) (poolEntry c) := by
  refine ⟨toByte (min c.length 255), ?_, ?_, rfl⟩
  · simp only [toByte]
    omega
  · simp only [List.length_take]
    omega

/-- C26: in `SaveStripped` mode, when the size of the context table is not
zero, `squeeze` returns. The contexts of the records, each taken once, are
spread over the buckets, every context in one bucket and there once. The pool
that the loop over the buckets writes is, bucket after bucket, one Pascal
string for each context of the bucket (the length byte `min (length c) 255`,
then the first `min (length c) 255` bytes of `c`) followed by no byte or by one
zero byte. This pool ends the context array that `squeeze` leaves, unless it
holds more than 131072 bytes with its two reserved bytes, when the context
array is left empty. -/
theorem contexts_in_pool (r : Releaser) (htable : tableSize r.m_messages ≠ 0) :
    ∃ r', r.squeeze .SaveStripped = some r' ∧
      (contextSet r.m_messages).Nodup ∧
      (∀ c, c ∈ contextSet r.m_messages ↔ ∃ m ∈ r.m_messages, m.m_context = c) ∧
      ((contextBuckets r.m_messages).flatMap fun b => b.contexts).Perm
        (contextSet r.m_messages) ∧
      (poolLoop (contextHashMap (contextSet r.m_messages) (tableSize r.m_messages)).length
          (contextHashMap (contextSet r.m_messages) (tableSize r.m_messages))
          (List.replicate (tableSize r.m_messages) 0) 2 []).2.2
        = contextPool r.m_messages ∧
      (∃ pads : List QByteArray,
        pads.length = (contextBuckets r.m_messages).length ∧
        (∀ pad ∈ pads, pad = [] ∨ pad = [0]) ∧
        contextPool r.m_messages
          = (List.zipWith (fun (b : Bucket) pad => b.contexts.flatMap poolEntry ++ pad)
              (contextBuckets r.m_messages) pads).flatten) ∧
      (∀ c : QByteArray,
        IsPascalString (min c.length 255) (c.take (min c.length 255)) (poolEntry c)) ∧
      (2 + (contextPool r.m_messages).length ≤ 131072 →
        ∃ header : QByteArray, header.length = 2 + 2 * tableSize r.m_messages + 2 ∧
          r'.m_contextArray = header ++ contextPool r.m_messages) ∧
      (2 + (contextPool r.m_messages).length > 131072 → r'.m_contextArray = []) := by
  obtain ⟨r', hr'⟩ := squeeze_returns r .SaveStripped (fun _ => htable)
  obtain ⟨_, harr⟩ := squeeze_contextArray_eq hr'
  obtain ⟨hperm, _, _⟩ := contextBuckets_spec r.m_messages
  refine ⟨r', hr', contextSet_nodup _, mem_contextSet _, hperm, ?_, ?_, poolEntry_pascal, ?_, ?_⟩
  · rw [poolLoop_buckets _ _ _ _ _ (le_refl _) (by decide)]
    simp [contextPool, contextBuckets]
  · unfold contextPool
    generalize contextBuckets r.m_messages = bs
    induction bs with
    | nil => exact ⟨[], rfl, by simp, rfl⟩
    | cons b bs ih =>
      obtain ⟨pads, hlen, hpads, heq⟩ := ih
      obtain ⟨pad, hpad, hp⟩ := b.bytes_eq
      refine ⟨pad :: pads, by simp [hlen], ?_, ?_⟩
      · intro p hp'
        rcases List.mem_cons.mp hp' with rfl | hp'
        · exact hp
        · exact hpads p hp'
      · simp only [List.flatMap_cons, List.zipWith_cons_cons, List.flatten_cons, heq, hpad]
        rfl
  · intro hle
    rw [if_neg (by omega)] at harr
    refine ⟨write16 (tableSize r.m_messages)
      ++ (tableOf (contextBuckets r.m_messages) 2
            (List.replicate (tableSize r.m_messages) 0)).flatMap write16 ++ [0, 0], ?_, harr⟩
    simp only [List.length_append, length_flatMap_write16, tableOf_length,
      List.length_replicate, write16, List.length_cons, List.length_nil]
  · intro hgt
    rw [if_pos hgt] at harr
    exact harr

theorem contexts_in_pool_witness :
    tableSize poolReleaser.m_messages ≠ 0 ∧
    contextSet poolReleaser.m_messages = [[], [0x41], [0x41, 0x42], [0x42]] ∧
    contextPool poolReleaser.m_messages = [0, 0, 2, 0x41, 0x42, 0, 1, 0x41, 1, 0x42] ∧
    poolEntry (List.replicate 300 0x43) = 255 :: List.replicate 255 0x43 ∧
    ∃ r', poolReleaser.squeeze .SaveStripped = some r' ∧
      ((contextBuckets poolReleaser.m_messages).flatMap fun b => b.contexts).Perm
        (contextSet poolReleaser.m_messages) ∧
      (2 + (contextPool poolReleaser.m_messages).length ≤ 131072 →
        ∃ header : QByteArray, header.length = 2 + 2 * tableSize poolReleaser.m_messages + 2 ∧
          r'.m_contextArray = header ++ contextPool poolReleaser.m_messages) :=
  ⟨by decide, by decide, by decide, by decide,
    (contexts_in_pool poolReleaser (by decide)).elim fun r' h =>
      ⟨r', h.1, h.2.2.2.1, h.2.2.2.2.2.2.2.1⟩⟩

/-! ## The context set of records with numbered contexts -/

theorem qbaLt_append_same (p : QByteArray) : ∀ a b : QByteArray, a.length = b.length →
    qbaLt a b = true → qbaLt (a ++ p) (b ++ p) = true := by
  intro a
  induction a with
  | nil =>
    intro b hl _
    have : b = [] := List.length_eq_zero.mp hl.symm
    subst this
    simp [qbaLt] at *
  | cons x xs ih =>
    intro b hl h
    cases b with
    | nil => simp at hl
    | cons y ys =>
      simp only [List.cons_append, qbaLt] at h ⊢
      split_ifs at h ⊢ with h1 h2
      · rfl
      · exact ih ys (by simpa using hl) h

theorem numberedContext_lt (pad : Nat) {i j : Nat} (hij : i < j) (hj : j < 16777216) :
    qbaLt (numberedContext pad i) (numberedContext pad j) = true := by
  unfold numberedContext
  refine qbaLt_append_same (List.replicate pad 0x43)
    [toByte (i / 65536), toByte (i / 256), toByte i]
    [toByte (j / 65536), toByte (j / 256), toByte j] rfl ?_
  simp only [qbaLt, toByte, Fin.lt_def]
  split_ifs <;> first | rfl | omega

theorem numberedContexts_sorted (pad n : Nat) (hn : n ≤ 16777216) :
    ((List.range n).map (numberedContext pad)).Pairwise (fun a b => qbaLt a b = true) := by
  rw [List.pairwise_map]
  refine (List.pairwise_lt_range n).imp_of_mem ?_
  intro i j _ hj hij
  exact numberedContext_lt pad hij (by have := List.mem_range.mp hj; omega)

theorem numberedReleaser_contexts (n pad : Nat) :
    (numberedReleaser n pad).m_messages.map (fun m => m.m_context)
      = (List.range n).map (numberedContext pad) := by
  simp [numberedReleaser, contextRecord, Releaser.new, List.map_map, Function.comp_def]

/-- The records of a numbered releaser are in the order of the map
`m_messages`. -/
theorem numberedReleaser_sorted (n pad : Nat) (hn : n ≤ 16777216) :
    (numberedReleaser n pad).m_messages.Pairwise (fun a b => a.lt b = true) := by
  have h := numberedContexts_sorted pad n hn
  simp only [numberedReleaser, Releaser.new]
  rw [List.pairwise_map] at h ⊢
  refine h.imp ?_
  intro i j hlt
  unfold ByteTranslatorMessage.lt contextRecord
  simp only
  rw [if_pos (qbaLt_ne hlt)]
  exact hlt

/-- A numbered releaser has as many contexts as records. -/
theorem numberedReleaser_contextSet (n pad : Nat) (hn : n ≤ 16777216) :
    (contextSet (numberedReleaser n pad).m_messages).Perm
      ((List.range n).map (numberedContext pad)) ∧
    (contextSet (numberedReleaser n pad).m_messages).length = n := by
  have hperm := contextSet_perm (numberedReleaser n pad).m_messages (by
    rw [numberedReleaser_contexts]
    exact (numberedContexts_sorted pad n hn).imp (fun h => qbaLt_ne h))
  rw [numberedReleaser_contexts] at hperm
  exact ⟨hperm, by rw [hperm.length_eq]; simp⟩

theorem length_flatMap_const {α β : Type} (f : α → List β) (k : Nat) (l : List α)
    (h : ∀ x ∈ l, (f x).length = k) : (l.flatMap f).length = k * l.length := by
  induction l with
  | nil => simp
  | cons x xs ih =>
    rw [List.flatMap_cons, List.length_append, h x (List.mem_cons_self _ _),
      ih (fun y hy => h y (List.mem_cons_of_mem _ hy)), List.length_cons]
    ring

/-- The pool holds at least the Pascal strings of the contexts. -/
theorem contextPool_length_ge (messages : List ByteTranslatorMessage) :
    ((contextSet messages).flatMap poolEntry).length ≤ (contextPool messages).length := by
  obtain ⟨hperm, _, _⟩ := contextBuckets_spec messages
  have h1 : ((contextSet messages).flatMap poolEntry).length
      = (((contextBuckets messages).flatMap fun b => b.contexts).flatMap poolEntry).length :=
    ((hperm.flatMap_right poolEntry).length_eq).symm
  rw [h1]
  unfold contextPool
  generalize contextBuckets messages = bs
  induction bs with
  | nil => simp
  | cons b bs ih =>
    obtain ⟨pad, hpad, _⟩ := b.bytes_eq
    simp only [List.flatMap_cons, List.flatMap_append, List.length_append, hpad] at ih ⊢
    unfold Bucket.entries
    omega

/-! ## The size of the context table -/

theorem hTableSizeFor_eq (n : Nat) : hTableSizeFor n = specTableSize n % 65536 := by
  unfold hTableSizeFor specTableSize
  split_ifs <;> omega

theorem squeeze_none_of_tableSize {r : Releaser} (h : tableSize r.m_messages = 0) :
    r.squeeze .SaveStripped = none := by
  have hb : buildContextArray r.m_messages = none := by
    rw [buildContextArray_buckets, if_pos h]
  unfold Releaser.squeeze
  dsimp only
  rw [if_neg (by simp), if_pos rfl, hb]
  rfl

/-- C24 fails from 43691 contexts on. The size that `squeeze` computes is the
size of the specification reduced to 16 bits, and it is this value that the
first two bytes of a context array hold; the two agree for fewer than 43691
contexts and differ for every larger number. For the releaser that holds 43691
records with the contexts number 0 to 43690 the specification gives the size
65536, the size computed is 0, and `squeeze` divides by it: it returns
nothing. -/
theorem table_size_truncated :
    (∀ r r' : Releaser, r.squeeze .SaveStripped = some r' → r'.m_contextArray ≠ [] →
      tableSize r.m_messages = specTableSize (contextSet r.m_messages).length % 65536 ∧
      ∃ hi lo : Byte, r'.m_contextArray.take 2 = [hi, lo] ∧
        hi.val * 256 + lo.val = specTableSize (contextSet r.m_messages).length % 65536) ∧
    (∀ n, n < 43691 → hTableSizeFor n = specTableSize n) ∧
    (∀ n, 43691 ≤ n → hTableSizeFor n ≠ specTableSize n) ∧
    (numberedReleaser 43691 0).m_messages.length = 43691 ∧
    (numberedReleaser 43691 0).m_messages.Pairwise (fun a b => a.lt b = true) ∧
    (contextSet (numberedReleaser 43691 0).m_messages).length = 43691 ∧
    specTableSize 43691 = 65536 ∧
    tableSize (numberedReleaser 43691 0).m_messages = 0 ∧
    (numberedReleaser 43691 0).squeeze .SaveStripped = none := by
  have hlen := (numberedReleaser_contextSet 43691 0 (by omega)).2
  have hsize : tableSize (numberedReleaser 43691 0).m_messages = 0 := by
    unfold tableSize
    rw [hlen, hTableSizeFor_eq]
    rfl
  refine ⟨?_, ?_, ?_, ?_, numberedReleaser_sorted 43691 0 (by omega), hlen, rfl, hsize,
    squeeze_none_of_tableSize hsize⟩
  · intro r r' hsq hne
    obtain ⟨_, harr⟩ := squeeze_contextArray_eq hsq
    have hts : tableSize r.m_messages = specTableSize (contextSet r.m_messages).length % 65536 :=
      hTableSizeFor_eq _
    refine ⟨hts, ?_⟩
    split_ifs at harr with hp
    · exact absurd harr hne
    · refine ⟨toByte (tableSize r.m_messages / 256), toByte (tableSize r.m_messages), ?_, ?_⟩
      · rw [harr]
        simp [write16]
      · rw [← hts]
        have : tableSize r.m_messages < 65536 := by
          rw [hts]
          exact Nat.mod_lt _ (by decide)
        simp only [toByte]
        omega
  · intro n hn
    rw [hTableSizeFor_eq]
    apply Nat.mod_eq_of_lt
    unfold specTableSize
    split_ifs <;> omega
  · intro n hn h
    have h1 : hTableSizeFor n < 65536 := by
      rw [hTableSizeFor_eq]
      exact Nat.mod_lt _ (by decide)
    rw [h] at h1
    unfold specTableSize at h1
    split_ifs at h1 <;> omega
  · simp [numberedReleaser, Releaser.new]

/-! ## The end of a bucket -/

/-- C25 fails when the Pascal strings of a bucket have an even length. The
context array that `squeeze` leaves, when it is not empty, ends with the pool,
in which the Pascal strings of a bucket are followed by a zero byte only when
their length is odd. For the releaser that holds the contexts "A" and "B" the
buckets are number 65 with "A" and number 66 with "B", their entries in the
table are 1 and 2, and the array ends with the two reserved bytes and the
strings 01 41 01 42: the string of "B" follows the string of "A" at once, and
the array ends right after the string of "B", so no empty string ends the
chain of either bucket. -/
theorem bucket_without_terminator :
    (∀ r r' : Releaser, r.squeeze .SaveStripped = some r' → r'.m_contextArray ≠ [] →
      ∃ header : QByteArray, header.length = 2 + 2 * tableSize r.m_messages + 2 ∧
        r'.m_contextArray = header ++ (contextBuckets r.m_messages).flatMap (fun b =>
          if (b.contexts.flatMap poolEntry).length % 2 = 1
          then b.contexts.flatMap poolEntry ++ [0] else b.contexts.flatMap poolEntry)) ∧
    contextBuckets abReleaser.m_messages = [⟨65, [[0x41]]⟩, ⟨66, [[0x42]]⟩] ∧
    (abReleaser.squeeze .SaveStripped).map
        (fun r => (r.m_contextArray.length, tableEntry r.m_contextArray 65,
          tableEntry r.m_contextArray 66, r.m_contextArray.drop 304))
      = some (310, some 1, some 2, [0, 0, 1, 0x41, 1, 0x42]) := by
  refine ⟨?_, by decide, by rfl⟩
  intro r r' hsq hne
  obtain ⟨_, harr⟩ := squeeze_contextArray_eq hsq
  split_ifs at harr with hp
  · exact absurd harr hne
  · refine ⟨write16 (tableSize r.m_messages)
      ++ (tableOf (contextBuckets r.m_messages) 2
            (List.replicate (tableSize r.m_messages) 0)).flatMap write16 ++ [0, 0], ?_, harr⟩
    simp only [List.length_append, length_flatMap_write16, tableOf_length,
      List.length_replicate, write16, List.length_cons, List.length_nil]

/-! ## The limit on the size of the pool -/

theorem squeeze_offsetArray {r r' : Releaser} (h : r.squeeze .SaveStripped = some r') :
    r'.m_offsetArray = writeOffsets (squeezeMessages .SaveStripped r.m_messages 0 [] []).1 := by
  unfold Releaser.squeeze at h
  dsimp only at h
  rw [if_neg (by simp), if_pos rfl] at h
  obtain ⟨c, hc, h⟩ := Option.map_eq_some'.mp h
  subst h
  rfl

/-- C21: in `SaveStripped` mode, when the size of the context table is not
zero, `squeeze` returns. The value `upto` that the loop over the buckets
leaves, which is compared with 131072, is the size of the pool: its two
reserved bytes and the bytes of the buckets, which are the Pascal strings and
the zero bytes that make the lengths even. The message array and the offset
array do not depend on it. When the size is larger than 131072 the context
array is empty and `save` writes the magic and the Language, Dependencies,
Hashes and Messages blocks, then at once the NumerusRules block; when the size
is at most 131072 the context array is not empty and `save` writes the same
bytes with the Contexts block between them. -/
theorem context_pool_limit (env : Env) (r : Releaser) (htable : tableSize r.m_messages ≠ 0) :
    ∃ r', r.squeeze .SaveStripped = some r' ∧
      (poolLoop (contextHashMap (contextSet r.m_messages) (tableSize r.m_messages)).length
          (contextHashMap (contextSet r.m_messages) (tableSize r.m_messages))
          (List.replicate (tableSize r.m_messages) 0) 2 []).2.1
        = 2 + (contextPool r.m_messages).length ∧
      r'.m_messageArray = (encodedRecords .SaveStripped none r.m_messages).flatten ∧
      r'.m_offsetArray = writeOffsets (squeezeMessages .SaveStripped r.m_messages 0 [] []).1 ∧
      (2 + (contextPool r.m_messages).length > 131072 →
        r'.m_contextArray = [] ∧
        r'.save env
          = magic ++ languageBlock env r
            ++ saveBlock Dependencies (r.m_dependencies.flatMap writeQString)
            ++ saveBlock Hashes (writeOffsets (squeezeMessages .SaveStripped r.m_messages 0 [] []).1)
            ++ saveBlock Messages (encodedRecords .SaveStripped none r.m_messages).flatten
            ++ saveBlock NumerusRules r.m_numerusRules) ∧
      (2 + (contextPool r.m_messages).length ≤ 131072 →
        r'.m_contextArray ≠ [] ∧
        r'.m_contextArray.length
          = 2 + 2 * tableSize r.m_messages + (2 + (contextPool r.m_messages).length) ∧
        r'.save env
          = magic ++ languageBlock env r
            ++ saveBlock Dependencies (r.m_dependencies.flatMap writeQString)
            ++ saveBlock Hashes (writeOffsets (squeezeMessages .SaveStripped r.m_messages 0 [] []).1)
            ++ saveBlock Messages (encodedRecords .SaveStripped none r.m_messages).flatten
            ++ writeBlock Contexts r'.m_contextArray
            ++ saveBlock NumerusRules r.m_numerusRules) := by
  obtain ⟨r', hr'⟩ := squeeze_returns r .SaveStripped (fun _ => htable)
  obtain ⟨_, harr⟩ := squeeze_contextArray_eq hr'
  obtain ⟨hlang, hnum, hdep⟩ := squeeze_keeps r r' .SaveStripped hr'
  have hmsg := squeeze_messageArray r r' .SaveStripped hr' (Or.inr (Or.inl rfl))
  have hoff := squeeze_offsetArray hr'
  have hsave := save_eq env r'
  have hlb : languageBlock env r' = languageBlock env r := by
    unfold languageBlock
    rw [hlang]
  rw [hlb, hnum, hdep, hmsg, hoff] at hsave
  refine ⟨r', hr', ?_, hmsg, hoff, ?_, ?_⟩
  · rw [poolLoop_buckets _ _ _ _ _ (le_refl _) (by decide)]
    rfl
  · intro hgt
    rw [if_pos hgt] at harr
    refine ⟨harr, ?_⟩
    rw [hsave, harr]
    simp [saveBlock]
  · intro hle
    rw [if_neg (by omega)] at harr
    have hne : r'.m_contextArray ≠ [] := by
      rw [harr]
      simp [write16]
    refine ⟨hne, ?_, ?_⟩
    · rw [harr]
      simp only [List.length_append, length_flatMap_write16, tableOf_length,
        List.length_replicate, write16, List.length_cons, List.length_nil]
      omega
    · rw [hsave]
      have hsb : saveBlock Contexts r'.m_contextArray = writeBlock Contexts r'.m_contextArray := by
        unfold saveBlock
        rw [if_neg (by simpa using hne)]
      rw [hsb]
      simp

/-- The pool of a releaser that holds 512 contexts of 255 bytes is larger than
the limit. -/
theorem numberedReleaser_pool :
    tableSize (numberedReleaser 512 252).m_messages = 1511 ∧
    2 + (contextPool (numberedReleaser 512 252).m_messages).length > 131072 := by
  obtain ⟨hperm, hlen⟩ := numberedReleaser_contextSet 512 252 (by omega)
  refine ⟨?_, ?_⟩
  · unfold tableSize
    rw [hlen]
    rfl
  · have h1 := contextPool_length_ge (numberedReleaser 512 252).m_messages
    have h2 : ((contextSet (numberedReleaser 512 252).m_messages).flatMap poolEntry).length
        = 256 * (contextSet (numberedReleaser 512 252).m_messages).length := by
      apply length_flatMap_const
      intro c hc
      obtain ⟨i, _, rfl⟩ := List.mem_map.mp (hperm.mem_iff.mp hc)
      rw [poolEntry_length]
      simp [numberedContext]
    rw [h2, hlen] at h1
    omega

theorem context_pool_limit_witness :
    (tableSize poolReleaser.m_messages ≠ 0 ∧
      2 + (contextPool poolReleaser.m_messages).length = 12 ∧
      ∃ r', poolReleaser.squeeze .SaveStripped = some r' ∧ r'.m_contextArray ≠ [] ∧
        r'.m_contextArray.length = 316) ∧
    (tableSize (numberedReleaser 512 252).m_messages ≠ 0 ∧
      2 + (contextPool (numberedReleaser 512 252).m_messages).length > 131072 ∧
      ∃ r', (numberedReleaser 512 252).squeeze .SaveStripped = some r' ∧
        r'.m_contextArray = [] ∧
        r'.save sampleEnv
          = magic ++ languageBlock sampleEnv (numberedReleaser 512 252)
            ++ saveBlock Dependencies ((numberedReleaser 512 252).m_dependencies.flatMap writeQString)
            ++ saveBlock Hashes (writeOffsets
                (squeezeMessages .SaveStripped (numberedReleaser 512 252).m_messages 0 [] []).1)
            ++ saveBlock Messages
                (encodedRecords .SaveStripped none (numberedReleaser 512 252).m_messages).flatten
            ++ saveBlock NumerusRules (numberedReleaser 512 252).m_numerusRules) :=
  ⟨⟨by decide, by decide,
      (context_pool_limit sampleEnv poolReleaser (by decide)).elim fun r' h =>
        ⟨r', h.1, (h.2.2.2.2.2 (by decide)).1, by
          rw [(h.2.2.2.2.2 (by decide)).2.1]; decide⟩⟩,
    ⟨by rw [numberedReleaser_pool.1]; decide, numberedReleaser_pool.2,
      (context_pool_limit sampleEnv (numberedReleaser 512 252)
        (by rw [numberedReleaser_pool.1]; decide)).elim fun r' h =>
        ⟨r', h.1, (h.2.2.2.2.1 numberedReleaser_pool.2).1,
          (h.2.2.2.2.1 numberedReleaser_pool.2).2⟩⟩⟩

/-! ## Loading what the writer has saved -/

theorem run_keeps (env : Env) (r : Releaser) (call : ReleaserCall) :
    (call.run env r).m_language = r.m_language ∧
    (call.run env r).m_messageArray = r.m_messageArray ∧
    (call.run env r).m_offsetArray = r.m_offsetArray ∧
    ∀ x ∈ (call.run env r).m_messages, x ∈ r.m_messages ∨ x.m_context = call.context env := by
  cases call with
  | insert message tlns force =>
    simp only [ReleaserCall.run, ReleaserCall.context, Releaser.insert]
    split_ifs
    · refine ⟨rfl, rfl, rfl, fun x hx => ?_⟩
      rcases mem_qmapInsert _ _ _ _ hx with h | h
      · exact Or.inr (by rw [h])
      · exact Or.inl h
    · refine ⟨rfl, rfl, rfl, fun x hx => ?_⟩
      rcases mem_qmapInsert _ _ _ _ hx with h | h
      · exact Or.inr (by rw [h])
      · exact Or.inl h
  | insertIdBased message tlns =>
    refine ⟨rfl, rfl, rfl, fun x hx => ?_⟩
    simp only [ReleaserCall.run, Releaser.insertIdBased] at hx
    simp only [ReleaserCall.context]
    rcases mem_qmapInsert _ _ _ _ hx with h | h
    · exact Or.inr (by rw [h])
    · exact Or.inl h

theorem foldl_run_keeps (env : Env) (calls : List ReleaserCall) :
    ∀ r : Releaser,
      (calls.foldl (ReleaserCall.run env) r).m_language = r.m_language ∧
      (calls.foldl (ReleaserCall.run env) r).m_messageArray = r.m_messageArray ∧
      (calls.foldl (ReleaserCall.run env) r).m_offsetArray = r.m_offsetArray ∧
      ∀ x ∈ (calls.foldl (ReleaserCall.run env) r).m_messages,
        x ∈ r.m_messages ∨ ∃ call ∈ calls, x.m_context = call.context env := by
  induction calls with
  | nil => intro r; exact ⟨rfl, rfl, rfl, fun x hx => Or.inl hx⟩
  | cons c cs ih =>
    intro r
    obtain ⟨h1, h2, h3, h4⟩ := ih (c.run env r)
    obtain ⟨k1, k2, k3, k4⟩ := run_keeps env r c
    rw [List.foldl_cons]
    refine ⟨h1.trans k1, h2.trans k2, h3.trans k3, fun x hx => ?_⟩
    rcases h4 x hx with h | ⟨call, hc, h⟩
    · rcases k4 x h with h' | h'
      · exact Or.inl h'
      · exact Or.inr ⟨c, List.mem_cons_self _ _, h'⟩
    · exact Or.inr ⟨call, List.mem_cons_of_mem _ hc, h⟩

theorem bytes_getLast (mode : TranslatorSaveMode) (w : Written) :
    (w.bytes mode).getLast? = some Tag_End := by
  unfold Written.bytes writeMessage
  rw [List.getLast?_append]
  rfl

/-- C28: a releaser is constructed for a language, given numerus rules and
dependencies, and takes any sequence of calls of `insert` and
`insertIdBased`; it is squeezed in either mode (in `SaveStripped` mode the
size of the context table is not zero, so that `squeeze` returns) and saved
into fewer than `2 ^ 31` bytes; the contexts handed over and the language code
decode as UTF-8. Then `loadQM` returns for the saved bytes, with success, no
message appended to the conversion data, and as many new messages as the
releaser held records. The block scan leaves a Hashes payload of eight bytes
for each record and, when there is a record, the positions of the offset array
and of the message array in the file. The written records can be listed in an
order `ws` in which the offset of pair number `i` of the offset array is the
position of record number `i` in the message array, where the bytes of the
record lie, ending with the End tag; and in any buffer that holds the bytes of
a written record at some position, whatever comes before and after, none
included, the field loop entered at this position ends at the End tag of the
record with the strings of the record. -/
theorem load_after_save (env : Env) (language : QString) (rules : QByteArray)
    (dependencies : List QString) (calls : List ReleaserCall) (mode : TranslatorSaveMode)
    (tr0 : Translator) (cd0 : ConversionData)
    (htable : mode = .SaveStripped →
      tableSize (releaserAfter env language rules dependencies calls).m_messages ≠ 0)
    (hsize : ∀ r' ∈ (releaserAfter env language rules dependencies calls).squeeze mode,
      (r'.save env).length < 2147483648)
    (hutf8 : ∀ call ∈ calls, (env.fromUtf8 (call.context env)).2 = false)
    (hlang : language.isEmpty = true ∨
      (originalBytes env language ≠ [] ∧ (env.fromUtf8 (originalBytes env language)).2 = false)) :
    ∃ (r' : Releaser) (res : LoadResult) (s : ScanState) (ws : List Written),
      (releaserAfter env language rules dependencies calls).squeeze mode = some r' ∧
      loadQM env tr0 (r'.save env) cd0 = some res ∧ res.ok = true ∧ res.cd = cd0 ∧
      res.translator.messages.length
        = tr0.messages.length
          + (releaserAfter env language rules dependencies calls).m_messages.length ∧
      scanLoop env (r'.save env) (r'.save env).length MagicLength (ScanState.init tr0)
        = some s ∧
      s.offsetLength = 8 * (releaserAfter env language rules dependencies calls).m_messages.length ∧
      r'.m_offsetArray.length
        = 8 * (releaserAfter env language rules dependencies calls).m_messages.length ∧
      ((releaserAfter env language rules dependencies calls).m_messages ≠ [] →
        ∃ oa ma rest1 rest2, s.offsetArray = some oa ∧ s.messageArray = some ma ∧
          (r'.save env).drop oa = r'.m_offsetArray ++ rest1 ∧
          (r'.save env).drop ma = r'.m_messageArray ++ rest2) ∧
      ws.Perm (writtenRecords mode 0
        (releaserAfter env language rules dependencies calls).m_messages 0) ∧
      ∀ (i : Nat) (w : Written), ws[i]? = some w →
        read32 r'.m_offsetArray (8 * i + 4) = some w.pos ∧
        (∃ rest, r'.m_messageArray.drop w.pos = w.bytes mode ++ rest) ∧
        (w.bytes mode).getLast? = some Tag_End ∧
        ∀ (ba rest : QByteArray) (m : Nat) (st : DecodeState),
          ba.drop m = w.bytes mode ++ rest →
          decodeRecord env ba ba.length m st = some (.ended (decodeWritten env mode st w)) := by
  obtain ⟨k1, k2, k3, k4⟩ := foldl_run_keeps env calls
    (((Releaser.new language).setNumerusRules rules).setDependencies dependencies)
  change (releaserAfter env language rules dependencies calls).m_language = language at k1
  change (releaserAfter env language rules dependencies calls).m_messageArray = [] at k2
  change (releaserAfter env language rules dependencies calls).m_offsetArray = [] at k3
  change ∀ x ∈ (releaserAfter env language rules dependencies calls).m_messages,
    x ∈ ([] : List ByteTranslatorMessage) ∨ ∃ call ∈ calls, x.m_context = call.context env at k4
  generalize releaserAfter env language rules dependencies calls = r at *
  obtain ⟨r', hsq⟩ := squeeze_returns r mode htable
  have hsz := hsize r' hsq
  obtain ⟨hmsgs, hoffs⟩ := squeeze_arrays r r' mode hsq (Or.inr (Or.inr ⟨k3, k2⟩))
  have hmlen := messageArray_le_save env r'
  have hoffs := hoffs (by omega)
  have hkeep := squeeze_keeps r r' mode hsq
  have hperm := sortedWritten_perm mode r.m_messages
  have hwslen : (sortedWritten mode r.m_messages).length = r.m_messages.length := by
    rw [hperm.length_eq, writtenRecords_length]
  have hmem : ∀ w ∈ sortedWritten mode r.m_messages,
      w.msg ∈ r.m_messages ∧ (w.bytes mode).length < 2147483648 ∧
      w.pos < r'.m_messageArray.length ∧
      ∃ rest', r'.m_messageArray.drop w.pos = w.bytes mode ++ rest' := by
    intro w hw
    obtain ⟨h1, -, h2, rest', hdrop⟩ := writtenRecords_mem mode _ 0 0 w (hperm.mem_iff.mp hw)
    rw [Nat.sub_zero, ← hmsgs] at hdrop
    rw [Nat.zero_add, ← hmsgs] at h2
    refine ⟨h1, ?_, h2, rest', hdrop⟩
    have := congrArg List.length hdrop
    rw [List.length_drop, List.length_append] at this
    omega
  have hoff' : r'.m_offsetArray
      = writeOffsets ((sortedWritten mode r.m_messages).map Written.offset) := by
    rw [hoffs, sortedWritten_offsets]
  have hl : r'.m_language = language := hkeep.1.trans k1
  obtain ⟨res, hload, hok, hcd, hmessages⟩ := loadQM_save_written env tr0 cd0 r' mode
    (sortedWritten mode r.m_messages) hoff'
    (fun w hw => by
      obtain ⟨h1, h2, _, h3⟩ := hmem w hw
      refine ⟨h2, ?_, h3⟩
      rcases k4 _ h1 with h | ⟨call, hc, h⟩
      · cases h
      · rw [h]
        exact hutf8 call hc)
    (by rw [hl]; exact hlang)
    (by omega)
  obtain ⟨s, hscan, -, -, hoff0, hoff1, hmsg⟩ := scan_save env tr0 r'
    (by rw [hl]; exact hlang.imp id (fun h => h.1)) (by omega)
  have holen : r'.m_offsetArray.length = 8 * r.m_messages.length := by
    rw [hoff', writeOffsets_length, List.length_map, hwslen]
  refine ⟨r', res, s, sortedWritten mode r.m_messages, hsq, hload, hok, hcd, ?_, hscan, ?_,
    holen, ?_, hperm, ?_⟩
  · rw [hmessages, List.length_append, loadedRecords_length, hwslen]
  · by_cases he : r'.m_offsetArray = []
    · rw [hoff0 he]
      rw [he, List.length_nil] at holen
      omega
    · rw [(hoff1 he).1, holen]
  · intro hne
    have hlpos : 0 < r.m_messages.length := List.length_pos.mpr hne
    have he : r'.m_offsetArray ≠ [] := by
      intro h
      rw [h, List.length_nil] at holen
      omega
    obtain ⟨-, oa, rest1, hoa, hdrop⟩ := hoff1 he
    have hmne : r'.m_messageArray ≠ [] := by
      intro h
      obtain ⟨w, hw⟩ := List.exists_mem_of_ne_nil (sortedWritten mode r.m_messages)
        (by intro h'; rw [h', List.length_nil] at hwslen; omega)
      have := (hmem w hw).2.2.1
      rw [h, List.length_nil] at this
      omega
    obtain ⟨ma, rest2, hma, hmdrop⟩ := hmsg hmne
    exact ⟨oa, ma, rest1, rest2, hoa, hma, hdrop, hmdrop⟩
  · intro i w hi
    have hw : w ∈ sortedWritten mode r.m_messages := List.mem_iff_getElem?.mpr ⟨i, hi⟩
    obtain ⟨_, h2, h3, h4⟩ := hmem w hw
    refine ⟨?_, h4, bytes_getLast mode w, ?_⟩
    · rw [hoff']
      have := read32_writeOffsets ((sortedWritten mode r.m_messages).map Written.offset)
        (by
          intro k hk
          obtain ⟨w', hw', rfl⟩ := List.mem_map.mp hk
          exact ⟨elfHash_lt _, by have := (hmem w' hw').2.2.1; show w'.pos < _; omega⟩)
        i w.offset (by rw [List.getElem?_map, hi]; rfl)
      exact this.2
    · intro ba rest m st hdrop
      exact decodeRecord_written env st mode w hdrop h2

theorem load_after_save_witness :
    (releaserAfter sampleEnv (.str langEn) [1] [.str [0x41]] sampleCalls).m_messages.length = 3 ∧
    ∃ (r' : Releaser) (res : LoadResult),
      (releaserAfter sampleEnv (.str langEn) [1] [.str [0x41]] sampleCalls).squeeze .SaveStripped
        = some r' ∧
      loadQM sampleEnv Translator.empty (r'.save sampleEnv) ConversionData.default = some res ∧
      res.ok = true ∧ res.cd = ConversionData.default ∧
      res.translator.messages.length
        = Translator.empty.messages.length
          + (releaserAfter sampleEnv (.str langEn) [1] [.str [0x41]] sampleCalls).m_messages.length :=
  ⟨by decide,
    (load_after_save sampleEnv (.str langEn) [1] [.str [0x41]] sampleCalls .SaveStripped
      Translator.empty ConversionData.default (fun _ => by decide)
      (by decide) (by decide) (by decide)).elim fun r' h => h.elim fun res h =>
        h.elim fun s h => h.elim fun ws h => ⟨r', res, h.1, h.2.1, h.2.2.1, h.2.2.2.1, h.2.2.2.2.1⟩⟩

/-! ## Three comments in `SaveStripped` mode -/

/-- Records in the order of the map whose neighbours have different hashes are
all written with all their fields. -/
theorem allFull_of_neighbours (L : List ByteTranslatorMessage) :
    ∀ pre : List ByteTranslatorMessage,
      (pre ++ L).Pairwise (fun a b => a.lt b = true) → NeighboursDiffer (pre ++ L) →
      AllFull .SaveStripped L 0 := by
  induction L with
  | nil => intro pre _ _; trivial
  | cons it rest ih =>
    intro pre hs hn
    have hirr : ∀ a : ByteTranslatorMessage, a.lt a = false :=
      fun a => ByteTranslatorMessage.lt_of_key_eq rfl
    have hasym : ∀ a b : ByteTranslatorMessage, a.lt b = true → b.lt a = true → False := by
      intro a b hab hba
      have := ByteTranslatorMessage.lt_chain a b a hab hba
      rw [hirr a] at this
      cases this
    cases rest with
    | nil =>
      refine ⟨?_, trivial⟩
      simp [writeMessage, encFull, writeFields]
    | cons next rest' =>
      have hne : msgHash it ≠ msgHash next := by
        intro heq
        have hLs := (List.pairwise_append.mp hs).2.1
        have hcross := (List.pairwise_append.mp hs).2.2
        have hit : it.lt next = true :=
          (List.pairwise_cons.mp hLs).1 next (List.mem_cons_self _ _)
        obtain ⟨c, hc, h1, h2⟩ := hn it (by simp) next (by simp) hit heq
        rcases List.mem_append.mp hc with hc | hc
        · exact hasym _ _ h1 (hcross c hc it (List.mem_cons_self _ _))
        · rcases List.mem_cons.mp hc with rfl | hc
          · rw [hirr] at h1; cases h1
          · rcases List.mem_cons.mp hc with rfl | hc
            · rw [hirr] at h2; cases h2
            · have := (List.pairwise_cons.mp (List.pairwise_cons.mp hLs).2).1 c hc
              exact hasym _ _ h2 this
      have hcp : commonPrefix it next = 0 := by
        simp only [commonPrefix]
        rw [if_pos hne]
      refine ⟨?_, ?_⟩
      · show writeMessage it .SaveStripped (max 0 (commonPrefix it next + 1)) = encFull it
        rw [hcp]
        simp [writeMessage, encFull, writeFields]
      · show AllFull .SaveStripped (next :: rest') (commonPrefix it next)
        rw [hcp]
        exact ih (pre ++ [it]) (by rw [List.append_assoc]; exact hs)
          (by rw [List.append_assoc]; exact hn)

theorem neighboursDiffer_perm {l L : List ByteTranslatorMessage} (h : L.Perm l)
    (hn : NeighboursDiffer l) : NeighboursDiffer L := by
  intro a ha b hb hab heq
  obtain ⟨c, hc, h1, h2⟩ := hn a (h.mem_iff.mp ha) b (h.mem_iff.mp hb) hab heq
  exact ⟨c, h.mem_iff.mpr hc, h1, h2⟩

/-- C7, as amended: three finished entries that share the context and the
source text and have three different comments, saved in `SaveStripped` mode
and loaded again, come back as three messages with exactly their tuples, so
with exactly the three comments, provided the writer keeps the comments (the
context is empty or one of the comments is empty) and the records that are
neighbours in the order of the map have different hashes (between two records
with the same hash stands the third); the strings are to survive the UTF-8
conversion and the file is to be shorter than `2 ^ 31` bytes. -/
theorem stripped_three_comments (env : Env) (context sourceText c1 c2 c3 : QString)
    (t1 t2 t3 : List QString) (languageCode : QString) (dependencies : List QString)
    (cd : ConversionData) (tr0 : Translator) (cd0 : ConversionData)
    (hmode : cd.m_saveMode = .SaveStripped) (hid : cd.m_idBased = false)
    (hpre : cd.m_unTrPrefix.isEmpty = true)
    (hkeep : context.isEmpty = true ∨ c1.isEmpty = true ∨ c2.isEmpty = true ∨ c3.isEmpty = true)
    (hdiff : c1.units ≠ c2.units ∧ c1.units ≠ c3.units ∧ c2.units ≠ c3.units)
    (hneigh : NeighboursDiffer
      [toByteMessage env (finishedEntry context sourceText c1 t1) t1,
       toByteMessage env (finishedEntry context sourceText c2 t2) t2,
       toByteMessage env (finishedEntry context sourceText c3 t3) t3])
    (hutf8 : Utf8Safe env context ∧ Utf8Safe env sourceText ∧ Utf8Safe env c1 ∧
      Utf8Safe env c2 ∧ Utf8Safe env c3)
    (hlang : languageCode.isEmpty = true ∨
      (originalBytes env languageCode ≠ [] ∧
        (env.fromUtf8 (originalBytes env languageCode)).2 = false))
    (hsize : ∀ res ∈ saveQM env
      (threeComments context sourceText c1 c2 c3 t1 t2 t3 languageCode dependencies) cd,
      res.bytes.length < 2147483648) :
    ∃ res r loaded,
      saveQM env (threeComments context sourceText c1 c2 c3 t1 t2 t3 languageCode dependencies) cd
        = some res ∧
      loadQM env tr0 res.bytes cd0 = some r ∧ r.ok = true ∧
      r.translator.messages = tr0.messages ++ loaded ∧
      (loaded.map tupleOf).Perm
        [(context.units, sourceText.units, c1.units, t1),
         (context.units, sourceText.units, c2.units, t2),
         (context.units, sourceText.units, c3.units, t3)] := by
  generalize hcat : threeComments context sourceText c1 c2 c3 t1 t2 t3 languageCode dependencies
    = cat at hsize ⊢
  have hmsgs : cat.messages = [finishedEntry context sourceText c1 t1,
      finishedEntry context sourceText c2 t2, finishedEntry context sourceText c3 t3] := by
    rw [← hcat]; rfl
  have hlc : cat.languageCode = languageCode := by rw [← hcat]; rfl
  obtain ⟨hu0, hus, hu1, hu2, hu3⟩ := hutf8
  -- every entry is persisted and keeps its comment
  have hpers : ∀ m ∈ cat.messages, persisted cd m = true := by
    intro m hm
    rw [hmsgs] at hm
    simp only [List.mem_cons, List.mem_singleton, List.not_mem_nil, or_false] at hm
    rcases hm with rfl | rfl | rfl <;> simp [persisted, finishedEntry, hid]
  have hfilter : cat.messages.filter (persisted cd) = cat.messages :=
    List.filter_eq_self.mpr hpers
  have hforce : ∀ m ∈ cat.messages, persisted cd m = true → forceComment cat m = true := by
    intro m hm _
    have hcs : (context.isEmpty = true) ∨ containsStripped cat m = true := by
      rcases hkeep with h | h
      · exact Or.inl h
      · right
        unfold containsStripped
        rw [hmsgs] at hm ⊢
        simp only [List.mem_cons, List.mem_singleton, List.not_mem_nil, or_false] at hm
        rcases hm with rfl | rfl | rfl <;>
          rcases h with h | h | h <;> simp [finishedEntry, h]
    unfold forceComment
    rw [hmsgs] at hm
    simp only [List.mem_cons, List.mem_singleton, List.not_mem_nil, or_false] at hm
    rcases hcs with h | h
    · rcases hm with rfl | rfl | rfl <;> simp [finishedEntry, h]
    · simp [h]
  obtain ⟨rules, hrel⟩ := saveLoop_releaser env cat cd hid hpre hforce
  rw [hfilter, hmsgs] at hrel
  -- the three comments are different as bytes, so the keys are different
  have hbytes : ∀ a b : QString, Utf8Safe env a → Utf8Safe env b → a.units ≠ b.units →
      originalBytes env a ≠ originalBytes env b := by
    intro a b ha hb hne heq
    apply hne
    rw [← ha.2, ← hb.2, heq]
  have hkeys : (([finishedEntry context sourceText c1 t1, finishedEntry context sourceText c2 t2,
      finishedEntry context sourceText c3 t3].map
        (fun m => toByteMessage env m m.translations)).map ByteTranslatorMessage.key).Nodup := by
    have h12 := hbytes c1 c2 hu1 hu2 hdiff.1
    have h13 := hbytes c1 c3 hu1 hu3 hdiff.2.1
    have h23 := hbytes c2 c3 hu2 hu3 hdiff.2.2
    simp only [List.map_cons, List.map_nil, List.nodup_cons, List.mem_cons, List.mem_singleton,
      List.not_mem_nil, ByteTranslatorMessage.key, toByteMessage, finishedEntry, Prod.mk.injEq,
      true_and, not_or, not_false_eq_true, List.nodup_nil, and_true, or_false]
    exact ⟨⟨h12, h13⟩, h23⟩
  have hperm := foldl_insert_perm _ hkeys
  have hsorted := foldl_qmapInsert_sorted ByteTranslatorMessage.lt
    ByteTranslatorMessage.lt_chain
    ([finishedEntry context sourceText c1 t1, finishedEntry context sourceText c2 t2,
      finishedEntry context sourceText c3 t3].map (fun m => toByteMessage env m m.translations))
    [] List.Pairwise.nil
  generalize hL : List.foldl (fun o p => qmapInsert ByteTranslatorMessage.lt p o) []
    ([finishedEntry context sourceText c1 t1, finishedEntry context sourceText c2 t2,
      finishedEntry context sourceText c3 t3].map (fun m => toByteMessage env m m.translations))
    = L at hrel hperm hsorted
  have hLn : NeighboursDiffer L := neighboursDiffer_perm hperm hneigh
  have hLlen : L.length = 3 := by rw [hperm.length_eq]; rfl
  -- squeeze, save and load
  obtain ⟨r', hsq, hlang', hmarr, hoffs⟩ := squeeze_stripped
    ((saveLoop env cat cd).releaser.setDependencies cat.dependencies)
    (by rw [hrel]; exact allFull_of_neighbours L [] hsorted hLn)
    (by rw [hrel]; show L.length < 10000; omega)
  rw [← hmode] at hsq
  obtain ⟨res, hres, -, hbytes'⟩ := saveQM_of_squeeze env cat cd r' hsq
  have hsz := hsize res hres
  rw [hbytes'] at hsz
  rw [hrel] at hlang' hmarr hoffs
  obtain ⟨r, loaded, hload, hok, -, hmessages, hp⟩ := roundtrip_core env tr0 cd0
    languageCode [finishedEntry context sourceText c1 t1, finishedEntry context sourceText c2 t2,
      finishedEntry context sourceText c3 t3] L r'
    (by
      intro m hm
      simp only [List.mem_cons, List.mem_singleton, List.not_mem_nil, or_false] at hm
      rcases hm with rfl | rfl | rfl
      · exact ⟨hu0, hus, hu1⟩
      · exact ⟨hu0, hus, hu2⟩
      · exact ⟨hu0, hus, hu3⟩)
    hperm (by rw [hlang', hlc]; rfl) hmarr hoffs hsz hlang
  exact ⟨res, r, loaded, hres, by rw [hbytes']; exact hload, hok, hmessages, hp⟩

theorem stripped_three_comments_witness :
    (∃ res r loaded, saveQM sampleEnv keptCatalog strippedData = some res ∧
      loadQM sampleEnv Translator.empty res.bytes ConversionData.default = some r ∧
      r.ok = true ∧
      r.translator.messages = Translator.empty.messages ++ loaded ∧
      (loaded.map tupleOf).Perm
        [([0x43], [0x53], [], oneT), ([0x43], [0x53], [0x61], oneT),
         ([0x43], [0x53], [0x62], oneT)]) ∧
    entryHash sampleEnv (.str [0x53]) (.str [0x61, 0x71])
      = entryHash sampleEnv (.str [0x53]) (.str [0x62, 0x61]) ∧
    (∃ res r loaded, saveQM sampleEnv farCollisionCatalog strippedData = some res ∧
      loadQM sampleEnv Translator.empty res.bytes ConversionData.default = some r ∧
      r.ok = true ∧
      r.translator.messages = Translator.empty.messages ++ loaded ∧
      (loaded.map tupleOf).Perm
        [([], [0x53], [0x61, 0x71], oneT), ([], [0x53], [0x62], oneT),
         ([], [0x53], [0x62, 0x61], oneT)]) :=
  ⟨stripped_three_comments sampleEnv (.str [0x43]) (.str [0x53]) (.str []) (.str [0x61])
      (.str [0x62]) oneT oneT oneT .null [] strippedData Translator.empty ConversionData.default
      rfl rfl rfl (by decide) (by decide) (by decide) (by decide) (by decide) (by decide),
    by decide,
    stripped_three_comments sampleEnv (.str []) (.str [0x53]) (.str [0x61, 0x71]) (.str [0x62])
      (.str [0x62, 0x61]) oneT oneT oneT .null [] strippedData Translator.empty
      ConversionData.default
      rfl rfl rfl (by decide) (by decide) (by decide) (by decide) (by decide) (by decide)⟩

/-! ## The message loop after a place where bytes have been put in -/

theorem length_insert (pre blk post : QByteArray) :
    (pre ++ blk ++ post).length = (pre ++ post).length + blk.length := by
  simp only [List.length_append]
  omega

theorem bytesAt_insert_right {pre blk post : QByteArray} {q : Nat} (n : Nat)
    (hq : pre.length ≤ q) :
    bytesAt (pre ++ blk ++ post) (q + blk.length) n = bytesAt (pre ++ post) q n := by
  unfold bytesAt
  rw [drop_insert_right hq, length_insert]
  by_cases h : q + n ≤ (pre ++ post).length
  · rw [if_pos h, if_pos (by omega)]
  · rw [if_neg h, if_neg (by omega)]

theorem fromBytes_insert_right {env : Env} {pre blk post : QByteArray} {q : Nat} (n : Nat)
    (hq : pre.length ≤ q) :
    fromBytes env (pre ++ blk ++ post) (q + blk.length) n = fromBytes env (pre ++ post) q n := by
  unfold fromBytes
  rw [bytesAt_insert_right n hq]

theorem decodeField_of_read8_none {env : Env} {ba : QByteArray} {m : Nat} {st : DecodeState}
    (h : read8 ba m = none) : decodeField env ba m st = none := by
  unfold decodeField
  simp [h]

/-- One iteration of the field loop after a place where bytes have been put
in: the same iteration, with the position moved. -/
theorem decodeField_insert_right {env : Env} {pre blk post : QByteArray} {m : Nat}
    (st : DecodeState) (hq : pre.length ≤ m) :
    decodeField env (pre ++ blk ++ post) (m + blk.length) st
      = (decodeField env (pre ++ post) m st).map (FieldStep.shift blk.length) := by
  have h8e : read8 (pre ++ blk ++ post) (m + blk.length) = read8 (pre ++ post) m :=
    read8_insert_right hq
  have h32e : read32 (pre ++ blk ++ post) (m + blk.length + 1) = read32 (pre ++ post) (m + 1) := by
    rw [show m + blk.length + 1 = m + 1 + blk.length by omega]
    exact read32_insert_right (by omega)
  have hfe : ∀ n, fromBytes env (pre ++ blk ++ post) (m + blk.length + 5) n
      = fromBytes env (pre ++ post) (m + 5) n := by
    intro n
    rw [show m + blk.length + 5 = m + 5 + blk.length by omega]
    exact fromBytes_insert_right n (by omega)
  have hbe : ∀ n, bytesAt (pre ++ blk ++ post) (m + blk.length + 5) n
      = bytesAt (pre ++ post) (m + 5) n := by
    intro n
    rw [show m + blk.length + 5 = m + 5 + blk.length by omega]
    exact bytesAt_insert_right n (by omega)
  cases h8 : read8 (pre ++ post) m with
  | none =>
    rw [decodeField_of_read8_none h8, decodeField_of_read8_none (by rw [h8e]; exact h8)]
    rfl
  | some tag =>
    have h8' : read8 (pre ++ blk ++ post) (m + blk.length) = some tag := by
      rw [h8e]; exact h8
    have utf8 : ∀ (g g' : Nat → QString × Bool → FieldStep),
        (∀ len r, g' len r = FieldStep.shift blk.length (g len r)) →
        ((read32 (pre ++ blk ++ post) (m + blk.length + 1)).bind fun len =>
          (fromBytes env (pre ++ blk ++ post) (m + blk.length + 5) len).bind fun r =>
            some (g' len r))
        = (((read32 (pre ++ post) (m + 1)).bind fun len =>
          (fromBytes env (pre ++ post) (m + 5) len).bind fun r => some (g len r))).map
            (FieldStep.shift blk.length) := by
      intro g g' hg
      rw [h32e]
      cases read32 (pre ++ post) (m + 1) with
      | none => rfl
      | some len =>
        simp only [Option.some_bind]
        rw [hfe]
        cases fromBytes env (pre ++ post) (m + 5) len with
        | none => rfl
        | some r => simp only [Option.some_bind, Option.map_some', hg]
    by_cases h1 : tag = Tag_End
    · subst h1
      rw [decodeField_end h8, decodeField_end h8']
      rfl
    by_cases h3 : tag = Tag_Translation
    · subst h3
      rw [decodeField_translation h8, decodeField_translation h8', h32e]
      cases read32 (pre ++ post) (m + 1) with
      | none => rfl
      | some len =>
        simp only [Option.some_bind]
        split_ifs
        · rfl
        · simp only [Option.map_some', FieldStep.shift]
          congr 2
          omega
        · rfl
        · rw [hbe]
          cases bytesAt (pre ++ post) (m + 5) len with
          | none => rfl
          | some bs =>
            simp only [Option.some_bind, Option.map_some', FieldStep.shift]
            congr 2
            omega
    by_cases h5 : tag = Tag_Obsolete1
    · subst h5
      rw [decodeField_obsolete1 h8, decodeField_obsolete1 h8']
      simp only [Option.map_some', FieldStep.shift]
      congr 2
      omega
    by_cases h6 : tag = Tag_SourceText
    · subst h6
      rw [decodeField_sourceText h8, decodeField_sourceText h8']
      exact utf8 _ _ (fun len r => by simp only [FieldStep.shift]; congr 1; omega)
    by_cases h7 : tag = Tag_Context
    · subst h7
      rw [decodeField_context h8, decodeField_context h8']
      exact utf8 _ _ (fun len r => by simp only [FieldStep.shift]; congr 1; omega)
    by_cases h9 : tag = Tag_Comment
    · subst h9
      rw [decodeField_comment h8, decodeField_comment h8']
      exact utf8 _ _ (fun len r => by simp only [FieldStep.shift]; congr 1; omega)
    rw [decodeField_unknown h8 h1 h3 h5 h6 h7 h9, decodeField_unknown h8' h1 h3 h5 h6 h7 h9]
    simp only [Option.map_some', FieldStep.shift]
    congr 2
    omega

/-- The field loop after a place where bytes have been put in. -/
theorem decodeRecord_insert_right {env : Env} {pre blk post : QByteArray} (f : Nat) :
    ∀ (m : Nat) (st : DecodeState), pre.length ≤ m →
      decodeRecord env (pre ++ blk ++ post) f (m + blk.length) st
        = decodeRecord env (pre ++ post) f m st := by
  induction f with
  | zero => intro m st _; rfl
  | succ f ih =>
    intro m st hq
    simp only [decodeRecord]
    rw [decodeField_insert_right st hq]
    cases hd : decodeField env (pre ++ post) m st with
    | none => rfl
    | some y =>
      cases y with
      | endTag s => rfl
      | formatError => rfl
      | next m1 s1 =>
        have := (decodeField_next_lt hd).1
        simp only [Option.map_some', FieldStep.shift]
        exact ih m1 s1 (by omega)

theorem read32_of_prefix {pre rest : QByteArray} {q : Nat} (h : q + 4 ≤ pre.length) :
    read32 (pre ++ rest) q = read32 pre q := by
  obtain ⟨v, hv⟩ := read32_isSome (show q + 3 < pre.length by omega)
  rw [hv, read32_append hv]

theorem decodeRecord_of_prefix {env : Env} {pre rest : QByteArray} {m : Nat} {st : DecodeState}
    {x : RecordResult} (h : decodeRecord env pre pre.length m st = some x) :
    decodeRecord env (pre ++ rest) (pre ++ rest).length m st = some x := by
  have h1 : decodeRecord env (pre ++ rest) pre.length m st = some x :=
    decodeRecord_append pre.length m st x h
  have h2 := decodeRecord_fuel_mono pre.length m st x rest.length h1
  rw [List.length_append]
  exact h2

/-- The message loop after a place where bytes have been put in: the pairs lie
before or after the place, and a record of a message array that lies before the
place is decoded from the bytes before the place. -/
theorem messageLoop_insert {env : Env} {pre blk post : QByteArray} (guess : Bool)
    (ma : Option Nat) (n : Nat) :
    ∀ (start start1 : Nat) (st : DecodeState) (translator : Translator),
      ((pre.length ≤ start ∧ start1 = start + blk.length) ∨
        (start + 8 * n ≤ pre.length ∧ start1 = start)) →
      (∀ base, ma = some base → base < pre.length →
        recordsBefore env (pre ++ post) pre.length base n start st = true) →
      messageLoop env (pre ++ blk ++ post) guess (shiftPtr pre.length blk.length ma) n start1 st
          translator
        = messageLoop env (pre ++ post) guess ma n start st translator := by
  induction n with
  | zero => intro start start1 st translator _ _; rfl
  | succ n ih =>
    intro start start1 st translator hstart hclear
    have hr : read32 (pre ++ blk ++ post) (start1 + 4) = read32 (pre ++ post) (start + 4) := by
      rcases hstart with ⟨h1, h2⟩ | ⟨h1, h2⟩
      · rw [h2, show start + blk.length + 4 = start + 4 + blk.length by omega]
        exact read32_insert_right (by omega)
      · rw [h2, List.append_assoc, read32_of_prefix (by omega), read32_of_prefix (by omega)]
    have hnext : (pre.length ≤ start + 8 ∧ start1 + 8 = start + 8 + blk.length) ∨
        (start + 8 + 8 * n ≤ pre.length ∧ start1 + 8 = start + 8) := by
      rcases hstart with ⟨h1, h2⟩ | ⟨h1, h2⟩
      · exact Or.inl ⟨by omega, by omega⟩
      · exact Or.inr ⟨by omega, by omega⟩
    simp only [messageLoop, Option.bind_eq_bind]
    rw [hr]
    cases hro : read32 (pre ++ post) (start + 4) with
    | none => rfl
    | some ro =>
      simp only [Option.some_bind]
      cases hma : ma with
      | none => rfl
      | some base =>
        by_cases hb : pre.length ≤ base
        · rw [shiftPtr_some_ge hb]
          simp only [Option.some_bind]
          have hdec : decodeRecord env (pre ++ blk ++ post) (pre ++ blk ++ post).length
              (base + blk.length + ro) st
              = decodeRecord env (pre ++ post) (pre ++ post).length (base + ro) st := by
            rw [show base + blk.length + ro = base + ro + blk.length by omega,
              decodeRecord_insert_right _ _ _ (by omega)]
            exact decodeRecord_fuel _ _ _ _ (by rw [length_insert]; omega) (by omega)
          rw [hdec]
          cases decodeRecord env (pre ++ post) (pre ++ post).length (base + ro) st with
          | none => rfl
          | some x =>
            cases x with
            | formatError => rfl
            | ended st1 =>
              simp only [Option.some_bind]
              have := ih (start + 8) (start1 + 8) { st1 with translations := [] }
                (translator.append (makeMessage guess st1)) hnext
                (fun base' hb' hlt => by
                  rw [hma] at hb'
                  cases hb'
                  omega)
              rw [hma] at this
              rw [shiftPtr_some_ge hb] at this
              exact this
        · have hlt : base < pre.length := by omega
          have hsh : shiftPtr pre.length blk.length (some base) = some base :=
            shiftPtr_of_lt (fun y hy => by cases hy; exact hlt)
          rw [hsh]
          simp only [Option.some_bind]
          have hcl := hclear base hma hlt
          simp only [recordsBefore, hro, List.take_left] at hcl
          cases hd : decodeRecord env pre pre.length (base + ro) st with
          | none => rw [hd] at hcl; cases hcl
          | some x =>
            have e1 : decodeRecord env (pre ++ blk ++ post) (pre ++ blk ++ post).length
                (base + ro) st = some x := by
              rw [List.append_assoc]
              exact decodeRecord_of_prefix hd
            have e2 : decodeRecord env (pre ++ post) (pre ++ post).length (base + ro) st
                = some x := decodeRecord_of_prefix hd
            rw [e1, e2]
            cases x with
            | formatError => rfl
            | ended st1 =>
              rw [hd] at hcl
              simp only [Option.some_bind]
              have := ih (start + 8) (start1 + 8) { st1 with translations := [] }
                (translator.append (makeMessage guess st1)) hnext
                (fun base' hb' _ => by
                  rw [hma] at hb'
                  cases hb'
                  exact hcl)
              rw [hma, hsh] at this
              exact this

/-- What an iteration of the block scan that goes on does to the locals of the
Hashes block: it leaves them, or sets them to a block that ends where the scan
goes on. -/
theorem scanBlock_next_offsets {env : Env} {ba : QByteArray} {data d1 : Nat} {st s1 : ScanState}
    (h : scanBlock env ba data st = some (.next d1 s1)) :
    (s1.offsetArray = st.offsetArray ∧ s1.offsetLength = st.offsetLength) ∨
      (s1.offsetArray = some (data + 5) ∧ data + 5 + s1.offsetLength = d1) := by
  obtain ⟨tag, len, h8, h32⟩ := scanBlock_exists h
  rw [scanBlock_eq h8 h32] at h
  by_cases h1 : tag = 0 ∨ len = 0
  · rw [if_pos h1] at h
    simp at h
  by_cases h2 : data + 5 + len > ba.length
  · rw [if_neg h1, if_pos h2] at h
    simp at h
  rw [if_neg h1, if_neg h2] at h
  simp only [Option.some.injEq, ScanStep.next.injEq] at h
  obtain ⟨hd, hs⟩ := h
  subst hs
  split_ifs
  · exact Or.inr ⟨rfl, hd⟩
  · exact Or.inl ⟨rfl, rfl⟩
  · exact Or.inl ⟨rfl, rfl⟩
  · exact Or.inl ⟨rfl, rfl⟩
  · exact Or.inl ⟨rfl, rfl⟩

theorem scanBlock_stop_offsets {env : Env} {ba : QByteArray} {data : Nat} {st s1 : ScanState}
    (h : scanBlock env ba data st = some (.stop s1)) :
    s1.offsetArray = st.offsetArray ∧ s1.offsetLength = st.offsetLength := by
  cases h8 : read8 ba data with
  | none => simp [scanBlock, h8] at h
  | some tag =>
    cases h32 : read32 ba (data + 1) with
    | none => simp [scanBlock, h8, h32] at h
    | some len =>
      rw [scanBlock_eq h8 h32] at h
      by_cases h1 : tag = 0 ∨ len = 0
      · rw [if_pos h1] at h
        simp only [Option.some.injEq, ScanStep.stop.injEq] at h
        subst h
        exact ⟨rfl, rfl⟩
      by_cases h2 : data + 5 + len > ba.length
      · rw [if_neg h1, if_pos h2] at h
        simp only [Option.some.injEq, ScanStep.stop.injEq] at h
        subst h
        exact ⟨rfl, rfl⟩
      rw [if_neg h1, if_neg h2] at h
      simp at h

/-- The Hashes block that the block scan has recorded ends at or before the
position the scan has come to. -/
theorem ScanReach.offsets_le {env : Env} {ba : QByteArray} {data d2 : Nat} {st s2 : ScanState}
    (h : ScanReach env ba data st d2 s2)
    (h0 : (st.offsetArray = none → st.offsetLength = 0) ∧
      (∀ x, st.offsetArray = some x → x + st.offsetLength ≤ data)) :
    (s2.offsetArray = none → s2.offsetLength = 0) ∧
      (∀ x, s2.offsetArray = some x → x + s2.offsetLength ≤ d2) := by
  induction h with
  | refl => exact h0
  | @step data d1 d2 st s1 s2 hguard hblock _ ih =>
    apply ih
    have hn := scanBlock_next hblock
    rcases scanBlock_next_offsets hblock with ⟨e1, e2⟩ | ⟨e1, e2⟩
    · rw [e1, e2]
      exact ⟨h0.1, fun x hx => by have := h0.2 x hx; omega⟩
    · refine ⟨fun hx => ?_, fun x hx => ?_⟩
      · rw [e1] at hx
        cases hx
      · rw [e1] at hx
        cases hx
        omega

/-- A Hashes block that the block scan records from the position `p` on does
not begin before `p`: one recorded before `p` that ends at or before `p` stays
so, or is replaced by one at or after `p`. -/
theorem scanLoop_offsets {env : Env} {ba : QByteArray} {p : Nat} (f : Nat) :
    ∀ (data : Nat) (st s : ScanState), p ≤ data →
      ((st.offsetArray = none → st.offsetLength = 0) ∧
        (∀ x, st.offsetArray = some x → x < p → x + st.offsetLength ≤ p)) →
      scanLoop env ba f data st = some s →
      (s.offsetArray = none → s.offsetLength = 0) ∧
        (∀ x, s.offsetArray = some x → x < p → x + s.offsetLength ≤ p) := by
  induction f with
  | zero => intro data st s _ _ h; simp [scanLoop] at h
  | succ f ih =>
    intro data st s hp h0 h
    simp only [scanLoop] at h
    split_ifs at h with hg
    · cases hb : scanBlock env ba data st with
      | none => rw [hb] at h; cases h
      | some x =>
        rw [hb] at h
        cases x with
        | stop s1 =>
          simp only [Option.some.injEq] at h
          subst h
          obtain ⟨e1, e2⟩ := scanBlock_stop_offsets hb
          rw [e1, e2]
          exact h0
        | next d1 s1 =>
          have hn := scanBlock_next hb
          refine ih d1 s1 s (by omega) ?_ h
          rcases scanBlock_next_offsets hb with ⟨e1, e2⟩ | ⟨e1, e2⟩
          · rw [e1, e2]
            exact h0
          · refine ⟨fun hx => ?_, fun x hx hlt => ?_⟩
            · rw [e1] at hx
              cases hx
            · rw [e1] at hx
              cases hx
              omega
    · simp only [Option.some.injEq] at h
      subst h
      exact h0

/-- The message loop and the return after a place where bytes have been put
in, when the block scan has gone over the place. -/
theorem loadMessages_insert {env : Env} {pre blk post : QByteArray} (cd : ConversionData)
    (s : ScanState)
    (hoff : (s.offsetArray = none → s.offsetLength = 0) ∧
      (∀ x, s.offsetArray = some x → x < pre.length → x + s.offsetLength ≤ pre.length))
    (hclear : ∀ base, s.messageArray = some base → base < pre.length →
      recordsBefore env (pre ++ post) pre.length base (s.offsetLength / 8)
        (s.offsetArray.getD 0) (DecodeState.init s.utf8Fail) = true) :
    loadMessages env (pre ++ blk ++ post) cd (s.shift pre.length blk.length)
      = loadMessages env (pre ++ post) cd s := by
  have hloop : messageLoop env (pre ++ blk ++ post) (guessPlurals env s.translator)
      (shiftPtr pre.length blk.length s.messageArray) (s.offsetLength / 8)
      ((shiftPtr pre.length blk.length s.offsetArray).getD 0) (DecodeState.init s.utf8Fail)
      s.translator
      = messageLoop env (pre ++ post) (guessPlurals env s.translator) s.messageArray
        (s.offsetLength / 8) (s.offsetArray.getD 0) (DecodeState.init s.utf8Fail)
        s.translator := by
    refine messageLoop_insert _ _ _ _ _ _ _ ?_ hclear
    cases ho : s.offsetArray with
    | none =>
      have := hoff.1 ho
      refine Or.inr ⟨?_, rfl⟩
      rw [this]
      simp
    | some oa =>
      by_cases hb : pre.length ≤ oa
      · refine Or.inl ⟨hb, ?_⟩
        rw [shiftPtr_some_ge hb]
        rfl
      · have h2 := hoff.2 oa ho (by omega)
        refine Or.inr ⟨?_, ?_⟩
        · simp only [Option.getD_some]
          omega
        · rw [shiftPtr_of_lt (fun y hy => by cases hy; omega)]
  unfold loadMessages
  simp only [ScanState.shift]
  rw [hloop]

/-! ## A skipped block anywhere among the blocks -/

/-- C11, as amended: a block whose tag is neither 0 nor one of Hashes,
Messages, Dependencies and Language, and whose length is nonzero, is skipped
by its length: the iteration of the block scan at its header leaves the locals
as they are and goes on after the payload. Wherever the block stands among the
other blocks, `loadQM` returns for the input with the block what it returns
for the input without it, provided that the records of a message array that
lies before the place of the block are decoded from the bytes before that
place. -/
theorem skipped_block_removed (env : Env) (translator : Translator)
    (pre payload post : QByteArray) (tag : Byte) (cd : ConversionData) (st s : ScanState)
    (hmagic : ¬ (pre.length < MagicLength ∨ pre.take MagicLength ≠ magic))
    (htag : tag ≠ 0 ∧ tag ≠ Hashes ∧ tag ≠ Messages ∧ tag ≠ Dependencies ∧ tag ≠ Language)
    (hlen : payload ≠ [] ∧ payload.length < 4294967296)
    (hreach : ScanReach env (pre ++ writeBlock tag payload ++ post) MagicLength
      (ScanState.init translator) pre.length st)
    (hscan : scanLoop env (pre ++ post) (pre ++ post).length MagicLength
      (ScanState.init translator) = some s)
    (hclear : ∀ base, s.messageArray = some base → base < pre.length →
      recordsBefore env (pre ++ post) pre.length base (s.offsetLength / 8)
        (s.offsetArray.getD 0) (DecodeState.init s.utf8Fail) = true) :
    scanBlock env (pre ++ writeBlock tag payload ++ post) pre.length st
      = some (.next (pre.length + 5 + payload.length) st) ∧
    loadQM env translator (pre ++ writeBlock tag payload ++ post) cd
      = loadQM env translator (pre ++ post) cd := by
  have hpre : MagicLength ≤ pre.length := by
    by_contra h
    exact hmagic (Or.inl (by omega))
  have hk : (writeBlock tag payload).length = 5 + payload.length := by
    simp [writeBlock, write32_length]; omega
  have hdrop : (pre ++ writeBlock tag payload ++ post).drop pre.length
      = writeBlock tag payload ++ post := by
    rw [List.append_assoc, List.drop_left]
  -- the iteration at the header of the block
  have hd0 : (pre ++ writeBlock tag payload ++ post).drop pre.length
      = tag :: (write32 payload.length ++ payload ++ post) := by
    rw [hdrop]; simp [writeBlock]
  have hd1 : (pre ++ writeBlock tag payload ++ post).drop (pre.length + 1)
      = write32 payload.length ++ (payload ++ post) := by
    rw [← List.drop_drop, hdrop]; simp [writeBlock]
  have h8 : read8 (pre ++ writeBlock tag payload ++ post) pre.length = some tag :=
    read8_of_drop hd0
  have h32 : read32 (pre ++ writeBlock tag payload ++ post) (pre.length + 1)
      = some payload.length :=
    read32_of_drop hd1 hlen.2
  have hfull : (pre ++ writeBlock tag payload ++ post).length
      = pre.length + (5 + payload.length) + post.length := by
    simp only [List.length_append, hk]
  have hstep : scanBlock env (pre ++ writeBlock tag payload ++ post) pre.length st
      = some (.next (pre.length + 5 + payload.length) st) := by
    rw [scanBlock_eq h8 h32, if_neg (by
      rintro (h | h)
      · exact htag.1 h
      · exact hlen.1 (List.length_eq_zero.mp h)), if_neg (by rw [hfull]; omega),
      if_neg htag.2.1, if_neg htag.2.2.1, if_neg htag.2.2.2.1, if_neg htag.2.2.2.2]
  refine ⟨hstep, ?_⟩
  have hm' : ¬ ((pre ++ post).length < MagicLength ∨ (pre ++ post).take MagicLength ≠ magic) := by
    rw [List.take_append_of_le_length hpre, List.length_append]
    rintro (h | h)
    · omega
    · exact hmagic (Or.inr h)
  have hm : ¬ ((pre ++ writeBlock tag payload ++ post).length < MagicLength ∨
      (pre ++ writeBlock tag payload ++ post).take MagicLength ≠ magic) := by
    rw [List.append_assoc, List.take_append_of_le_length hpre, List.length_append]
    rintro (h | h)
    · omega
    · exact hmagic (Or.inr h)
  -- the scan of the input without the block comes to the place of the block
  have hreach' : ScanReach env (pre ++ post) MagicLength (ScanState.init translator)
      pre.length st := by
    have := hreach.take (by rw [hfull]; omega)
    rw [List.append_assoc, List.take_left] at this
    exact this.append post
  obtain ⟨f2, hf2, e2⟩ := hreach'.scanLoop_eq (pre ++ post).length (by simp [MagicLength])
  rw [hscan] at e2
  -- the scan of the input with the block goes on after the block
  have hreach2 : ScanReach env (pre ++ writeBlock tag payload ++ post) MagicLength
      (ScanState.init translator) (pre.length + 5 + payload.length) st :=
    hreach.follow (ScanReach.step (by rw [hfull]; omega) hstep (ScanReach.refl _ _))
  obtain ⟨f1, hf1, e1⟩ := hreach2.scanLoop_eq (pre ++ writeBlock tag payload ++ post).length
    (by simp [MagicLength])
  have hptr := hreach.ptr_lt (by simp [ScanState.init])
  have hst : st.shift pre.length (writeBlock tag payload).length = st := by
    unfold ScanState.shift
    rw [shiftPtr_of_lt hptr.1, shiftPtr_of_lt hptr.2]
  have hshift := scanLoop_insert_right (writeBlock tag payload) f2 pre.length st s
    (Nat.le_refl _) e2.symm
  rw [hst, hk, ← Nat.add_assoc] at hshift
  have hs1 := scanLoop_blocks env (pre ++ writeBlock tag payload ++ post) f1
    (pre.length + 5 + payload.length) st (by rw [hfull]; omega) hf1
  have hs1' := scanLoop_fuel_eq hs1 hshift
  -- the Hashes block that the scan has recorded
  have hoff0 := hreach'.offsets_le (by simp [ScanState.init])
  have hoff := scanLoop_offsets (p := pre.length) f2 pre.length st s (Nat.le_refl _)
    ⟨hoff0.1, fun x hx _ => hoff0.2 x hx⟩ e2.symm
  unfold loadQM
  rw [if_neg hm, if_neg hm', e1, hs1, hs1', hscan]
  simp only [Option.bind_eq_bind, Option.some_bind]
  rw [← hk]
  exact loadMessages_insert cd s hoff hclear

theorem skipped_block_removed_witness :
    (scanBlock sampleEnv (wholeRecordStart ++ writeBlock Contexts [1] ++ jaLanguage)
        wholeRecordStart.length
        { messageArray := some 34, offsetArray := some 21, offsetLength := 8, ok := true,
          utf8Fail := false, translator := Translator.empty }
      = some (.next (wholeRecordStart.length + 5 + [(1 : Byte)].length)
          { messageArray := some 34, offsetArray := some 21, offsetLength := 8, ok := true,
            utf8Fail := false, translator := Translator.empty }) ∧
    loadQM sampleEnv Translator.empty (wholeRecordStart ++ writeBlock Contexts [1] ++ jaLanguage)
        ConversionData.default
      = loadQM sampleEnv Translator.empty (wholeRecordStart ++ jaLanguage)
        ConversionData.default) ∧
    loadQM sampleEnv Translator.empty (wholeRecordStart ++ jaLanguage) ConversionData.default
      = some { ok := true
               translator :=
                { messages := [{ id := .null, context := .str [0x43], sourceText := .null,
                                 comment := .null, translations := [.str [0x54]],
                                 type := .Finished, plural := false }]
                  languageCode := .str langJa, dependencies := [] }
               cd := ConversionData.default } ∧
    (scanBlock sampleEnv (magic ++ writeBlock Contexts [1] ++ wholeRecordBlocks) magic.length
        (ScanState.init Translator.empty)
      = some (.next (magic.length + 5 + [(1 : Byte)].length) (ScanState.init Translator.empty)) ∧
    loadQM sampleEnv Translator.empty (magic ++ writeBlock Contexts [1] ++ wholeRecordBlocks)
        ConversionData.default
      = loadQM sampleEnv Translator.empty (magic ++ wholeRecordBlocks) ConversionData.default) ∧
    loadQM sampleEnv Translator.empty (magic ++ wholeRecordBlocks) ConversionData.default
      = some { ok := true
               translator :=
                { messages := [{ id := .null, context := .str [0x43], sourceText := .null,
                                 comment := .null, translations := [.str [0x54]],
                                 type := .Finished, plural := false }]
                  languageCode := .null, dependencies := [] }
               cd := ConversionData.default } :=
  ⟨skipped_block_removed sampleEnv Translator.empty wholeRecordStart [1] jaLanguage Contexts
    ConversionData.default _
    { messageArray := some 34, offsetArray := some 21, offsetLength := 8, ok := true,
      utf8Fail := false
      translator := { messages := [], languageCode := .str langJa, dependencies := [] } }
    (by decide) (by decide) (by decide)
    (ScanReach.step (by decide)
      (rfl : scanBlock sampleEnv (wholeRecordStart ++ writeBlock Contexts [1] ++ jaLanguage) 16 _
        = some (.next 29 _))
      (ScanReach.step (by decide)
        (rfl : scanBlock sampleEnv (wholeRecordStart ++ writeBlock Contexts [1] ++ jaLanguage) 29 _
          = some (.next 48 _))
        (ScanReach.refl _ _)))
    (by decide)
    (fun base hb _ => by
      cases hb
      decide),
   by decide,
   skipped_block_removed sampleEnv Translator.empty magic [1] wholeRecordBlocks Contexts
    ConversionData.default _
    { messageArray := some 34, offsetArray := some 21, offsetLength := 8, ok := true,
      utf8Fail := false, translator := Translator.empty }
    (by decide) (by decide) (by decide)
    (ScanReach.refl _ _)
    (by decide)
    (fun base hb hlt => by
      cases hb
      exact absurd hlt (by decide)),
   by decide⟩

end QM
